import Mathlib

/-!
# NAXOS over the NIST prime curves: a shallow embedding of `Naxos.c`

Machine words (`uint64_t`) are natural numbers reduced modulo `2^64` wherever
the C operation can wrap.  A `coord` is the list of the limbs of a C `coord`
array, limb 0 least significant; the functions read limb `i` as `limb a i`
and only ever touch limbs `0 .. nwords-1`, like the source.  Loops are
recursive functions over the loop counter.  Scratch computations whose result
the source throws away (the branches kept "to maintain the same number of
operations") do not contribute to the returned value and are left out.
-/

namespace Naxos

/-! ## Field arithmetic (L1) -/

/-- Number of values of a 64-bit word: `uint64_t` arithmetic is modulo `WORD`. -/
def WORD : Nat := 18446744073709551616

/-- A coordinate, the limbs of a C `coord` (limb 0 least significant). -/
abbrev coord := List Nat

/-- The limb `a[i]`. -/
def limb (a : coord) (i : Nat) : Nat := a.getD i 0

/-- A C truth value: 1 for true, 0 for false. -/
def cbool (b : Bool) : Nat := if b then 1 else 0

/-- The value of the `nwords` low limbs of `a`, limb 0 least significant. -/
def coordVal (a : coord) : Nat → Nat
  | 0 => 0
  | n + 1 => coordVal a n + limb a n * 2 ^ (64 * n)

/-- The `nwords` limbs of the number `v` (reduced modulo `2^(64*nwords)`). -/
def toCoord (v : Nat) (nwords : Nat) : coord :=
  (List.range nwords).map fun i => v / 2 ^ (64 * i) % WORD

/-- A coordinate held on exactly `nwords` limbs, each a 64-bit word. -/
def coordWF (a : coord) (nwords : Nat) : Prop :=
  a.length = nwords ∧ ∀ i, limb a i < WORD

/-- Function `coordInit`: a = 0 (on the limbs in use). -/
def coordInit (nwords : Nat) : coord := List.replicate nwords 0

/-- Inner loop of `coordMaxBit` over the bits `j-1 .. 0` of limb `i`. -/
def coordMaxBitBits (ai i : Nat) : Nat → Nat → Nat
  | 0, n => n
  | j + 1, n =>
    coordMaxBitBits ai i j
      (if (((ai >>> j) &&& 1) &&& cbool (n = 0)) ≠ 0 then i * 64 + j + 1 else n)

/-- Outer loop of `coordMaxBit` over the limbs `i-1 .. 0`. -/
def coordMaxBitLoop (a : coord) : Nat → Nat → Nat
  | 0, n => n
  | i + 1, n => coordMaxBitLoop a i (coordMaxBitBits (limb a i) i 64 n)

/-- Function `coordMaxBit`: position plus one of the highest set bit, 0 for a = 0. -/
def coordMaxBit (a : coord) (nwords : Nat) : Nat :=
  coordMaxBitLoop a nwords 0

/-- Function `coordGetBit`: bit `j` of `a`. -/
def coordGetBit (a : coord) (j : Nat) : Nat :=
  (limb a (j / 64) >>> (j &&& 63)) &&& 1

/-- Function `coordIsZero`: 1 when the `nwords` limbs are all 0. -/
def coordIsZero (a : coord) : Nat → Nat
  | 0 => 1
  | i + 1 => coordIsZero a i &&& cbool (limb a i = 0)

/-- Loop of `coordCmp` over the limbs `i-1 .. 0`, on the accumulators (j, g, l). -/
def coordCmpLoop (a b : coord) : Nat → Nat × Nat × Nat → Nat × Nat × Nat
  | 0, s => s
  | i + 1, (j, g, l) =>
    let j1 := j &&& cbool (limb a i = limb b i)
    let g1 := g ||| (cbool (j1 = 0) &&& cbool (limb a i > limb b i) &&& cbool (l = 0))
    let l1 := l ||| (cbool (j1 = 0) &&& cbool (limb a i < limb b i) &&& cbool (g1 = 0))
    coordCmpLoop a b i (j1, g1, l1)

/-- Function `coordCmp`: 1 if a > b, 0 if a = b, -1 if a < b. -/
def coordCmp (a b : coord) (nwords : Nat) : Int :=
  ((coordCmpLoop a b nwords (1, 0, 0)).2.1 : Int) - ((coordCmpLoop a b nwords (1, 0, 0)).2.2 : Int)

/-- The add-with-carry loop `t = y[i] + r; r = t < y[i]; t = t + x[i];
r = r | (t < x[i]); c[i] = t` after `n` iterations: the limbs written and the
carry. -/
def addLoop (x y : coord) : Nat → coord × Nat
  | 0 => ([], 0)
  | n + 1 =>
    let c := (addLoop x y n).1
    let r := (addLoop x y n).2
    let t := (limb y n + r) % WORD
    let r1 := cbool (t < limb y n)
    let t2 := (t + limb x n) % WORD
    let r2 := r1 ||| cbool (t2 < limb x n)
    (c ++ [t2], r2)

/-- The subtract-with-borrow loop `t1 = x[i] - r; r = t1 > x[i]; t = t1 - y[i];
r = r | (t > t1); c[i] = t` after `n` iterations: the limbs written and the
borrow. -/
def subLoop (x y : coord) : Nat → coord × Nat
  | 0 => ([], 0)
  | n + 1 =>
    let c := (subLoop x y n).1
    let r := (subLoop x y n).2
    let t1 := (limb x n + WORD - r) % WORD
    let r1 := cbool (t1 > limb x n)
    let t := (t1 + WORD - limb y n) % WORD
    let r2 := r1 ||| cbool (t > t1)
    (c ++ [t], r2)

/-- Function `coordAdd`: c = a + b mod p, for a, b < p. -/
def coordAdd (a b p : coord) (nwords : Nat) : coord :=
  let c := (addLoop a b nwords).1
  let r := (addLoop a b nwords).2
  if (cbool (r = 1) ||| cbool (coordCmp c p nwords ≠ -1)) ≠ 0 then
    (subLoop c p nwords).1
  else
    c

/-- Function `coordSub`: c = a - b mod p, for a, b < p. -/
def coordSub (a b p : coord) (nwords : Nat) : coord :=
  let c := (subLoop a b nwords).1
  let r := (subLoop a b nwords).2
  if r = 1 then
    (addLoop c p nwords).1
  else
    c

/-- The one-bit left shift of `coordDouble`:
`a[i] = (b[i] << 1) | (b[i-1] >> 63)` for i = nwords-1 .. 1 and `a[0] = b[0] << 1`. -/
def shiftLeft1 (b : coord) (nwords : Nat) : coord :=
  (List.range nwords).map fun i =>
    if i = 0 then (limb b 0 <<< 1) % WORD
    else ((limb b i <<< 1) % WORD) ||| (limb b (i - 1) >>> 63)

/-- Function `coordDouble`: a = 2 b mod p, for b < p. -/
def coordDouble (b p : coord) (nwords : Nat) : coord :=
  let r := limb b (nwords - 1) >>> 63
  let a := shiftLeft1 b nwords
  if (cbool (r = 1) ||| cbool (coordCmp a p nwords ≠ -1)) ≠ 0 then
    (subLoop a p nwords).1
  else
    a

/-- One round of the inner loop of `coordMul` on (t1, t3), for bit `j` of the
word `bi`: `t3 = t3 + t1` when the bit is set, then `t1 = 2 t1`. -/
def coordMulStep (bi j : Nat) (p : coord) (nwords : Nat) (s : coord × coord) : coord × coord :=
  let t3 := if ((bi >>> j) &&& 1) ≠ 0 then coordAdd s.2 s.1 p nwords else s.2
  (coordDouble s.1 p nwords, t3)

/-- Inner loop of `coordMul`: the state (t1, t3) after the bits `0 .. j-1` of `bi`. -/
def coordMulBits (bi : Nat) (p : coord) (nwords : Nat) : Nat → coord × coord → coord × coord
  | 0, s => s
  | j + 1, s => coordMulStep bi j p nwords (coordMulBits bi p nwords j s)

/-- Outer loop of `coordMul`: the state (t1, t3) after the words `0 .. i-1` of `b`. -/
def coordMulLoop (a b p : coord) (nwords : Nat) : Nat → coord × coord
  | 0 => (a, coordInit nwords)
  | i + 1 => coordMulBits (limb b i) p nwords 64 (coordMulLoop a b p nwords i)

/-- Function `coordMul`: c = a * b mod p, for a, b < p. -/
def coordMul (a b p : coord) (nwords : Nat) : coord :=
  (coordMulLoop a b p nwords nwords).2

/-- One round of the ladder of `coordInvML` on (r0, r1), for bit `b` of p - 2. -/
def coordInvMLStep (b : Nat) (p : coord) (nwords : Nat) (s : coord × coord) : coord × coord :=
  if b = 0 then
    (coordMul s.1 s.1 p nwords, coordMul s.1 s.2 p nwords)
  else
    (coordMul s.1 s.2 p nwords, coordMul s.2 s.2 p nwords)

/-- Loop of `coordInvML` over the bits `i-1 .. 0` of k = p - 2; rounds with
i >= n only touch the scratch registers f0, f1. -/
def coordInvMLLoop (k p : coord) (nwords n : Nat) : Nat → coord × coord → coord × coord
  | 0, s => s
  | i + 1, s =>
    coordInvMLLoop k p nwords n i
      (if i < n then coordInvMLStep (coordGetBit k i) p nwords s else s)

/-- Function `coordInvML`: c = a^(p-2) mod p by a Montgomery ladder. -/
def coordInvML (a p : coord) (nwords : Nat) : coord :=
  let order := coordMaxBit p nwords
  let k := coordSub p ((coordInit nwords).set 0 2) p nwords
  let n := coordMaxBit k nwords
  (coordInvMLLoop k p nwords n order ((coordInit nwords).set 0 1, a)).1

/-! ## Value-level reading of the field arithmetic -/

/-- The coordinate `x` is a field element of value `v`: it is held on `nwords`
64-bit limbs, its value is `v`, and `v` is reduced modulo the value of `p`. -/
def coordRep (p : coord) (nwords : Nat) (x : coord) (v : Nat) : Prop :=
  coordWF x nwords ∧ coordVal x nwords = v ∧ v < coordVal p nwords

/-- Value of `coordAdd`: (x + y) mod p. -/
def addN (x y p : Nat) : Nat := (x + y) % p

/-- Value of `coordSub`: (x - y) mod p, the canonical residue. -/
def subN (x y p : Nat) : Nat := (x + p - y) % p

/-- Value of `coordDouble`: 2 x mod p. -/
def dblN (x p : Nat) : Nat := (2 * x) % p

/-- Value of `coordMul`: x y mod p. -/
def mulN (x y p : Nat) : Nat := (x * y) % p

/-! ## Curve arithmetic (L2) -/

/-- Point with affine coordinates. -/
structure pointA where
  aX : coord
  aY : coord
  deriving DecidableEq

/-- Point with projective coordinates. -/
structure pointP where
  pX : coord
  pY : coord
  pZ : coord
  deriving DecidableEq

/-- Elliptic curve y^2 = x^3 - a x + b mod p. -/
structure ellipticCurve where
  bsize : Nat
  wsize : Nat
  a : coord
  b : coord
  p : coord
  g : pointA
  deriving DecidableEq

/-- Function `cProjToAffine`: the affine point of the projective point bP. -/
def cProjToAffine (bP : pointP) (p : coord) (nwords : Nat) : pointA :=
  let d := coordInvML bP.pZ p nwords
  let y1 := coordMul d d p nwords
  let x := coordMul y1 bP.pX p nwords
  let y2 := coordMul y1 d p nwords
  let y3 := coordMul y2 bP.pY p nwords
  ⟨x, y3⟩

/-- Function `aIsOnCurve`: 1 when y^2 = x^3 - a x + b mod p holds, -1 otherwise. -/
def aIsOnCurve (aA : pointA) (a b p : coord) (nwords : Nat) : Int :=
  let t1 := coordMul aA.aX aA.aX p nwords
  let t1 := coordMul t1 aA.aX p nwords
  let t2 := coordMul aA.aX a p nwords
  let t1 := coordSub t1 t2 p nwords
  let t1 := coordAdd t1 b p nwords
  let t2 := coordMul aA.aY aA.aY p nwords
  if coordCmp t1 t2 nwords = 0 then 1 else -1

/-- Function `doubleU`, co-Z initial doubling: returns (Q, R), Q = 2P and R = P
under the Z of Q.  Only the X and Y of P are read. -/
def doubleU (P : pointP) (a p : coord) (nwords : Nat) : pointP × pointP :=
  let t1 := P.pX
  let t2 := P.pY
  let t3 := coordMul t1 t1 p nwords
  let t4 := coordDouble t3 p nwords
  let t4 := coordAdd t4 t3 p nwords
  let t4 := coordSub t4 a p nwords
  let t5 := coordMul t2 t2 p nwords
  let t6 := coordMul t5 t5 p nwords
  let t7 := coordAdd t1 t5 p nwords
  let t7 := coordMul t7 t7 p nwords
  let t7 := coordSub t7 t3 p nwords
  let t7 := coordSub t7 t6 p nwords
  let t7 := coordDouble t7 p nwords
  let t3 := coordMul t4 t4 p nwords
  let t8 := coordDouble t7 p nwords
  let t3 := coordSub t3 t8 p nwords
  let t8 := coordSub t7 t3 p nwords
  let t8 := coordMul t4 t8 p nwords
  let t4 := coordDouble t6 p nwords
  let t4 := coordDouble t4 p nwords
  let t4 := coordDouble t4 p nwords
  let t8 := coordSub t8 t4 p nwords
  let t6 := coordDouble t2 p nwords
  let t1 := coordDouble t1 p nwords
  let t1 := coordDouble t1 p nwords
  let t1 := coordMul t1 t5 p nwords
  (⟨t3, t8, t6⟩, ⟨t1, t4, t6⟩)

/-- Function `zAddC`, conjugate co-Z addition: returns (R, S), R = P + Q and S = P - Q. -/
def zAddC (P Q : pointP) (p : coord) (nwords : Nat) : pointP × pointP :=
  let t1 := P.pX
  let t2 := P.pY
  let t3 := P.pZ
  let t4 := Q.pX
  let t5 := Q.pY
  let t6 := coordSub t1 t4 p nwords
  let t3 := coordMul t3 t6 p nwords
  let t6 := coordMul t6 t6 p nwords
  let t7 := coordMul t1 t6 p nwords
  let t6 := coordMul t6 t4 p nwords
  let t1 := coordAdd t2 t5 p nwords
  let t4 := coordMul t1 t1 p nwords
  let t4 := coordSub t4 t7 p nwords
  let t4 := coordSub t4 t6 p nwords
  let t1 := coordSub t2 t5 p nwords
  let t1 := coordMul t1 t1 p nwords
  let t1 := coordSub t1 t7 p nwords
  let t1 := coordSub t1 t6 p nwords
  let t6 := coordSub t6 t7 p nwords
  let t6 := coordMul t6 t2 p nwords
  let t2 := coordSub t2 t5 p nwords
  let t5 := coordDouble t5 p nwords
  let t5 := coordAdd t2 t5 p nwords
  let t7 := coordSub t7 t4 p nwords
  let t5 := coordMul t5 t7 p nwords
  let t5 := coordAdd t5 t6 p nwords
  let t7 := coordAdd t4 t7 p nwords
  let t7 := coordSub t7 t1 p nwords
  let t2 := coordMul t2 t7 p nwords
  let t2 := coordAdd t2 t6 p nwords
  (⟨t1, t2, t3⟩, ⟨t4, t5, t3⟩)

/-- Function `zAddU`, co-Z addition with update: returns (R, P2), R = P + Q and
P2 = P under the Z of R. -/
def zAddU (P Q : pointP) (p : coord) (nwords : Nat) : pointP × pointP :=
  let t1 := P.pX
  let t2 := P.pY
  let t3 := P.pZ
  let t4 := Q.pX
  let t5 := Q.pY
  let t6 := coordSub t1 t4 p nwords
  let t3 := coordMul t3 t6 p nwords
  let t6 := coordMul t6 t6 p nwords
  let t1 := coordMul t1 t6 p nwords
  let t6 := coordMul t6 t4 p nwords
  let t5 := coordSub t2 t5 p nwords
  let t4 := coordMul t5 t5 p nwords
  let t4 := coordSub t4 t1 p nwords
  let t4 := coordSub t4 t6 p nwords
  let t6 := coordSub t1 t6 p nwords
  let t2 := coordMul t2 t6 p nwords
  let t6 := coordSub t1 t4 p nwords
  let t5 := coordMul t5 t6 p nwords
  let t5 := coordSub t5 t2 p nwords
  (⟨t4, t5, t3⟩, ⟨t1, t2, t3⟩)

/-- One real round of the ladder of `scalarMult` on (R0, R1), for the bit `b` of k.
For b = 0: (R1,R0) = ZADDC(R0,R1) then (R0,R1) = ZADDU(R1,R0);
otherwise: (R0,R1) = ZADDC(R1,R0) then (R1,R0) = ZADDU(R0,R1). -/
def scalarMultStep (b : Nat) (p : coord) (nwords : Nat) (s : pointP × pointP) :
    pointP × pointP :=
  if b = 0 then
    let c := zAddC s.1 s.2 p nwords
    let u := zAddU c.1 c.2 p nwords
    (u.1, u.2)
  else
    let c := zAddC s.2 s.1 p nwords
    let u := zAddU c.1 c.2 p nwords
    (u.2, u.1)

/-- Loop of `scalarMult` over the bits `i-1 .. 0` of k on (R0, R1); rounds with
i >= n - 1 only touch the scratch points S0, S1. -/
def scalarMultLoop (k p : coord) (nwords n : Nat) : Nat → pointP × pointP → pointP × pointP
  | 0, s => s
  | i + 1, s =>
    scalarMultLoop k p nwords n i
      (if i + 1 < n then scalarMultStep (coordGetBit k i) p nwords s else s)

/-- Function `scalarMult`: Montgomery ladder with co-Z formulas, Q = k P.
The Z of R0 is not set before `doubleU`, which does not read it. -/
def scalarMult (k : coord) (P : pointA) (a p : coord) (nwords : Nat) : pointA :=
  let order := coordMaxBit p nwords
  let n := coordMaxBit k nwords
  let d := doubleU ⟨P.aX, P.aY, coordInit nwords⟩ a p nwords
  let s := scalarMultLoop k p nwords n (order - 1) (d.2, d.1)
  cProjToAffine s.1 p nwords

/-! ## Curve catalog and encoding (L3) -/

/-- A byte buffer, the C type `keyC` (also `uint8_t` arrays in general). -/
abbrev keyC := List Nat

/-- The byte `arrayB[i]`. -/
def byteAt (arrayB : keyC) (i : Nat) : Nat := arrayB.getD i 0

/-- The bytes `src[0 .. len-1]`. -/
def readBytes (src : keyC) (len : Nat) : keyC :=
  (List.range len).map fun i => byteAt src i

/-- The buffer `buf` after the bytes `bs` were stored from offset `off` on. -/
def writeBytes (buf : keyC) (off : Nat) (bs : keyC) : keyC :=
  buf.take off ++ bs ++ buf.drop (off + bs.length)

/-- Number of bytes of a `coord` array. -/
def COORD_BYTES : Nat := 72

/-- Maximum length in bytes of esk+sk. -/
def DOUBLEW_BYTES : Nat := 144

/-- Maximum length in bytes of the input of the hash in the K calculation. -/
def FIVET_BYTES : Nat := 360

/-! The constants of `selectCurve`, written as in the source: most significant
word first (the order of FIPS 186-4). -/

def P192_p : coord := [0xFFFFFFFFFFFFFFFF, 0xFFFFFFFFFFFFFFFE, 0xFFFFFFFFFFFFFFFF]
def P192_a : coord := [0x0000000000000000, 0x0000000000000000, 0x0000000000000003]
def P192_b : coord := [0x64210519e59c80e7, 0x0fa7e9ab72243049, 0xfeb8deecc146b9b1]
def P192_gX : coord := [0x188da80eb03090f6, 0x7cbf20eb43a18800, 0xf4ff0afd82ff1012]
def P192_gY : coord := [0x07192b95ffc8da78, 0x631011ed6b24cdd5, 0x73f977a11e794811]

def P224_p : coord := [0xFFFFFFFF, 0xFFFFFFFFFFFFFFFF, 0xFFFFFFFF00000000, 0x0000000000000001]
def P224_a : coord := [0x00000000, 0x0000000000000000, 0x0000000000000000, 0x0000000000000003]
def P224_b : coord := [0xb4050a85, 0x0c04b3abf5413256, 0x5044b0b7d7bfd8ba, 0x270b39432355ffb4]
def P224_gX : coord := [0xb70e0cbd, 0x6bb4bf7f321390b9, 0x4a03c1d356c21122, 0x343280d6115c1d21]
def P224_gY : coord := [0xbd376388, 0xb5f723fb4c22dfe6, 0xcd4375a05a074764, 0x44d5819985007e34]

def P256_p : coord := [0xFFFFFFFF00000001, 0x0000000000000000, 0x00000000FFFFFFFF, 0xFFFFFFFFFFFFFFFF]
def P256_a : coord := [0x0000000000000000, 0x0000000000000000, 0x0000000000000000, 0x0000000000000003]
def P256_b : coord := [0x5ac635d8aa3a93e7, 0xb3ebbd55769886bc, 0x651d06b0cc53b0f6, 0x3bce3c3e27d2604b]
def P256_gX : coord := [0x6b17d1f2e12c4247, 0xf8bce6e563a440f2, 0x77037d812deb33a0, 0xf4a13945d898c296]
def P256_gY : coord := [0x4fe342e2fe1a7f9b, 0x8ee7eb4a7c0f9e16, 0x2bce33576b315ece, 0xcbb6406837bf51f5]

def P384_p : coord := [0xFFFFFFFFFFFFFFFF, 0xFFFFFFFFFFFFFFFF, 0xFFFFFFFFFFFFFFFF, 0xFFFFFFFFFFFFFFFE, 0xFFFFFFFF00000000, 0x00000000FFFFFFFF]
def P384_a : coord := [0x0000000000000000, 0x0000000000000000, 0x0000000000000000, 0x0000000000000000, 0x0000000000000000, 0x0000000000000003]
def P384_b : coord := [0xb3312fa7e23ee7e4, 0x988e056be3f82d19, 0x181d9c6efe814112, 0x0314088f5013875a, 0xc656398d8a2ed19d, 0x2a85c8edd3ec2aef]
def P384_gX : coord := [0xaa87ca22be8b0537, 0x8eb1c71ef320ad74, 0x6e1d3b628ba79b98, 0x59f741e082542a38, 0x5502f25dbf55296c, 0x3a545e3872760ab7]
def P384_gY : coord := [0x3617de4a96262c6f, 0x5d9e98bf9292dc29, 0xf8f41dbd289a147c, 0xe9da3113b5f0b8c0, 0x0a60b1ce1d7e819d, 0x7a431d7c90ea0e5f]

def P521_p : coord := [0x000001FF, 0xFFFFFFFFFFFFFFFF, 0xFFFFFFFFFFFFFFFF, 0xFFFFFFFFFFFFFFFF, 0xFFFFFFFFFFFFFFFF, 0xFFFFFFFFFFFFFFFF, 0xFFFFFFFFFFFFFFFF, 0xFFFFFFFFFFFFFFFF, 0xFFFFFFFFFFFFFFFF]
def P521_a : coord := [0x00000000, 0x0000000000000000, 0x0000000000000000, 0x0000000000000000, 0x0000000000000000, 0x0000000000000000, 0x0000000000000000, 0x0000000000000000, 0x0000000000000003]
def P521_b : coord := [0x00000051, 0x953eb9618e1c9a1f, 0x929a21a0b68540ee, 0xa2da725b99b315f3, 0xb8b489918ef109e1, 0x56193951ec7e937b, 0x1652c0bd3bb1bf07, 0x3573df883d2c34f1, 0xef451fd46b503f00]
def P521_gX : coord := [0x000000c6, 0x858e06b70404e9cd, 0x9e3ecb662395b442, 0x9c648139053fb521, 0xf828af606b4d3dba, 0xa14b5e77efe75928, 0xfe1dc127a2ffa8de, 0x3348b3c1856a429b, 0xf97e7e31c2e5bd66]
def P521_gY : coord := [0x00000118, 0x39296a789a3bc004, 0x5c8a5fb42c7d1bd9, 0x98f54449579b4468, 0x17afbd17273e662c, 0x97ee72995ef42640, 0xc550b9013fad0761, 0x353c7086a272c240, 0x88be94769fd16650]

/-- The copy loop of `selectCurve`: limb i of the record is word wsize-1-i of the
constant, which is written most significant word first. -/
def reverseWords (c : coord) (wsize : Nat) : coord :=
  (List.range wsize).map fun i => limb c (wsize - 1 - i)

/-- The curve record filled by one case of `selectCurve`. -/
def fillCurve (bsize : Nat) (p a b gX gY : coord) : ellipticCurve :=
  let wsize := (bsize + 63) / 64
  { bsize := bsize, wsize := wsize,
    a := reverseWords a wsize, b := reverseWords b wsize, p := reverseWords p wsize,
    g := ⟨reverseWords gX wsize, reverseWords gY wsize⟩ }

/-- Function `selectCurve`: the return code and the curve record afterwards. -/
def selectCurve (curve : ellipticCurve) (index : Int) : Int × ellipticCurve :=
  if index = 192 then (1, fillCurve 192 P192_p P192_a P192_b P192_gX P192_gY)
  else if index = 224 then (1, fillCurve 224 P224_p P224_a P224_b P224_gX P224_gY)
  else if index = 256 then (1, fillCurve 256 P256_p P256_a P256_b P256_gX P256_gY)
  else if index = 384 then (1, fillCurve 384 P384_p P384_a P384_b P384_gX P384_gY)
  else if index = 521 then (1, fillCurve 521 P521_p P521_a P521_b P521_gX P521_gY)
  else (-1, curve)

/-- The inner loops of `byteToWord`: `w = (w << 8) + arrayB[k]` for
k = base + cnt - 1 down to base. -/
def byteToWordAcc (arrayB : keyC) (base : Nat) : Nat → Nat → Nat
  | 0, w => w
  | k + 1, w => byteToWordAcc arrayB base k (((w <<< 8) + byteAt arrayB (base + k)) % WORD)

/-- Function `byteToWord`: the words of the `byteLen` little-endian bytes of arrayB. -/
def byteToWord (arrayB : keyC) (byteLen : Nat) : coord :=
  let j := byteLen / 8
  let full := (List.range j).map fun i =>
    byteToWordAcc arrayB (i * 8) 7 (byteAt arrayB (i * 8 + 7))
  let s := (byteLen + 7) / 8
  if j < s then
    full ++ [byteToWordAcc arrayB (j * 8) (byteLen - 1 - j * 8) (byteAt arrayB (byteLen - 1))]
  else full

/-- The inner loop of `wordToByte`: the bytes `t & 0xFF`, `t >>= 8`, k times. -/
def wordBytes : Nat → Nat → keyC
  | 0, _ => []
  | k + 1, t => (t &&& 0xFF) :: wordBytes k (t >>> 8)

/-- Function `wordToByte`: the 8 * wordLen bytes written, little-endian. -/
def wordToByte (arrayW : coord) : Nat → keyC
  | 0 => []
  | i + 1 => wordToByte arrayW i ++ wordBytes 8 (limb arrayW i)

/-- Function `convPointToBytes`: the buffers pX, pY afterwards. -/
def convPointToBytes (pX pY : keyC) (aP : pointA) (curve : ellipticCurve) : keyC × keyC :=
  (writeBytes pX 0 (wordToByte aP.aX curve.wsize), writeBytes pY 0 (wordToByte aP.aY curve.wsize))

/-- Function `convBytesToPoint`: the return code and the point read. -/
def convBytesToPoint (pX pY : keyC) (curve : ellipticCurve) : Int × pointA :=
  let byteLen := (curve.bsize + 7) / 8
  let aP : pointA := ⟨byteToWord pX byteLen, byteToWord pY byteLen⟩
  if coordCmp aP.aX curve.p curve.wsize ≠ -1 then (-1, aP)
  else if coordCmp aP.aY curve.p curve.wsize ≠ -1 then (-1, aP)
  else (1, aP)

/-! ## NAXOS protocol (L4) -/

/-- The external hash library (SimpleFIPS202): each function maps the input bytes
to its return status and the digest bytes it stores in the output buffer.
`KeccakWidth1600_Sponge` takes rate, capacity, input, suffix and output length. -/
structure Keccak where
  SHA3_224 : keyC → Int × keyC
  SHA3_256 : keyC → Int × keyC
  SHA3_384 : keyC → Int × keyC
  SHA3_512 : keyC → Int × keyC
  KeccakWidth1600_Sponge : Nat → Nat → keyC → Nat → Nat → Int × keyC

/-- Function `publicKey`: the buffers pkx, pky afterwards, pk = G * sk. -/
def publicKey (pkx pky sk : keyC) (curveN : ellipticCurve) : keyC × keyC :=
  let byteLen := (curveN.bsize + 7) / 8
  let t1 := byteToWord sk byteLen
  let t2 := scalarMult t1 curveN.g curveN.a curveN.p curveN.wsize
  (writeBytes pkx 0 (wordToByte t2.aX curveN.wsize),
   writeBytes pky 0 (wordToByte t2.aY curveN.wsize))

/-- Function `hashAndMod`: the return code and the coordinate h afterwards,
h = H(esk, sk) mod p.  On the returns -1 the caller's h is not written.  The
local buffer `hashed` starts zero-filled and receives the digest of the hash. -/
def hashAndMod (H : Keccak) (h : coord) (esk sk : keyC) (curveN : ellipticCurve) :
    Int × coord :=
  let inputByteLen := (curveN.bsize + 7) / 8
  let msg := readBytes esk inputByteLen ++ readBytes sk inputByteLen
  let hashed0 := List.replicate COORD_BYTES 0
  let hashedRes : Option (Int × keyC) :=
    if curveN.bsize = 224 then
      some ((H.SHA3_224 msg).1, writeBytes hashed0 0 (H.SHA3_224 msg).2)
    else if curveN.bsize = 256 then
      some ((H.SHA3_256 msg).1, writeBytes hashed0 0 (H.SHA3_256 msg).2)
    else if curveN.bsize = 384 then
      some ((H.SHA3_384 msg).1, writeBytes hashed0 0 (H.SHA3_384 msg).2)
    else if curveN.bsize = 521 then
      let r := H.KeccakWidth1600_Sponge 576 1024 msg 0x06 (528 / 8)
      let hashed := writeBytes hashed0 0 r.2
      some (r.1, hashed.set 65 (byteAt hashed 65 &&& 1))
    else none
  match hashedRes with
  | none => (-1, h)
  | some (res, hashed) =>
    if res ≠ 0 then (-1, h)
    else
      let h := byteToWord hashed inputByteLen
      if coordCmp h curveN.p curveN.wsize = 1 then
        (1, (subLoop h curveN.p curveN.wsize).1)
      else
        (1, h)

/-- Function `isOnTheCurve`: `aIsOnCurve` with the parameters of the curve. -/
def isOnTheCurve (pA : pointA) (curveN : ellipticCurve) : Int :=
  aIsOnCurve pA curveN.a curveN.b curveN.p curveN.wsize

/-- The hash input of the K calculation: the x coordinates of the three points
stored at the offsets 0, byteLen and 2 byteLen, then idA and idB.  The local
buffer `msg` starts zero-filled; the bytes hashed are all written before. -/
def sessionMsg (t1 t2 t3 : pointA) (idA idB : keyC) (curveN : ellipticCurve) : keyC :=
  let byteLen := (curveN.bsize + 7) / 8
  let msg := List.replicate FIVET_BYTES 0
  let msg := writeBytes msg 0 (wordToByte t1.aX curveN.wsize)
  let msg := writeBytes msg byteLen (wordToByte t2.aX curveN.wsize)
  let inputByteLen := byteLen * 2
  let msg := writeBytes msg inputByteLen (wordToByte t3.aX curveN.wsize)
  let t := inputByteLen + byteLen
  let inputByteLen := t + byteLen
  let msg := writeBytes msg t (readBytes idA byteLen)
  let msg := writeBytes msg inputByteLen (readBytes idB byteLen)
  let inputByteLen := inputByteLen + byteLen
  msg.take inputByteLen

/-- The final hash of the K calculation, chosen by the size of the curve. -/
def sessionHash (H : Keccak) (msg : keyC) (curveN : ellipticCurve) : Option (Int × keyC) :=
  if curveN.bsize = 224 then some (H.SHA3_224 msg)
  else if curveN.bsize = 256 then some (H.SHA3_256 msg)
  else if curveN.bsize = 384 then some (H.SHA3_384 msg)
  else if curveN.bsize = 521 then some (H.SHA3_512 msg)
  else none

/-- Function `calculateKa`: the return code and the buffer kA afterwards.
`hA0` is the content of the local `hA` before `hashAndMod` is called. -/
def calculateKa (H : Keccak) (hA0 : coord) (kA Yx Yy eskA skAb pkBx pkBy idA idB : keyC)
    (curveN : ellipticCurve) : Int × keyC :=
  let pkB := convBytesToPoint pkBx pkBy curveN
  if pkB.1 ≠ 1 then (-1, kA)
  else if isOnTheCurve pkB.2 curveN ≠ 1 then (-2, kA)
  else
    let Y := convBytesToPoint Yx Yy curveN
    if Y.1 ≠ 1 then (-3, kA)
    else if isOnTheCurve Y.2 curveN ≠ 1 then (-4, kA)
    else
      let byteLen := (curveN.bsize + 7) / 8
      let skA := byteToWord skAb byteLen
      let hA := (hashAndMod H hA0 eskA skAb curveN).2
      let t1A := scalarMult skA Y.2 curveN.a curveN.p curveN.wsize
      if isOnTheCurve t1A curveN ≠ 1 then (-5, kA)
      else
        let t2A := scalarMult hA pkB.2 curveN.a curveN.p curveN.wsize
        if isOnTheCurve t2A curveN ≠ 1 then (-5, kA)
        else
          let t3A := scalarMult hA Y.2 curveN.a curveN.p curveN.wsize
          if isOnTheCurve t3A curveN ≠ 1 then (-5, kA)
          else
            match sessionHash H (sessionMsg t1A t2A t3A idA idB curveN) curveN with
            | none => (-1, kA)
            | some (res, digest) =>
              if res ≠ 0 then (-1, writeBytes kA 0 digest)
              else (1, writeBytes kA 0 digest)

/-- Function `calculateKb`: the return code and the buffer kB afterwards.
`hB0` is the content of the local `hB` before `hashAndMod` is called. -/
def calculateKb (H : Keccak) (hB0 : coord) (kB pkAx pkAy eskB skBb Xx Xy idA idB : keyC)
    (curveN : ellipticCurve) : Int × keyC :=
  let pkA := convBytesToPoint pkAx pkAy curveN
  if pkA.1 ≠ 1 then (-1, kB)
  else if isOnTheCurve pkA.2 curveN ≠ 1 then (-2, kB)
  else
    let X := convBytesToPoint Xx Xy curveN
    if X.1 ≠ 1 then (-3, kB)
    else if isOnTheCurve X.2 curveN ≠ 1 then (-4, kB)
    else
      let byteLen := (curveN.bsize + 7) / 8
      let skB := byteToWord skBb byteLen
      let hB := (hashAndMod H hB0 eskB skBb curveN).2
      let t1B := scalarMult hB pkA.2 curveN.a curveN.p curveN.wsize
      if isOnTheCurve t1B curveN ≠ 1 then (-5, kB)
      else
        let t2B := scalarMult skB X.2 curveN.a curveN.p curveN.wsize
        if isOnTheCurve t2B curveN ≠ 1 then (-5, kB)
        else
          let t3B := scalarMult hB X.2 curveN.a curveN.p curveN.wsize
          if isOnTheCurve t3B curveN ≠ 1 then (-5, kB)
          else
            match sessionHash H (sessionMsg t1B t2B t3B idA idB curveN) curveN with
            | none => (-1, kB)
            | some (res, digest) =>
              if res = 1 then (-1, writeBytes kB 0 digest)
              else (1, writeBytes kB 0 digest)

/-! ## Value-level reading of the curve arithmetic

The same algorithms on the values of the coordinates, a projective point being
the triple of the values of X, Y, Z.  The bit lengths the source computes with
`coordMaxBit` are parameters here. -/

/-- Value-level `coordInvMLStep`. -/
def coordInvMLStepN (b p : Nat) (s : Nat × Nat) : Nat × Nat :=
  if b = 0 then (mulN s.1 s.1 p, mulN s.1 s.2 p) else (mulN s.1 s.2 p, mulN s.2 s.2 p)

/-- Value-level `coordInvMLLoop`. -/
def coordInvMLLoopN (k p n : Nat) : Nat → Nat × Nat → Nat × Nat
  | 0, s => s
  | i + 1, s =>
    coordInvMLLoopN k p n i (if i < n then coordInvMLStepN (k / 2 ^ i % 2) p s else s)

/-- Value-level `coordInvML`, for the bit lengths `order` of p and `n` of p - 2. -/
def coordInvMLN (order n a p : Nat) : Nat :=
  (coordInvMLLoopN (p - 2) p n order (1, a)).1

/-- Value-level `cProjToAffine`. -/
def cProjToAffineN (order n : Nat) (bP : Nat × Nat × Nat) (p : Nat) : Nat × Nat :=
  let d := coordInvMLN order n bP.2.2 p
  let y1 := mulN d d p
  let x := mulN y1 bP.1 p
  let y2 := mulN y1 d p
  let y3 := mulN y2 bP.2.1 p
  (x, y3)

/-- Value-level `aIsOnCurve`. -/
def aIsOnCurveN (aA : Nat × Nat) (a b p : Nat) : Int :=
  let t1 := mulN aA.1 aA.1 p
  let t1 := mulN t1 aA.1 p
  let t2 := mulN aA.1 a p
  let t1 := subN t1 t2 p
  let t1 := addN t1 b p
  let t2 := mulN aA.2 aA.2 p
  if t1 = t2 then 1 else -1

/-- Value-level `doubleU`. -/
def doubleUN (P : Nat × Nat) (a p : Nat) : (Nat × Nat × Nat) × (Nat × Nat × Nat) :=
  let t1 := P.1
  let t2 := P.2
  let t3 := mulN t1 t1 p
  let t4 := dblN t3 p
  let t4 := addN t4 t3 p
  let t4 := subN t4 a p
  let t5 := mulN t2 t2 p
  let t6 := mulN t5 t5 p
  let t7 := addN t1 t5 p
  let t7 := mulN t7 t7 p
  let t7 := subN t7 t3 p
  let t7 := subN t7 t6 p
  let t7 := dblN t7 p
  let t3 := mulN t4 t4 p
  let t8 := dblN t7 p
  let t3 := subN t3 t8 p
  let t8 := subN t7 t3 p
  let t8 := mulN t4 t8 p
  let t4 := dblN t6 p
  let t4 := dblN t4 p
  let t4 := dblN t4 p
  let t8 := subN t8 t4 p
  let t6 := dblN t2 p
  let t1 := dblN t1 p
  let t1 := dblN t1 p
  let t1 := mulN t1 t5 p
  ((t3, t8, t6), (t1, t4, t6))

/-- Value-level `zAddC`. -/
def zAddCN (P Q : Nat × Nat × Nat) (p : Nat) : (Nat × Nat × Nat) × (Nat × Nat × Nat) :=
  let t1 := P.1
  let t2 := P.2.1
  let t3 := P.2.2
  let t4 := Q.1
  let t5 := Q.2.1
  let t6 := subN t1 t4 p
  let t3 := mulN t3 t6 p
  let t6 := mulN t6 t6 p
  let t7 := mulN t1 t6 p
  let t6 := mulN t6 t4 p
  let t1 := addN t2 t5 p
  let t4 := mulN t1 t1 p
  let t4 := subN t4 t7 p
  let t4 := subN t4 t6 p
  let t1 := subN t2 t5 p
  let t1 := mulN t1 t1 p
  let t1 := subN t1 t7 p
  let t1 := subN t1 t6 p
  let t6 := subN t6 t7 p
  let t6 := mulN t6 t2 p
  let t2 := subN t2 t5 p
  let t5 := dblN t5 p
  let t5 := addN t2 t5 p
  let t7 := subN t7 t4 p
  let t5 := mulN t5 t7 p
  let t5 := addN t5 t6 p
  let t7 := addN t4 t7 p
  let t7 := subN t7 t1 p
  let t2 := mulN t2 t7 p
  let t2 := addN t2 t6 p
  ((t1, t2, t3), (t4, t5, t3))

/-- Value-level `zAddU`. -/
def zAddUN (P Q : Nat × Nat × Nat) (p : Nat) : (Nat × Nat × Nat) × (Nat × Nat × Nat) :=
  let t1 := P.1
  let t2 := P.2.1
  let t3 := P.2.2
  let t4 := Q.1
  let t5 := Q.2.1
  let t6 := subN t1 t4 p
  let t3 := mulN t3 t6 p
  let t6 := mulN t6 t6 p
  let t1 := mulN t1 t6 p
  let t6 := mulN t6 t4 p
  let t5 := subN t2 t5 p
  let t4 := mulN t5 t5 p
  let t4 := subN t4 t1 p
  let t4 := subN t4 t6 p
  let t6 := subN t1 t6 p
  let t2 := mulN t2 t6 p
  let t6 := subN t1 t4 p
  let t5 := mulN t5 t6 p
  let t5 := subN t5 t2 p
  ((t4, t5, t3), (t1, t2, t3))

/-- Value-level `scalarMultStep`. -/
def scalarMultStepN (b p : Nat) (s : (Nat × Nat × Nat) × (Nat × Nat × Nat)) :
    (Nat × Nat × Nat) × (Nat × Nat × Nat) :=
  if b = 0 then
    let c := zAddCN s.1 s.2 p
    let u := zAddUN c.1 c.2 p
    (u.1, u.2)
  else
    let c := zAddCN s.2 s.1 p
    let u := zAddUN c.1 c.2 p
    (u.2, u.1)

/-- Value-level `scalarMultLoop`. -/
def scalarMultLoopN (k p n : Nat) :
    Nat → (Nat × Nat × Nat) × (Nat × Nat × Nat) → (Nat × Nat × Nat) × (Nat × Nat × Nat)
  | 0, s => s
  | i + 1, s =>
    scalarMultLoopN k p n i (if i + 1 < n then scalarMultStepN (k / 2 ^ i % 2) p s else s)

/-- Value-level `scalarMult`, for the bit lengths `order` of p, `n` of k and
`ninv` of p - 2. -/
def scalarMultN (order n ninv : Nat) (k : Nat) (P : Nat × Nat) (a p : Nat) : Nat × Nat :=
  let d := doubleUN P a p
  let s := scalarMultLoopN k p n (order - 1) (d.2, d.1)
  cProjToAffineN order ninv s.1 p

/-- The projective point `P` holds field elements of the values `v`. -/
def pointPRep (p : coord) (nwords : Nat) (P : pointP) (v : Nat × Nat × Nat) : Prop :=
  coordRep p nwords P.pX v.1 ∧ coordRep p nwords P.pY v.2.1 ∧ coordRep p nwords P.pZ v.2.2

/-- The affine point `P` holds field elements of the values `v`. -/
def pointARep (p : coord) (nwords : Nat) (P : pointA) (v : Nat × Nat) : Prop :=
  coordRep p nwords P.aX v.1 ∧ coordRep p nwords P.aY v.2

/-- The affine point of the coordinate values `v`, on `nwords` limbs. -/
def toPointA (v : Nat × Nat) (nwords : Nat) : pointA :=
  ⟨toCoord v.1 nwords, toCoord v.2 nwords⟩

/-- The value of the coordinates of an affine point. -/
def pointAVal (P : pointA) (nwords : Nat) : Nat × Nat :=
  (coordVal P.aX nwords, coordVal P.aY nwords)

/-! ## Value-level reading of the encodings -/

/-- The little-endian value of the bytes `arrayB[0 .. len-1]`. -/
def bytesVal (arrayB : keyC) : Nat → Nat
  | 0 => 0
  | k + 1 => bytesVal arrayB k + byteAt arrayB k * 2 ^ (8 * k)

/-- The little-endian value of the bytes `arrayB[base .. base+cnt-1]`. -/
def chunkVal (arrayB : keyC) (base : Nat) : Nat → Nat
  | 0 => 0
  | k + 1 => chunkVal arrayB base k + byteAt arrayB (base + k) * 2 ^ (8 * k)

/-- The `len` little-endian bytes of the number `v`. -/
def leBytes (v : Nat) (len : Nat) : keyC :=
  (List.range len).map fun i => v / 2 ^ (8 * i) % 256

/-- A buffer of bytes: every element is a `uint8_t`. -/
def keyWF (arrayB : keyC) : Prop := ∀ i, byteAt arrayB i < 256

/-- The record `selectCurve` fills for NIST_P192. -/
def curve192 : ellipticCurve := fillCurve 192 P192_p P192_a P192_b P192_gX P192_gY

/-- The record `selectCurve` fills for NIST_P224. -/
def curve224 : ellipticCurve := fillCurve 224 P224_p P224_a P224_b P224_gX P224_gY

/-- The record `selectCurve` fills for NIST_P256. -/
def curve256 : ellipticCurve := fillCurve 256 P256_p P256_a P256_b P256_gX P256_gY

/-- The record `selectCurve` fills for NIST_P384. -/
def curve384 : ellipticCurve := fillCurve 384 P384_p P384_a P384_b P384_gX P384_gY

/-- The record `selectCurve` fills for NIST_P521. -/
def curve521 : ellipticCurve := fillCurve 521 P521_p P521_a P521_b P521_gX P521_gY

/-- The value of the prime of a curve record. -/
def primeOf (c : ellipticCurve) : Nat := coordVal c.p c.wsize

/-- The byte length `(bsize + 7) / 8` of the keys of a curve. -/
def byteLenOf (c : ellipticCurve) : Nat := (c.bsize + 7) / 8

/-- What the protocol layer relies on in a curve record: the parameters are
reduced field elements on wsize limbs, and the sizes fit the buffers. -/
structure curveOK (c : ellipticCurve) : Prop where
  wf_p : coordWF c.p c.wsize
  two_le : 2 ≤ coordVal c.p c.wsize
  rep_a : coordRep c.p c.wsize c.a (coordVal c.a c.wsize)
  rep_b : coordRep c.p c.wsize c.b (coordVal c.b c.wsize)
  rep_gx : coordRep c.p c.wsize c.g.aX (coordVal c.g.aX c.wsize)
  rep_gy : coordRep c.p c.wsize c.g.aY (coordVal c.g.aY c.wsize)
  wsize_eq : c.wsize = (byteLenOf c + 7) / 8
  five_fit : 2 * byteLenOf c + 8 * c.wsize ≤ FIVET_BYTES
  msg_fit : 5 * byteLenOf c ≤ FIVET_BYTES

/-- The curve equation y^2 = x^3 - a x + b modulo p, on integers. -/
def curveEq (x y a b p : Nat) : Prop :=
  (y : ℤ) ^ 2 ≡ (x : ℤ) ^ 3 - (a : ℤ) * (x : ℤ) + (b : ℤ) [ZMOD (p : ℤ)]

/-- The little-endian numbers held in the first byteLen bytes of two key buffers. -/
def keyPoint (pX pY : keyC) (c : ellipticCurve) : Nat × Nat :=
  (bytesVal pX (byteLenOf c), bytesVal pY (byteLenOf c))

/-- The point with the values `v` satisfies the equation of the curve record `c`. -/
def onCurve (v : Nat × Nat) (c : ellipticCurve) : Prop :=
  curveEq v.1 v.2 (coordVal c.a c.wsize) (coordVal c.b c.wsize) (primeOf c)

/-! ## The statements of the protocol layer -/

/-- A peer point passes the two validations of the session-key derivation: both
coordinates are below p and the point satisfies the curve equation. -/
def validPeer (pX pY : keyC) (c : ellipticCurve) : Prop :=
  (keyPoint pX pY c).1 < primeOf c ∧ (keyPoint pX pY c).2 < primeOf c ∧
    onCurve (keyPoint pX pY c) c

/-- The three products of `calculateKa`: T1 = skA * Y, T2 = hA * pkB, T3 = hA * Y,
with hA the coordinate left by `hashAndMod` on eskA, skA. -/
def productsKa (H : Keccak) (hA0 : coord) (Yx Yy eskA skAb pkBx pkBy : keyC)
    (c : ellipticCurve) : pointA × pointA × pointA :=
  let pkB := (convBytesToPoint pkBx pkBy c).2
  let Y := (convBytesToPoint Yx Yy c).2
  let skA := byteToWord skAb ((c.bsize + 7) / 8)
  let hA := (hashAndMod H hA0 eskA skAb c).2
  (scalarMult skA Y c.a c.p c.wsize, scalarMult hA pkB c.a c.p c.wsize,
   scalarMult hA Y c.a c.p c.wsize)

/-- The three products of `calculateKb`: T1 = hB * pkA, T2 = skB * X, T3 = hB * X,
with hB the coordinate left by `hashAndMod` on eskB, skB. -/
def productsKb (H : Keccak) (hB0 : coord) (pkAx pkAy eskB skBb Xx Xy : keyC)
    (c : ellipticCurve) : pointA × pointA × pointA :=
  let pkA := (convBytesToPoint pkAx pkAy c).2
  let X := (convBytesToPoint Xx Xy c).2
  let skB := byteToWord skBb ((c.bsize + 7) / 8)
  let hB := (hashAndMod H hB0 eskB skBb c).2
  (scalarMult hB pkA c.a c.p c.wsize, scalarMult skB X c.a c.p c.wsize,
   scalarMult hB X c.a c.p c.wsize)

/-- The three products satisfy the curve equation. -/
def productsOnCurve (T : pointA × pointA × pointA) (c : ellipticCurve) : Prop :=
  onCurve (pointAVal T.1 c.wsize) c ∧ onCurve (pointAVal T.2.1 c.wsize) c ∧
    onCurve (pointAVal T.2.2 c.wsize) c

/-- The hash input the specification prescribes: x(T1), x(T2), x(T3), idA, idB,
each field byteLen bytes, the x coordinates little-endian. -/
def keyMsg (T : pointA × pointA × pointA) (idA idB : keyC) (c : ellipticCurve) : keyC :=
  leBytes (coordVal T.1.aX c.wsize) (byteLenOf c) ++
  leBytes (coordVal T.2.1.aX c.wsize) (byteLenOf c) ++
  leBytes (coordVal T.2.2.aX c.wsize) (byteLenOf c) ++
  readBytes idA (byteLenOf c) ++ readBytes idB (byteLenOf c)

/-- The hash the specification prescribes for the session key: SHA3-224, SHA3-256,
SHA3-384 for P-224, P-256, P-384 and SHA3-512 for P-521. -/
def sessionKeccak (H : Keccak) (bsize : Nat) : keyC → Int × keyC :=
  if bsize = 224 then H.SHA3_224
  else if bsize = 256 then H.SHA3_256
  else if bsize = 384 then H.SHA3_384
  else H.SHA3_512

/-! ## Concrete inputs -/

/-- The order n of the base point of P-224 (FIPS 186-4, D.1.2.2). -/
def order224 : Nat := 0xFFFFFFFFFFFFFFFFFFFFFFFFFFFF16A2E0B8F03E13DD29455C5C2A3D

/-- A zeroed key buffer. -/
def zeroKey : keyC := List.replicate COORD_BYTES 0

/-- The key buffer holding the number `v`, little-endian. -/
def keyOfNat (v : Nat) : keyC := leBytes v COORD_BYTES

/-- The key buffers of the base point of a curve, as `convPointToBytes` writes them. -/
def baseKey (c : ellipticCurve) : keyC × keyC :=
  convPointToBytes zeroKey zeroKey c.g c

/-- A hash that returns the status `st` and the little-endian bytes of `v` as digest. -/
def constKeccak (st : Int) (v : Nat) : Keccak where
  SHA3_224 := fun _ => (st, leBytes v 28)
  SHA3_256 := fun _ => (st, leBytes v 32)
  SHA3_384 := fun _ => (st, leBytes v 48)
  SHA3_512 := fun _ => (st, leBytes v 64)
  KeccakWidth1600_Sponge := fun _ _ _ _ n => (st, leBytes v n)

/-- A hash with digest `v` whose status is 0 on inputs of `len` bytes and `st` on
all other inputs. -/
def lenKeccak (len : Nat) (st : Int) (v : Nat) : Keccak where
  SHA3_224 := fun m => (if m.length = len then 0 else st, leBytes v 28)
  SHA3_256 := fun m => (if m.length = len then 0 else st, leBytes v 32)
  SHA3_384 := fun m => (if m.length = len then 0 else st, leBytes v 48)
  SHA3_512 := fun m => (if m.length = len then 0 else st, leBytes v 64)
  KeccakWidth1600_Sponge := fun _ _ m _ n => (if m.length = len then 0 else st, leBytes v n)

/-- The order n of the base point of P-192 (FIPS 186-4, D.1.2.1). -/
def order192 : Nat := 0xFFFFFFFFFFFFFFFFFFFFFFFF99DEF836146BC9B1B4D22831

/-! ## Ephemeral point derivation (L4) -/

/-- The OS entropy source behind `getrandom`: the outcome of its i-th call for
`buflen` bytes, which is the value returned (the number of bytes delivered, or
-1) and the bytes stored at the start of the buffer. -/
abbrev Entropy := Nat → Nat → Int × keyC

/-- Function `randomGen`, as the i-th call of the entropy source: the return
code and the buffer esk afterwards. -/
def randomGen (E : Entropy) (i : Nat) (esk : keyC) (nbits : Nat) : Int × keyC :=
  let buflen := (nbits + 7) / 8
  let r := E i buflen
  if r.1 < (buflen : Int) then (-1, writeBytes esk 0 r.2) else (1, writeBytes esk 0 r.2)

/-- The do-while loop of `calculateXY`, entered with the i-th call of the entropy
source pending and the contents h, esk of the two buffers; `fuel` bounds the
number of rounds.  The return codes of `randomGen` and `hashAndMod` are not
read.  The result is (h, esk) at the exit of the loop. -/
def calculateXYLoop (H : Keccak) (E : Entropy) (sk : keyC) (curveN : ellipticCurve) :
    Nat → Nat → coord → keyC → Option (coord × keyC)
  | 0, _, _, _ => none
  | fuel + 1, i, h, esk =>
    let esk1 := (randomGen E i esk curveN.bsize).2
    let h1 := (hashAndMod H h esk1 sk curveN).2
    if 1 = coordIsZero h1 curveN.wsize then
      calculateXYLoop H E sk curveN fuel (i + 1) h1 esk1
    else some (h1, esk1)

/-- Function `calculateXY`: the buffers (Xx, Xy, esk) afterwards, X = G * H(esk, sk).
`h0` is the content of the local `h` before the loop, and the result is `none`
when the loop is still running after `fuel` rounds. -/
def calculateXY (H : Keccak) (E : Entropy) (fuel : Nat) (h0 : coord) (Xx Xy esk sk : keyC)
    (curveN : ellipticCurve) : Option (keyC × keyC × keyC) :=
  (calculateXYLoop H E sk curveN fuel 0 h0 esk).map fun s =>
    let X := scalarMult s.1 curveN.g curveN.a curveN.p curveN.wsize
    (writeBytes Xx 0 (wordToByte X.aX curveN.wsize),
     writeBytes Xy 0 (wordToByte X.aY curveN.wsize), s.2)

/-- The projective point R0 that `scalarMult` hands to `cProjToAffine`. -/
def scalarMultProj (k : coord) (P : pointA) (a p : coord) (nwords : Nat) : pointP :=
  let order := coordMaxBit p nwords
  let n := coordMaxBit k nwords
  let d := doubleU ⟨P.aX, P.aY, coordInit nwords⟩ a p nwords
  (scalarMultLoop k p nwords n (order - 1) (d.2, d.1)).1

/-- Value-level `scalarMultProj`, for the bit lengths `order` of p and `n` of k. -/
def scalarMultProjN (order n : Nat) (k : Nat) (P : Nat × Nat) (a p : Nat) : Nat × Nat × Nat :=
  let d := doubleUN P a p
  (scalarMultLoopN k p n (order - 1) (d.2, d.1)).1

/-! ## The statements of the hash-to-scalar reduction and of the doubling -/

/-- The hash the specification prescribes for the hash-to-scalar reduction:
SHA3-224, SHA3-256, SHA3-384 for P-224, P-256, P-384 and, for P-521, the Keccak
sponge of rate 576 and capacity 1024 with suffix 0x06 and 66 output bytes. -/
def scalarKeccak (H : Keccak) (bsize : Nat) : keyC → Int × keyC :=
  if bsize = 224 then H.SHA3_224
  else if bsize = 256 then H.SHA3_256
  else if bsize = 384 then H.SHA3_384
  else fun msg => H.KeccakWidth1600_Sponge 576 1024 msg 0x06 66

/-- The hash input the specification prescribes for the reduction: the first L
bytes of esk followed by the first L bytes of sk. -/
def scalarMsg (esk sk : keyC) (c : ellipticCurve) : keyC :=
  readBytes esk (byteLenOf c) ++ readBytes sk (byteLenOf c)

/-- The integer the specification reads off a digest: its first L bytes,
little-endian; for P-521 the byte 65 is masked with 1 before. -/
def digestVal (digest : keyC) (c : ellipticCurve) : Nat :=
  if c.bsize = 521 then bytesVal digest 65 + (byteAt digest 65 &&& 1) * 2 ^ (8 * 65)
  else bytesVal digest (byteLenOf c)

/-- The affine doubling of the specification on y^2 = x^3 - a x + b modulo p:
Q = (x3, y3) is the double of P = (x, y) when 2 y is invertible modulo p and,
for the slope l = (3 x^2 - a) / (2 y), x3 = l^2 - 2 x and y3 = l (x - x3) - y
modulo p, both reduced. -/
def affineDouble (P Q : Nat × Nat) (a p : Nat) : Prop :=
  Q.1 < p ∧ Q.2 < p ∧ Nat.Coprime (2 * P.2) p ∧ ∃ l : Nat, l < p ∧
    2 * (P.2 : ℤ) * (l : ℤ) ≡ 3 * (P.1 : ℤ) ^ 2 - (a : ℤ) [ZMOD (p : ℤ)] ∧
    (Q.1 : ℤ) ≡ (l : ℤ) ^ 2 - 2 * (P.1 : ℤ) [ZMOD (p : ℤ)] ∧
    (Q.2 : ℤ) ≡ (l : ℤ) * ((P.1 : ℤ) - (Q.1 : ℤ)) - (P.2 : ℤ) [ZMOD (p : ℤ)]

/-! ## The co-Z formulas over a commutative ring

The register sequences of `doubleU`, `zAddC` and `zAddU` once more, on the
elements of a commutative ring: the value-level functions compute them in the
ring of the integers modulo p. -/

/-- Ring-level `doubleU`. -/
def doubleUR {R : Type} [CommRing R] (x y a : R) : (R × R × R) × (R × R × R) :=
  let t1 := x
  let t2 := y
  let t3 := t1 * t1
  let t4 := 2 * t3
  let t4 := t4 + t3
  let t4 := t4 - a
  let t5 := t2 * t2
  let t6 := t5 * t5
  let t7 := t1 + t5
  let t7 := t7 * t7
  let t7 := t7 - t3
  let t7 := t7 - t6
  let t7 := 2 * t7
  let t3 := t4 * t4
  let t8 := 2 * t7
  let t3 := t3 - t8
  let t8 := t7 - t3
  let t8 := t4 * t8
  let t4 := 2 * t6
  let t4 := 2 * t4
  let t4 := 2 * t4
  let t8 := t8 - t4
  let t6 := 2 * t2
  let t1 := 2 * t1
  let t1 := 2 * t1
  let t1 := t1 * t5
  ((t3, t8, t6), (t1, t4, t6))

/-- Ring-level `zAddC`. -/
def zAddCR {R : Type} [CommRing R] (P Q : R × R × R) : (R × R × R) × (R × R × R) :=
  let t1 := P.1
  let t2 := P.2.1
  let t3 := P.2.2
  let t4 := Q.1
  let t5 := Q.2.1
  let t6 := t1 - t4
  let t3 := t3 * t6
  let t6 := t6 * t6
  let t7 := t1 * t6
  let t6 := t6 * t4
  let t1 := t2 + t5
  let t4 := t1 * t1
  let t4 := t4 - t7
  let t4 := t4 - t6
  let t1 := t2 - t5
  let t1 := t1 * t1
  let t1 := t1 - t7
  let t1 := t1 - t6
  let t6 := t6 - t7
  let t6 := t6 * t2
  let t2 := t2 - t5
  let t5 := 2 * t5
  let t5 := t2 + t5
  let t7 := t7 - t4
  let t5 := t5 * t7
  let t5 := t5 + t6
  let t7 := t4 + t7
  let t7 := t7 - t1
  let t2 := t2 * t7
  let t2 := t2 + t6
  ((t1, t2, t3), (t4, t5, t3))

/-- Ring-level `zAddU`. -/
def zAddUR {R : Type} [CommRing R] (P Q : R × R × R) : (R × R × R) × (R × R × R) :=
  let t1 := P.1
  let t2 := P.2.1
  let t3 := P.2.2
  let t4 := Q.1
  let t5 := Q.2.1
  let t6 := t1 - t4
  let t3 := t3 * t6
  let t6 := t6 * t6
  let t1 := t1 * t6
  let t6 := t6 * t4
  let t5 := t2 - t5
  let t4 := t5 * t5
  let t4 := t4 - t1
  let t4 := t4 - t6
  let t6 := t1 - t6
  let t2 := t2 * t6
  let t6 := t1 - t4
  let t5 := t5 * t6
  let t5 := t5 - t2
  ((t4, t5, t3), (t1, t2, t3))

/-- The point R0 of the ladder for k = 2 over a ring: after `doubleU`, the one
round for bit 0 of k, (R1, R0) = ZADDC(R0, R1) and (R0, R1) = ZADDU(R1, R0). -/
def ladderTwoR {R : Type} [CommRing R] (x y a : R) : R × R × R :=
  let d := doubleUR x y a
  let c := zAddCR d.2 d.1
  (zAddUR c.1 c.2).1

/-- The factor by which the round for k = 2 scales the Z = 2 y of `doubleU`:
the product of the two differences of X coordinates. -/
def ladderTwoW {R : Type} [CommRing R] (x y a : R) : R :=
  ((doubleUR x y a).2.1 - (doubleUR x y a).1.1) *
    ((zAddCR (doubleUR x y a).2 (doubleUR x y a).1).1.1 -
      (zAddCR (doubleUR x y a).2 (doubleUR x y a).1).2.1)

/-- The number `v` is reduced modulo p and its class modulo p is `r`. -/
def zrep (p : Nat) (v : Nat) (r : ZMod p) : Prop := v < p ∧ (v : ZMod p) = r

/-- The three numbers `v` are reduced modulo p and their classes are `r`. -/
def zrep3 (p : Nat) (v : Nat × Nat × Nat) (r : ZMod p × ZMod p × ZMod p) : Prop :=
  zrep p v.1 r.1 ∧ zrep p v.2.1 r.2.1 ∧ zrep p v.2.2 r.2.2

/-! ## More concrete inputs -/

/-- A hash with status 0 whose digest is the number held in the first byte of its
input. -/
def firstByteKeccak : Keccak where
  SHA3_224 := fun m => (0, leBytes (byteAt m 0) 28)
  SHA3_256 := fun m => (0, leBytes (byteAt m 0) 32)
  SHA3_384 := fun m => (0, leBytes (byteAt m 0) 48)
  SHA3_512 := fun m => (0, leBytes (byteAt m 0) 64)
  KeccakWidth1600_Sponge := fun _ _ m _ n => (0, leBytes (byteAt m 0) n)

/-- An entropy source whose i-th draw delivers the number i on `buflen` bytes. -/
def countEntropy : Entropy := fun i buflen => ((buflen : Int), leBytes i buflen)

/-- An entropy source that fails: every call returns -1 and stores nothing. -/
def failEntropy : Entropy := fun _ _ => (-1, [])

/-- The x coordinate of 2 G on P-384 (the NIST test vector for k = 2). -/
def P384_2Gx : Nat :=
  0x08D999057BA3D2D969260045C55B97F089025959A6F434D651D207D19FB96E9E4FE0E86EBE0E64F85B96A9C75295DF61

/-- The y coordinate of 2 G on P-384 (the NIST test vector for k = 2). -/
def P384_2Gy : Nat :=
  0x8E80F1FA5B1B3CEDB7BFE8DFFD6DBA74B275D875BC6CC43E904E505F256AB4255FFD43E94D39E22D61501E700A940E80

/-! ## Instrumented runs

The functions of the ladder once more, each returning what it computes together
with the list of the calls it makes, in the order of the source: the calls of
the field primitives `coordAdd`, `coordSub`, `coordDouble`, `coordMul`
(also those made inside `coordMul` and for the scratch registers) and of the
functions built on them.  The scratch registers the source leaves
uninitialised (t2 of `coordMul` apart, whose content no call depends on) are
parameters. -/

/-- A call, as an instrumented run records it at the entry of the function. -/
inductive callT where
  | coordAdd
  | coordSub
  | coordDouble
  | coordMul
  | coordInvML
  | cProjToAffine
  | doubleU
  | zAddC
  | zAddU
  deriving DecidableEq

/-- Inner loop of `coordMul` with its calls: for each bit one `coordAdd`, into t3
when the bit is set and into t2 otherwise, then one `coordDouble`. -/
def coordMulBitsT (bi : Nat) (p : coord) (nwords : Nat) :
    Nat → (coord × coord) × List callT → (coord × coord) × List callT
  | 0, s => s
  | j + 1, s =>
    let s1 := coordMulBitsT bi p nwords j s
    (coordMulStep bi j p nwords s1.1,
      s1.2 ++ (if ((bi >>> j) &&& 1) ≠ 0 then [callT.coordAdd] else [callT.coordAdd])
        ++ [callT.coordDouble])

/-- Outer loop of `coordMul` with its calls. -/
def coordMulLoopT (a b p : coord) (nwords : Nat) : Nat → (coord × coord) × List callT
  | 0 => ((a, coordInit nwords), [])
  | i + 1 => coordMulBitsT (limb b i) p nwords 64 (coordMulLoopT a b p nwords i)

/-- Instrumented `coordMul`. -/
def coordMulT (a b p : coord) (nwords : Nat) : coord × List callT :=
  ((coordMulLoopT a b p nwords nwords).1.2,
    callT.coordMul :: (coordMulLoopT a b p nwords nwords).2)

/-- Loop of `coordInvML` with its calls, on ((r0, r1), (f0, f1), calls): two calls
of `coordMul` in every round, on r0, r1 for i < n and on f0, f1 otherwise. -/
def coordInvMLLoopT (k p : coord) (nwords n : Nat) :
    Nat → (coord × coord) × (coord × coord) × List callT →
      (coord × coord) × (coord × coord) × List callT
  | 0, s => s
  | i + 1, (r, f, tr) =>
    if i < n then
      if coordGetBit k i = 0 then
        let m1 := coordMulT r.1 r.2 p nwords
        let m2 := coordMulT r.1 r.1 p nwords
        coordInvMLLoopT k p nwords n i ((m2.1, m1.1), f, tr ++ m1.2 ++ m2.2)
      else
        let m1 := coordMulT r.1 r.2 p nwords
        let m2 := coordMulT r.2 r.2 p nwords
        coordInvMLLoopT k p nwords n i ((m1.1, m2.1), f, tr ++ m1.2 ++ m2.2)
    else
      if coordGetBit k i = 0 then
        let m1 := coordMulT f.1 f.2 p nwords
        let m2 := coordMulT f.1 f.1 p nwords
        coordInvMLLoopT k p nwords n i (r, (m2.1, m1.1), tr ++ m1.2 ++ m2.2)
      else
        let m1 := coordMulT f.1 f.2 p nwords
        let m2 := coordMulT f.2 f.2 p nwords
        coordInvMLLoopT k p nwords n i (r, (m1.1, m2.1), tr ++ m1.2 ++ m2.2)

/-- Instrumented `coordInvML`; `f` is the content of the scratch f0, f1 at entry. -/
def coordInvMLT (a p : coord) (nwords : Nat) (f : coord × coord) : coord × List callT :=
  let order := coordMaxBit p nwords
  let k := coordSub p ((coordInit nwords).set 0 2) p nwords
  let n := coordMaxBit k nwords
  let l := coordInvMLLoopT k p nwords n order
    (((coordInit nwords).set 0 1, a), f, [callT.coordInvML, callT.coordSub])
  (l.1.1, l.2.2)

/-- Instrumented `cProjToAffine`. -/
def cProjToAffineT (bP : pointP) (p : coord) (nwords : Nat) (f : coord × coord) :
    pointA × List callT :=
  let d := coordInvMLT bP.pZ p nwords f
  let y1 := coordMulT d.1 d.1 p nwords
  let x := coordMulT y1.1 bP.pX p nwords
  let y2 := coordMulT y1.1 d.1 p nwords
  let y3 := coordMulT y2.1 bP.pY p nwords
  (⟨x.1, y3.1⟩, callT.cProjToAffine :: (d.2 ++ y1.2 ++ x.2 ++ y2.2 ++ y3.2))

/-- Instrumented `doubleU`. -/
def doubleUT (P : pointP) (a p : coord) (nwords : Nat) : (pointP × pointP) × List callT :=
  let t1 := P.pX
  let t2 := P.pY
  let m1 := coordMulT t1 t1 p nwords
  let t3 := m1.1
  let t4 := coordDouble t3 p nwords
  let t4 := coordAdd t4 t3 p nwords
  let t4 := coordSub t4 a p nwords
  let m2 := coordMulT t2 t2 p nwords
  let t5 := m2.1
  let m3 := coordMulT t5 t5 p nwords
  let t6 := m3.1
  let t7 := coordAdd t1 t5 p nwords
  let m4 := coordMulT t7 t7 p nwords
  let t7 := m4.1
  let t7 := coordSub t7 t3 p nwords
  let t7 := coordSub t7 t6 p nwords
  let t7 := coordDouble t7 p nwords
  let m5 := coordMulT t4 t4 p nwords
  let t3 := m5.1
  let t8 := coordDouble t7 p nwords
  let t3 := coordSub t3 t8 p nwords
  let t8 := coordSub t7 t3 p nwords
  let m6 := coordMulT t4 t8 p nwords
  let t8 := m6.1
  let t4 := coordDouble t6 p nwords
  let t4 := coordDouble t4 p nwords
  let t4 := coordDouble t4 p nwords
  let t8 := coordSub t8 t4 p nwords
  let t6 := coordDouble t2 p nwords
  let t1 := coordDouble t1 p nwords
  let t1 := coordDouble t1 p nwords
  let m7 := coordMulT t1 t5 p nwords
  let t1 := m7.1
  ((⟨t3, t8, t6⟩, ⟨t1, t4, t6⟩),
    callT.doubleU :: (m1.2 ++ [callT.coordDouble, callT.coordAdd, callT.coordSub] ++ m2.2 ++
      m3.2 ++ [callT.coordAdd] ++ m4.2 ++ [callT.coordSub, callT.coordSub, callT.coordDouble] ++
      m5.2 ++ [callT.coordDouble, callT.coordSub, callT.coordSub] ++ m6.2 ++
      [callT.coordDouble, callT.coordDouble, callT.coordDouble, callT.coordSub,
        callT.coordDouble, callT.coordDouble, callT.coordDouble] ++ m7.2))

/-- Instrumented `zAddC`. -/
def zAddCT (P Q : pointP) (p : coord) (nwords : Nat) : (pointP × pointP) × List callT :=
  let t1 := P.pX
  let t2 := P.pY
  let t3 := P.pZ
  let t4 := Q.pX
  let t5 := Q.pY
  let t6 := coordSub t1 t4 p nwords
  let m1 := coordMulT t3 t6 p nwords
  let t3 := m1.1
  let m2 := coordMulT t6 t6 p nwords
  let t6 := m2.1
  let m3 := coordMulT t1 t6 p nwords
  let t7 := m3.1
  let m4 := coordMulT t6 t4 p nwords
  let t6 := m4.1
  let t1 := coordAdd t2 t5 p nwords
  let m5 := coordMulT t1 t1 p nwords
  let t4 := m5.1
  let t4 := coordSub t4 t7 p nwords
  let t4 := coordSub t4 t6 p nwords
  let t1 := coordSub t2 t5 p nwords
  let m6 := coordMulT t1 t1 p nwords
  let t1 := m6.1
  let t1 := coordSub t1 t7 p nwords
  let t1 := coordSub t1 t6 p nwords
  let t6 := coordSub t6 t7 p nwords
  let m7 := coordMulT t6 t2 p nwords
  let t6 := m7.1
  let t2 := coordSub t2 t5 p nwords
  let t5 := coordDouble t5 p nwords
  let t5 := coordAdd t2 t5 p nwords
  let t7 := coordSub t7 t4 p nwords
  let m8 := coordMulT t5 t7 p nwords
  let t5 := m8.1
  let t5 := coordAdd t5 t6 p nwords
  let t7 := coordAdd t4 t7 p nwords
  let t7 := coordSub t7 t1 p nwords
  let m9 := coordMulT t2 t7 p nwords
  let t2 := m9.1
  let t2 := coordAdd t2 t6 p nwords
  ((⟨t1, t2, t3⟩, ⟨t4, t5, t3⟩),
    callT.zAddC :: ([callT.coordSub] ++ m1.2 ++ m2.2 ++ m3.2 ++ m4.2 ++ [callT.coordAdd] ++
      m5.2 ++ [callT.coordSub, callT.coordSub, callT.coordSub] ++ m6.2 ++
      [callT.coordSub, callT.coordSub, callT.coordSub] ++ m7.2 ++
      [callT.coordSub, callT.coordDouble, callT.coordAdd, callT.coordSub] ++ m8.2 ++
      [callT.coordAdd, callT.coordAdd, callT.coordSub] ++ m9.2 ++ [callT.coordAdd]))

/-- Instrumented `zAddU`. -/
def zAddUT (P Q : pointP) (p : coord) (nwords : Nat) : (pointP × pointP) × List callT :=
  let t1 := P.pX
  let t2 := P.pY
  let t3 := P.pZ
  let t4 := Q.pX
  let t5 := Q.pY
  let t6 := coordSub t1 t4 p nwords
  let m1 := coordMulT t3 t6 p nwords
  let t3 := m1.1
  let m2 := coordMulT t6 t6 p nwords
  let t6 := m2.1
  let m3 := coordMulT t1 t6 p nwords
  let t1 := m3.1
  let m4 := coordMulT t6 t4 p nwords
  let t6 := m4.1
  let t5 := coordSub t2 t5 p nwords
  let m5 := coordMulT t5 t5 p nwords
  let t4 := m5.1
  let t4 := coordSub t4 t1 p nwords
  let t4 := coordSub t4 t6 p nwords
  let t6 := coordSub t1 t6 p nwords
  let m6 := coordMulT t2 t6 p nwords
  let t2 := m6.1
  let t6 := coordSub t1 t4 p nwords
  let m7 := coordMulT t5 t6 p nwords
  let t5 := m7.1
  let t5 := coordSub t5 t2 p nwords
  ((⟨t4, t5, t3⟩, ⟨t1, t2, t3⟩),
    callT.zAddU :: ([callT.coordSub] ++ m1.2 ++ m2.2 ++ m3.2 ++ m4.2 ++ [callT.coordSub] ++
      m5.2 ++ [callT.coordSub, callT.coordSub, callT.coordSub] ++ m6.2 ++ [callT.coordSub] ++
      m7.2 ++ [callT.coordSub]))

/-- Loop of `scalarMult` with its calls, on ((R0, R1), (S0, S1), calls): one
`zAddC` then one `zAddU` in every round, on R0, R1 for i < n - 1 and on the
scratch points S0, S1 otherwise. -/
def scalarMultLoopT (k p : coord) (nwords n : Nat) :
    Nat → (pointP × pointP) × (pointP × pointP) × List callT →
      (pointP × pointP) × (pointP × pointP) × List callT
  | 0, s => s
  | i + 1, (R, S, tr) =>
    if i + 1 < n then
      if coordGetBit k i = 0 then
        let c := zAddCT R.1 R.2 p nwords
        let u := zAddUT c.1.1 c.1.2 p nwords
        scalarMultLoopT k p nwords n i ((u.1.1, u.1.2), S, tr ++ c.2 ++ u.2)
      else
        let c := zAddCT R.2 R.1 p nwords
        let u := zAddUT c.1.1 c.1.2 p nwords
        scalarMultLoopT k p nwords n i ((u.1.2, u.1.1), S, tr ++ c.2 ++ u.2)
    else
      if coordGetBit k i = 0 then
        let c := zAddCT S.1 S.2 p nwords
        let u := zAddUT c.1.1 c.1.2 p nwords
        scalarMultLoopT k p nwords n i (R, (u.1.1, u.1.2), tr ++ c.2 ++ u.2)
      else
        let c := zAddCT S.2 S.1 p nwords
        let u := zAddUT c.1.1 c.1.2 p nwords
        scalarMultLoopT k p nwords n i (R, (u.1.2, u.1.1), tr ++ c.2 ++ u.2)

/-- Instrumented `scalarMult`; `S` is the content of the scratch points S0, S1 and
`f` that of the scratch f0, f1 of `coordInvML` at entry. -/
def scalarMultT (k : coord) (P : pointA) (a p : coord) (nwords : Nat) (S : pointP × pointP)
    (f : coord × coord) : pointA × List callT :=
  let order := coordMaxBit p nwords
  let n := coordMaxBit k nwords
  let d := doubleUT ⟨P.aX, P.aY, coordInit nwords⟩ a p nwords
  let l := scalarMultLoopT k p nwords n (order - 1) ((d.1.2, d.1.1), S, d.2)
  let q := cProjToAffineT l.1.1 p nwords f
  (q.1, l.2.2 ++ q.2)

/-! ## The calls the specification prescribes -/

/-- The list `xs` repeated `m` times. -/
def repeatCalls (m : Nat) (xs : List callT) : List callT :=
  match m with
  | 0 => []
  | m + 1 => repeatCalls m xs ++ xs

/-- The calls of one `coordMul`: 64 nwords rounds of one `coordAdd` and one
`coordDouble`. -/
def coordMulCalls (nwords : Nat) : List callT :=
  callT.coordMul :: repeatCalls (64 * nwords) [callT.coordAdd, callT.coordDouble]

/-- The calls of one `doubleU`. -/
def doubleUCalls (nwords : Nat) : List callT :=
  callT.doubleU :: (coordMulCalls nwords ++
    [callT.coordDouble, callT.coordAdd, callT.coordSub] ++ coordMulCalls nwords ++
    coordMulCalls nwords ++ [callT.coordAdd] ++ coordMulCalls nwords ++
    [callT.coordSub, callT.coordSub, callT.coordDouble] ++ coordMulCalls nwords ++
    [callT.coordDouble, callT.coordSub, callT.coordSub] ++ coordMulCalls nwords ++
    [callT.coordDouble, callT.coordDouble, callT.coordDouble, callT.coordSub,
      callT.coordDouble, callT.coordDouble, callT.coordDouble] ++ coordMulCalls nwords)

/-- The calls of one `zAddC`. -/
def zAddCCalls (nwords : Nat) : List callT :=
  callT.zAddC :: ([callT.coordSub] ++ coordMulCalls nwords ++ coordMulCalls nwords ++
    coordMulCalls nwords ++ coordMulCalls nwords ++ [callT.coordAdd] ++
    coordMulCalls nwords ++ [callT.coordSub, callT.coordSub, callT.coordSub] ++
    coordMulCalls nwords ++ [callT.coordSub, callT.coordSub, callT.coordSub] ++
    coordMulCalls nwords ++
    [callT.coordSub, callT.coordDouble, callT.coordAdd, callT.coordSub] ++
    coordMulCalls nwords ++ [callT.coordAdd, callT.coordAdd, callT.coordSub] ++
    coordMulCalls nwords ++ [callT.coordAdd])

/-- The calls of one `zAddU`. -/
def zAddUCalls (nwords : Nat) : List callT :=
  callT.zAddU :: ([callT.coordSub] ++ coordMulCalls nwords ++ coordMulCalls nwords ++
    coordMulCalls nwords ++ coordMulCalls nwords ++ [callT.coordSub] ++
    coordMulCalls nwords ++ [callT.coordSub, callT.coordSub, callT.coordSub] ++
    coordMulCalls nwords ++ [callT.coordSub] ++ coordMulCalls nwords ++ [callT.coordSub])

/-- The calls of one `coordInvML` for a modulus of `order` bits. -/
def coordInvMLCalls (order nwords : Nat) : List callT :=
  [callT.coordInvML, callT.coordSub] ++
    repeatCalls order (coordMulCalls nwords ++ coordMulCalls nwords)

/-- The calls of one `cProjToAffine` for a modulus of `order` bits. -/
def cProjToAffineCalls (order nwords : Nat) : List callT :=
  callT.cProjToAffine :: (coordInvMLCalls order nwords ++ coordMulCalls nwords ++
    coordMulCalls nwords ++ coordMulCalls nwords ++ coordMulCalls nwords)

/-- The calls of one `scalarMult` for a modulus of `order` bits: `doubleU`, then
order - 1 rounds of one `zAddC` followed by one `zAddU`, then `cProjToAffine`. -/
def scalarMultCalls (order nwords : Nat) : List callT :=
  doubleUCalls nwords ++ repeatCalls (order - 1) (zAddCCalls nwords ++ zAddUCalls nwords) ++
    cProjToAffineCalls order nwords

/-! ## The locals of the session-key derivation -/

/-- The array `a` after the words `ws` were stored from index 0 on. -/
def writeWords (a ws : coord) : coord := ws ++ a.drop ws.length

/-- The locals of `calculateKa` that receive secrets: the arrays skA and hA
(COORD_BYTES / 8 words each) and the hash input buffer msg (FIVET_BYTES bytes). -/
structure kaLocals where
  skA : coord
  hA : coord
  msg : keyC
  deriving DecidableEq

/-- The buffer msg of `calculateKa` when the hash is reached: the five fields
stored over the content `msg0` the buffer had at entry. -/
def sessionMsgBuf (msg0 : keyC) (t1 t2 t3 : pointA) (idA idB : keyC)
    (curveN : ellipticCurve) : keyC :=
  let byteLen := (curveN.bsize + 7) / 8
  let msg := writeBytes msg0 0 (wordToByte t1.aX curveN.wsize)
  let msg := writeBytes msg byteLen (wordToByte t2.aX curveN.wsize)
  let inputByteLen := byteLen * 2
  let msg := writeBytes msg inputByteLen (wordToByte t3.aX curveN.wsize)
  let t := inputByteLen + byteLen
  let inputByteLen := t + byteLen
  let msg := writeBytes msg t (readBytes idA byteLen)
  let msg := writeBytes msg inputByteLen (readBytes idB byteLen)
  msg

/-- Function `calculateKa` once more, with the locals skA, hA and msg: the
return code and the content of the three locals when the function returns,
`l0` being their content at entry.  The returns -1 to -4 come before any of them
is written; the returns -5 and the return of the default case of the switch
come before the block that clears them. -/
def calculateKaLocals (H : Keccak) (l0 : kaLocals) (Yx Yy eskA skAb pkBx pkBy idA idB : keyC)
    (curveN : ellipticCurve) : Int × kaLocals :=
  let pkB := convBytesToPoint pkBx pkBy curveN
  if pkB.1 ≠ 1 then (-1, l0)
  else if isOnTheCurve pkB.2 curveN ≠ 1 then (-2, l0)
  else
    let Y := convBytesToPoint Yx Yy curveN
    if Y.1 ≠ 1 then (-3, l0)
    else if isOnTheCurve Y.2 curveN ≠ 1 then (-4, l0)
    else
      let byteLen := (curveN.bsize + 7) / 8
      let skA := byteToWord skAb byteLen
      let hA := (hashAndMod H l0.hA eskA skAb curveN).2
      let l1 : kaLocals := ⟨writeWords l0.skA skA, writeWords l0.hA hA, l0.msg⟩
      let t1A := scalarMult skA Y.2 curveN.a curveN.p curveN.wsize
      if isOnTheCurve t1A curveN ≠ 1 then (-5, l1)
      else
        let t2A := scalarMult hA pkB.2 curveN.a curveN.p curveN.wsize
        if isOnTheCurve t2A curveN ≠ 1 then (-5, l1)
        else
          let t3A := scalarMult hA Y.2 curveN.a curveN.p curveN.wsize
          if isOnTheCurve t3A curveN ≠ 1 then (-5, l1)
          else
            let l2 : kaLocals :=
              ⟨l1.skA, l1.hA, sessionMsgBuf l0.msg t1A t2A t3A idA idB curveN⟩
            match sessionHash H (sessionMsg t1A t2A t3A idA idB curveN) curveN with
            | none => (-1, l2)
            | some (res, _) =>
              let l3 : kaLocals :=
                ⟨coordInit (COORD_BYTES / 8), coordInit (COORD_BYTES / 8),
                  List.replicate FIVET_BYTES 0⟩
              if res ≠ 0 then (-1, l3) else (1, l3)

/-- The three locals hold only zeros. -/
def localsCleared (l : kaLocals) : Prop :=
  (∀ x ∈ l.skA, x = 0) ∧ (∀ x ∈ l.hA, x = 0) ∧ (∀ x ∈ l.msg, x = 0)

/-- Locals that hold only zeros at entry. -/
def zeroLocals : kaLocals :=
  ⟨coordInit (COORD_BYTES / 8), coordInit (COORD_BYTES / 8), List.replicate FIVET_BYTES 0⟩

/-! ## The statement on the stored generators -/

/-- The generator of the curve record `c` is a valid point in the sense of the
specification: both coordinates are below p, Gy^2 = Gx^3 - 3 Gx + b modulo p,
and `isOnTheCurve` returns 1 on it. -/
def generatorValid (c : ellipticCurve) : Prop :=
  coordVal c.g.aX c.wsize < primeOf c ∧ coordVal c.g.aY c.wsize < primeOf c ∧
    ((coordVal c.g.aY c.wsize : ℤ) ^ 2 ≡
      (coordVal c.g.aX c.wsize : ℤ) ^ 3 - 3 * (coordVal c.g.aX c.wsize : ℤ) +
        (coordVal c.b c.wsize : ℤ) [ZMOD (primeOf c : ℤ)]) ∧
    isOnTheCurve c.g c = 1

/-! ## The curve arithmetic over the integers modulo p

The limb-level functions compute in the ring of the integers modulo the value
of p: a coordinate that is reduced stands for its class. -/

/-- The coordinate `x` is held on `nwords` 64-bit limbs, its value is below the
value of p, and its class modulo p is `r`. -/
def coordZ (p : coord) (nwords : Nat) (x : coord) (r : ZMod (coordVal p nwords)) : Prop :=
  coordWF x nwords ∧ coordVal x nwords < coordVal p nwords ∧
    ((coordVal x nwords : ℕ) : ZMod (coordVal p nwords)) = r

/-- The three coordinates of the projective point `P` are reduced and their
classes modulo p are `r`. -/
def pointPZ (p : coord) (nwords : Nat) (P : pointP)
    (r : ZMod (coordVal p nwords) × ZMod (coordVal p nwords) × ZMod (coordVal p nwords)) :
    Prop :=
  coordZ p nwords P.pX r.1 ∧ coordZ p nwords P.pY r.2.1 ∧ coordZ p nwords P.pZ r.2.2

/-- The two coordinates of the affine point `P` are reduced and their classes
modulo p are `r`. -/
def pointAZ (p : coord) (nwords : Nat) (P : pointA)
    (r : ZMod (coordVal p nwords) × ZMod (coordVal p nwords)) : Prop :=
  coordZ p nwords P.aX r.1 ∧ coordZ p nwords P.aY r.2

/-- Ring-level `scalarMultStep`. -/
def scalarMultStepR {R : Type} [CommRing R] (b : Nat) (s : (R × R × R) × (R × R × R)) :
    (R × R × R) × (R × R × R) :=
  if b = 0 then
    let c := zAddCR s.1 s.2
    let u := zAddUR c.1 c.2
    (u.1, u.2)
  else
    let c := zAddCR s.2 s.1
    let u := zAddUR c.1 c.2
    (u.2, u.1)

/-- Ring-level `scalarMultLoop`, for the bits `bit i` of the scalar and its bit
length `n`. -/
def scalarMultLoopR {R : Type} [CommRing R] (bit : Nat → Nat) (n : Nat) :
    Nat → (R × R × R) × (R × R × R) → (R × R × R) × (R × R × R)
  | 0, s => s
  | i + 1, s => scalarMultLoopR bit n i (if i + 1 < n then scalarMultStepR (bit i) s else s)

/-- Ring-level `cProjToAffine`, with d = Z^e in the place of the result of
`coordInvML` (e = p - 2 in the source). -/
def cProjToAffineR {R : Type} [CommRing R] (e : Nat) (bP : R × R × R) : R × R :=
  let d := bP.2.2 ^ e
  let y1 := d * d
  let x := y1 * bP.1
  let y2 := y1 * d
  let y3 := y2 * bP.2.1
  (x, y3)

/-- Ring-level `scalarMult`, for the bit lengths `order` of p and `n` of the
scalar, the bits `bit i` of the scalar and the exponent `e` of the inversion. -/
def scalarMultR {R : Type} [CommRing R] (bit : Nat → Nat) (order n e : Nat) (x y a : R) :
    R × R :=
  let d := doubleUR x y a
  let s := scalarMultLoopR bit n (order - 1) (d.2, d.1)
  cProjToAffineR e s.1

/-- The projective point with the opposite Z. -/
def negZ {R : Type} [CommRing R] (P : R × R × R) : R × R × R := (P.1, P.2.1, -P.2.2)

/-! ## The statements of the co-Z formulas -/

/-- The pair (Q, R) the specification prescribes for the initial doubling of the
affine point (X1, Y1): with B = X1^2, M = 3 B - a, E = Y1^2, L = E^2,
S = 2 ((X1 + E)^2 - B - L) and X2 = M^2 - 2 S,
Q = (X2, M (S - X2) - 8 L, 2 Y1) and R = (4 X1 E, 8 L, 2 Y1). -/
def doubleUSpec {R : Type} [CommRing R] (X1 Y1 a : R) : (R × R × R) × (R × R × R) :=
  let B := X1 ^ 2
  let M := 3 * B - a
  let E := Y1 ^ 2
  let L := E ^ 2
  let S := 2 * ((X1 + E) ^ 2 - B - L)
  let X2 := M ^ 2 - 2 * S
  ((X2, M * (S - X2) - 8 * L, 2 * Y1), (4 * X1 * E, 8 * L, 2 * Y1))

/-- The affine projection (X / Z^2, Y / Z^3) of a projective point modulo p. -/
def affProj (p : Nat) (P : ZMod p × ZMod p × ZMod p) : ZMod p × ZMod p :=
  (P.1 * P.2.2⁻¹ ^ 2, P.2.1 * P.2.2⁻¹ ^ 3)

/-- The chord sum of two affine points with different x modulo p: with
lambda = (y1 - y2) / (x1 - x2), x3 = lambda^2 - x1 - x2 and
y3 = lambda (x1 - x3) - y1. -/
def chordSum (p : Nat) (P Q : ZMod p × ZMod p) : ZMod p × ZMod p :=
  let l := (P.2 - Q.2) * (P.1 - Q.1)⁻¹
  let x3 := l ^ 2 - P.1 - Q.1
  (x3, l * (P.1 - x3) - P.2)

/-- The negative (x, -y) of an affine point modulo p. -/
def negA (p : Nat) (P : ZMod p × ZMod p) : ZMod p × ZMod p := (P.1, -P.2)

/-- The classes modulo p of three numbers. -/
def castP (p : Nat) (v : Nat × Nat × Nat) : ZMod p × ZMod p × ZMod p :=
  ((v.1 : ZMod p), (v.2.1 : ZMod p), (v.2.2 : ZMod p))

/-! ## Arithmetic of the primality certificates

The field inversion of the source is a Fermat power: it inverts because the p
of every catalog curve is prime.  The primes are certified by evaluation, for
which the three functions below are used; they are not functions of the
source. -/

/-- Product of `x.1 + x.2 w` and `y.1 + y.2 w` in the integers modulo N extended
by a root w of `w * w = P w - 1`. -/
def quadMul (N P : Nat) (x y : Nat × Nat) : Nat × Nat :=
  ((x.1 * y.1 + (N - x.2 * y.2 % N)) % N, (x.1 * y.2 + x.2 * y.1 + x.2 * y.2 * P) % N)

/-- The power `w ^ e` in the same ring, by squaring and multiplying over the n
low bits of the exponent e. -/
def quadPow (N P : Nat) : Nat → Nat → Nat × Nat
  | 0, _ => (1 % N, 0)
  | n + 1, e =>
    if e % 2 = 1 then
      quadMul N P (quadMul N P (quadPow N P n (e / 2)) (quadPow N P n (e / 2))) (0, 1)
    else quadMul N P (quadPow N P n (e / 2)) (quadPow N P n (e / 2))

/-- The product of the powers `q ^ e` of a list of pairs `(q, e)`. -/
def powerProd (l : List (Nat × Nat)) : Nat := (l.map (fun f => f.1 ^ f.2)).prod

/-! ## Limbs and values -/

theorem WORD_eq : WORD = 2 ^ 64 := by decide

theorem WORD_pos : 0 < WORD := by decide

theorem cbool_le_one (b : Bool) : cbool b ≤ 1 := by
  cases b <;> simp [cbool]

theorem limb_nil (i : Nat) : limb [] i = 0 := by
  simp [limb]

theorem limb_of_length_le (a : coord) (i : Nat) (h : a.length ≤ i) : limb a i = 0 := by
  simp [limb, List.getD_eq_getElem?_getD, List.getElem?_eq_none h]

theorem limb_append_lt (c : coord) (t : Nat) (i : Nat) (h : i < c.length) :
    limb (c ++ [t]) i = limb c i := by
  simp [limb, List.getD_eq_getElem?_getD, List.getElem?_append_left h]

theorem limb_append_length (c : coord) (t : Nat) : limb (c ++ [t]) c.length = t := by
  simp [limb, List.getD_eq_getElem?_getD]

theorem coordVal_congr (a b : coord) (n : Nat) (h : ∀ i, i < n → limb a i = limb b i) :
    coordVal a n = coordVal b n := by
  induction n with
  | zero => rfl
  | succ n ih =>
    simp only [coordVal]
    rw [ih (fun i hi => h i (Nat.lt_succ_of_lt hi)), h n (Nat.lt_succ_self n)]

theorem coordVal_snoc (c : coord) (t : Nat) :
    coordVal (c ++ [t]) (c.length + 1) = coordVal c c.length + t * 2 ^ (64 * c.length) := by
  simp only [coordVal, limb_append_length]
  rw [coordVal_congr (c ++ [t]) c c.length (fun i hi => limb_append_lt c t i hi)]

theorem coordVal_lt (a : coord) (n : Nat) (h : ∀ i, limb a i < WORD) :
    coordVal a n < 2 ^ (64 * n) := by
  induction n with
  | zero => simp [coordVal]
  | succ n ih =>
    simp only [coordVal]
    have h1 := h n
    rw [WORD_eq] at h1
    have h2 : 2 ^ (64 * (n + 1)) = 2 ^ 64 * 2 ^ (64 * n) := by
      rw [← pow_add]; congr 1; omega
    rw [h2]
    have h3 : (limb a n + 1) * 2 ^ (64 * n) ≤ 2 ^ 64 * 2 ^ (64 * n) :=
      Nat.mul_le_mul_right _ h1
    have h4 : (limb a n + 1) * 2 ^ (64 * n) = limb a n * 2 ^ (64 * n) + 2 ^ (64 * n) := by ring
    omega

theorem coordWF_snoc (c : coord) (t n : Nat) (h : coordWF c n) (ht : t < WORD) :
    coordWF (c ++ [t]) (n + 1) := by
  refine ⟨by simp [h.1], fun i => ?_⟩
  rcases Nat.lt_trichotomy i c.length with hi | hi | hi
  · rw [limb_append_lt c t i hi]; exact h.2 i
  · rw [hi, limb_append_length]; exact ht
  · rw [limb_of_length_le]; exact WORD_pos
    simp; omega

theorem coordWF_nil : coordWF [] 0 :=
  ⟨rfl, fun i => by rw [limb_nil]; exact WORD_pos⟩

theorem limb_toCoord (v n i : Nat) :
    limb (toCoord v n) i = if i < n then v / 2 ^ (64 * i) % WORD else 0 := by
  unfold limb toCoord
  rw [List.getD_eq_getElem?_getD]
  by_cases h : i < n
  · simp [h]
  · have h3 : (List.range n)[i]? = none := List.getElem?_eq_none (by simp; omega)
    simp [h, h3]

theorem toCoord_length (v n : Nat) : (toCoord v n).length = n := by
  simp [toCoord]

theorem coordWF_toCoord (v n : Nat) : coordWF (toCoord v n) n := by
  refine ⟨toCoord_length v n, fun i => ?_⟩
  rw [limb_toCoord]
  split
  · exact Nat.mod_lt _ WORD_pos
  · exact WORD_pos

theorem coordVal_toCoord_aux (v n m : Nat) (h : m ≤ n) :
    coordVal (toCoord v n) m = v % 2 ^ (64 * m) := by
  induction m with
  | zero => simp [coordVal, Nat.mod_one]
  | succ m ih =>
    simp only [coordVal]
    rw [ih (Nat.le_of_succ_le h), limb_toCoord, if_pos (by omega), WORD_eq]
    have h2 : 2 ^ (64 * (m + 1)) = 2 ^ (64 * m) * 2 ^ 64 := by
      rw [← pow_add]; congr 1
    rw [h2, Nat.mod_mul, Nat.mul_comm (2 ^ (64 * m))]

theorem coordVal_toCoord (v n : Nat) : coordVal (toCoord v n) n = v % 2 ^ (64 * n) :=
  coordVal_toCoord_aux v n n (Nat.le_refl n)

theorem coordVal_toCoord_of_lt (v n : Nat) (h : v < 2 ^ (64 * n)) :
    coordVal (toCoord v n) n = v := by
  rw [coordVal_toCoord, Nat.mod_eq_of_lt h]

theorem limb_eq_of_coordVal (a : coord) (n : Nat) (h : ∀ i, limb a i < WORD) (i : Nat)
    (hi : i < n) : limb a i = coordVal a n / 2 ^ (64 * i) % WORD := by
  induction n with
  | zero => omega
  | succ n ih =>
    simp only [coordVal]
    rcases Nat.lt_succ_iff_lt_or_eq.mp hi with h1 | h1
    · rw [ih h1]
      obtain ⟨d, hd⟩ : ∃ d, n = i + 1 + d := ⟨n - (i + 1), by omega⟩
      have h2 : limb a n * 2 ^ (64 * n) = 2 ^ (64 * i) * (WORD * (limb a n * 2 ^ (64 * d))) := by
        rw [hd, WORD_eq]
        have : 64 * (i + 1 + d) = 64 * i + (64 + 64 * d) := by ring
        rw [this, pow_add, pow_add]; ring
      rw [h2, Nat.add_mul_div_left _ _ (Nat.two_pow_pos _), Nat.add_mul_mod_self_left]
    · subst h1
      have h3 := coordVal_lt a i h
      rw [Nat.add_mul_div_right _ _ (Nat.two_pow_pos _), Nat.div_eq_of_lt h3, Nat.zero_add,
        Nat.mod_eq_of_lt (h i)]

theorem coord_ext (a b : coord) (n : Nat) (ha : a.length = n) (hb : b.length = n)
    (h : ∀ i, i < n → limb a i = limb b i) : a = b := by
  apply List.ext_getElem (by rw [ha, hb])
  intro i h1 h2
  have := h i (by omega)
  simp only [limb, List.getD_eq_getElem?_getD, List.getElem?_eq_getElem h1,
    List.getElem?_eq_getElem h2, Option.getD_some] at this
  exact this

theorem coordWF_eq_toCoord (a : coord) (n : Nat) (h : coordWF a n) :
    a = toCoord (coordVal a n) n := by
  apply coord_ext a _ n h.1 (toCoord_length _ _)
  intro i hi
  rw [limb_toCoord, if_pos hi]
  exact limb_eq_of_coordVal a n h.2 i hi

theorem coordVal_inj (a b : coord) (n : Nat) (ha : coordWF a n) (hb : coordWF b n)
    (h : coordVal a n = coordVal b n) : a = b := by
  rw [coordWF_eq_toCoord a n ha, coordWF_eq_toCoord b n hb, h]

/-! ## The carry and borrow loops -/

theorem cbool_lor (a b : Bool) : cbool a ||| cbool b = cbool (a || b) := by
  cases a <;> cases b <;> decide

theorem cbool_land (a b : Bool) : cbool a &&& cbool b = cbool (a && b) := by
  cases a <;> cases b <;> decide

theorem cbool_ne_zero (a : Bool) : (cbool a ≠ 0) ↔ a = true := by
  cases a <;> simp [cbool]

theorem cbool_eq_zero (a : Bool) : (cbool a = 0) ↔ a = false := by
  cases a <;> simp [cbool]

theorem cbool_eq_one (a : Bool) : (cbool a = 1) ↔ a = true := by
  cases a <;> simp [cbool]

theorem pow_succ_limb (n : Nat) : 2 ^ (64 * (n + 1)) = WORD * 2 ^ (64 * n) := by
  rw [WORD_eq, ← pow_add]; congr 1; omega

theorem add_limb_step (xn yn r : Nat) (hx : xn < WORD) (hy : yn < WORD) (hr : r ≤ 1) :
    (((yn + r) % WORD + xn) % WORD < WORD) ∧
    (cbool ((yn + r) % WORD < yn) ||| cbool (((yn + r) % WORD + xn) % WORD < xn)) ≤ 1 ∧
    ((yn + r) % WORD + xn) % WORD +
      (cbool ((yn + r) % WORD < yn) ||| cbool (((yn + r) % WORD + xn) % WORD < xn)) * WORD
      = xn + yn + r := by
  rw [cbool_lor]
  refine ⟨Nat.mod_lt _ WORD_pos, cbool_le_one _, ?_⟩
  unfold WORD at *
  unfold cbool
  split <;> rename_i h <;> simp at h <;> omega

theorem sub_limb_step (xn yn r : Nat) (hx : xn < WORD) (hy : yn < WORD) (hr : r ≤ 1) :
    (((xn + WORD - r) % WORD + WORD - yn) % WORD < WORD) ∧
    (cbool ((xn + WORD - r) % WORD > xn) |||
      cbool (((xn + WORD - r) % WORD + WORD - yn) % WORD > (xn + WORD - r) % WORD)) ≤ 1 ∧
    ((xn + WORD - r) % WORD + WORD - yn) % WORD + yn + r
      = xn + (cbool ((xn + WORD - r) % WORD > xn) |||
      cbool (((xn + WORD - r) % WORD + WORD - yn) % WORD > (xn + WORD - r) % WORD)) * WORD := by
  rw [cbool_lor]
  refine ⟨Nat.mod_lt _ WORD_pos, cbool_le_one _, ?_⟩
  unfold WORD at *
  unfold cbool
  split <;> rename_i h <;> simp at h <;> omega

theorem addLoop_spec (x y : coord) (n : Nat) (hx : ∀ i, limb x i < WORD)
    (hy : ∀ i, limb y i < WORD) :
    coordWF (addLoop x y n).1 n ∧ (addLoop x y n).2 ≤ 1 ∧
    coordVal (addLoop x y n).1 n + (addLoop x y n).2 * 2 ^ (64 * n)
      = coordVal x n + coordVal y n := by
  induction n with
  | zero => exact ⟨coordWF_nil, by simp [addLoop], by simp [addLoop, coordVal]⟩
  | succ n ih =>
    obtain ⟨hwf, hr, hv⟩ := ih
    obtain ⟨h1, h2, h3⟩ := add_limb_step (limb x n) (limb y n) (addLoop x y n).2 (hx n) (hy n) hr
    simp only [addLoop]
    refine ⟨coordWF_snoc _ _ _ hwf h1, h2, ?_⟩
    have hl := hwf.1
    have h4 := coordVal_snoc (addLoop x y n).1
      (((limb y n + (addLoop x y n).2) % WORD + limb x n) % WORD)
    rw [hl] at h4
    rw [h4, pow_succ_limb]
    simp only [coordVal]
    generalize ((limb y n + (addLoop x y n).2) % WORD + limb x n) % WORD = t at *
    generalize (cbool ((limb y n + (addLoop x y n).2) % WORD < limb y n) ||| cbool (t < limb x n)) = r2 at *
    have h5 : (t + r2 * WORD) * 2 ^ (64 * n) =
        (limb x n + limb y n + (addLoop x y n).2) * 2 ^ (64 * n) := by rw [h3]
    nlinarith [h5, hv]

theorem subLoop_spec (x y : coord) (n : Nat) (hx : ∀ i, limb x i < WORD)
    (hy : ∀ i, limb y i < WORD) :
    coordWF (subLoop x y n).1 n ∧ (subLoop x y n).2 ≤ 1 ∧
    coordVal (subLoop x y n).1 n + coordVal y n
      = coordVal x n + (subLoop x y n).2 * 2 ^ (64 * n) := by
  induction n with
  | zero => exact ⟨coordWF_nil, by simp [subLoop], by simp [subLoop, coordVal]⟩
  | succ n ih =>
    obtain ⟨hwf, hr, hv⟩ := ih
    obtain ⟨h1, h2, h3⟩ := sub_limb_step (limb x n) (limb y n) (subLoop x y n).2 (hx n) (hy n) hr
    simp only [subLoop]
    refine ⟨coordWF_snoc _ _ _ hwf h1, h2, ?_⟩
    have hl := hwf.1
    have h4 := coordVal_snoc (subLoop x y n).1
      (((limb x n + WORD - (subLoop x y n).2) % WORD + WORD - limb y n) % WORD)
    rw [hl] at h4
    rw [h4, pow_succ_limb]
    simp only [coordVal]
    generalize ((limb x n + WORD - (subLoop x y n).2) % WORD + WORD - limb y n) % WORD = t at *
    generalize (cbool ((limb x n + WORD - (subLoop x y n).2) % WORD > limb x n) |||
      cbool (t > (limb x n + WORD - (subLoop x y n).2) % WORD)) = r2 at *
    have h5 : (t + limb y n + (subLoop x y n).2) * 2 ^ (64 * n) =
        (limb x n + r2 * WORD) * 2 ^ (64 * n) := by rw [h3]
    nlinarith [h5, hv]

/-! ## Comparison -/

theorem coordCmpLoop_gt (a b : coord) (i : Nat) : coordCmpLoop a b i (0, 1, 0) = (0, 1, 0) := by
  induction i with
  | zero => rfl
  | succ i ih =>
    rw [coordCmpLoop]
    by_cases hg : limb a i > limb b i <;> simp [cbool, hg, ih]

theorem coordCmpLoop_lt (a b : coord) (i : Nat) : coordCmpLoop a b i (0, 0, 1) = (0, 0, 1) := by
  induction i with
  | zero => rfl
  | succ i ih =>
    rw [coordCmpLoop]
    by_cases hl : limb a i < limb b i <;> simp [cbool, hl, ih]

theorem coordCmpLoop_step (a b : coord) (i : Nat) :
    coordCmpLoop a b (i + 1) (1, 0, 0) =
      if limb a i = limb b i then coordCmpLoop a b i (1, 0, 0)
      else if limb a i > limb b i then (0, 1, 0) else (0, 0, 1) := by
  rw [coordCmpLoop]
  by_cases h : limb a i = limb b i
  · simp [cbool, h]
  · by_cases hg : limb a i > limb b i
    · have hl : ¬ limb a i < limb b i := by omega
      simp [cbool, h, hg, hl, coordCmpLoop_gt]
    · have hl : limb a i < limb b i := by omega
      simp [cbool, h, hg, hl, coordCmpLoop_lt]

theorem coordCmpLoop_spec (a b : coord) (n : Nat) (ha : ∀ i, limb a i < WORD)
    (hb : ∀ i, limb b i < WORD) :
    coordCmpLoop a b n (1, 0, 0) =
      if coordVal a n > coordVal b n then (0, 1, 0)
      else if coordVal a n = coordVal b n then (1, 0, 0) else (0, 0, 1) := by
  induction n with
  | zero => simp [coordCmpLoop, coordVal]
  | succ n ih =>
    rw [coordCmpLoop_step, ih]
    simp only [coordVal]
    have h1 := coordVal_lt a n ha
    have h2 := coordVal_lt b n hb
    by_cases h : limb a n = limb b n
    · rw [if_pos h]
      have e : limb a n * 2 ^ (64 * n) = limb b n * 2 ^ (64 * n) := by rw [h]
      split_ifs <;> first | rfl | omega
    · rw [if_neg h]
      by_cases hg : limb a n > limb b n
      · rw [if_pos hg]
        have h5 : (limb b n + 1) * 2 ^ (64 * n) ≤ limb a n * 2 ^ (64 * n) :=
          Nat.mul_le_mul_right _ hg
        have h6 : (limb b n + 1) * 2 ^ (64 * n) = limb b n * 2 ^ (64 * n) + 2 ^ (64 * n) := by
          ring
        rw [if_pos (by omega)]
      · rw [if_neg hg]
        have hl : limb a n < limb b n := by omega
        have h5 : (limb a n + 1) * 2 ^ (64 * n) ≤ limb b n * 2 ^ (64 * n) :=
          Nat.mul_le_mul_right _ hl
        have h6 : (limb a n + 1) * 2 ^ (64 * n) = limb a n * 2 ^ (64 * n) + 2 ^ (64 * n) := by
          ring
        rw [if_neg (by omega), if_neg (by omega)]

theorem coordCmp_spec (a b : coord) (n : Nat) (ha : ∀ i, limb a i < WORD)
    (hb : ∀ i, limb b i < WORD) :
    coordCmp a b n =
      if coordVal a n > coordVal b n then 1
      else if coordVal a n = coordVal b n then 0 else -1 := by
  unfold coordCmp
  rw [coordCmpLoop_spec a b n ha hb]
  split
  · rfl
  · split <;> rfl

theorem coordCmp_ne_neg_one (a b : coord) (n : Nat) (ha : ∀ i, limb a i < WORD)
    (hb : ∀ i, limb b i < WORD) :
    coordCmp a b n ≠ -1 ↔ coordVal b n ≤ coordVal a n := by
  rw [coordCmp_spec a b n ha hb]
  split
  · simp; omega
  · split
    · simp; omega
    · simp; omega

theorem coordCmp_eq_zero (a b : coord) (n : Nat) (ha : ∀ i, limb a i < WORD)
    (hb : ∀ i, limb b i < WORD) :
    coordCmp a b n = 0 ↔ coordVal a n = coordVal b n := by
  rw [coordCmp_spec a b n ha hb]
  split
  · simp; omega
  · split
    · simp; assumption
    · simp; assumption

theorem coordCmp_eq_one (a b : coord) (n : Nat) (ha : ∀ i, limb a i < WORD)
    (hb : ∀ i, limb b i < WORD) :
    coordCmp a b n = 1 ↔ coordVal b n < coordVal a n := by
  rw [coordCmp_spec a b n ha hb]
  split
  · simp; assumption
  · split
    · simp; omega
    · simp; omega

/-! ## Modular addition, subtraction and doubling -/

theorem mod_of_lt_two_mul (x p : Nat) (h : x < 2 * p) :
    x % p = if p ≤ x then x - p else x := by
  split
  · rename_i h1
    rw [Nat.mod_eq_sub_mod h1, Nat.mod_eq_of_lt (by omega)]
  · rename_i h1
    exact Nat.mod_eq_of_lt (by omega)

theorem le_one_cases (r : Nat) (h : r ≤ 1) : r = 0 ∨ r = 1 := by omega

theorem coordAdd_spec (a b p : coord) (n : Nat) (ha : coordWF a n) (hb : coordWF b n)
    (hp : coordWF p n) (hap : coordVal a n < coordVal p n) (hbp : coordVal b n < coordVal p n) :
    coordWF (coordAdd a b p n) n ∧
    coordVal (coordAdd a b p n) n = (coordVal a n + coordVal b n) % coordVal p n := by
  obtain ⟨cwf, hr, hv⟩ := addLoop_spec a b n ha.2 hb.2
  obtain ⟨dwf, hr2, hv2⟩ := subLoop_spec (addLoop a b n).1 p n cwf.2 hp.2
  have hcmp := coordCmp_ne_neg_one (addLoop a b n).1 p n cwf.2 hp.2
  have hc := coordVal_lt (addLoop a b n).1 n cwf.2
  have hd := coordVal_lt (subLoop (addLoop a b n).1 p n).1 n dwf.2
  have hpB := coordVal_lt p n hp.2
  rw [mod_of_lt_two_mul _ _ (by omega)]
  unfold coordAdd
  simp only []
  generalize 2 ^ (64 * n) = B at *
  split
  · rename_i h
    rw [cbool_lor, cbool_ne_zero] at h
    simp only [Bool.or_eq_true, decide_eq_true_eq] at h
    refine ⟨dwf, ?_⟩
    rcases le_one_cases _ hr with h0 | h1
    · rw [h0] at hv
      have h3 : coordVal p n ≤ coordVal (addLoop a b n).1 n := by
        rcases h with h | h
        · omega
        · exact hcmp.mp h
      rcases le_one_cases _ hr2 with h4 | h4
      · rw [h4] at hv2
        rw [if_pos (by omega)]; omega
      · rw [h4] at hv2
        omega
    · rw [h1] at hv
      rcases le_one_cases _ hr2 with h4 | h4
      · rw [h4] at hv2
        omega
      · rw [h4] at hv2
        rw [if_pos (by omega)]; omega
  · rename_i h
    rw [cbool_lor, cbool_ne_zero] at h
    simp only [Bool.or_eq_true, decide_eq_true_eq, not_or] at h
    refine ⟨cwf, ?_⟩
    have h0 : (addLoop a b n).2 = 0 := by omega
    rw [h0] at hv
    have h3 : ¬ coordVal p n ≤ coordVal (addLoop a b n).1 n := fun h4 => h.2 (hcmp.mpr h4)
    rw [if_neg (by omega)]; omega

theorem coordSub_raw (a b p : coord) (n : Nat) (ha : coordWF a n) (hb : coordWF b n)
    (hp : coordWF p n) :
    coordWF (coordSub a b p n) n ∧
    (coordVal b n ≤ coordVal a n → coordVal (coordSub a b p n) n = coordVal a n - coordVal b n) ∧
    (coordVal a n < coordVal b n → coordVal b n ≤ coordVal a n + coordVal p n →
      coordVal (coordSub a b p n) n = coordVal a n + coordVal p n - coordVal b n) := by
  obtain ⟨cwf, hr, hv⟩ := subLoop_spec a b n ha.2 hb.2
  obtain ⟨dwf, hr2, hv2⟩ := addLoop_spec (subLoop a b n).1 p n cwf.2 hp.2
  have hc := coordVal_lt (subLoop a b n).1 n cwf.2
  have hd := coordVal_lt (addLoop (subLoop a b n).1 p n).1 n dwf.2
  have hpB := coordVal_lt p n hp.2
  have haB := coordVal_lt a n ha.2
  have hbB := coordVal_lt b n hb.2
  unfold coordSub
  simp only []
  generalize 2 ^ (64 * n) = B at *
  split
  · rename_i h
    rw [h] at hv
    refine ⟨dwf, fun h1 => by omega, fun h1 h2 => ?_⟩
    rcases le_one_cases _ hr2 with h4 | h4
    · rw [h4] at hv2; omega
    · rw [h4] at hv2; omega
  · rename_i h
    have h0 : (subLoop a b n).2 = 0 := by omega
    rw [h0] at hv
    exact ⟨cwf, fun h1 => by omega, fun h1 h2 => by omega⟩

theorem coordSub_spec (a b p : coord) (n : Nat) (ha : coordWF a n) (hb : coordWF b n)
    (hp : coordWF p n) (hap : coordVal a n < coordVal p n) (hbp : coordVal b n < coordVal p n) :
    coordWF (coordSub a b p n) n ∧
    coordVal (coordSub a b p n) n = (coordVal a n + coordVal p n - coordVal b n) % coordVal p n := by
  obtain ⟨h1, h2, h3⟩ := coordSub_raw a b p n ha hb hp
  refine ⟨h1, ?_⟩
  rw [mod_of_lt_two_mul _ _ (by omega)]
  by_cases h : coordVal b n ≤ coordVal a n
  · rw [h2 h, if_pos (by omega)]; omega
  · rw [h3 (by omega) (by omega), if_neg (by omega)]

theorem limb_shiftLeft1 (b : coord) (n i : Nat) (hi : i < n) :
    limb (shiftLeft1 b n) i =
      if i = 0 then (limb b 0 <<< 1) % WORD
      else ((limb b i <<< 1) % WORD) ||| (limb b (i - 1) >>> 63) := by
  unfold shiftLeft1
  conv => lhs; unfold limb
  rw [List.getD_eq_getElem?_getD]
  simp [hi, limb, List.getD_eq_getElem?_getD]

theorem shift_limb (x y : Nat) (hy : y < WORD) :
    ((x <<< 1) % WORD) ||| (y >>> 63) = (2 * x) % WORD + y / 2 ^ 63 := by
  rw [Nat.shiftLeft_eq, Nat.shiftRight_eq_div_pow]
  have h1 : y / 2 ^ 63 < 2 ^ 1 := by unfold WORD at hy; omega
  have h2 : (x * 2 ^ 1) % WORD = 2 ^ 1 * ((x * 2 ^ 1) % WORD / 2) := by unfold WORD; omega
  rw [h2, ← Nat.mul_add_lt_is_or h1]
  unfold WORD; omega

theorem shiftLeft1_wf (b : coord) (n : Nat) (hb : ∀ i, limb b i < WORD) :
    coordWF (shiftLeft1 b n) n := by
  refine ⟨by simp [shiftLeft1], fun i => ?_⟩
  by_cases hi : i < n
  · rw [limb_shiftLeft1 b n i hi]
    split
    · exact Nat.mod_lt _ WORD_pos
    · rw [shift_limb _ _ (hb _)]
      have := hb (i - 1)
      unfold WORD at *; omega
  · rw [limb_of_length_le _ _ (by simp [shiftLeft1]; omega)]; exact WORD_pos

theorem shiftLeft1_val_aux (b : coord) (n : Nat) (hb : ∀ i, limb b i < WORD) (m : Nat)
    (hm : m ≤ n) :
    coordVal (shiftLeft1 b n) m + (if m = 0 then 0 else limb b (m - 1) / 2 ^ 63) * 2 ^ (64 * m)
      = 2 * coordVal b m := by
  induction m with
  | zero => simp [coordVal]
  | succ m ih =>
    have ih2 := ih (by omega)
    have e : (if m + 1 = 0 then 0 else limb b (m + 1 - 1) / 2 ^ 63) = limb b m / 2 ^ 63 := by
      simp
    rw [e]
    simp only [coordVal]
    rw [limb_shiftLeft1 b n m (by omega), pow_succ_limb]
    have hbm := hb m
    have h3 : 2 * limb b m = (2 * limb b m) % WORD + WORD * (limb b m / 2 ^ 63) := by
      unfold WORD at *; omega
    by_cases h0 : m = 0
    · subst h0
      simp only [if_true, coordVal, Nat.mul_zero, pow_zero, Nat.mul_one, Nat.zero_add]
      rw [Nat.shiftLeft_eq]
      unfold WORD at *; omega
    · rw [if_neg h0] at ih2 ⊢
      rw [shift_limb _ _ (hb _)]
      generalize 2 ^ (64 * m) = B at *
      generalize coordVal (shiftLeft1 b n) m = s at *
      generalize limb b (m - 1) / 2 ^ 63 = c at *
      generalize (2 * limb b m) % WORD = lo at *
      generalize limb b m / 2 ^ 63 = hi at *
      have h4 : 2 * limb b m * B = (lo + WORD * hi) * B := by rw [← h3]
      nlinarith [h4, ih2]

theorem shiftLeft1_val (b : coord) (n : Nat) (hn : 0 < n) (hb : ∀ i, limb b i < WORD) :
    coordVal (shiftLeft1 b n) n + (limb b (n - 1) >>> 63) * 2 ^ (64 * n)
      = 2 * coordVal b n := by
  have h := shiftLeft1_val_aux b n hb n (Nat.le_refl n)
  rw [if_neg (by omega)] at h
  rw [Nat.shiftRight_eq_div_pow]
  exact h

theorem coordDouble_spec (b p : coord) (n : Nat) (hb : coordWF b n)
    (hp : coordWF p n) (hbp : coordVal b n < coordVal p n) :
    coordWF (coordDouble b p n) n ∧
    coordVal (coordDouble b p n) n = (2 * coordVal b n) % coordVal p n := by
  have hn : 0 < n := by
    rcases Nat.eq_zero_or_pos n with h | h
    · subst h; simp [coordVal] at hbp
    · exact h
  have cwf := shiftLeft1_wf b n hb.2
  have hv := shiftLeft1_val b n hn hb.2
  have hr : limb b (n - 1) >>> 63 ≤ 1 := by
    rw [Nat.shiftRight_eq_div_pow]
    have := hb.2 (n - 1)
    unfold WORD at this; omega
  obtain ⟨dwf, hr2, hv2⟩ := subLoop_spec (shiftLeft1 b n) p n cwf.2 hp.2
  have hcmp := coordCmp_ne_neg_one (shiftLeft1 b n) p n cwf.2 hp.2
  have hc := coordVal_lt (shiftLeft1 b n) n cwf.2
  have hd := coordVal_lt (subLoop (shiftLeft1 b n) p n).1 n dwf.2
  have hpB := coordVal_lt p n hp.2
  rw [mod_of_lt_two_mul _ _ (by omega)]
  unfold coordDouble
  simp only []
  generalize 2 ^ (64 * n) = B at *
  generalize limb b (n - 1) >>> 63 = r at *
  split
  · rename_i h
    rw [cbool_lor, cbool_ne_zero] at h
    simp only [Bool.or_eq_true, decide_eq_true_eq] at h
    refine ⟨dwf, ?_⟩
    rcases le_one_cases _ hr with h0 | h1
    · rw [h0] at hv
      have h3 : coordVal p n ≤ coordVal (shiftLeft1 b n) n := by
        rcases h with h | h
        · omega
        · exact hcmp.mp h
      rcases le_one_cases _ hr2 with h4 | h4
      · rw [h4] at hv2
        rw [if_pos (by omega)]; omega
      · rw [h4] at hv2
        omega
    · rw [h1] at hv
      rcases le_one_cases _ hr2 with h4 | h4
      · rw [h4] at hv2
        omega
      · rw [h4] at hv2
        rw [if_pos (by omega)]; omega
  · rename_i h
    rw [cbool_lor, cbool_ne_zero] at h
    simp only [Bool.or_eq_true, decide_eq_true_eq, not_or] at h
    refine ⟨cwf, ?_⟩
    have h0 : r = 0 := by omega
    rw [h0] at hv
    have h3 : ¬ coordVal p n ≤ coordVal (shiftLeft1 b n) n := fun h4 => h.2 (hcmp.mpr h4)
    rw [if_neg (by omega)]; omega

/-! ## Modular multiplication -/

theorem coordRep_add (p a b : coord) (n x y : Nat) (hp : coordWF p n)
    (ha : coordRep p n a x) (hb : coordRep p n b y) :
    coordRep p n (coordAdd a b p n) (addN x y (coordVal p n)) := by
  obtain ⟨h1, h2, h3⟩ := ha
  obtain ⟨h4, h5, h6⟩ := hb
  subst h2; subst h5
  obtain ⟨h7, h8⟩ := coordAdd_spec a b p n h1 h4 hp h3 h6
  exact ⟨h7, h8, Nat.mod_lt _ (by omega)⟩

theorem coordRep_sub (p a b : coord) (n x y : Nat) (hp : coordWF p n)
    (ha : coordRep p n a x) (hb : coordRep p n b y) :
    coordRep p n (coordSub a b p n) (subN x y (coordVal p n)) := by
  obtain ⟨h1, h2, h3⟩ := ha
  obtain ⟨h4, h5, h6⟩ := hb
  subst h2; subst h5
  obtain ⟨h7, h8⟩ := coordSub_spec a b p n h1 h4 hp h3 h6
  exact ⟨h7, h8, Nat.mod_lt _ (by omega)⟩

theorem coordRep_double (p b : coord) (n y : Nat) (hp : coordWF p n)
    (hb : coordRep p n b y) :
    coordRep p n (coordDouble b p n) (dblN y (coordVal p n)) := by
  obtain ⟨h4, h5, h6⟩ := hb
  subst h5
  obtain ⟨h7, h8⟩ := coordDouble_spec b p n h4 hp h6
  exact ⟨h7, h8, Nat.mod_lt _ (by omega)⟩

theorem coordInit_wf (n : Nat) : coordWF (coordInit n) n := by
  refine ⟨by simp [coordInit], fun i => ?_⟩
  unfold limb coordInit
  rw [List.getD_eq_getElem?_getD]
  by_cases h : i < n
  · simp [h, List.getElem?_replicate]; exact WORD_pos
  · simp [h, List.getElem?_replicate]; exact WORD_pos

theorem limb_coordInit (n i : Nat) : limb (coordInit n) i = 0 := by
  unfold limb coordInit
  rw [List.getD_eq_getElem?_getD]
  by_cases h : i < n <;> simp [h, List.getElem?_replicate]

theorem coordVal_coordInit (n m : Nat) : coordVal (coordInit n) m = 0 := by
  induction m with
  | zero => rfl
  | succ m ih => simp [coordVal, ih, limb_coordInit]

theorem coordRep_init (p : coord) (n : Nat) (h : 0 < coordVal p n) :
    coordRep p n (coordInit n) 0 :=
  ⟨coordInit_wf n, coordVal_coordInit n n, h⟩

theorem coordMulStep_spec (bi j : Nat) (p : coord) (n : Nat) (s : coord × coord) (x z : Nat)
    (hp : coordWF p n) (h1 : coordRep p n s.1 x) (h3 : coordRep p n s.2 z) :
    coordRep p n (coordMulStep bi j p n s).1 (dblN x (coordVal p n)) ∧
    coordRep p n (coordMulStep bi j p n s).2 ((z + (bi / 2 ^ j % 2) * x) % coordVal p n) := by
  unfold coordMulStep
  refine ⟨coordRep_double p s.1 n x hp h1, ?_⟩
  simp only []
  rw [Nat.and_one_is_mod, Nat.shiftRight_eq_div_pow]
  have hb : bi / 2 ^ j % 2 = 0 ∨ bi / 2 ^ j % 2 = 1 := by omega
  rcases hb with hb | hb
  · rw [hb, if_neg (by omega)]
    simp only [Nat.zero_mul, Nat.add_zero]
    rw [Nat.mod_eq_of_lt h3.2.2]
    exact h3
  · rw [hb, if_pos (by omega)]
    simp only [Nat.one_mul]
    exact coordRep_add p s.2 s.1 n z x hp h3 h1

theorem coordMulBits_spec (bi : Nat) (p : coord) (n : Nat) (s : coord × coord) (x z : Nat)
    (hp : coordWF p n) (h1 : coordRep p n s.1 x) (h3 : coordRep p n s.2 z) (j : Nat) :
    coordRep p n (coordMulBits bi p n j s).1 ((x * 2 ^ j) % coordVal p n) ∧
    coordRep p n (coordMulBits bi p n j s).2 ((z + x * (bi % 2 ^ j)) % coordVal p n) := by
  induction j with
  | zero =>
    simp only [coordMulBits, pow_zero, Nat.mul_one, Nat.mod_one, Nat.mul_zero, Nat.add_zero]
    rw [Nat.mod_eq_of_lt h1.2.2, Nat.mod_eq_of_lt h3.2.2]
    exact ⟨h1, h3⟩
  | succ j ih =>
    obtain ⟨i1, i3⟩ := ih
    simp only [coordMulBits]
    obtain ⟨k1, k3⟩ := coordMulStep_spec bi j p n _ _ _ hp i1 i3
    have e1 : dblN ((x * 2 ^ j) % coordVal p n) (coordVal p n) = (x * 2 ^ (j + 1)) % coordVal p n := by
      unfold dblN
      have e0 : 2 * (x * 2 ^ j) = x * 2 ^ (j + 1) := by rw [pow_succ]; ring
      rw [Nat.mul_mod, Nat.mod_mod, ← Nat.mul_mod, e0]
    have e2 : ((z + x * (bi % 2 ^ j)) % coordVal p n +
        (bi / 2 ^ j % 2) * ((x * 2 ^ j) % coordVal p n)) % coordVal p n
        = (z + x * (bi % 2 ^ (j + 1))) % coordVal p n := by
      have e0 : z + x * (bi % 2 ^ (j + 1)) = z + x * (bi % 2 ^ j) + bi / 2 ^ j % 2 * (x * 2 ^ j) := by
        rw [Nat.mod_pow_succ]; ring
      rw [Nat.add_mod, Nat.mod_mod, Nat.mul_mod _ ((x * 2 ^ j) % coordVal p n), Nat.mod_mod,
        ← Nat.mul_mod, ← Nat.add_mod, e0]
    rw [e1] at k1
    rw [e2] at k3
    exact ⟨k1, k3⟩

theorem coordMulLoop_spec (a b p : coord) (n : Nat) (x : Nat) (hp : coordWF p n)
    (ha : coordRep p n a x) (hb : ∀ i, limb b i < WORD) (i : Nat) :
    coordRep p n (coordMulLoop a b p n i).1 ((x * 2 ^ (64 * i)) % coordVal p n) ∧
    coordRep p n (coordMulLoop a b p n i).2 ((x * coordVal b i) % coordVal p n) := by
  induction i with
  | zero =>
    simp only [coordMulLoop, Nat.mul_zero, pow_zero, Nat.mul_one, coordVal, Nat.zero_mod]
    rw [Nat.mod_eq_of_lt ha.2.2]
    exact ⟨ha, coordRep_init p n (by have := ha.2.2; omega)⟩
  | succ i ih =>
    obtain ⟨i1, i3⟩ := ih
    simp only [coordMulLoop]
    obtain ⟨k1, k3⟩ := coordMulBits_spec (limb b i) p n _ _ _ hp i1 i3 64
    have hbi := hb i
    rw [WORD_eq] at hbi
    rw [Nat.mod_eq_of_lt hbi] at k3
    have e1 : ((x * 2 ^ (64 * i)) % coordVal p n * 2 ^ 64) % coordVal p n
        = (x * 2 ^ (64 * (i + 1))) % coordVal p n := by
      rw [Nat.mul_mod, Nat.mod_mod, ← Nat.mul_mod]
      have e0 : x * 2 ^ (64 * i) * 2 ^ 64 = x * 2 ^ (64 * (i + 1)) := by
        rw [Nat.mul_assoc, ← pow_add, Nat.mul_succ]
      rw [e0]
    have e2 : ((x * coordVal b i) % coordVal p n +
        (x * 2 ^ (64 * i)) % coordVal p n * limb b i) % coordVal p n
        = (x * coordVal b (i + 1)) % coordVal p n := by
      have e0 : x * coordVal b (i + 1) = x * coordVal b i + x * 2 ^ (64 * i) * limb b i := by
        simp only [coordVal]; ring
      rw [Nat.add_mod, Nat.mod_mod, Nat.mul_mod ((x * 2 ^ (64 * i)) % coordVal p n), Nat.mod_mod,
        ← Nat.mul_mod, ← Nat.add_mod, e0]
    rw [e1] at k1
    rw [e2] at k3
    exact ⟨k1, k3⟩

theorem coordRep_mul (p a b : coord) (n x y : Nat) (hp : coordWF p n)
    (ha : coordRep p n a x) (hb : coordRep p n b y) :
    coordRep p n (coordMul a b p n) (mulN x y (coordVal p n)) := by
  have h := (coordMulLoop_spec a b p n x hp ha hb.1.2 n).2
  rw [hb.2.1] at h
  exact h

/-- Function `coordMul` on reduced operands: the product modulo p. -/
theorem coordMul_spec (a b p : coord) (n : Nat) (ha : coordWF a n) (hb : coordWF b n)
    (hp : coordWF p n) (hap : coordVal a n < coordVal p n) (hbp : coordVal b n < coordVal p n) :
    coordWF (coordMul a b p n) n ∧
    coordVal (coordMul a b p n) n = (coordVal a n * coordVal b n) % coordVal p n := by
  have h := coordRep_mul p a b n _ _ hp ⟨ha, rfl, hap⟩ ⟨hb, rfl, hbp⟩
  exact ⟨h.1, h.2.1⟩

/-! ## Bits and inversion -/

theorem coordGetBit_spec (k : coord) (n j : Nat) (hk : coordWF k n) :
    coordGetBit k j = coordVal k n / 2 ^ j % 2 := by
  unfold coordGetBit
  have h63 : j &&& 63 = j % 64 := Nat.and_pow_two_sub_one_eq_mod j 6
  rw [h63, Nat.and_one_is_mod, Nat.shiftRight_eq_div_pow]
  have hj : j = 64 * (j / 64) + j % 64 := (Nat.div_add_mod j 64).symm
  have hr : j % 64 < 64 := Nat.mod_lt _ (by decide)
  by_cases hq : j / 64 < n
  · rw [limb_eq_of_coordVal k n hk.2 (j / 64) hq, WORD_eq]
    have e1 : (2 : Nat) ^ 64 = 2 ^ (j % 64) * 2 ^ (64 - j % 64) := by
      rw [← pow_add]; congr 1; omega
    rw [e1, Nat.mod_mul_right_div_self, Nat.div_div_eq_div_mul, ← pow_add, ← hj]
    have e2 : (2 : Nat) ∣ 2 ^ (64 - j % 64) := by
      have : 64 - j % 64 = (64 - j % 64 - 1) + 1 := by omega
      rw [this, pow_succ]
      exact Nat.dvd_mul_left _ _
    exact Nat.mod_mod_of_dvd _ e2
  · rw [limb_of_length_le k _ (by rw [hk.1]; omega)]
    have h1 := coordVal_lt k n hk.2
    have h2 : 2 ^ (64 * n) ≤ 2 ^ j := Nat.pow_le_pow_right (by decide) (by omega)
    have h3 : coordVal k n / 2 ^ j = 0 := Nat.div_eq_of_lt (by omega)
    rw [h3]
    simp [Nat.zero_div]

theorem limb_set_zero (n c i : Nat) :
    limb ((coordInit n).set 0 c) i = if i = 0 ∧ 0 < n then c else 0 := by
  unfold limb coordInit
  rw [List.getD_eq_getElem?_getD]
  rcases Nat.eq_zero_or_pos n with hn | hn
  · subst hn; simp
  · rcases Nat.eq_zero_or_pos i with hi | hi
    · subst hi
      simp [List.getElem?_set, hn]
    · have : ¬ (i = 0 ∧ 0 < n) := by omega
      rw [if_neg this, List.getElem?_set_ne (by omega)]
      by_cases h : i < n <;> simp [h, List.getElem?_replicate]

theorem coordVal_set_zero (n c m : Nat) (hn : 0 < n) (hm : 0 < m) :
    coordVal ((coordInit n).set 0 c) m = c := by
  induction m with
  | zero => omega
  | succ m ih =>
    simp only [coordVal, limb_set_zero]
    rcases Nat.eq_zero_or_pos m with h | h
    · subst h; simp [coordVal, hn]
    · rw [ih h, if_neg (by omega)]; simp

theorem coordWF_set_zero (n c : Nat) (hc : c < WORD) : coordWF ((coordInit n).set 0 c) n := by
  refine ⟨by simp [coordInit], fun i => ?_⟩
  rw [limb_set_zero]
  split
  · exact hc
  · exact WORD_pos

theorem coordVal_pos_nwords (p : coord) (n : Nat) (h : 0 < coordVal p n) : 0 < n := by
  rcases Nat.eq_zero_or_pos n with h1 | h1
  · subst h1; simp [coordVal] at h
  · exact h1

theorem coordInvMLStep_rep (b : Nat) (p : coord) (n : Nat) (s : coord × coord) (v : Nat × Nat)
    (hp : coordWF p n) (h1 : coordRep p n s.1 v.1) (h2 : coordRep p n s.2 v.2) :
    coordRep p n (coordInvMLStep b p n s).1 (coordInvMLStepN b (coordVal p n) v).1 ∧
    coordRep p n (coordInvMLStep b p n s).2 (coordInvMLStepN b (coordVal p n) v).2 := by
  unfold coordInvMLStep coordInvMLStepN
  by_cases hb : b = 0
  · rw [if_pos hb, if_pos hb]
    exact ⟨coordRep_mul p _ _ n _ _ hp h1 h1, coordRep_mul p _ _ n _ _ hp h1 h2⟩
  · rw [if_neg hb, if_neg hb]
    exact ⟨coordRep_mul p _ _ n _ _ hp h1 h2, coordRep_mul p _ _ n _ _ hp h2 h2⟩

theorem coordInvMLLoop_rep (k p : coord) (n nk : Nat) (hp : coordWF p n) (hk : coordWF k n)
    (i : Nat) (s : coord × coord) (v : Nat × Nat)
    (h1 : coordRep p n s.1 v.1) (h2 : coordRep p n s.2 v.2) :
    coordRep p n (coordInvMLLoop k p n nk i s).1
      (coordInvMLLoopN (coordVal k n) (coordVal p n) nk i v).1 ∧
    coordRep p n (coordInvMLLoop k p n nk i s).2
      (coordInvMLLoopN (coordVal k n) (coordVal p n) nk i v).2 := by
  induction i generalizing s v with
  | zero => exact ⟨h1, h2⟩
  | succ i ih =>
    simp only [coordInvMLLoop, coordInvMLLoopN]
    by_cases h : i < nk
    · rw [if_pos h, if_pos h, coordGetBit_spec k n i hk]
      obtain ⟨g1, g2⟩ := coordInvMLStep_rep (coordVal k n / 2 ^ i % 2) p n s v hp h1 h2
      exact ih _ _ g1 g2
    · rw [if_neg h, if_neg h]
      exact ih _ _ h1 h2

theorem coordInvML_k (p : coord) (n : Nat) (hp : coordWF p n) (h2 : 2 ≤ coordVal p n) :
    coordSub p ((coordInit n).set 0 2) p n = toCoord (coordVal p n - 2) n := by
  have hn := coordVal_pos_nwords p n (by omega)
  have hw := coordWF_set_zero n 2 (by decide)
  have hv := coordVal_set_zero n 2 n hn hn
  obtain ⟨g1, g2, _⟩ := coordSub_raw p _ p n hp hw hp
  rw [hv] at g2
  rw [coordWF_eq_toCoord _ n g1, g2 h2]

theorem coordInvML_rep (a p : coord) (n x : Nat) (hp : coordWF p n) (h2 : 2 ≤ coordVal p n)
    (ha : coordRep p n a x) :
    coordRep p n (coordInvML a p n)
      (coordInvMLN (coordMaxBit p n) (coordMaxBit (toCoord (coordVal p n - 2) n) n) x
        (coordVal p n)) := by
  have hn := coordVal_pos_nwords p n (by omega)
  unfold coordInvML coordInvMLN
  simp only []
  rw [coordInvML_k p n hp h2]
  have hpB := coordVal_lt p n hp.2
  have h1 : coordRep p n ((coordInit n).set 0 1) 1 :=
    ⟨coordWF_set_zero n 1 (by decide), coordVal_set_zero n 1 n hn hn, by omega⟩
  have h := (coordInvMLLoop_rep (toCoord (coordVal p n - 2) n) p n
    (coordMaxBit (toCoord (coordVal p n - 2) n) n) hp (coordWF_toCoord _ _)
    (coordMaxBit p n) ((coordInit n).set 0 1, a) (1, x) h1 ha).1
  rw [coordVal_toCoord_of_lt _ _ (by omega)] at h
  exact h

/-! ## The curve arithmetic computes on values -/

set_option maxRecDepth 100000 in
theorem doubleU_rep (P : pointP) (a p : coord) (n : Nat) (v : Nat × Nat) (va : Nat)
    (hp : coordWF p n) (ha : coordRep p n a va)
    (hx : coordRep p n P.pX v.1) (hy : coordRep p n P.pY v.2) :
    pointPRep p n (doubleU P a p n).1 (doubleUN v va (coordVal p n)).1 ∧
    pointPRep p n (doubleU P a p n).2 (doubleUN v va (coordVal p n)).2 := by
  unfold doubleU doubleUN pointPRep
  simp only []
  refine ⟨⟨?_, ?_, ?_⟩, ⟨?_, ?_, ?_⟩⟩ <;>
    repeat (first
      | assumption
      | apply coordRep_mul
      | apply coordRep_add
      | apply coordRep_sub
      | apply coordRep_double)

set_option maxRecDepth 100000 in
theorem zAddC_rep (P Q : pointP) (p : coord) (n : Nat) (vP vQ : Nat × Nat × Nat)
    (hp : coordWF p n) (hP : pointPRep p n P vP) (hQ : pointPRep p n Q vQ) :
    pointPRep p n (zAddC P Q p n).1 (zAddCN vP vQ (coordVal p n)).1 ∧
    pointPRep p n (zAddC P Q p n).2 (zAddCN vP vQ (coordVal p n)).2 := by
  obtain ⟨h1, h2, h3⟩ := hP
  obtain ⟨h4, h5, _⟩ := hQ
  unfold zAddC zAddCN pointPRep
  simp only []
  refine ⟨⟨?_, ?_, ?_⟩, ⟨?_, ?_, ?_⟩⟩ <;>
    repeat (first
      | assumption
      | apply coordRep_mul
      | apply coordRep_add
      | apply coordRep_sub
      | apply coordRep_double)

theorem zAddU_rep (P Q : pointP) (p : coord) (n : Nat) (vP vQ : Nat × Nat × Nat)
    (hp : coordWF p n) (hP : pointPRep p n P vP) (hQ : pointPRep p n Q vQ) :
    pointPRep p n (zAddU P Q p n).1 (zAddUN vP vQ (coordVal p n)).1 ∧
    pointPRep p n (zAddU P Q p n).2 (zAddUN vP vQ (coordVal p n)).2 := by
  obtain ⟨h1, h2, h3⟩ := hP
  obtain ⟨h4, h5, _⟩ := hQ
  unfold zAddU zAddUN pointPRep
  simp only []
  refine ⟨⟨?_, ?_, ?_⟩, ⟨?_, ?_, ?_⟩⟩ <;>
    repeat (first
      | assumption
      | apply coordRep_mul
      | apply coordRep_add
      | apply coordRep_sub
      | apply coordRep_double)

theorem scalarMultStep_rep (b : Nat) (p : coord) (n : Nat) (s : pointP × pointP)
    (v : (Nat × Nat × Nat) × (Nat × Nat × Nat)) (hp : coordWF p n)
    (h0 : pointPRep p n s.1 v.1) (h1 : pointPRep p n s.2 v.2) :
    pointPRep p n (scalarMultStep b p n s).1 (scalarMultStepN b (coordVal p n) v).1 ∧
    pointPRep p n (scalarMultStep b p n s).2 (scalarMultStepN b (coordVal p n) v).2 := by
  unfold scalarMultStep scalarMultStepN
  by_cases hb : b = 0
  · rw [if_pos hb, if_pos hb]
    obtain ⟨c1, c2⟩ := zAddC_rep s.1 s.2 p n v.1 v.2 hp h0 h1
    exact zAddU_rep _ _ p n _ _ hp c1 c2
  · rw [if_neg hb, if_neg hb]
    obtain ⟨c1, c2⟩ := zAddC_rep s.2 s.1 p n v.2 v.1 hp h1 h0
    obtain ⟨u1, u2⟩ := zAddU_rep _ _ p n _ _ hp c1 c2
    exact ⟨u2, u1⟩

theorem scalarMultLoop_rep (k p : coord) (n nk : Nat) (hp : coordWF p n) (hk : coordWF k n)
    (i : Nat) (s : pointP × pointP) (v : (Nat × Nat × Nat) × (Nat × Nat × Nat))
    (h0 : pointPRep p n s.1 v.1) (h1 : pointPRep p n s.2 v.2) :
    pointPRep p n (scalarMultLoop k p n nk i s).1
      (scalarMultLoopN (coordVal k n) (coordVal p n) nk i v).1 ∧
    pointPRep p n (scalarMultLoop k p n nk i s).2
      (scalarMultLoopN (coordVal k n) (coordVal p n) nk i v).2 := by
  induction i generalizing s v with
  | zero => exact ⟨h0, h1⟩
  | succ i ih =>
    simp only [scalarMultLoop, scalarMultLoopN]
    by_cases h : i + 1 < nk
    · rw [if_pos h, if_pos h, coordGetBit_spec k n i hk]
      obtain ⟨g1, g2⟩ := scalarMultStep_rep (coordVal k n / 2 ^ i % 2) p n s v hp h0 h1
      exact ih _ _ g1 g2
    · rw [if_neg h, if_neg h]
      exact ih _ _ h0 h1

theorem cProjToAffine_rep (bP : pointP) (p : coord) (n : Nat) (v : Nat × Nat × Nat)
    (hp : coordWF p n) (h2 : 2 ≤ coordVal p n) (hP : pointPRep p n bP v) :
    pointARep p n (cProjToAffine bP p n)
      (cProjToAffineN (coordMaxBit p n) (coordMaxBit (toCoord (coordVal p n - 2) n) n) v
        (coordVal p n)) := by
  obtain ⟨h1, h3, h4⟩ := hP
  have hd := coordInvML_rep bP.pZ p n v.2.2 hp h2 h4
  unfold cProjToAffine cProjToAffineN pointARep
  simp only []
  refine ⟨?_, ?_⟩ <;>
    repeat (first
      | assumption
      | apply coordRep_mul)

/-- Function `scalarMult` on a coordinate-reduced point computes, limb for limb,
what the value-level ladder computes. -/
theorem scalarMult_rep (k : coord) (P : pointA) (a p : coord) (n : Nat) (v : Nat × Nat)
    (va : Nat) (hp : coordWF p n) (h2 : 2 ≤ coordVal p n) (hk : coordWF k n)
    (ha : coordRep p n a va) (hP : pointARep p n P v) :
    pointARep p n (scalarMult k P a p n)
      (scalarMultN (coordMaxBit p n) (coordMaxBit k n)
        (coordMaxBit (toCoord (coordVal p n - 2) n) n) (coordVal k n) v va (coordVal p n)) := by
  unfold scalarMult scalarMultN
  simp only []
  obtain ⟨d1, d2⟩ := doubleU_rep ⟨P.aX, P.aY, coordInit n⟩ a p n v va hp ha hP.1 hP.2
  obtain ⟨s0, _⟩ := scalarMultLoop_rep k p n (coordMaxBit k n) hp hk (coordMaxBit p n - 1)
    (_, _) (_, _) d2 d1
  exact cProjToAffine_rep _ p n _ hp h2 s0

theorem pointARep_eq (p : coord) (n : Nat) (P : pointA) (v : Nat × Nat)
    (h : pointARep p n P v) : P = toPointA v n := by
  obtain ⟨⟨w1, e1, _⟩, ⟨w2, e2, _⟩⟩ := h
  cases P
  simp only [toPointA, pointA.mk.injEq]
  simp only [] at w1 e1 w2 e2
  exact ⟨by rw [← e1]; exact coordWF_eq_toCoord _ n w1,
    by rw [← e2]; exact coordWF_eq_toCoord _ n w2⟩

theorem aIsOnCurve_rep (aA : pointA) (a b p : coord) (n : Nat) (v : Nat × Nat) (va vb : Nat)
    (hp : coordWF p n) (ha : coordRep p n a va) (hb : coordRep p n b vb)
    (hP : pointARep p n aA v) :
    aIsOnCurve aA a b p n = aIsOnCurveN v va vb (coordVal p n) := by
  obtain ⟨hx, hy⟩ := hP
  unfold aIsOnCurve aIsOnCurveN
  simp only []
  have r1 : coordRep p n
      (coordAdd (coordSub (coordMul (coordMul aA.aX aA.aX p n) aA.aX p n)
        (coordMul aA.aX a p n) p n) b p n)
      (addN (subN (mulN (mulN v.1 v.1 (coordVal p n)) v.1 (coordVal p n))
        (mulN v.1 va (coordVal p n)) (coordVal p n)) vb (coordVal p n)) := by
    repeat (first
      | assumption
      | apply coordRep_mul
      | apply coordRep_add
      | apply coordRep_sub)
  have r2 : coordRep p n (coordMul aA.aY aA.aY p n) (mulN v.2 v.2 (coordVal p n)) :=
    coordRep_mul p _ _ n _ _ hp hy hy
  have hc := coordCmp_eq_zero _ _ n r1.1.2 r2.1.2
  rw [r1.2.1, r2.2.1] at hc
  by_cases h : coordCmp
      (coordAdd (coordSub (coordMul (coordMul aA.aX aA.aX p n) aA.aX p n)
        (coordMul aA.aX a p n) p n) b p n) (coordMul aA.aY aA.aY p n) n = 0
  · rw [if_pos h, if_pos (hc.mp h)]
  · rw [if_neg h, if_neg (fun h' => h (hc.mpr h'))]

/-! ## Bytes and words -/

theorem byteToWordAcc_spec (arrayB : keyC) (base : Nat) (hB : keyWF arrayB) (cnt m w : Nat)
    (hm : m + cnt ≤ 8) (hw : w < 2 ^ (8 * m)) :
    byteToWordAcc arrayB base cnt w = w * 2 ^ (8 * cnt) + chunkVal arrayB base cnt := by
  induction cnt generalizing m w with
  | zero => simp [byteToWordAcc, chunkVal]
  | succ k ih =>
    simp only [byteToWordAcc, chunkVal]
    have hb := hB (base + k)
    have h1 : w * 2 ^ 8 + byteAt arrayB (base + k) < 2 ^ (8 * (m + 1)) := by
      have e : 2 ^ (8 * (m + 1)) = 2 ^ (8 * m) * 2 ^ 8 := by rw [← pow_add, Nat.mul_succ]
      rw [e]
      have : (w + 1) * 2 ^ 8 ≤ 2 ^ (8 * m) * 2 ^ 8 := Nat.mul_le_mul_right _ hw
      have e2 : (w + 1) * 2 ^ 8 = w * 2 ^ 8 + 256 := by norm_num; ring
      omega
    have h2 : 2 ^ (8 * (m + 1)) ≤ WORD := by
      rw [WORD_eq]; exact Nat.pow_le_pow_right (by decide) (by omega)
    rw [Nat.shiftLeft_eq, Nat.mod_eq_of_lt (by omega), ih (m + 1) _ (by omega) h1]
    have e3 : 2 ^ (8 * (k + 1)) = 2 ^ 8 * 2 ^ (8 * k) := by
      rw [← pow_add]; congr 1; omega
    rw [e3]; ring

theorem chunkVal_lt (arrayB : keyC) (base : Nat) (hB : keyWF arrayB) (cnt : Nat) :
    chunkVal arrayB base cnt < 2 ^ (8 * cnt) := by
  induction cnt with
  | zero => simp [chunkVal]
  | succ k ih =>
    simp only [chunkVal]
    have hb := hB (base + k)
    have e3 : 2 ^ (8 * (k + 1)) = 256 * 2 ^ (8 * k) := by
      have : (256 : Nat) = 2 ^ 8 := by norm_num
      rw [this, ← pow_add]; congr 1; omega
    rw [e3]
    have : (byteAt arrayB (base + k) + 1) * 2 ^ (8 * k) ≤ 256 * 2 ^ (8 * k) :=
      Nat.mul_le_mul_right _ hb
    have e2 : (byteAt arrayB (base + k) + 1) * 2 ^ (8 * k)
        = byteAt arrayB (base + k) * 2 ^ (8 * k) + 2 ^ (8 * k) := by ring
    omega

theorem byteToWord_full (arrayB : keyC) (hB : keyWF arrayB) (i : Nat) :
    byteToWordAcc arrayB (i * 8) 7 (byteAt arrayB (i * 8 + 7)) = chunkVal arrayB (i * 8) 8 := by
  rw [byteToWordAcc_spec arrayB (i * 8) hB 7 1 _ (by omega) (by have := hB (i * 8 + 7); omega)]
  simp only [chunkVal]
  ring

theorem byteToWord_part (arrayB : keyC) (hB : keyWF arrayB) (j r : Nat) (hr : 0 < r)
    (hr8 : r < 8) :
    byteToWordAcc arrayB (j * 8) (j * 8 + r - 1 - j * 8) (byteAt arrayB (j * 8 + r - 1))
      = chunkVal arrayB (j * 8) r := by
  have e : j * 8 + r - 1 - j * 8 = r - 1 := by omega
  rw [e, byteToWordAcc_spec arrayB (j * 8) hB (r - 1) 1 _ (by omega)
    (by have := hB (j * 8 + r - 1); omega)]
  obtain ⟨r', rfl⟩ : ∃ r', r = r' + 1 := ⟨r - 1, by omega⟩
  simp only [chunkVal, Nat.add_sub_cancel]
  have : j * 8 + (r' + 1) - 1 = j * 8 + r' := by omega
  rw [this]; ring

theorem bytesVal_chunk (arrayB : keyC) (i c : Nat) :
    bytesVal arrayB (i * 8 + c) = bytesVal arrayB (i * 8) + chunkVal arrayB (i * 8) c * 2 ^ (64 * i) := by
  induction c with
  | zero => simp [chunkVal]
  | succ c ih =>
    have : i * 8 + (c + 1) = (i * 8 + c) + 1 := by omega
    rw [this]
    simp only [bytesVal, chunkVal]
    rw [ih]
    have e : 2 ^ (8 * (i * 8 + c)) = 2 ^ (8 * c) * 2 ^ (64 * i) := by
      rw [← pow_add]; congr 1; omega
    rw [e]; ring

theorem limb_byteToWord (arrayB : keyC) (L i : Nat) (hB : keyWF arrayB) :
    limb (byteToWord arrayB L) i =
      if i < L / 8 then chunkVal arrayB (i * 8) 8
      else if i = L / 8 then chunkVal arrayB (i * 8) (L % 8) else 0 := by
  unfold byteToWord
  simp only []
  have hL : L = L / 8 * 8 + L % 8 := by omega
  by_cases hr : L % 8 = 0
  · have h1 : ¬ (L / 8 < (L + 7) / 8) := by omega
    rw [if_neg h1]
    unfold limb
    rw [List.getD_eq_getElem?_getD]
    by_cases hi : i < L / 8
    · simp [hi, byteToWord_full arrayB hB i]
    · have h3 : (List.range (L / 8))[i]? = none := List.getElem?_eq_none (by simp; omega)
      simp only [List.getElem?_map, h3, Option.map_none', Option.getD_none, if_neg hi]
      split
      · rw [hr]; rfl
      · rfl
  · have h1 : L / 8 < (L + 7) / 8 := by omega
    rw [if_pos h1]
    rcases Nat.lt_trichotomy i (L / 8) with hi | hi | hi
    · rw [if_pos hi]
      have := limb_append_lt ((List.range (L / 8)).map fun i =>
        byteToWordAcc arrayB (i * 8) 7 (byteAt arrayB (i * 8 + 7)))
        (byteToWordAcc arrayB (L / 8 * 8) (L - 1 - L / 8 * 8) (byteAt arrayB (L - 1))) i
        (by simp; exact hi)
      rw [this]
      unfold limb
      rw [List.getD_eq_getElem?_getD]
      simp [hi, byteToWord_full arrayB hB i]
    · rw [if_neg (by omega), if_pos hi]
      have := limb_append_length ((List.range (L / 8)).map fun i =>
        byteToWordAcc arrayB (i * 8) 7 (byteAt arrayB (i * 8 + 7)))
        (byteToWordAcc arrayB (L / 8 * 8) (L - 1 - L / 8 * 8) (byteAt arrayB (L - 1)))
      simp only [List.length_map, List.length_range] at this
      rw [hi, this]
      have h4 := byteToWord_part arrayB hB (L / 8) (L % 8) (by omega) (Nat.mod_lt _ (by decide))
      rw [← hL] at h4
      exact h4
    · rw [if_neg (by omega), if_neg (by omega)]
      apply limb_of_length_le
      simp; omega

theorem byteToWord_length (arrayB : keyC) (L : Nat) :
    (byteToWord arrayB L).length = (L + 7) / 8 := by
  unfold byteToWord
  simp only []
  split
  · simp; omega
  · simp; omega

theorem byteToWord_wf (arrayB : keyC) (L : Nat) (hB : keyWF arrayB) :
    coordWF (byteToWord arrayB L) ((L + 7) / 8) := by
  refine ⟨byteToWord_length arrayB L, fun i => ?_⟩
  rw [limb_byteToWord arrayB L i hB, WORD_eq]
  split
  · exact chunkVal_lt arrayB _ hB 8
  · split
    · have h1 := chunkVal_lt arrayB (i * 8) hB (L % 8)
      have h2 : 2 ^ (8 * (L % 8)) ≤ 2 ^ 64 :=
        Nat.pow_le_pow_right (by decide) (by omega)
      omega
    · exact Nat.two_pow_pos 64

theorem coordVal_byteToWord_aux (arrayB : keyC) (L : Nat) (hB : keyWF arrayB) (m : Nat)
    (hm : m ≤ L / 8) : coordVal (byteToWord arrayB L) m = bytesVal arrayB (m * 8) := by
  induction m with
  | zero => simp [coordVal, bytesVal]
  | succ m ih =>
    simp only [coordVal]
    rw [ih (by omega), limb_byteToWord arrayB L m hB, if_pos (by omega)]
    have : (m + 1) * 8 = m * 8 + 8 := by ring
    rw [this, bytesVal_chunk]

/-- Function `byteToWord` reads the little-endian number of the first byteLen bytes. -/
theorem coordVal_byteToWord (arrayB : keyC) (L : Nat) (hB : keyWF arrayB) :
    coordVal (byteToWord arrayB L) ((L + 7) / 8) = bytesVal arrayB L := by
  have hL : L = L / 8 * 8 + L % 8 := by omega
  by_cases hr : L % 8 = 0
  · have e : (L + 7) / 8 = L / 8 := by omega
    rw [e, coordVal_byteToWord_aux arrayB L hB (L / 8) (Nat.le_refl _)]
    congr 1; omega
  · have e : (L + 7) / 8 = L / 8 + 1 := by omega
    rw [e]
    simp only [coordVal]
    rw [coordVal_byteToWord_aux arrayB L hB (L / 8) (Nat.le_refl _),
      limb_byteToWord arrayB L _ hB, if_neg (by omega), if_pos rfl, ← bytesVal_chunk, ← hL]

/-! ## The catalog curves -/

theorem coordWF_of_all (a : coord) (n : Nat) (h1 : a.length = n) (h2 : ∀ x ∈ a, x < WORD) :
    coordWF a n := by
  refine ⟨h1, fun i => ?_⟩
  by_cases hi : i < a.length
  · unfold limb
    rw [List.getD_eq_getElem?_getD, List.getElem?_eq_getElem hi]
    exact h2 _ (List.getElem_mem hi)
  · rw [limb_of_length_le a i (by omega)]; exact WORD_pos

theorem coordRep_of_all (p a : coord) (n : Nat) (h1 : a.length = n) (h2 : ∀ x ∈ a, x < WORD)
    (h3 : coordVal a n < coordVal p n) : coordRep p n a (coordVal a n) :=
  ⟨coordWF_of_all a n h1 h2, rfl, h3⟩

theorem curve192_ok : curveOK curve192 where
  wf_p := coordWF_of_all _ _ (by decide) (by decide)
  two_le := by decide
  rep_a := coordRep_of_all _ _ _ (by decide) (by decide) (by decide)
  rep_b := coordRep_of_all _ _ _ (by decide) (by decide) (by decide)
  rep_gx := coordRep_of_all _ _ _ (by decide) (by decide) (by decide)
  rep_gy := coordRep_of_all _ _ _ (by decide) (by decide) (by decide)
  wsize_eq := by decide
  five_fit := by decide
  msg_fit := by decide

theorem curve224_ok : curveOK curve224 where
  wf_p := coordWF_of_all _ _ (by decide) (by decide)
  two_le := by decide
  rep_a := coordRep_of_all _ _ _ (by decide) (by decide) (by decide)
  rep_b := coordRep_of_all _ _ _ (by decide) (by decide) (by decide)
  rep_gx := coordRep_of_all _ _ _ (by decide) (by decide) (by decide)
  rep_gy := coordRep_of_all _ _ _ (by decide) (by decide) (by decide)
  wsize_eq := by decide
  five_fit := by decide
  msg_fit := by decide

theorem curve256_ok : curveOK curve256 where
  wf_p := coordWF_of_all _ _ (by decide) (by decide)
  two_le := by decide
  rep_a := coordRep_of_all _ _ _ (by decide) (by decide) (by decide)
  rep_b := coordRep_of_all _ _ _ (by decide) (by decide) (by decide)
  rep_gx := coordRep_of_all _ _ _ (by decide) (by decide) (by decide)
  rep_gy := coordRep_of_all _ _ _ (by decide) (by decide) (by decide)
  wsize_eq := by decide
  five_fit := by decide
  msg_fit := by decide

theorem curve384_ok : curveOK curve384 where
  wf_p := coordWF_of_all _ _ (by decide) (by decide)
  two_le := by decide
  rep_a := coordRep_of_all _ _ _ (by decide) (by decide) (by decide)
  rep_b := coordRep_of_all _ _ _ (by decide) (by decide) (by decide)
  rep_gx := coordRep_of_all _ _ _ (by decide) (by decide) (by decide)
  rep_gy := coordRep_of_all _ _ _ (by decide) (by decide) (by decide)
  wsize_eq := by decide
  five_fit := by decide
  msg_fit := by decide

theorem curve521_ok : curveOK curve521 where
  wf_p := coordWF_of_all _ _ (by decide) (by decide)
  two_le := by decide
  rep_a := coordRep_of_all _ _ _ (by decide) (by decide) (by decide)
  rep_b := coordRep_of_all _ _ _ (by decide) (by decide) (by decide)
  rep_gx := coordRep_of_all _ _ _ (by decide) (by decide) (by decide)
  rep_gy := coordRep_of_all _ _ _ (by decide) (by decide) (by decide)
  wsize_eq := by decide
  five_fit := by decide
  msg_fit := by decide

/-! ## Curve membership and point validation -/

theorem mulN_modEq (x y p : Nat) : ((mulN x y p : Nat) : ℤ) ≡ (x : ℤ) * (y : ℤ) [ZMOD (p : ℤ)] := by
  unfold mulN
  rw [Int.natCast_mod]
  push_cast
  exact Int.mod_modEq _ _

theorem addN_modEq (x y p : Nat) : ((addN x y p : Nat) : ℤ) ≡ (x : ℤ) + (y : ℤ) [ZMOD (p : ℤ)] := by
  unfold addN
  rw [Int.natCast_mod]
  push_cast
  exact Int.mod_modEq _ _

theorem subN_modEq (x y p : Nat) (h : y ≤ p) :
    ((subN x y p : Nat) : ℤ) ≡ (x : ℤ) - (y : ℤ) [ZMOD (p : ℤ)] := by
  unfold subN
  rw [Int.natCast_mod, Nat.cast_sub (by omega)]
  push_cast
  refine Int.ModEq.trans (Int.mod_modEq _ _) ?_
  apply Int.modEq_iff_dvd.mpr
  exact ⟨-1, by ring⟩

theorem aIsOnCurveN_iff (v : Nat × Nat) (a b p : Nat) (hp : 0 < p) :
    aIsOnCurveN v a b p = 1 ↔ curveEq v.1 v.2 a b p := by
  unfold aIsOnCurveN curveEq
  simp only []
  have h1 : ((addN (subN (mulN (mulN v.1 v.1 p) v.1 p) (mulN v.1 a p) p) b p : Nat) : ℤ)
      ≡ (v.1 : ℤ) ^ 3 - (a : ℤ) * (v.1 : ℤ) + (b : ℤ) [ZMOD (p : ℤ)] := by
    refine Int.ModEq.trans (addN_modEq _ _ _) ?_
    apply Int.ModEq.add_right
    refine Int.ModEq.trans (subN_modEq _ _ _ (Nat.le_of_lt (Nat.mod_lt _ hp))) ?_
    apply Int.ModEq.sub
    · refine Int.ModEq.trans (mulN_modEq _ _ _) ?_
      have e : (v.1 : ℤ) ^ 3 = (v.1 : ℤ) * (v.1 : ℤ) * (v.1 : ℤ) := by ring
      rw [e]
      exact Int.ModEq.mul_right _ (mulN_modEq _ _ _)
    · refine Int.ModEq.trans (mulN_modEq _ _ _) ?_
      rw [mul_comm]
  have h2 : ((mulN v.2 v.2 p : Nat) : ℤ) ≡ (v.2 : ℤ) ^ 2 [ZMOD (p : ℤ)] := by
    refine Int.ModEq.trans (mulN_modEq _ _ _) ?_
    rw [pow_two]
  have l1 : addN (subN (mulN (mulN v.1 v.1 p) v.1 p) (mulN v.1 a p) p) b p < p :=
    Nat.mod_lt _ hp
  have l2 : mulN v.2 v.2 p < p := Nat.mod_lt _ hp
  constructor
  · intro h
    by_cases e : addN (subN (mulN (mulN v.1 v.1 p) v.1 p) (mulN v.1 a p) p) b p = mulN v.2 v.2 p
    · rw [e] at h1
      exact (h2.symm.trans h1)
    · rw [if_neg e] at h
      exact absurd h (by decide)
  · intro h
    have h3 := (h1.trans h.symm).trans h2.symm
    have h4 := Nat.ModEq.eq_of_lt_of_lt (Int.natCast_modEq_iff.mp h3) l1 l2
    rw [if_pos h4]

theorem aIsOnCurveN_ne_one (v : Nat × Nat) (a b p : Nat) (hp : 0 < p) :
    aIsOnCurveN v a b p ≠ 1 ↔ ¬ curveEq v.1 v.2 a b p :=
  not_congr (aIsOnCurveN_iff v a b p hp)

theorem aIsOnCurveN_values (v : Nat × Nat) (a b p : Nat) :
    aIsOnCurveN v a b p = 1 ∨ aIsOnCurveN v a b p = -1 := by
  unfold aIsOnCurveN
  simp only []
  split
  · exact Or.inl rfl
  · exact Or.inr rfl

theorem isOnTheCurve_rep (P : pointA) (c : ellipticCurve) (hc : curveOK c) (v : Nat × Nat)
    (hP : pointARep c.p c.wsize P v) :
    isOnTheCurve P c = aIsOnCurveN v (coordVal c.a c.wsize) (coordVal c.b c.wsize) (primeOf c) :=
  aIsOnCurve_rep P c.a c.b c.p c.wsize v _ _ hc.wf_p hc.rep_a hc.rep_b hP

theorem isOnTheCurve_eq_one (P : pointA) (c : ellipticCurve) (hc : curveOK c) (v : Nat × Nat)
    (hP : pointARep c.p c.wsize P v) : isOnTheCurve P c = 1 ↔ onCurve v c := by
  rw [isOnTheCurve_rep P c hc v hP]
  exact aIsOnCurveN_iff v _ _ _ (by have := hc.two_le; unfold primeOf; omega)

theorem convBytesToPoint_snd (pX pY : keyC) (c : ellipticCurve) :
    (convBytesToPoint pX pY c).2 =
      ⟨byteToWord pX (byteLenOf c), byteToWord pY (byteLenOf c)⟩ := by
  unfold convBytesToPoint byteLenOf
  simp only []
  split
  · rfl
  · split <;> rfl

theorem convBytesToPoint_fst (pX pY : keyC) (c : ellipticCurve) (hc : curveOK c)
    (hX : keyWF pX) (hY : keyWF pY) :
    (convBytesToPoint pX pY c).1 =
      if (keyPoint pX pY c).1 < primeOf c ∧ (keyPoint pX pY c).2 < primeOf c then 1 else -1 := by
  have wx := byteToWord_wf pX (byteLenOf c) hX
  have wy := byteToWord_wf pY (byteLenOf c) hY
  have vx := coordVal_byteToWord pX (byteLenOf c) hX
  have vy := coordVal_byteToWord pY (byteLenOf c) hY
  rw [← hc.wsize_eq] at wx wy vx vy
  have cx := coordCmp_ne_neg_one _ _ c.wsize wx.2 hc.wf_p.2
  have cy := coordCmp_ne_neg_one _ _ c.wsize wy.2 hc.wf_p.2
  rw [vx] at cx
  rw [vy] at cy
  unfold convBytesToPoint keyPoint primeOf
  simp only []
  unfold byteLenOf at cx cy ⊢
  split
  · rename_i h
    rw [if_neg (by have := cx.mp h; omega)]
  · rename_i h
    have h1 := mt cx.mpr h
    split
    · rename_i h'
      rw [if_neg (by have := cy.mp h'; omega)]
    · rename_i h'
      have h2 := mt cy.mpr h'
      rw [if_pos ⟨by omega, by omega⟩]

theorem convBytesToPoint_rep (pX pY : keyC) (c : ellipticCurve) (hc : curveOK c)
    (hX : keyWF pX) (hY : keyWF pY)
    (h : (keyPoint pX pY c).1 < primeOf c ∧ (keyPoint pX pY c).2 < primeOf c) :
    pointARep c.p c.wsize (convBytesToPoint pX pY c).2 (keyPoint pX pY c) := by
  rw [convBytesToPoint_snd]
  have wx := byteToWord_wf pX (byteLenOf c) hX
  have wy := byteToWord_wf pY (byteLenOf c) hY
  have vx := coordVal_byteToWord pX (byteLenOf c) hX
  have vy := coordVal_byteToWord pY (byteLenOf c) hY
  rw [← hc.wsize_eq] at wx wy vx vy
  exact ⟨⟨wx, vx, h.1⟩, ⟨wy, vy, h.2⟩⟩

/-! ## Scalar multiplication returns reduced coordinates -/

theorem scalarMultLoop_closed (k p : coord) (n nk : Nat) (hp : coordWF p n) (i : Nat)
    (s : pointP × pointP) (h0 : ∃ v, pointPRep p n s.1 v) (h1 : ∃ v, pointPRep p n s.2 v) :
    (∃ v, pointPRep p n (scalarMultLoop k p n nk i s).1 v) ∧
    (∃ v, pointPRep p n (scalarMultLoop k p n nk i s).2 v) := by
  induction i generalizing s with
  | zero => exact ⟨h0, h1⟩
  | succ i ih =>
    simp only [scalarMultLoop]
    by_cases h : i + 1 < nk
    · rw [if_pos h]
      obtain ⟨v0, g0⟩ := h0
      obtain ⟨v1, g1⟩ := h1
      obtain ⟨r0, r1⟩ := scalarMultStep_rep (coordGetBit k i) p n s (v0, v1) hp g0 g1
      exact ih _ ⟨_, r0⟩ ⟨_, r1⟩
    · rw [if_neg h]
      exact ih _ h0 h1

/-- Function `scalarMult` returns reduced coordinates for every scalar. -/
theorem scalarMult_reduced (k : coord) (P : pointA) (a p : coord) (n : Nat) (v : Nat × Nat)
    (va : Nat) (hp : coordWF p n) (h2 : 2 ≤ coordVal p n)
    (ha : coordRep p n a va) (hP : pointARep p n P v) :
    ∃ w, pointARep p n (scalarMult k P a p n) w := by
  unfold scalarMult
  simp only []
  obtain ⟨d1, d2⟩ := doubleU_rep ⟨P.aX, P.aY, coordInit n⟩ a p n v va hp ha hP.1 hP.2
  obtain ⟨⟨w, s0⟩, _⟩ := scalarMultLoop_closed k p n (coordMaxBit k n) hp (coordMaxBit p n - 1)
    (_, _) ⟨_, d2⟩ ⟨_, d1⟩
  exact ⟨_, cProjToAffine_rep _ p n w hp h2 s0⟩

theorem pointARep_val (p : coord) (n : Nat) (P : pointA) (w : Nat × Nat)
    (h : pointARep p n P w) : pointARep p n P (pointAVal P n) := by
  obtain ⟨⟨w1, e1, l1⟩, ⟨w2, e2, l2⟩⟩ := h
  exact ⟨⟨w1, rfl, by show coordVal P.aX n < _; rw [e1]; exact l1⟩,
    ⟨w2, rfl, by show coordVal P.aY n < _; rw [e2]; exact l2⟩⟩

/-- Evaluation of `scalarMult` through the value-level ladder. -/
theorem scalarMult_eval (k : coord) (P : pointA) (a p : coord) (n : Nat) (v : Nat × Nat)
    (va : Nat) (hp : coordWF p n) (h2 : 2 ≤ coordVal p n) (hk : coordWF k n)
    (ha : coordRep p n a va) (hP : pointARep p n P v) :
    scalarMult k P a p n =
      toPointA (scalarMultN (coordMaxBit p n) (coordMaxBit k n)
        (coordMaxBit (toCoord (coordVal p n - 2) n) n) (coordVal k n) v va (coordVal p n)) n :=
  pointARep_eq p n _ _ (scalarMult_rep k P a p n v va hp h2 hk ha hP)

/-! ## Words to bytes and the hash input -/

theorem byteAt_eq_limb (b : keyC) (i : Nat) : byteAt b i = limb b i := rfl

theorem wordBytes_eq (k t : Nat) :
    wordBytes k t = (List.range k).map fun i => t / 2 ^ (8 * i) % 256 := by
  induction k generalizing t with
  | zero => rfl
  | succ k ih =>
    rw [wordBytes, ih, List.range_succ_eq_map]
    simp only [List.map_cons, List.map_map, Nat.mul_zero, pow_zero, Nat.div_one]
    congr 1
    · exact Nat.and_pow_two_sub_one_eq_mod t 8
    · apply List.map_congr_left
      intro i _
      simp only [Function.comp]
      rw [Nat.shiftRight_eq_div_pow, Nat.div_div_eq_div_mul, ← pow_add]
      congr 3
      omega

theorem wordBytes_length (k t : Nat) : (wordBytes k t).length = k := by
  rw [wordBytes_eq]; simp

theorem wordToByte_length (a : coord) (n : Nat) : (wordToByte a n).length = 8 * n := by
  induction n with
  | zero => rfl
  | succ n ih => simp [wordToByte, ih, wordBytes_length]; omega

theorem byteAt_wordBytes (t j : Nat) (hj : j < 8) :
    byteAt (wordBytes 8 t) j = t / 2 ^ (8 * j) % 256 := by
  rw [wordBytes_eq]
  unfold byteAt
  rw [List.getD_eq_getElem?_getD]
  simp [hj]

theorem byteAt_wordToByte (a : coord) (n j : Nat) (hj : j < 8 * n) :
    byteAt (wordToByte a n) j = limb a (j / 8) / 2 ^ (8 * (j % 8)) % 256 := by
  induction n with
  | zero => omega
  | succ n ih =>
    simp only [wordToByte]
    unfold byteAt at *
    rw [List.getD_eq_getElem?_getD] at *
    by_cases h : j < 8 * n
    · rw [List.getElem?_append_left (by rw [wordToByte_length]; exact h)]
      exact ih h
    · rw [List.getElem?_append_right (by rw [wordToByte_length]; omega), wordToByte_length]
      have e1 : j / 8 = n := by omega
      have e2 : j - 8 * n = j % 8 := by omega
      rw [e1, e2]
      have := byteAt_wordBytes (limb a n) (j % 8) (Nat.mod_lt _ (by decide))
      unfold byteAt at this
      rw [List.getD_eq_getElem?_getD] at this
      exact this

theorem byteAt_leBytes (v L j : Nat) (hj : j < L) :
    byteAt (leBytes v L) j = v / 2 ^ (8 * j) % 256 := by
  unfold byteAt leBytes
  rw [List.getD_eq_getElem?_getD]
  simp [hj]

theorem leBytes_length (v L : Nat) : (leBytes v L).length = L := by
  simp [leBytes]

theorem byte_of_limb (a : coord) (n j : Nat) (ha : coordWF a n) (hj : j < 8 * n) :
    limb a (j / 8) / 2 ^ (8 * (j % 8)) % 256 = coordVal a n / 2 ^ (8 * j) % 256 := by
  have hq : j / 8 < n := by omega
  rw [limb_eq_of_coordVal a n ha.2 (j / 8) hq, WORD_eq]
  have hr : j % 8 < 8 := Nat.mod_lt _ (by decide)
  have e1 : (2 : Nat) ^ 64 = 2 ^ (8 * (j % 8)) * 2 ^ (64 - 8 * (j % 8)) := by
    rw [← pow_add]; congr 1; omega
  rw [e1, Nat.mod_mul_right_div_self, Nat.div_div_eq_div_mul, ← pow_add]
  have e3 : 64 * (j / 8) + 8 * (j % 8) = 8 * j := by omega
  rw [e3]
  have e2 : (256 : Nat) ∣ 2 ^ (64 - 8 * (j % 8)) := by
    have : 64 - 8 * (j % 8) = (64 - 8 * (j % 8) - 8) + 8 := by omega
    rw [this, pow_add]
    exact Nat.dvd_mul_left _ _
  exact Nat.mod_mod_of_dvd _ e2

/-- Function `wordToByte` writes the little-endian bytes of the value. -/
theorem wordToByte_take (a : coord) (n L : Nat) (ha : coordWF a n) (hL : L ≤ 8 * n) :
    (wordToByte a n).take L = leBytes (coordVal a n) L := by
  apply coord_ext _ _ L (by simp [wordToByte_length]; omega) (leBytes_length _ _)
  intro i hi
  rw [← byteAt_eq_limb, ← byteAt_eq_limb, byteAt_leBytes _ _ _ hi]
  have : byteAt (List.take L (wordToByte a n)) i = byteAt (wordToByte a n) i := by
    unfold byteAt
    rw [List.getD_eq_getElem?_getD, List.getD_eq_getElem?_getD, List.getElem?_take_of_lt hi]
  rw [this, byteAt_wordToByte a n i (by omega)]
  exact byte_of_limb a n i ha (by omega)

theorem writeBytes_length (buf : keyC) (off : Nat) (bs : keyC) (h : off + bs.length ≤ buf.length) :
    (writeBytes buf off bs).length = buf.length := by
  unfold writeBytes
  simp
  omega

theorem byteAt_writeBytes (buf : keyC) (off : Nat) (bs : keyC) (i : Nat)
    (h : off + bs.length ≤ buf.length) :
    byteAt (writeBytes buf off bs) i =
      if off ≤ i ∧ i < off + bs.length then byteAt bs (i - off) else byteAt buf i := by
  unfold writeBytes byteAt
  rw [List.getD_eq_getElem?_getD, List.getD_eq_getElem?_getD, List.getD_eq_getElem?_getD]
  have hl : (List.take off buf).length = off := by simp; omega
  by_cases h1 : i < off
  · rw [if_neg (by omega), List.append_assoc,
      List.getElem?_append_left (by rw [hl]; exact h1), List.getElem?_take_of_lt h1]
  · by_cases h2 : i < off + bs.length
    · rw [if_pos ⟨by omega, h2⟩, List.append_assoc,
        List.getElem?_append_right (by rw [hl]; omega), hl,
        List.getElem?_append_left (by omega)]
    · rw [if_neg (by omega), List.getElem?_append_right (by simp; omega)]
      simp only [List.length_append, hl, List.getElem?_drop]
      congr 2
      omega

theorem byteAt_readBytes (src : keyC) (L i : Nat) (hi : i < L) :
    byteAt (readBytes src L) i = byteAt src i := by
  unfold readBytes
  conv => lhs; unfold byteAt
  rw [List.getD_eq_getElem?_getD]
  simp [hi, byteAt, List.getD_eq_getElem?_getD]

theorem readBytes_length (src : keyC) (L : Nat) : (readBytes src L).length = L := by
  simp [readBytes]

theorem byteAt_append (x y : keyC) (i : Nat) :
    byteAt (x ++ y) i = if i < x.length then byteAt x i else byteAt y (i - x.length) := by
  unfold byteAt
  rw [List.getD_eq_getElem?_getD, List.getD_eq_getElem?_getD, List.getD_eq_getElem?_getD]
  split
  · rename_i h; rw [List.getElem?_append_left h]
  · rename_i h; rw [List.getElem?_append_right (by omega)]

theorem byteAt_take (x : keyC) (L i : Nat) (hi : i < L) : byteAt (x.take L) i = byteAt x i := by
  unfold byteAt
  rw [List.getD_eq_getElem?_getD, List.getD_eq_getElem?_getD, List.getElem?_take_of_lt hi]

/-- The hash input of the K calculation is the concatenation of the first
byteLen bytes of the three x coordinates and of the two identifiers. -/
theorem sessionMsg_layout (t1 t2 t3 : pointA) (idA idB : keyC) (c : ellipticCurve)
    (hc : curveOK c) :
    sessionMsg t1 t2 t3 idA idB c =
      (wordToByte t1.aX c.wsize).take (byteLenOf c) ++
      (wordToByte t2.aX c.wsize).take (byteLenOf c) ++
      (wordToByte t3.aX c.wsize).take (byteLenOf c) ++
      readBytes idA (byteLenOf c) ++ readBytes idB (byteLenOf c) := by
  have hw := hc.wsize_eq
  have h5 := hc.five_fit
  have h6 := hc.msg_fit
  unfold FIVET_BYTES at h5 h6
  have hL : byteLenOf c ≤ 8 * c.wsize := by omega
  unfold sessionMsg
  simp only []
  unfold byteLenOf at *
  generalize (c.bsize + 7) / 8 = L at *
  generalize c.wsize = w at *
  have l0 : (List.replicate FIVET_BYTES 0 : keyC).length = 360 := by
    rw [List.length_replicate]; rfl
  generalize hm0 : (List.replicate FIVET_BYTES 0 : keyC) = m0 at *
  have b1 : 0 + (wordToByte t1.aX w).length ≤ m0.length := by
    rw [wordToByte_length, l0]; omega
  have l1 := writeBytes_length m0 0 (wordToByte t1.aX w) b1
  rw [l0] at l1
  generalize hm1 : writeBytes m0 0 (wordToByte t1.aX w) = m1 at *
  have b2 : L + (wordToByte t2.aX w).length ≤ m1.length := by
    rw [wordToByte_length, l1]; omega
  have l2 := writeBytes_length m1 L (wordToByte t2.aX w) b2
  rw [l1] at l2
  generalize hm2 : writeBytes m1 L (wordToByte t2.aX w) = m2 at *
  have b3 : L * 2 + (wordToByte t3.aX w).length ≤ m2.length := by
    rw [wordToByte_length, l2]; omega
  have l3 := writeBytes_length m2 (L * 2) (wordToByte t3.aX w) b3
  rw [l2] at l3
  generalize hm3 : writeBytes m2 (L * 2) (wordToByte t3.aX w) = m3 at *
  have b4 : L * 2 + L + (readBytes idA L).length ≤ m3.length := by
    rw [readBytes_length, l3]; omega
  have l4 := writeBytes_length m3 (L * 2 + L) (readBytes idA L) b4
  rw [l3] at l4
  generalize hm4 : writeBytes m3 (L * 2 + L) (readBytes idA L) = m4 at *
  have b5 : L * 2 + L + L + (readBytes idB L).length ≤ m4.length := by
    rw [readBytes_length, l4]; omega
  have l5 := writeBytes_length m4 (L * 2 + L + L) (readBytes idB L) b5
  rw [l4] at l5
  apply coord_ext _ _ (L * 2 + L + L + L)
  · rw [List.length_take, l5]; omega
  · simp [wordToByte_length, readBytes_length]; omega
  intro i hi
  rw [← byteAt_eq_limb, ← byteAt_eq_limb, byteAt_take _ _ _ hi]
  rw [byteAt_writeBytes m4 _ _ _ b5, ← hm4, byteAt_writeBytes m3 _ _ _ b4, ← hm3,
    byteAt_writeBytes m2 _ _ _ b3, ← hm2, byteAt_writeBytes m1 _ _ _ b2, ← hm1,
    byteAt_writeBytes m0 _ _ _ b1]
  rw [byteAt_append, byteAt_append, byteAt_append, byteAt_append]
  simp only [List.length_append, List.length_take, wordToByte_length, readBytes_length,
    Nat.min_eq_left hL] at *
  have tk : ∀ (x : keyC) (j : Nat), j < L → byteAt (x.take L) j = byteAt x j :=
    fun x j hj => byteAt_take x L j hj
  split_ifs <;> first
    | omega
    | (rw [tk _ _ (by omega)]; done)
    | (rw [tk _ _ (by omega)]; congr 1; omega)
    | (congr 1; omega)
    | (rw [tk _ _ (by assumption), Nat.sub_zero])

/-! ## Session-key derivation: input validation -/

theorem selectCurve_cases (c0 c : ellipticCurve) (index : Int) (r : Int)
    (h : selectCurve c0 index = (r, c)) (hr : r = 1) :
    c = curve192 ∨ c = curve224 ∨ c = curve256 ∨ c = curve384 ∨ c = curve521 := by
  unfold selectCurve at h
  subst hr
  split_ifs at h
  · exact Or.inl (Prod.mk.inj h).2.symm
  · exact Or.inr (Or.inl (Prod.mk.inj h).2.symm)
  · exact Or.inr (Or.inr (Or.inl (Prod.mk.inj h).2.symm))
  · exact Or.inr (Or.inr (Or.inr (Or.inl (Prod.mk.inj h).2.symm)))
  · exact Or.inr (Or.inr (Or.inr (Or.inr (Prod.mk.inj h).2.symm)))
  · exact absurd (Prod.mk.inj h).1 (by decide)

theorem catalog_ok (c : ellipticCurve)
    (h : c = curve192 ∨ c = curve224 ∨ c = curve256 ∨ c = curve384 ∨ c = curve521) :
    curveOK c := by
  rcases h with h | h | h | h | h <;> subst h
  · exact curve192_ok
  · exact curve224_ok
  · exact curve256_ok
  · exact curve384_ok
  · exact curve521_ok

theorem selectCurve_ok (c0 c : ellipticCurve) (index : Int)
    (h : selectCurve c0 index = (1, c)) : curveOK c :=
  catalog_ok c (selectCurve_cases c0 c index 1 h rfl)

theorem onCurve_iff_N (v : Nat × Nat) (c : ellipticCurve) (hc : curveOK c) :
    onCurve v c ↔
      aIsOnCurveN v (coordVal c.a c.wsize) (coordVal c.b c.wsize) (primeOf c) = 1 :=
  (aIsOnCurveN_iff v _ _ _ (by have := hc.two_le; unfold primeOf; omega)).symm

theorem keyWF_of_all (b : keyC) (h : ∀ x ∈ b, x < 256) : keyWF b := by
  intro i
  by_cases hi : i < b.length
  · unfold byteAt
    rw [List.getD_eq_getElem?_getD, List.getElem?_eq_getElem hi]
    exact h _ (List.getElem_mem hi)
  · rw [byteAt_eq_limb, limb_of_length_le b i (by omega)]; decide

/-- The two validation steps on a peer point, as both derivations perform them:
range check of the coordinates, then the curve equation. -/
theorem validate_point (pX pY : keyC) (c : ellipticCurve) (hc : curveOK c)
    (hX : keyWF pX) (hY : keyWF pY) :
    ((convBytesToPoint pX pY c).1 ≠ 1 ↔
      (primeOf c ≤ (keyPoint pX pY c).1 ∨ primeOf c ≤ (keyPoint pX pY c).2)) ∧
    ((convBytesToPoint pX pY c).1 = 1 →
      (isOnTheCurve (convBytesToPoint pX pY c).2 c ≠ 1 ↔ ¬ onCurve (keyPoint pX pY c) c)) := by
  have h1 := convBytesToPoint_fst pX pY c hc hX hY
  constructor
  · rw [h1]
    split
    · rename_i h; simp; omega
    · rename_i h; simp; omega
  · intro h2
    rw [h1] at h2
    have h3 : (keyPoint pX pY c).1 < primeOf c ∧ (keyPoint pX pY c).2 < primeOf c := by
      by_contra h4
      rw [if_neg h4] at h2
      exact absurd h2 (by decide)
    exact not_congr (isOnTheCurve_eq_one _ c hc _ (convBytesToPoint_rep pX pY c hc hX hY h3))

theorem calculateKa_validation (H : Keccak) (hA0 : coord)
    (kA Yx Yy eskA skAb pkBx pkBy idA idB : keyC) (c : ellipticCurve) (hc : curveOK c)
    (hsX : keyWF pkBx) (hsY : keyWF pkBy) (heX : keyWF Yx) (heY : keyWF Yy) :
    ((primeOf c ≤ (keyPoint pkBx pkBy c).1 ∨ primeOf c ≤ (keyPoint pkBx pkBy c).2) →
      calculateKa H hA0 kA Yx Yy eskA skAb pkBx pkBy idA idB c = (-1, kA)) ∧
    ((keyPoint pkBx pkBy c).1 < primeOf c → (keyPoint pkBx pkBy c).2 < primeOf c →
      ¬ onCurve (keyPoint pkBx pkBy c) c →
      calculateKa H hA0 kA Yx Yy eskA skAb pkBx pkBy idA idB c = (-2, kA)) ∧
    ((keyPoint pkBx pkBy c).1 < primeOf c → (keyPoint pkBx pkBy c).2 < primeOf c →
      onCurve (keyPoint pkBx pkBy c) c →
      (primeOf c ≤ (keyPoint Yx Yy c).1 ∨ primeOf c ≤ (keyPoint Yx Yy c).2) →
      calculateKa H hA0 kA Yx Yy eskA skAb pkBx pkBy idA idB c = (-3, kA)) ∧
    ((keyPoint pkBx pkBy c).1 < primeOf c → (keyPoint pkBx pkBy c).2 < primeOf c →
      onCurve (keyPoint pkBx pkBy c) c →
      (keyPoint Yx Yy c).1 < primeOf c → (keyPoint Yx Yy c).2 < primeOf c →
      ¬ onCurve (keyPoint Yx Yy c) c →
      calculateKa H hA0 kA Yx Yy eskA skAb pkBx pkBy idA idB c = (-4, kA)) := by
  obtain ⟨s1, s2⟩ := validate_point pkBx pkBy c hc hsX hsY
  obtain ⟨e1, e2⟩ := validate_point Yx Yy c hc heX heY
  refine ⟨?_, ?_, ?_, ?_⟩
  · intro h
    unfold calculateKa
    simp only []
    rw [if_pos (s1.mpr h)]
  · intro h1 h2 h3
    have g1 : ¬ (convBytesToPoint pkBx pkBy c).1 ≠ 1 := fun g => by
      have := s1.mp g; omega
    unfold calculateKa
    simp only []
    rw [if_neg g1, if_pos ((s2 (not_not.mp g1)).mpr h3)]
  · intro h1 h2 h3 h4
    have g1 : ¬ (convBytesToPoint pkBx pkBy c).1 ≠ 1 := fun g => by
      have := s1.mp g; omega
    have g2 : ¬ isOnTheCurve (convBytesToPoint pkBx pkBy c).2 c ≠ 1 := fun g =>
      (s2 (not_not.mp g1)).mp g h3
    unfold calculateKa
    simp only []
    rw [if_neg g1, if_neg g2, if_pos (e1.mpr h4)]
  · intro h1 h2 h3 h4 h5 h6
    have g1 : ¬ (convBytesToPoint pkBx pkBy c).1 ≠ 1 := fun g => by
      have := s1.mp g; omega
    have g2 : ¬ isOnTheCurve (convBytesToPoint pkBx pkBy c).2 c ≠ 1 := fun g =>
      (s2 (not_not.mp g1)).mp g h3
    have g3 : ¬ (convBytesToPoint Yx Yy c).1 ≠ 1 := fun g => by
      have := e1.mp g; omega
    unfold calculateKa
    simp only []
    rw [if_neg g1, if_neg g2, if_neg g3, if_pos ((e2 (not_not.mp g3)).mpr h6)]

theorem calculateKb_validation (H : Keccak) (hB0 : coord)
    (kB pkAx pkAy eskB skBb Xx Xy idA idB : keyC) (c : ellipticCurve) (hc : curveOK c)
    (hsX : keyWF pkAx) (hsY : keyWF pkAy) (heX : keyWF Xx) (heY : keyWF Xy) :
    ((primeOf c ≤ (keyPoint pkAx pkAy c).1 ∨ primeOf c ≤ (keyPoint pkAx pkAy c).2) →
      calculateKb H hB0 kB pkAx pkAy eskB skBb Xx Xy idA idB c = (-1, kB)) ∧
    ((keyPoint pkAx pkAy c).1 < primeOf c → (keyPoint pkAx pkAy c).2 < primeOf c →
      ¬ onCurve (keyPoint pkAx pkAy c) c →
      calculateKb H hB0 kB pkAx pkAy eskB skBb Xx Xy idA idB c = (-2, kB)) ∧
    ((keyPoint pkAx pkAy c).1 < primeOf c → (keyPoint pkAx pkAy c).2 < primeOf c →
      onCurve (keyPoint pkAx pkAy c) c →
      (primeOf c ≤ (keyPoint Xx Xy c).1 ∨ primeOf c ≤ (keyPoint Xx Xy c).2) →
      calculateKb H hB0 kB pkAx pkAy eskB skBb Xx Xy idA idB c = (-3, kB)) ∧
    ((keyPoint pkAx pkAy c).1 < primeOf c → (keyPoint pkAx pkAy c).2 < primeOf c →
      onCurve (keyPoint pkAx pkAy c) c →
      (keyPoint Xx Xy c).1 < primeOf c → (keyPoint Xx Xy c).2 < primeOf c →
      ¬ onCurve (keyPoint Xx Xy c) c →
      calculateKb H hB0 kB pkAx pkAy eskB skBb Xx Xy idA idB c = (-4, kB)) := by
  obtain ⟨s1, s2⟩ := validate_point pkAx pkAy c hc hsX hsY
  obtain ⟨e1, e2⟩ := validate_point Xx Xy c hc heX heY
  refine ⟨?_, ?_, ?_, ?_⟩
  · intro h
    unfold calculateKb
    simp only []
    rw [if_pos (s1.mpr h)]
  · intro h1 h2 h3
    have g1 : ¬ (convBytesToPoint pkAx pkAy c).1 ≠ 1 := fun g => by
      have := s1.mp g; omega
    unfold calculateKb
    simp only []
    rw [if_neg g1, if_pos ((s2 (not_not.mp g1)).mpr h3)]
  · intro h1 h2 h3 h4
    have g1 : ¬ (convBytesToPoint pkAx pkAy c).1 ≠ 1 := fun g => by
      have := s1.mp g; omega
    have g2 : ¬ isOnTheCurve (convBytesToPoint pkAx pkAy c).2 c ≠ 1 := fun g =>
      (s2 (not_not.mp g1)).mp g h3
    unfold calculateKb
    simp only []
    rw [if_neg g1, if_neg g2, if_pos (e1.mpr h4)]
  · intro h1 h2 h3 h4 h5 h6
    have g1 : ¬ (convBytesToPoint pkAx pkAy c).1 ≠ 1 := fun g => by
      have := s1.mp g; omega
    have g2 : ¬ isOnTheCurve (convBytesToPoint pkAx pkAy c).2 c ≠ 1 := fun g =>
      (s2 (not_not.mp g1)).mp g h3
    have g3 : ¬ (convBytesToPoint Xx Xy c).1 ≠ 1 := fun g => by
      have := e1.mp g; omega
    unfold calculateKb
    simp only []
    rw [if_neg g1, if_neg g2, if_neg g3, if_pos ((e2 (not_not.mp g3)).mpr h6)]

/-! ## Session-key derivation: the products and the key -/

theorem validPeer_rep (pX pY : keyC) (c : ellipticCurve) (hc : curveOK c)
    (hX : keyWF pX) (hY : keyWF pY) (h : validPeer pX pY c) :
    (convBytesToPoint pX pY c).1 = 1 ∧
    isOnTheCurve (convBytesToPoint pX pY c).2 c = 1 ∧
    pointARep c.p c.wsize (convBytesToPoint pX pY c).2 (keyPoint pX pY c) := by
  have r := convBytesToPoint_rep pX pY c hc hX hY ⟨h.1, h.2.1⟩
  refine ⟨?_, (isOnTheCurve_eq_one _ c hc _ r).mpr h.2.2, r⟩
  rw [convBytesToPoint_fst pX pY c hc hX hY, if_pos ⟨h.1, h.2.1⟩]

theorem product_rep (k : coord) (P : pointA) (c : ellipticCurve) (hc : curveOK c)
    (v : Nat × Nat) (hP : pointARep c.p c.wsize P v) :
    pointARep c.p c.wsize (scalarMult k P c.a c.p c.wsize)
      (pointAVal (scalarMult k P c.a c.p c.wsize) c.wsize) := by
  obtain ⟨w, hw⟩ := scalarMult_reduced k P c.a c.p c.wsize v _ hc.wf_p hc.two_le hc.rep_a hP
  exact pointARep_val _ _ _ w hw

theorem product_check (k : coord) (P : pointA) (c : ellipticCurve) (hc : curveOK c)
    (v : Nat × Nat) (hP : pointARep c.p c.wsize P v) :
    isOnTheCurve (scalarMult k P c.a c.p c.wsize) c = 1 ↔
      onCurve (pointAVal (scalarMult k P c.a c.p c.wsize) c.wsize) c :=
  isOnTheCurve_eq_one _ c hc _ (product_rep k P c hc v hP)

theorem sessionMsg_eq_keyMsg (t1 t2 t3 : pointA) (idA idB : keyC) (c : ellipticCurve)
    (hc : curveOK c) (w1 : coordWF t1.aX c.wsize) (w2 : coordWF t2.aX c.wsize)
    (w3 : coordWF t3.aX c.wsize) :
    sessionMsg t1 t2 t3 idA idB c = keyMsg (t1, t2, t3) idA idB c := by
  have hL : byteLenOf c ≤ 8 * c.wsize := by have := hc.wsize_eq; omega
  rw [sessionMsg_layout t1 t2 t3 idA idB c hc]
  unfold keyMsg
  simp only []
  rw [wordToByte_take _ _ _ w1 hL, wordToByte_take _ _ _ w2 hL, wordToByte_take _ _ _ w3 hL]

theorem sessionHash_eq (H : Keccak) (msg : keyC) (c : ellipticCurve)
    (hb : c.bsize = 224 ∨ c.bsize = 256 ∨ c.bsize = 384 ∨ c.bsize = 521) :
    sessionHash H msg c = some (sessionKeccak H c.bsize msg) := by
  unfold sessionHash sessionKeccak
  rcases hb with h | h | h | h <;> rw [h] <;> simp

/-- The initiator's derivation once the peer points are valid: -5 unless the three
products are on the curve, and then the outcome of the final hash. -/
theorem calculateKa_valid (H : Keccak) (hA0 : coord)
    (kA Yx Yy eskA skAb pkBx pkBy idA idB : keyC) (c : ellipticCurve) (hc : curveOK c)
    (hsX : keyWF pkBx) (hsY : keyWF pkBy) (heX : keyWF Yx) (heY : keyWF Yy)
    (hB : validPeer pkBx pkBy c) (hY : validPeer Yx Yy c) :
    (¬ productsOnCurve (productsKa H hA0 Yx Yy eskA skAb pkBx pkBy c) c →
      calculateKa H hA0 kA Yx Yy eskA skAb pkBx pkBy idA idB c = (-5, kA)) ∧
    (productsOnCurve (productsKa H hA0 Yx Yy eskA skAb pkBx pkBy c) c →
      ∀ (res : Int) (digest : keyC),
      sessionHash H (keyMsg (productsKa H hA0 Yx Yy eskA skAb pkBx pkBy c) idA idB c) c
        = some (res, digest) →
      calculateKa H hA0 kA Yx Yy eskA skAb pkBx pkBy idA idB c =
        (if res ≠ 0 then -1 else 1, writeBytes kA 0 digest)) ∧
    (productsOnCurve (productsKa H hA0 Yx Yy eskA skAb pkBx pkBy c) c →
      sessionHash H (keyMsg (productsKa H hA0 Yx Yy eskA skAb pkBx pkBy c) idA idB c) c
        = none →
      calculateKa H hA0 kA Yx Yy eskA skAb pkBx pkBy idA idB c = (-1, kA)) := by
  obtain ⟨b1, b2, b3⟩ := validPeer_rep pkBx pkBy c hc hsX hsY hB
  obtain ⟨y1, y2, y3⟩ := validPeer_rep Yx Yy c hc heX heY hY
  have c1 := product_check (byteToWord skAb ((c.bsize + 7) / 8)) _ c hc _ y3
  have c2 := product_check (hashAndMod H hA0 eskA skAb c).2 _ c hc _ b3
  have c3 := product_check (hashAndMod H hA0 eskA skAb c).2 _ c hc _ y3
  have r1 := product_rep (byteToWord skAb ((c.bsize + 7) / 8)) _ c hc _ y3
  have r2 := product_rep (hashAndMod H hA0 eskA skAb c).2 _ c hc _ b3
  have r3 := product_rep (hashAndMod H hA0 eskA skAb c).2 _ c hc _ y3
  unfold productsOnCurve productsKa calculateKa
  simp only []
  rw [if_neg (not_not.mpr b1), if_neg (not_not.mpr b2), if_neg (not_not.mpr y1),
    if_neg (not_not.mpr y2)]
  refine ⟨?_, ?_, ?_⟩
  · intro h
    by_cases g1 : isOnTheCurve (scalarMult (byteToWord skAb ((c.bsize + 7) / 8))
        (convBytesToPoint Yx Yy c).2 c.a c.p c.wsize) c = 1
    · rw [if_neg (not_not.mpr g1)]
      by_cases g2 : isOnTheCurve (scalarMult (hashAndMod H hA0 eskA skAb c).2
          (convBytesToPoint pkBx pkBy c).2 c.a c.p c.wsize) c = 1
      · rw [if_neg (not_not.mpr g2)]
        by_cases g3 : isOnTheCurve (scalarMult (hashAndMod H hA0 eskA skAb c).2
            (convBytesToPoint Yx Yy c).2 c.a c.p c.wsize) c = 1
        · exact absurd ⟨c1.mp g1, c2.mp g2, c3.mp g3⟩ h
        · rw [if_pos g3]
      · rw [if_pos g2]
    · rw [if_pos g1]
  · intro h res digest hh
    rw [if_neg (not_not.mpr (c1.mpr h.1)), if_neg (not_not.mpr (c2.mpr h.2.1)),
      if_neg (not_not.mpr (c3.mpr h.2.2)),
      sessionMsg_eq_keyMsg _ _ _ idA idB c hc r1.1.1 r2.1.1 r3.1.1, hh]
    simp only []
    split <;> rfl
  · intro h hh
    rw [if_neg (not_not.mpr (c1.mpr h.1)), if_neg (not_not.mpr (c2.mpr h.2.1)),
      if_neg (not_not.mpr (c3.mpr h.2.2)),
      sessionMsg_eq_keyMsg _ _ _ idA idB c hc r1.1.1 r2.1.1 r3.1.1, hh]

/-- The responder's derivation once the peer points are valid: -5 unless the three
products are on the curve, and then the outcome of the final hash. -/
theorem calculateKb_valid (H : Keccak) (hB0 : coord)
    (kB pkAx pkAy eskB skBb Xx Xy idA idB : keyC) (c : ellipticCurve) (hc : curveOK c)
    (hsX : keyWF pkAx) (hsY : keyWF pkAy) (heX : keyWF Xx) (heY : keyWF Xy)
    (hA : validPeer pkAx pkAy c) (hX : validPeer Xx Xy c) :
    (¬ productsOnCurve (productsKb H hB0 pkAx pkAy eskB skBb Xx Xy c) c →
      calculateKb H hB0 kB pkAx pkAy eskB skBb Xx Xy idA idB c = (-5, kB)) ∧
    (productsOnCurve (productsKb H hB0 pkAx pkAy eskB skBb Xx Xy c) c →
      ∀ (res : Int) (digest : keyC),
      sessionHash H (keyMsg (productsKb H hB0 pkAx pkAy eskB skBb Xx Xy c) idA idB c) c
        = some (res, digest) →
      calculateKb H hB0 kB pkAx pkAy eskB skBb Xx Xy idA idB c =
        (if res = 1 then -1 else 1, writeBytes kB 0 digest)) ∧
    (productsOnCurve (productsKb H hB0 pkAx pkAy eskB skBb Xx Xy c) c →
      sessionHash H (keyMsg (productsKb H hB0 pkAx pkAy eskB skBb Xx Xy c) idA idB c) c
        = none →
      calculateKb H hB0 kB pkAx pkAy eskB skBb Xx Xy idA idB c = (-1, kB)) := by
  obtain ⟨b1, b2, b3⟩ := validPeer_rep pkAx pkAy c hc hsX hsY hA
  obtain ⟨y1, y2, y3⟩ := validPeer_rep Xx Xy c hc heX heY hX
  have c1 := product_check (hashAndMod H hB0 eskB skBb c).2 _ c hc _ b3
  have c2 := product_check (byteToWord skBb ((c.bsize + 7) / 8)) _ c hc _ y3
  have c3 := product_check (hashAndMod H hB0 eskB skBb c).2 _ c hc _ y3
  have r1 := product_rep (hashAndMod H hB0 eskB skBb c).2 _ c hc _ b3
  have r2 := product_rep (byteToWord skBb ((c.bsize + 7) / 8)) _ c hc _ y3
  have r3 := product_rep (hashAndMod H hB0 eskB skBb c).2 _ c hc _ y3
  unfold productsOnCurve productsKb calculateKb
  simp only []
  rw [if_neg (not_not.mpr b1), if_neg (not_not.mpr b2), if_neg (not_not.mpr y1),
    if_neg (not_not.mpr y2)]
  refine ⟨?_, ?_, ?_⟩
  · intro h
    by_cases g1 : isOnTheCurve (scalarMult (hashAndMod H hB0 eskB skBb c).2
        (convBytesToPoint pkAx pkAy c).2 c.a c.p c.wsize) c = 1
    · rw [if_neg (not_not.mpr g1)]
      by_cases g2 : isOnTheCurve (scalarMult (byteToWord skBb ((c.bsize + 7) / 8))
          (convBytesToPoint Xx Xy c).2 c.a c.p c.wsize) c = 1
      · rw [if_neg (not_not.mpr g2)]
        by_cases g3 : isOnTheCurve (scalarMult (hashAndMod H hB0 eskB skBb c).2
            (convBytesToPoint Xx Xy c).2 c.a c.p c.wsize) c = 1
        · exact absurd ⟨c1.mp g1, c2.mp g2, c3.mp g3⟩ h
        · rw [if_pos g3]
      · rw [if_pos g2]
    · rw [if_pos g1]
  · intro h res digest hh
    rw [if_neg (not_not.mpr (c1.mpr h.1)), if_neg (not_not.mpr (c2.mpr h.2.1)),
      if_neg (not_not.mpr (c3.mpr h.2.2)),
      sessionMsg_eq_keyMsg _ _ _ idA idB c hc r1.1.1 r2.1.1 r3.1.1, hh]
    simp only []
    split <;> rfl
  · intro h hh
    rw [if_neg (not_not.mpr (c1.mpr h.1)), if_neg (not_not.mpr (c2.mpr h.2.1)),
      if_neg (not_not.mpr (c3.mpr h.2.2)),
      sessionMsg_eq_keyMsg _ _ _ idA idB c hc r1.1.1 r2.1.1 r3.1.1, hh]

/-! ## Evaluations on the catalog curves -/

theorem scalarMult_192_eval (k : coord) (hk : coordWF k 3) :
    scalarMult k curve192.g curve192.a curve192.p curve192.wsize =
      toPointA (scalarMultN (coordMaxBit curve192.p 3) (coordMaxBit k 3)
        (coordMaxBit (toCoord (coordVal curve192.p 3 - 2) 3) 3) (coordVal k 3)
        (pointAVal curve192.g 3) (coordVal curve192.a 3) (coordVal curve192.p 3)) 3 :=
  scalarMult_eval k curve192.g curve192.a curve192.p 3 _ _
    curve192_ok.wf_p curve192_ok.two_le hk curve192_ok.rep_a
    ⟨curve192_ok.rep_gx, curve192_ok.rep_gy⟩

theorem scalarMult_224_eval (k : coord) (hk : coordWF k 4) :
    scalarMult k curve224.g curve224.a curve224.p curve224.wsize =
      toPointA (scalarMultN (coordMaxBit curve224.p 4) (coordMaxBit k 4)
        (coordMaxBit (toCoord (coordVal curve224.p 4 - 2) 4) 4) (coordVal k 4)
        (pointAVal curve224.g 4) (coordVal curve224.a 4) (coordVal curve224.p 4)) 4 :=
  scalarMult_eval k curve224.g curve224.a curve224.p 4 _ _
    curve224_ok.wf_p curve224_ok.two_le hk curve224_ok.rep_a
    ⟨curve224_ok.rep_gx, curve224_ok.rep_gy⟩

set_option maxRecDepth 100000 in
/-- On P-192 the ladder maps the scalar n - 1 and the base point to (0, 0). -/
theorem scalarMult_192_order_pred :
    scalarMult (toCoord (order192 - 1) 3) curve192.g curve192.a curve192.p curve192.wsize
      = ⟨coordInit 3, coordInit 3⟩ := by
  rw [scalarMult_192_eval _ (coordWF_toCoord _ _)]
  decide!

set_option maxRecDepth 100000 in
/-- On P-224 the ladder maps the scalar n - 1 and the base point to (0, 0). -/
theorem scalarMult_224_order_pred :
    scalarMult (toCoord (order224 - 1) 4) curve224.g curve224.a curve224.p curve224.wsize
      = ⟨coordInit 4, coordInit 4⟩ := by
  rw [scalarMult_224_eval _ (coordWF_toCoord _ _)]
  decide!

set_option maxRecDepth 100000 in
theorem zero_off_curve224 : ¬ onCurve (0, 0) curve224 := fun h =>
  absurd ((onCurve_iff_N _ _ curve224_ok).mp h) (by decide!)

set_option maxRecDepth 100000 in
theorem zero_off_curve256 : ¬ onCurve (0, 0) curve256 := fun h =>
  absurd ((onCurve_iff_N _ _ curve256_ok).mp h) (by decide!)

set_option maxRecDepth 100000 in
theorem keyWF_zeroKey : keyWF zeroKey := keyWF_of_all _ (by decide!)

set_option maxRecDepth 100000 in
theorem keyWF_keyOfNat (v : Nat) : keyWF (keyOfNat v) := by
  intro i
  by_cases hi : i < COORD_BYTES
  · unfold keyOfNat
    rw [byteAt_leBytes _ _ _ hi]
    exact Nat.mod_lt _ (by decide)
  · rw [byteAt_eq_limb, limb_of_length_le _ _ (by unfold keyOfNat; rw [leBytes_length]; omega)]
    decide

set_option maxRecDepth 100000 in
theorem keyWF_baseKey192 : keyWF (baseKey curve192).1 ∧ keyWF (baseKey curve192).2 :=
  ⟨keyWF_of_all _ (by decide!), keyWF_of_all _ (by decide!)⟩

set_option maxRecDepth 100000 in
theorem keyWF_baseKey224 : keyWF (baseKey curve224).1 ∧ keyWF (baseKey curve224).2 :=
  ⟨keyWF_of_all _ (by decide!), keyWF_of_all _ (by decide!)⟩

set_option maxRecDepth 100000 in
theorem keyWF_baseKey256 : keyWF (baseKey curve256).1 ∧ keyWF (baseKey curve256).2 :=
  ⟨keyWF_of_all _ (by decide!), keyWF_of_all _ (by decide!)⟩

set_option maxRecDepth 100000 in
theorem validPeer_baseKey192 : validPeer (baseKey curve192).1 (baseKey curve192).2 curve192 :=
  ⟨by decide!, by decide!, (onCurve_iff_N _ _ curve192_ok).mpr (by decide!)⟩

set_option maxRecDepth 100000 in
theorem validPeer_baseKey224 : validPeer (baseKey curve224).1 (baseKey curve224).2 curve224 :=
  ⟨by decide!, by decide!, (onCurve_iff_N _ _ curve224_ok).mpr (by decide!)⟩

set_option maxRecDepth 100000 in
theorem validPeer_baseKey256 : validPeer (baseKey curve256).1 (baseKey curve256).2 curve256 :=
  ⟨by decide!, by decide!, (onCurve_iff_N _ _ curve256_ok).mpr (by decide!)⟩

set_option maxRecDepth 100000 in
theorem convBytesToPoint_baseKey192 :
    (convBytesToPoint (baseKey curve192).1 (baseKey curve192).2 curve192).2 = curve192.g := by
  decide!

set_option maxRecDepth 100000 in
theorem convBytesToPoint_baseKey224 :
    (convBytesToPoint (baseKey curve224).1 (baseKey curve224).2 curve224).2 = curve224.g := by
  decide!

theorem hashAndMod_192 (H : Keccak) (h : coord) (esk sk : keyC) :
    hashAndMod H h esk sk curve192 = (-1, h) := by
  unfold hashAndMod
  have e : curve192.bsize = 192 := rfl
  simp [e]

set_option maxRecDepth 100000 in
theorem hashAndMod_224_const (v : Nat) (h : coord) (esk sk : keyC) :
    hashAndMod (constKeccak 0 v) h esk sk curve224 =
      hashAndMod (constKeccak 0 v) [] [] [] curve224 := by
  unfold hashAndMod
  have e : curve224.bsize = 224 := rfl
  simp only [e, constKeccak, ne_eq, not_true_eq_false, if_false, if_true]

set_option maxRecDepth 100000 in
theorem hashAndMod_224_two (h : coord) (esk sk : keyC) :
    hashAndMod (constKeccak 0 2) h esk sk curve224 = (1, toCoord 2 4) := by
  rw [hashAndMod_224_const]
  decide!

set_option maxRecDepth 100000 in
theorem hashAndMod_224_len (h : coord) (esk sk : keyC) :
    hashAndMod (lenKeccak 56 2 2) h esk sk curve224 = (1, toCoord 2 4) := by
  unfold hashAndMod
  have e : curve224.bsize = 224 := rfl
  have l : (readBytes esk ((224 + 7) / 8) ++ readBytes sk ((224 + 7) / 8)).length = 56 := by
    rw [List.length_append, readBytes_length, readBytes_length]
  simp only [e, lenKeccak, l, ne_eq, not_true_eq_false, if_false, if_true]
  decide!

set_option maxRecDepth 100000 in
theorem byteToWord_keyOfNat_224 :
    byteToWord (keyOfNat 3) ((curve224.bsize + 7) / 8) = toCoord 3 4 ∧
    byteToWord (keyOfNat (order224 - 1)) ((curve224.bsize + 7) / 8)
      = toCoord (order224 - 1) 4 := by
  constructor <;> decide!

set_option maxRecDepth 100000 in
theorem byteToWord_keyOfNat_192 :
    byteToWord (keyOfNat 1) ((curve192.bsize + 7) / 8) = toCoord 1 3 := by
  decide!

set_option maxRecDepth 100000 in
theorem onCurve_mult_224 :
    onCurve (pointAVal (scalarMult (toCoord 2 4) curve224.g curve224.a curve224.p curve224.wsize)
      curve224.wsize) curve224 ∧
    onCurve (pointAVal (scalarMult (toCoord 3 4) curve224.g curve224.a curve224.p curve224.wsize)
      curve224.wsize) curve224 := by
  rw [scalarMult_224_eval _ (coordWF_toCoord _ _), scalarMult_224_eval _ (coordWF_toCoord _ _)]
  exact ⟨(onCurve_iff_N _ _ curve224_ok).mpr (by decide!),
    (onCurve_iff_N _ _ curve224_ok).mpr (by decide!)⟩

set_option maxRecDepth 100000 in
theorem onCurve_mult_192 :
    onCurve (pointAVal (scalarMult (toCoord 1 3) curve192.g curve192.a curve192.p curve192.wsize)
      curve192.wsize) curve192 := by
  rw [scalarMult_192_eval _ (coordWF_toCoord _ _)]
  exact (onCurve_iff_N _ _ curve192_ok).mpr (by decide!)

theorem keyMsg_length (T : pointA × pointA × pointA) (idA idB : keyC) (c : ellipticCurve) :
    (keyMsg T idA idB c).length = 5 * byteLenOf c := by
  unfold keyMsg
  simp only [List.length_append, leBytes_length, readBytes_length]
  omega

/-- The products of the initiator on P-224 for the base point as both peer points,
skA = 3 and hA = 2: they are 3 G, 2 G and 2 G. -/
theorem productsKa_224 (H : Keccak) (hA0 : coord) (eskA : keyC)
    (hh : hashAndMod H hA0 eskA (keyOfNat 3) curve224 = (1, toCoord 2 4)) :
    productsKa H hA0 (baseKey curve224).1 (baseKey curve224).2 eskA (keyOfNat 3)
      (baseKey curve224).1 (baseKey curve224).2 curve224 =
    (scalarMult (toCoord 3 4) curve224.g curve224.a curve224.p curve224.wsize,
     scalarMult (toCoord 2 4) curve224.g curve224.a curve224.p curve224.wsize,
     scalarMult (toCoord 2 4) curve224.g curve224.a curve224.p curve224.wsize) := by
  unfold productsKa
  simp only []
  rw [convBytesToPoint_baseKey224, byteToWord_keyOfNat_224.1, hh]

/-- The products of the responder on P-224 for the base point as both peer points,
skB = 3 and hB = 2: they are 2 G, 3 G and 2 G. -/
theorem productsKb_224 (H : Keccak) (hB0 : coord) (eskB : keyC)
    (hh : hashAndMod H hB0 eskB (keyOfNat 3) curve224 = (1, toCoord 2 4)) :
    productsKb H hB0 (baseKey curve224).1 (baseKey curve224).2 eskB (keyOfNat 3)
      (baseKey curve224).1 (baseKey curve224).2 curve224 =
    (scalarMult (toCoord 2 4) curve224.g curve224.a curve224.p curve224.wsize,
     scalarMult (toCoord 3 4) curve224.g curve224.a curve224.p curve224.wsize,
     scalarMult (toCoord 2 4) curve224.g curve224.a curve224.p curve224.wsize) := by
  unfold productsKb
  simp only []
  rw [convBytesToPoint_baseKey224, byteToWord_keyOfNat_224.1, hh]

theorem productsOnCurve_Ka_224 (H : Keccak) (hA0 : coord) (eskA : keyC)
    (hh : hashAndMod H hA0 eskA (keyOfNat 3) curve224 = (1, toCoord 2 4)) :
    productsOnCurve (productsKa H hA0 (baseKey curve224).1 (baseKey curve224).2 eskA
      (keyOfNat 3) (baseKey curve224).1 (baseKey curve224).2 curve224) curve224 := by
  rw [productsKa_224 H hA0 eskA hh]
  exact ⟨onCurve_mult_224.2, onCurve_mult_224.1, onCurve_mult_224.1⟩

theorem productsOnCurve_Kb_224 (H : Keccak) (hB0 : coord) (eskB : keyC)
    (hh : hashAndMod H hB0 eskB (keyOfNat 3) curve224 = (1, toCoord 2 4)) :
    productsOnCurve (productsKb H hB0 (baseKey curve224).1 (baseKey curve224).2 eskB
      (keyOfNat 3) (baseKey curve224).1 (baseKey curve224).2 curve224) curve224 := by
  rw [productsKb_224 H hB0 eskB hh]
  exact ⟨onCurve_mult_224.1, onCurve_mult_224.2, onCurve_mult_224.1⟩

/-- With the static secret n - 1 on P-224 the first product of the initiator and
the second product of the responder are (0, 0), off the curve. -/
theorem products_224_order_pred (H : Keccak) (h0 : coord) (esk : keyC) :
    ¬ productsOnCurve (productsKa H h0 (baseKey curve224).1 (baseKey curve224).2 esk
      (keyOfNat (order224 - 1)) (baseKey curve224).1 (baseKey curve224).2 curve224) curve224 ∧
    ¬ productsOnCurve (productsKb H h0 (baseKey curve224).1 (baseKey curve224).2 esk
      (keyOfNat (order224 - 1)) (baseKey curve224).1 (baseKey curve224).2 curve224) curve224 := by
  have z : pointAVal ⟨coordInit 4, coordInit 4⟩ curve224.wsize = (0, 0) := by
    unfold pointAVal
    simp only [coordVal_coordInit]
  constructor
  · intro h
    have h1 := h.1
    unfold productsKa at h1
    simp only [] at h1
    rw [convBytesToPoint_baseKey224, byteToWord_keyOfNat_224.2, scalarMult_224_order_pred, z] at h1
    exact zero_off_curve224 h1
  · intro h
    have h1 := h.2.1
    unfold productsKb at h1
    simp only [] at h1
    rw [convBytesToPoint_baseKey224, byteToWord_keyOfNat_224.2, scalarMult_224_order_pred, z] at h1
    exact zero_off_curve224 h1

/-! ## The claims -/

set_option maxRecDepth 100000 in
/-- C1 (key agreement), evaluated at a failing input.  On P-224 let the static
secret be skA = n - 1, n the order of the base point, so that 1 <= skA < p.
Then publicKey(skA) writes the coordinates (0, 0), and calculateKb called with
this pkA returns -2 and leaves kB unchanged for every hash and every choice of
the other inputs: the two derivations do not both return 1. -/
theorem keyAgreement_fails_at_order_pred :
    1 ≤ order224 - 1 ∧ order224 - 1 < primeOf curve224 ∧
    bytesVal (keyOfNat (order224 - 1)) (byteLenOf curve224) = order224 - 1 ∧
    publicKey zeroKey zeroKey (keyOfNat (order224 - 1)) curve224 = (zeroKey, zeroKey) ∧
    ∀ (H : Keccak) (hB0 : coord) (kB eskB skBb Xx Xy idA idB : keyC),
      calculateKb H hB0 kB zeroKey zeroKey eskB skBb Xx Xy idA idB curve224 = (-2, kB) := by
  refine ⟨by decide!, by decide!, by decide!, ?_, ?_⟩
  · unfold publicKey
    simp only []
    rw [byteToWord_keyOfNat_224.2, scalarMult_224_order_pred]
    decide!
  · intro H hB0 kB eskB skBb Xx Xy idA idB
    have hz : keyWF ([] : keyC) := fun i => by rw [byteAt_eq_limb, limb_nil]; decide
    have h1 : (convBytesToPoint zeroKey zeroKey curve224).1 = 1 := by decide!
    have h2 : (convBytesToPoint zeroKey zeroKey curve224).2 = ⟨coordInit 4, coordInit 4⟩ := by
      decide!
    have h3 : isOnTheCurve ⟨coordInit 4, coordInit 4⟩ curve224 ≠ 1 := by
      have r : pointARep curve224.p curve224.wsize ⟨coordInit 4, coordInit 4⟩ (0, 0) :=
        ⟨coordRep_init _ _ (by decide!), coordRep_init _ _ (by decide!)⟩
      intro h
      exact zero_off_curve224 ((isOnTheCurve_eq_one _ curve224 curve224_ok _ r).mp h)
    unfold calculateKb
    simp only []
    rw [if_neg (not_not.mpr h1), h2, if_pos h3]

set_option maxRecDepth 100000 in
/-- C2 (correctness of scalar multiplication), evaluated at a failing input.  On
P-224, for the base point G (a point of the curve) and the scalar k = n - 1,
which satisfies 1 <= k < p, scalarMult returns (0, 0).  This pair does not
satisfy the curve equation, so it is not the affine form of any multiple of G. -/
theorem scalarMult_wrong_at_order_pred :
    1 ≤ order224 - 1 ∧ order224 - 1 < primeOf curve224 ∧
    coordVal (toCoord (order224 - 1) 4) 4 = order224 - 1 ∧
    onCurve (pointAVal curve224.g curve224.wsize) curve224 ∧
    scalarMult (toCoord (order224 - 1) 4) curve224.g curve224.a curve224.p curve224.wsize
      = ⟨coordInit 4, coordInit 4⟩ ∧
    pointAVal ⟨coordInit 4, coordInit 4⟩ curve224.wsize = (0, 0) ∧
    ¬ onCurve (0, 0) curve224 := by
  refine ⟨by decide!, by decide!, by decide!, ?_, scalarMult_224_order_pred, by decide!,
    zero_off_curve224⟩
  exact (onCurve_iff_N _ _ curve224_ok).mpr (by decide!)

set_option maxRecDepth 100000 in
/-- C4 (on-curve closure), evaluated at a failing input.  On P-192 the base point
passes aIsOnCurve, the scalar k = n - 1 satisfies 1 <= k < p, and aIsOnCurve
returns -1 on the point that scalarMult returns for them. -/
theorem scalarMult_leaves_curve_at_order_pred :
    1 ≤ order192 - 1 ∧ order192 - 1 < primeOf curve192 ∧
    coordVal (toCoord (order192 - 1) 3) 3 = order192 - 1 ∧
    aIsOnCurve curve192.g curve192.a curve192.b curve192.p curve192.wsize = 1 ∧
    aIsOnCurve
      (scalarMult (toCoord (order192 - 1) 3) curve192.g curve192.a curve192.p curve192.wsize)
      curve192.a curve192.b curve192.p curve192.wsize = -1 := by
  refine ⟨by decide!, by decide!, by decide!, ?_, ?_⟩
  · rw [aIsOnCurve_rep curve192.g curve192.a curve192.b curve192.p curve192.wsize
      (pointAVal curve192.g curve192.wsize) _ _
      curve192_ok.wf_p curve192_ok.rep_a curve192_ok.rep_b
      ⟨curve192_ok.rep_gx, curve192_ok.rep_gy⟩]
    decide!
  · rw [scalarMult_192_order_pred,
      aIsOnCurve_rep ⟨coordInit 3, coordInit 3⟩ curve192.a curve192.b curve192.p curve192.wsize
        (0, 0) _ _ curve192_ok.wf_p curve192_ok.rep_a curve192_ok.rep_b
        ⟨coordRep_init _ _ (by decide!), coordRep_init _ _ (by decide!)⟩]
    decide!

set_option maxRecDepth 100000 in
/-- C5 (hash-to-scalar reduction), evaluated at a failing input.  On P-256, when
the hash reports status 0 and its 32 output bytes are the little-endian bytes of
p itself, hashAndMod returns 1 and leaves h = p: p is not subtracted, and h is
neither the output reduced modulo p (which is 0) nor below p. -/
theorem hashAndMod_keeps_p (h : coord) (esk sk : keyC) :
    bytesVal (leBytes (primeOf curve256) 32) (byteLenOf curve256) = primeOf curve256 ∧
    (hashAndMod (constKeccak 0 (primeOf curve256)) h esk sk curve256).1 = 1 ∧
    coordVal (hashAndMod (constKeccak 0 (primeOf curve256)) h esk sk curve256).2
      curve256.wsize = primeOf curve256 := by
  have e : curve256.bsize = 256 := rfl
  have g : hashAndMod (constKeccak 0 (primeOf curve256)) h esk sk curve256
      = (1, curve256.p) := by
    unfold hashAndMod
    simp only [e, constKeccak, ne_eq, not_true_eq_false, if_false, if_true, Nat.reduceEqDiff]
    decide!
  rw [g]
  exact ⟨by decide!, rfl, rfl⟩

/-- C6 (initiator key derivation).  On a catalog curve of size 224, 256, 384 or
521, when both peer points pass the validations, the three products
T1 = skA * Y, T2 = hA * pkB, T3 = hA * Y are on the curve and the prescribed
hash reports status 0 on msg, calculateKa returns 1 and stores H(msg) in kA,
where msg = x(T1) ‖ x(T2) ‖ x(T3) ‖ idA ‖ idB has 5 L bytes, each field L
little-endian bytes.  For P-521 the hash is SHA3-512, and a 64-byte digest
makes the key exactly the first 64 bytes of kA. -/
theorem calculateKa_key (H : Keccak) (hA0 : coord)
    (kA Yx Yy eskA skAb pkBx pkBy idA idB : keyC) (c : ellipticCurve)
    (hc : c = curve224 ∨ c = curve256 ∨ c = curve384 ∨ c = curve521)
    (hsX : keyWF pkBx) (hsY : keyWF pkBy) (heX : keyWF Yx) (heY : keyWF Yy)
    (hB : validPeer pkBx pkBy c) (hY : validPeer Yx Yy c)
    (hT : productsOnCurve (productsKa H hA0 Yx Yy eskA skAb pkBx pkBy c) c)
    (hs : (sessionKeccak H c.bsize
      (keyMsg (productsKa H hA0 Yx Yy eskA skAb pkBx pkBy c) idA idB c)).1 = 0) :
    calculateKa H hA0 kA Yx Yy eskA skAb pkBx pkBy idA idB c =
      (1, writeBytes kA 0 (sessionKeccak H c.bsize
        (keyMsg (productsKa H hA0 Yx Yy eskA skAb pkBx pkBy c) idA idB c)).2) ∧
    keyMsg (productsKa H hA0 Yx Yy eskA skAb pkBx pkBy c) idA idB c =
      leBytes (coordVal (productsKa H hA0 Yx Yy eskA skAb pkBx pkBy c).1.aX c.wsize)
        (byteLenOf c) ++
      leBytes (coordVal (productsKa H hA0 Yx Yy eskA skAb pkBx pkBy c).2.1.aX c.wsize)
        (byteLenOf c) ++
      leBytes (coordVal (productsKa H hA0 Yx Yy eskA skAb pkBx pkBy c).2.2.aX c.wsize)
        (byteLenOf c) ++
      readBytes idA (byteLenOf c) ++ readBytes idB (byteLenOf c) ∧
    (keyMsg (productsKa H hA0 Yx Yy eskA skAb pkBx pkBy c) idA idB c).length
      = 5 * byteLenOf c ∧
    (c = curve521 →
      (H.SHA3_512 (keyMsg (productsKa H hA0 Yx Yy eskA skAb pkBx pkBy c) idA idB c)).2.length
        = 64 →
      (calculateKa H hA0 kA Yx Yy eskA skAb pkBx pkBy idA idB c).2 =
        (H.SHA3_512 (keyMsg (productsKa H hA0 Yx Yy eskA skAb pkBx pkBy c) idA idB c)).2
          ++ kA.drop 64) := by
  have hok : curveOK c := catalog_ok c (Or.inr hc)
  have hb : c.bsize = 224 ∨ c.bsize = 256 ∨ c.bsize = 384 ∨ c.bsize = 521 := by
    rcases hc with h | h | h | h <;> subst h
    · exact Or.inl rfl
    · exact Or.inr (Or.inl rfl)
    · exact Or.inr (Or.inr (Or.inl rfl))
    · exact Or.inr (Or.inr (Or.inr rfl))
  have main := (calculateKa_valid H hA0 kA Yx Yy eskA skAb pkBx pkBy idA idB c hok
    hsX hsY heX heY hB hY).2.1 hT
    (sessionKeccak H c.bsize
      (keyMsg (productsKa H hA0 Yx Yy eskA skAb pkBx pkBy c) idA idB c)).1
    (sessionKeccak H c.bsize
      (keyMsg (productsKa H hA0 Yx Yy eskA skAb pkBx pkBy c) idA idB c)).2
    (sessionHash_eq H _ c hb)
  rw [if_neg (not_not.mpr hs)] at main
  refine ⟨main, rfl, keyMsg_length _ _ _ _, ?_⟩
  intro h521 hlen
  rw [main]
  subst h521
  have e : curve521.bsize = 521 := rfl
  simp only [sessionKeccak, e, writeBytes, Nat.reduceEqDiff, if_false, List.take_zero,
    List.nil_append, Nat.zero_add, hlen]

/-- C7 (responder key derivation).  Under the same conditions on the responder's
side, with T1 = hB * pkA, T2 = skB * X, T3 = hB * X, calculateKb returns 1 and
stores H(msg) in kB, msg = x(T1) ‖ x(T2) ‖ x(T3) ‖ idA ‖ idB with idA before
idB, each field L little-endian bytes. -/
theorem calculateKb_key (H : Keccak) (hB0 : coord)
    (kB pkAx pkAy eskB skBb Xx Xy idA idB : keyC) (c : ellipticCurve)
    (hc : c = curve224 ∨ c = curve256 ∨ c = curve384 ∨ c = curve521)
    (hsX : keyWF pkAx) (hsY : keyWF pkAy) (heX : keyWF Xx) (heY : keyWF Xy)
    (hA : validPeer pkAx pkAy c) (hX : validPeer Xx Xy c)
    (hT : productsOnCurve (productsKb H hB0 pkAx pkAy eskB skBb Xx Xy c) c)
    (hs : (sessionKeccak H c.bsize
      (keyMsg (productsKb H hB0 pkAx pkAy eskB skBb Xx Xy c) idA idB c)).1 = 0) :
    calculateKb H hB0 kB pkAx pkAy eskB skBb Xx Xy idA idB c =
      (1, writeBytes kB 0 (sessionKeccak H c.bsize
        (keyMsg (productsKb H hB0 pkAx pkAy eskB skBb Xx Xy c) idA idB c)).2) ∧
    keyMsg (productsKb H hB0 pkAx pkAy eskB skBb Xx Xy c) idA idB c =
      leBytes (coordVal (productsKb H hB0 pkAx pkAy eskB skBb Xx Xy c).1.aX c.wsize)
        (byteLenOf c) ++
      leBytes (coordVal (productsKb H hB0 pkAx pkAy eskB skBb Xx Xy c).2.1.aX c.wsize)
        (byteLenOf c) ++
      leBytes (coordVal (productsKb H hB0 pkAx pkAy eskB skBb Xx Xy c).2.2.aX c.wsize)
        (byteLenOf c) ++
      readBytes idA (byteLenOf c) ++ readBytes idB (byteLenOf c) := by
  have hok : curveOK c := catalog_ok c (Or.inr hc)
  have hb : c.bsize = 224 ∨ c.bsize = 256 ∨ c.bsize = 384 ∨ c.bsize = 521 := by
    rcases hc with h | h | h | h <;> subst h
    · exact Or.inl rfl
    · exact Or.inr (Or.inl rfl)
    · exact Or.inr (Or.inr (Or.inl rfl))
    · exact Or.inr (Or.inr (Or.inr rfl))
  have main := (calculateKb_valid H hB0 kB pkAx pkAy eskB skBb Xx Xy idA idB c hok
    hsX hsY heX heY hA hX).2.1 hT
    (sessionKeccak H c.bsize
      (keyMsg (productsKb H hB0 pkAx pkAy eskB skBb Xx Xy c) idA idB c)).1
    (sessionKeccak H c.bsize
      (keyMsg (productsKb H hB0 pkAx pkAy eskB skBb Xx Xy c) idA idB c)).2
    (sessionHash_eq H _ c hb)
  rw [hs] at main
  exact ⟨main, rfl⟩

/-- C8 (internal-fault abort).  On a selected curve, with peer points that pass
the validations, if one of the three products of calculateKa, respectively of
calculateKb, fails the curve equation, the function returns -5 and leaves the
key buffer unchanged. -/
theorem calculateK_internal_fault (H : Keccak) (h0 : coord)
    (k sX sY eX eY esk sk idA idB : keyC) (c0 c : ellipticCurve) (index : Int)
    (hsel : selectCurve c0 index = (1, c))
    (hsX : keyWF sX) (hsY : keyWF sY) (heX : keyWF eX) (heY : keyWF eY)
    (hS : validPeer sX sY c) (hE : validPeer eX eY c) :
    (¬ productsOnCurve (productsKa H h0 eX eY esk sk sX sY c) c →
      calculateKa H h0 k eX eY esk sk sX sY idA idB c = (-5, k)) ∧
    (¬ productsOnCurve (productsKb H h0 sX sY esk sk eX eY c) c →
      calculateKb H h0 k sX sY esk sk eX eY idA idB c = (-5, k)) :=
  ⟨(calculateKa_valid H h0 k eX eY esk sk sX sY idA idB c (selectCurve_ok c0 c index hsel)
      hsX hsY heX heY hS hE).1,
    (calculateKb_valid H h0 k sX sY esk sk eX eY idA idB c (selectCurve_ok c0 c index hsel)
      hsX hsY heX heY hS hE).1⟩

/-- C3 (validation order and codes).  On a selected curve, for calculateKa and
calculateKb alike, with (sX, sY) the peer static key and (eX, eY) the peer
ephemeral point: a static coordinate >= p gives -1; otherwise a static key off
the curve gives -2; otherwise an ephemeral coordinate >= p gives -3; otherwise
an ephemeral point off the curve gives -4; and in each case the key buffer is
returned unchanged. -/
theorem calculateK_validation_order (H : Keccak) (h0 : coord)
    (k sX sY eX eY esk sk idA idB : keyC) (c0 c : ellipticCurve) (index : Int)
    (hsel : selectCurve c0 index = (1, c))
    (hsX : keyWF sX) (hsY : keyWF sY) (heX : keyWF eX) (heY : keyWF eY) :
    ((primeOf c ≤ (keyPoint sX sY c).1 ∨ primeOf c ≤ (keyPoint sX sY c).2) →
      calculateKa H h0 k eX eY esk sk sX sY idA idB c = (-1, k) ∧
      calculateKb H h0 k sX sY esk sk eX eY idA idB c = (-1, k)) ∧
    ((keyPoint sX sY c).1 < primeOf c → (keyPoint sX sY c).2 < primeOf c →
      ¬ onCurve (keyPoint sX sY c) c →
      calculateKa H h0 k eX eY esk sk sX sY idA idB c = (-2, k) ∧
      calculateKb H h0 k sX sY esk sk eX eY idA idB c = (-2, k)) ∧
    (validPeer sX sY c →
      (primeOf c ≤ (keyPoint eX eY c).1 ∨ primeOf c ≤ (keyPoint eX eY c).2) →
      calculateKa H h0 k eX eY esk sk sX sY idA idB c = (-3, k) ∧
      calculateKb H h0 k sX sY esk sk eX eY idA idB c = (-3, k)) ∧
    (validPeer sX sY c →
      (keyPoint eX eY c).1 < primeOf c → (keyPoint eX eY c).2 < primeOf c →
      ¬ onCurve (keyPoint eX eY c) c →
      calculateKa H h0 k eX eY esk sk sX sY idA idB c = (-4, k) ∧
      calculateKb H h0 k sX sY esk sk eX eY idA idB c = (-4, k)) := by
  have hc := selectCurve_ok c0 c index hsel
  obtain ⟨a1, a2, a3, a4⟩ :=
    calculateKa_validation H h0 k eX eY esk sk sX sY idA idB c hc hsX hsY heX heY
  obtain ⟨b1, b2, b3, b4⟩ :=
    calculateKb_validation H h0 k sX sY esk sk eX eY idA idB c hc hsX hsY heX heY
  exact ⟨fun h => ⟨a1 h, b1 h⟩, fun h1 h2 h3 => ⟨a2 h1 h2 h3, b2 h1 h2 h3⟩,
    fun h1 h2 => ⟨a3 h1.1 h1.2.1 h1.2.2 h2, b3 h1.1 h1.2.1 h1.2.2 h2⟩,
    fun h1 h2 h3 h4 => ⟨a4 h1.1 h1.2.1 h1.2.2 h2 h3 h4, b4 h1.1 h1.2.1 h1.2.2 h2 h3 h4⟩⟩

set_option maxRecDepth 100000 in
/-- Witness of C3 on P-256, one input for each of the four codes: the static
coordinate x = p; the static pair (0, 0); the base point as static key with the
ephemeral coordinate x = p; the base point with the ephemeral pair (0, 0). -/
theorem calculateK_validation_order_witness :
    (calculateKa (constKeccak 0 2) (coordInit 4) zeroKey zeroKey zeroKey zeroKey (keyOfNat 3)
        (keyOfNat (primeOf curve256)) zeroKey (keyOfNat 10) (keyOfNat 11) curve256
        = (-1, zeroKey) ∧
      calculateKb (constKeccak 0 2) (coordInit 4) zeroKey (keyOfNat (primeOf curve256)) zeroKey
        zeroKey (keyOfNat 3) zeroKey zeroKey (keyOfNat 10) (keyOfNat 11) curve256
        = (-1, zeroKey)) ∧
    (calculateKa (constKeccak 0 2) (coordInit 4) zeroKey zeroKey zeroKey zeroKey (keyOfNat 3)
        zeroKey zeroKey (keyOfNat 10) (keyOfNat 11) curve256 = (-2, zeroKey) ∧
      calculateKb (constKeccak 0 2) (coordInit 4) zeroKey zeroKey zeroKey
        zeroKey (keyOfNat 3) zeroKey zeroKey (keyOfNat 10) (keyOfNat 11) curve256
        = (-2, zeroKey)) ∧
    (calculateKa (constKeccak 0 2) (coordInit 4) zeroKey (keyOfNat (primeOf curve256)) zeroKey
        zeroKey (keyOfNat 3) (baseKey curve256).1 (baseKey curve256).2 (keyOfNat 10)
        (keyOfNat 11) curve256 = (-3, zeroKey) ∧
      calculateKb (constKeccak 0 2) (coordInit 4) zeroKey (baseKey curve256).1
        (baseKey curve256).2 zeroKey (keyOfNat 3) (keyOfNat (primeOf curve256)) zeroKey
        (keyOfNat 10) (keyOfNat 11) curve256 = (-3, zeroKey)) ∧
    (calculateKa (constKeccak 0 2) (coordInit 4) zeroKey zeroKey zeroKey
        zeroKey (keyOfNat 3) (baseKey curve256).1 (baseKey curve256).2 (keyOfNat 10)
        (keyOfNat 11) curve256 = (-4, zeroKey) ∧
      calculateKb (constKeccak 0 2) (coordInit 4) zeroKey (baseKey curve256).1
        (baseKey curve256).2 zeroKey (keyOfNat 3) zeroKey zeroKey
        (keyOfNat 10) (keyOfNat 11) curve256 = (-4, zeroKey)) := by
  have sel : selectCurve curve192 256 = (1, curve256) := rfl
  refine ⟨?_, ?_, ?_, ?_⟩
  · exact (calculateK_validation_order (constKeccak 0 2) (coordInit 4) zeroKey
      (keyOfNat (primeOf curve256)) zeroKey zeroKey zeroKey zeroKey (keyOfNat 3)
      (keyOfNat 10) (keyOfNat 11) curve192 curve256 256 sel
      (keyWF_keyOfNat _) keyWF_zeroKey keyWF_zeroKey keyWF_zeroKey).1 (Or.inl (by decide!))
  · exact (calculateK_validation_order (constKeccak 0 2) (coordInit 4) zeroKey
      zeroKey zeroKey zeroKey zeroKey zeroKey (keyOfNat 3)
      (keyOfNat 10) (keyOfNat 11) curve192 curve256 256 sel
      keyWF_zeroKey keyWF_zeroKey keyWF_zeroKey keyWF_zeroKey).2.1
      (by decide!) (by decide!)
      (by
        have e : keyPoint zeroKey zeroKey curve256 = (0, 0) := by decide!
        rw [e]; exact zero_off_curve256)
  · exact (calculateK_validation_order (constKeccak 0 2) (coordInit 4) zeroKey
      (baseKey curve256).1 (baseKey curve256).2 (keyOfNat (primeOf curve256)) zeroKey zeroKey
      (keyOfNat 3) (keyOfNat 10) (keyOfNat 11) curve192 curve256 256 sel
      keyWF_baseKey256.1 keyWF_baseKey256.2 (keyWF_keyOfNat _) keyWF_zeroKey).2.2.1
      validPeer_baseKey256 (Or.inl (by decide!))
  · exact (calculateK_validation_order (constKeccak 0 2) (coordInit 4) zeroKey
      (baseKey curve256).1 (baseKey curve256).2 zeroKey zeroKey zeroKey
      (keyOfNat 3) (keyOfNat 10) (keyOfNat 11) curve192 curve256 256 sel
      keyWF_baseKey256.1 keyWF_baseKey256.2 keyWF_zeroKey keyWF_zeroKey).2.2.2
      validPeer_baseKey256 (by decide!) (by decide!)
      (by
        have e : keyPoint zeroKey zeroKey curve256 = (0, 0) := by decide!
        rw [e]; exact zero_off_curve256)

/-- Witness of C6 on P-224: base point as both peer points, skA = 3, and a hash
with status 0 and digest 2, so that T1 = 3 G and T2 = T3 = 2 G. -/
theorem calculateKa_key_witness :
    calculateKa (constKeccak 0 2) (coordInit 4) zeroKey (baseKey curve224).1
      (baseKey curve224).2 zeroKey (keyOfNat 3) (baseKey curve224).1 (baseKey curve224).2
      (keyOfNat 10) (keyOfNat 11) curve224 = (1, writeBytes zeroKey 0 (leBytes 2 28)) :=
  (calculateKa_key (constKeccak 0 2) (coordInit 4) zeroKey (baseKey curve224).1
    (baseKey curve224).2 zeroKey (keyOfNat 3) (baseKey curve224).1 (baseKey curve224).2
    (keyOfNat 10) (keyOfNat 11) curve224 (Or.inl rfl)
    keyWF_baseKey224.1 keyWF_baseKey224.2 keyWF_baseKey224.1 keyWF_baseKey224.2
    validPeer_baseKey224 validPeer_baseKey224
    (productsOnCurve_Ka_224 _ _ _ (hashAndMod_224_two _ _ _)) rfl).1

/-- Witness of C7 on P-224: base point as both peer points, skB = 3, and a hash
with status 0 and digest 2, so that T2 = 3 G and T1 = T3 = 2 G. -/
theorem calculateKb_key_witness :
    calculateKb (constKeccak 0 2) (coordInit 4) zeroKey (baseKey curve224).1
      (baseKey curve224).2 zeroKey (keyOfNat 3) (baseKey curve224).1 (baseKey curve224).2
      (keyOfNat 10) (keyOfNat 11) curve224 = (1, writeBytes zeroKey 0 (leBytes 2 28)) :=
  (calculateKb_key (constKeccak 0 2) (coordInit 4) zeroKey (baseKey curve224).1
    (baseKey curve224).2 zeroKey (keyOfNat 3) (baseKey curve224).1 (baseKey curve224).2
    (keyOfNat 10) (keyOfNat 11) curve224 (Or.inl rfl)
    keyWF_baseKey224.1 keyWF_baseKey224.2 keyWF_baseKey224.1 keyWF_baseKey224.2
    validPeer_baseKey224 validPeer_baseKey224
    (productsOnCurve_Kb_224 _ _ _ (hashAndMod_224_two _ _ _)) rfl).1

/-- Witness of C8 on P-224: base point as both peer points and the static secret
n - 1, whose product with the base point is (0, 0). -/
theorem calculateK_internal_fault_witness :
    calculateKa (constKeccak 0 2) (coordInit 4) zeroKey (baseKey curve224).1
      (baseKey curve224).2 zeroKey (keyOfNat (order224 - 1)) (baseKey curve224).1
      (baseKey curve224).2 (keyOfNat 10) (keyOfNat 11) curve224 = (-5, zeroKey) ∧
    calculateKb (constKeccak 0 2) (coordInit 4) zeroKey (baseKey curve224).1
      (baseKey curve224).2 zeroKey (keyOfNat (order224 - 1)) (baseKey curve224).1
      (baseKey curve224).2 (keyOfNat 10) (keyOfNat 11) curve224 = (-5, zeroKey) :=
  ⟨(calculateK_internal_fault (constKeccak 0 2) (coordInit 4) zeroKey (baseKey curve224).1
      (baseKey curve224).2 (baseKey curve224).1 (baseKey curve224).2 zeroKey
      (keyOfNat (order224 - 1)) (keyOfNat 10) (keyOfNat 11) curve192 curve224 224 rfl
      keyWF_baseKey224.1 keyWF_baseKey224.2 keyWF_baseKey224.1 keyWF_baseKey224.2
      validPeer_baseKey224 validPeer_baseKey224).1 (products_224_order_pred _ _ _).1,
    (calculateK_internal_fault (constKeccak 0 2) (coordInit 4) zeroKey (baseKey curve224).1
      (baseKey curve224).2 (baseKey curve224).1 (baseKey curve224).2 zeroKey
      (keyOfNat (order224 - 1)) (keyOfNat 10) (keyOfNat 11) curve192 curve224 224 rfl
      keyWF_baseKey224.1 keyWF_baseKey224.2 keyWF_baseKey224.1 keyWF_baseKey224.2
      validPeer_baseKey224 validPeer_baseKey224).2 (products_224_order_pred _ _ _).2⟩

/-- C9 (return code -1 identifies its cause), evaluated at a failing input.  On
P-192, with the base point as peer static key and as peer ephemeral point, so
that every coordinate of pkB is below p and all validations pass, skA = 1 and
the local hA holding 1, calculateKa returns -1 for every hash: the code is also
returned by the default case of the switch on the curve size. -/
theorem calculateKa_minus_one_on_192 (H : Keccak) (kA eskA idA idB : keyC) :
    validPeer (baseKey curve192).1 (baseKey curve192).2 curve192 ∧
    calculateKa H (toCoord 1 3) kA (baseKey curve192).1 (baseKey curve192).2 eskA
      (keyOfNat 1) (baseKey curve192).1 (baseKey curve192).2 idA idB curve192 = (-1, kA) := by
  refine ⟨validPeer_baseKey192, ?_⟩
  have hp : productsKa H (toCoord 1 3) (baseKey curve192).1 (baseKey curve192).2 eskA
      (keyOfNat 1) (baseKey curve192).1 (baseKey curve192).2 curve192 =
      (scalarMult (toCoord 1 3) curve192.g curve192.a curve192.p curve192.wsize,
       scalarMult (toCoord 1 3) curve192.g curve192.a curve192.p curve192.wsize,
       scalarMult (toCoord 1 3) curve192.g curve192.a curve192.p curve192.wsize) := by
    unfold productsKa
    simp only []
    rw [convBytesToPoint_baseKey192, byteToWord_keyOfNat_192, hashAndMod_192]
  have hT : productsOnCurve (productsKa H (toCoord 1 3) (baseKey curve192).1
      (baseKey curve192).2 eskA (keyOfNat 1) (baseKey curve192).1 (baseKey curve192).2
      curve192) curve192 := by
    rw [hp]
    exact ⟨onCurve_mult_192, onCurve_mult_192, onCurve_mult_192⟩
  have main := (calculateKa_valid H (toCoord 1 3) kA (baseKey curve192).1
    (baseKey curve192).2 eskA (keyOfNat 1) (baseKey curve192).1 (baseKey curve192).2 idA idB
    curve192 curve192_ok keyWF_baseKey192.1 keyWF_baseKey192.2 keyWF_baseKey192.1
    keyWF_baseKey192.2 validPeer_baseKey192 validPeer_baseKey192).2.2 hT
  apply main
  have e : curve192.bsize = 192 := rfl
  simp [sessionHash, e]

set_option maxRecDepth 100000 in
/-- C10 (uniform treatment of the hash status), evaluated at a failing input.  On
P-224 with valid inputs (base point as both peer points, static secret 3) and a
hash that reports status 0 to hashAndMod (56 input bytes) and status 2 on the
final 140-byte message: calculateKb returns 1, where calculateKa on the same
inputs returns -1. -/
theorem calculateKb_succeeds_on_failed_hash :
    ((lenKeccak 56 2 2).SHA3_224 (keyMsg (productsKb (lenKeccak 56 2 2) (coordInit 4)
        (baseKey curve224).1 (baseKey curve224).2 zeroKey (keyOfNat 3) (baseKey curve224).1
        (baseKey curve224).2 curve224) (keyOfNat 10) (keyOfNat 11) curve224)).1 = 2 ∧
    calculateKb (lenKeccak 56 2 2) (coordInit 4) zeroKey (baseKey curve224).1
      (baseKey curve224).2 zeroKey (keyOfNat 3) (baseKey curve224).1 (baseKey curve224).2
      (keyOfNat 10) (keyOfNat 11) curve224 = (1, writeBytes zeroKey 0 (leBytes 2 28)) ∧
    calculateKa (lenKeccak 56 2 2) (coordInit 4) zeroKey (baseKey curve224).1
      (baseKey curve224).2 zeroKey (keyOfNat 3) (baseKey curve224).1 (baseKey curve224).2
      (keyOfNat 10) (keyOfNat 11) curve224 = (-1, writeBytes zeroKey 0 (leBytes 2 28)) := by
  have hb : curve224.bsize = 224 ∨ curve224.bsize = 256 ∨ curve224.bsize = 384 ∨
      curve224.bsize = 521 := Or.inl rfl
  have e : curve224.bsize = 224 := rfl
  have l : ∀ T : pointA × pointA × pointA,
      (keyMsg T (keyOfNat 10) (keyOfNat 11) curve224).length = 140 := fun T => by
    rw [keyMsg_length]; rfl
  have hs : ∀ T : pointA × pointA × pointA,
      sessionKeccak (lenKeccak 56 2 2) curve224.bsize
        (keyMsg T (keyOfNat 10) (keyOfNat 11) curve224) = (2, leBytes 2 28) := fun T => by
    unfold sessionKeccak lenKeccak
    rw [if_pos e]
    simp only [l T]
    rfl
  have mb := (calculateKb_valid (lenKeccak 56 2 2) (coordInit 4) zeroKey (baseKey curve224).1
    (baseKey curve224).2 zeroKey (keyOfNat 3) (baseKey curve224).1 (baseKey curve224).2
    (keyOfNat 10) (keyOfNat 11) curve224 curve224_ok
    keyWF_baseKey224.1 keyWF_baseKey224.2 keyWF_baseKey224.1 keyWF_baseKey224.2
    validPeer_baseKey224 validPeer_baseKey224).2.1
    (productsOnCurve_Kb_224 _ _ _ (hashAndMod_224_len _ _ _)) 2 (leBytes 2 28)
    (by rw [sessionHash_eq _ _ _ hb, hs])
  have ma := (calculateKa_valid (lenKeccak 56 2 2) (coordInit 4) zeroKey (baseKey curve224).1
    (baseKey curve224).2 zeroKey (keyOfNat 3) (baseKey curve224).1 (baseKey curve224).2
    (keyOfNat 10) (keyOfNat 11) curve224 curve224_ok
    keyWF_baseKey224.1 keyWF_baseKey224.2 keyWF_baseKey224.1 keyWF_baseKey224.2
    validPeer_baseKey224 validPeer_baseKey224).2.1
    (productsOnCurve_Ka_224 _ _ _ (hashAndMod_224_len _ _ _)) 2 (leBytes 2 28)
    (by rw [sessionHash_eq _ _ _ hb, hs])
  refine ⟨?_, ?_, ?_⟩
  · have h2 := hs (productsKb (lenKeccak 56 2 2) (coordInit 4)
        (baseKey curve224).1 (baseKey curve224).2 zeroKey (keyOfNat 3) (baseKey curve224).1
        (baseKey curve224).2 curve224)
    unfold sessionKeccak at h2
    rw [if_pos e] at h2
    rw [h2]
  · rw [mb]; rfl
  · rw [ma]; rfl

/-! ## Curve catalog -/

/-- C19 (curve selection).  For the indices 192, 224, 256, 384 and 521
selectCurve returns 1 and fills a record with bsize = index and
wsize = (bsize + 63) / 64, the number of 64-bit words that hold bsize bits,
which is 3, 4, 4, 6, 9 respectively; for every other index it returns -1 and
the record is the one it was given. -/
theorem selectCurve_codes (curve : ellipticCurve) (index : Int) :
    ((index = 192 ∨ index = 224 ∨ index = 256 ∨ index = 384 ∨ index = 521) →
      (selectCurve curve index).1 = 1 ∧
      ((selectCurve curve index).2.bsize : Int) = index ∧
      (selectCurve curve index).2.wsize = ((selectCurve curve index).2.bsize + 63) / 64 ∧
      64 * ((selectCurve curve index).2.wsize - 1) < (selectCurve curve index).2.bsize ∧
      (selectCurve curve index).2.bsize ≤ 64 * (selectCurve curve index).2.wsize) ∧
    ((selectCurve curve 192).2.wsize = 3 ∧ (selectCurve curve 224).2.wsize = 4 ∧
      (selectCurve curve 256).2.wsize = 4 ∧ (selectCurve curve 384).2.wsize = 6 ∧
      (selectCurve curve 521).2.wsize = 9) ∧
    (¬ (index = 192 ∨ index = 224 ∨ index = 256 ∨ index = 384 ∨ index = 521) →
      selectCurve curve index = (-1, curve)) := by
  refine ⟨?_, ⟨rfl, rfl, rfl, rfl, rfl⟩, ?_⟩
  · intro h
    rcases h with h | h | h | h | h <;> subst h
    · exact ⟨rfl, rfl, rfl, (by decide : 64 * (3 - 1) < 192), (by decide : 192 ≤ 64 * 3)⟩
    · exact ⟨rfl, rfl, rfl, (by decide : 64 * (4 - 1) < 224), (by decide : 224 ≤ 64 * 4)⟩
    · exact ⟨rfl, rfl, rfl, (by decide : 64 * (4 - 1) < 256), (by decide : 256 ≤ 64 * 4)⟩
    · exact ⟨rfl, rfl, rfl, (by decide : 64 * (6 - 1) < 384), (by decide : 384 ≤ 64 * 6)⟩
    · exact ⟨rfl, rfl, rfl, (by decide : 64 * (9 - 1) < 521), (by decide : 521 ≤ 64 * 9)⟩
  · intro h
    unfold selectCurve
    rw [if_neg (fun g => h (Or.inl g)), if_neg (fun g => h (Or.inr (Or.inl g))),
      if_neg (fun g => h (Or.inr (Or.inr (Or.inl g)))),
      if_neg (fun g => h (Or.inr (Or.inr (Or.inr (Or.inl g))))),
      if_neg (fun g => h (Or.inr (Or.inr (Or.inr (Or.inr g)))))]

/-- Witness of C19: the index 256 is selected from any record, the index 255 is
refused and leaves the P-192 record in place. -/
theorem selectCurve_codes_witness :
    ((selectCurve curve192 256).1 = 1 ∧ ((selectCurve curve192 256).2.bsize : Int) = 256 ∧
      (selectCurve curve192 256).2.wsize = ((selectCurve curve192 256).2.bsize + 63) / 64 ∧
      64 * ((selectCurve curve192 256).2.wsize - 1) < (selectCurve curve192 256).2.bsize ∧
      (selectCurve curve192 256).2.bsize ≤ 64 * (selectCurve curve192 256).2.wsize) ∧
    selectCurve curve192 255 = (-1, curve192) :=
  ⟨(selectCurve_codes curve192 256).1 (by decide),
    (selectCurve_codes curve192 255).2.2 (by decide)⟩

set_option maxRecDepth 100000 in
/-- C20 (catalog constants and limb order).  In the record filled by selectCurve
the limbs 0 .. wsize-1 of p, a are 64-bit words which, read with limb 0 least
significant, give p = 2^192 - 2^64 - 1, 2^224 - 2^96 + 1,
2^256 - 2^224 + 2^192 + 2^96 - 1, 2^384 - 2^128 - 2^96 + 2^32 - 1 and 2^521 - 1
for the five indices, and a = 3; and coordMaxBit(p, wsize) is bsize, also for
P-521, whose top limb holds 9 bits. -/
theorem catalog_constants (curve : ellipticCurve) :
    (coordWF (selectCurve curve 192).2.p (selectCurve curve 192).2.wsize ∧
      coordVal (selectCurve curve 192).2.p (selectCurve curve 192).2.wsize
        = 2 ^ 192 - 2 ^ 64 - 1 ∧
      coordVal (selectCurve curve 192).2.a (selectCurve curve 192).2.wsize = 3 ∧
      coordMaxBit (selectCurve curve 192).2.p (selectCurve curve 192).2.wsize = 192 ∧
      (selectCurve curve 192).2.bsize = 192) ∧
    (coordWF (selectCurve curve 224).2.p (selectCurve curve 224).2.wsize ∧
      coordVal (selectCurve curve 224).2.p (selectCurve curve 224).2.wsize
        = 2 ^ 224 - 2 ^ 96 + 1 ∧
      coordVal (selectCurve curve 224).2.a (selectCurve curve 224).2.wsize = 3 ∧
      coordMaxBit (selectCurve curve 224).2.p (selectCurve curve 224).2.wsize = 224 ∧
      (selectCurve curve 224).2.bsize = 224) ∧
    (coordWF (selectCurve curve 256).2.p (selectCurve curve 256).2.wsize ∧
      coordVal (selectCurve curve 256).2.p (selectCurve curve 256).2.wsize
        = 2 ^ 256 - 2 ^ 224 + 2 ^ 192 + 2 ^ 96 - 1 ∧
      coordVal (selectCurve curve 256).2.a (selectCurve curve 256).2.wsize = 3 ∧
      coordMaxBit (selectCurve curve 256).2.p (selectCurve curve 256).2.wsize = 256 ∧
      (selectCurve curve 256).2.bsize = 256) ∧
    (coordWF (selectCurve curve 384).2.p (selectCurve curve 384).2.wsize ∧
      coordVal (selectCurve curve 384).2.p (selectCurve curve 384).2.wsize
        = 2 ^ 384 - 2 ^ 128 - 2 ^ 96 + 2 ^ 32 - 1 ∧
      coordVal (selectCurve curve 384).2.a (selectCurve curve 384).2.wsize = 3 ∧
      coordMaxBit (selectCurve curve 384).2.p (selectCurve curve 384).2.wsize = 384 ∧
      (selectCurve curve 384).2.bsize = 384) ∧
    (coordWF (selectCurve curve 521).2.p (selectCurve curve 521).2.wsize ∧
      coordVal (selectCurve curve 521).2.p (selectCurve curve 521).2.wsize = 2 ^ 521 - 1 ∧
      coordVal (selectCurve curve 521).2.a (selectCurve curve 521).2.wsize = 3 ∧
      coordMaxBit (selectCurve curve 521).2.p (selectCurve curve 521).2.wsize = 521 ∧
      (selectCurve curve 521).2.bsize = 521 ∧
      limb (selectCurve curve 521).2.p 8 = 2 ^ 9 - 1) := by
  have e192 : (selectCurve curve 192).2 = curve192 := rfl
  have e224 : (selectCurve curve 224).2 = curve224 := rfl
  have e256 : (selectCurve curve 256).2 = curve256 := rfl
  have e384 : (selectCurve curve 384).2 = curve384 := rfl
  have e521 : (selectCurve curve 521).2 = curve521 := rfl
  rw [e192, e224, e256, e384, e521]
  exact ⟨⟨curve192_ok.wf_p, by decide!, by decide!, by decide!, rfl⟩,
    ⟨curve224_ok.wf_p, by decide!, by decide!, by decide!, rfl⟩,
    ⟨curve256_ok.wf_p, by decide!, by decide!, by decide!, rfl⟩,
    ⟨curve384_ok.wf_p, by decide!, by decide!, by decide!, rfl⟩,
    ⟨curve521_ok.wf_p, by decide!, by decide!, by decide!, rfl, by decide!⟩⟩

/-! ## P-192 at the protocol layer -/

theorem sessionHash_192 (H : Keccak) (msg : keyC) : sessionHash H msg curve192 = none := by
  have e : curve192.bsize = 192 := rfl
  simp [sessionHash, e]

/-- C13 (P-192 is unsupported at the protocol layer).  On the record that
selectCurve fills for the index 192, hashAndMod returns -1 and leaves h as it
was, for every hash and all inputs, and neither calculateKa nor calculateKb
returns 1. -/
theorem p192_unsupported (curve : ellipticCurve) (H : Keccak) (h : coord)
    (k esk sk aX aY bX bY idA idB : keyC) :
    (selectCurve curve 192).1 = 1 ∧
    hashAndMod H h esk sk (selectCurve curve 192).2 = (-1, h) ∧
    (calculateKa H h k aX aY esk sk bX bY idA idB (selectCurve curve 192).2).1 ≠ 1 ∧
    (calculateKb H h k aX aY esk sk bX bY idA idB (selectCurve curve 192).2).1 ≠ 1 := by
  have e192 : (selectCurve curve 192).2 = curve192 := rfl
  rw [e192]
  refine ⟨rfl, hashAndMod_192 H h esk sk, ?_, ?_⟩
  · unfold calculateKa
    simp only [sessionHash_192]
    split_ifs <;> simp
  · unfold calculateKb
    simp only [sessionHash_192]
    split_ifs <;> simp

/-! ## Curve membership -/

/-- C18 (curve-membership check).  For a modulus p >= 2 held on nwords 64-bit
limbs and x, y, a, b held on nwords limbs with values below p, aIsOnCurve
returns 1 exactly when y^2 = x^3 - a x + b modulo p, and -1 otherwise. -/
theorem aIsOnCurve_iff_curveEq (aA : pointA) (a b p : coord) (nwords : Nat) (v : Nat × Nat)
    (va vb : Nat) (hp : coordWF p nwords) (h2 : 2 ≤ coordVal p nwords)
    (ha : coordRep p nwords a va) (hb : coordRep p nwords b vb)
    (hP : pointARep p nwords aA v) :
    (aIsOnCurve aA a b p nwords = 1 ↔ curveEq v.1 v.2 va vb (coordVal p nwords)) ∧
    (¬ curveEq v.1 v.2 va vb (coordVal p nwords) → aIsOnCurve aA a b p nwords = -1) := by
  rw [aIsOnCurve_rep aA a b p nwords v va vb hp ha hb hP]
  have h := aIsOnCurveN_iff v va vb (coordVal p nwords) (by omega)
  refine ⟨h, fun g => ?_⟩
  rcases aIsOnCurveN_values v va vb (coordVal p nwords) with e | e
  · exact absurd (h.mp e) g
  · exact e

set_option maxRecDepth 100000 in
/-- Witness of C18 on the parameters of P-256 (4 limbs): the base point gives 1,
the pair (0, 0) gives -1. -/
theorem aIsOnCurve_iff_curveEq_witness :
    aIsOnCurve curve256.g curve256.a curve256.b curve256.p 4 = 1 ∧
    aIsOnCurve ⟨coordInit 4, coordInit 4⟩ curve256.a curve256.b curve256.p 4 = -1 :=
  ⟨(aIsOnCurve_iff_curveEq curve256.g curve256.a curve256.b curve256.p 4
      (pointAVal curve256.g 4) _ _ curve256_ok.wf_p curve256_ok.two_le curve256_ok.rep_a
      curve256_ok.rep_b ⟨curve256_ok.rep_gx, curve256_ok.rep_gy⟩).1.mpr
      ((onCurve_iff_N _ _ curve256_ok).mpr (by decide!)),
    (aIsOnCurve_iff_curveEq ⟨coordInit 4, coordInit 4⟩ curve256.a curve256.b curve256.p 4
      (0, 0) _ _ curve256_ok.wf_p curve256_ok.two_le curve256_ok.rep_a
      curve256_ok.rep_b ⟨coordRep_init _ _ (by decide!), coordRep_init _ _ (by decide!)⟩).2
      zero_off_curve256⟩

/-! ## Bytes to words and back -/

theorem chunkVal_byte (arrayB : keyC) (base : Nat) (hB : keyWF arrayB) (cnt r : Nat) :
    chunkVal arrayB base cnt / 2 ^ (8 * r) % 256 =
      if r < cnt then byteAt arrayB (base + r) else 0 := by
  induction cnt with
  | zero => simp [chunkVal]
  | succ n ih =>
    simp only [chunkVal]
    have hlt := chunkVal_lt arrayB base hB n
    rcases Nat.lt_trichotomy r n with h | h | h
    · rw [if_pos (by omega)]
      rw [if_pos h] at ih
      rw [← ih]
      obtain ⟨d, hd⟩ : ∃ d, n = r + 1 + d := ⟨n - (r + 1), by omega⟩
      have h2 : byteAt arrayB (base + n) * 2 ^ (8 * n)
          = 2 ^ (8 * r) * (256 * (byteAt arrayB (base + n) * 2 ^ (8 * d))) := by
        rw [hd]
        have : 8 * (r + 1 + d) = 8 * r + (8 + 8 * d) := by ring
        rw [this, pow_add, pow_add]; ring
      rw [h2, Nat.add_mul_div_left _ _ (Nat.two_pow_pos _), Nat.add_mul_mod_self_left]
    · subst h
      rw [if_pos (by omega), Nat.add_mul_div_right _ _ (Nat.two_pow_pos _),
        Nat.div_eq_of_lt hlt, Nat.zero_add, Nat.mod_eq_of_lt (hB (base + r))]
    · rw [if_neg (by omega)]
      have hb := hB (base + n)
      have h3 : chunkVal arrayB base n + byteAt arrayB (base + n) * 2 ^ (8 * n)
          < 2 ^ (8 * r) := by
        have h4 : 2 ^ (8 * (n + 1)) ≤ 2 ^ (8 * r) :=
          Nat.pow_le_pow_right (by decide) (by omega)
        have h5 : 2 ^ (8 * (n + 1)) = 256 * 2 ^ (8 * n) := by
          have : 8 * (n + 1) = 8 + 8 * n := by ring
          rw [this, pow_add]; rfl
        have h6 : (byteAt arrayB (base + n) + 1) * 2 ^ (8 * n) ≤ 256 * 2 ^ (8 * n) :=
          Nat.mul_le_mul_right _ hb
        have h7 : (byteAt arrayB (base + n) + 1) * 2 ^ (8 * n)
            = byteAt arrayB (base + n) * 2 ^ (8 * n) + 2 ^ (8 * n) := by ring
        omega
      rw [Nat.div_eq_of_lt h3]

/-- Bytes to words to bytes: `wordToByte` after `byteToWord` gives back the L bytes
read and zeros above them. -/
theorem byteAt_wordToByte_byteToWord (arrayB : keyC) (hB : keyWF arrayB) (L n j : Nat)
    (hj : j < 8 * n) :
    byteAt (wordToByte (byteToWord arrayB L) n) j = if j < L then byteAt arrayB j else 0 := by
  rw [byteAt_wordToByte _ n j hj, limb_byteToWord arrayB L (j / 8) hB]
  have hr : j % 8 < 8 := Nat.mod_lt _ (by decide)
  have e : j / 8 * 8 + j % 8 = j := by omega
  split
  · rename_i h1
    rw [chunkVal_byte arrayB _ hB 8 (j % 8), if_pos hr, e, if_pos (by omega)]
  · rename_i h1
    split
    · rename_i h2
      rw [chunkVal_byte arrayB _ hB (L % 8) (j % 8), e]
      by_cases h3 : j % 8 < L % 8
      · rw [if_pos h3, if_pos (by omega)]
      · rw [if_neg h3, if_neg (by omega)]
    · rename_i h2
      rw [if_neg (by omega)]
      simp

theorem byteAt_writeBytes_zero (buf bs : keyC) (i : Nat) :
    byteAt (writeBytes buf 0 bs) i = if i < bs.length then byteAt bs i else byteAt buf i := by
  unfold writeBytes byteAt
  rw [List.getD_eq_getElem?_getD, List.getD_eq_getElem?_getD, List.getD_eq_getElem?_getD]
  simp only [List.take_zero, List.nil_append, Nat.zero_add]
  by_cases h : i < bs.length
  · rw [if_pos h, List.getElem?_append_left h]
  · rw [if_neg h, List.getElem?_append_right (by omega), List.getElem?_drop]
    congr 2
    omega

/-! ## Point encoding -/

/-- C17 (range check of deserialisation).  On a selected curve, for all byte
arrays pX, pY, convBytesToPoint returns 1 exactly when the little-endian
integers of their first L bytes are both below p, and -1 otherwise, so also for
a coordinate equal to p; and on return 1 the point holds these two integers on
wsize 64-bit limbs. -/
theorem convBytesToPoint_range (c0 c : ellipticCurve) (index : Int) (pX pY : keyC)
    (hsel : selectCurve c0 index = (1, c)) (hX : keyWF pX) (hY : keyWF pY) :
    ((convBytesToPoint pX pY c).1 = 1 ↔
      bytesVal pX ((c.bsize + 7) / 8) < primeOf c ∧
      bytesVal pY ((c.bsize + 7) / 8) < primeOf c) ∧
    ((convBytesToPoint pX pY c).1 = 1 ∨ (convBytesToPoint pX pY c).1 = -1) ∧
    ((bytesVal pX ((c.bsize + 7) / 8) = primeOf c ∨
      bytesVal pY ((c.bsize + 7) / 8) = primeOf c) → (convBytesToPoint pX pY c).1 = -1) ∧
    ((convBytesToPoint pX pY c).1 = 1 →
      coordWF (convBytesToPoint pX pY c).2.aX c.wsize ∧
      coordWF (convBytesToPoint pX pY c).2.aY c.wsize ∧
      coordVal (convBytesToPoint pX pY c).2.aX c.wsize = bytesVal pX ((c.bsize + 7) / 8) ∧
      coordVal (convBytesToPoint pX pY c).2.aY c.wsize = bytesVal pY ((c.bsize + 7) / 8)) := by
  have hc := selectCurve_ok c0 c index hsel
  have h1 := convBytesToPoint_fst pX pY c hc hX hY
  have hk : keyPoint pX pY c =
      (bytesVal pX ((c.bsize + 7) / 8), bytesVal pY ((c.bsize + 7) / 8)) := rfl
  rw [hk] at h1
  simp only [] at h1
  refine ⟨?_, ?_, ?_, ?_⟩
  · rw [h1]
    split
    · rename_i h; exact ⟨fun _ => h, fun _ => rfl⟩
    · rename_i h; exact ⟨fun g => absurd g (by decide), fun g => absurd g h⟩
  · rw [h1]
    split
    · exact Or.inl rfl
    · exact Or.inr rfl
  · intro h
    rw [h1, if_neg (by omega)]
  · intro h
    rw [h1] at h
    have h3 : bytesVal pX ((c.bsize + 7) / 8) < primeOf c ∧
        bytesVal pY ((c.bsize + 7) / 8) < primeOf c := by
      by_contra h4
      rw [if_neg h4] at h
      exact absurd h (by decide)
    obtain ⟨⟨w1, e1, _⟩, ⟨w2, e2, _⟩⟩ := convBytesToPoint_rep pX pY c hc hX hY (by rw [hk]; exact h3)
    exact ⟨w1, w2, e1, e2⟩

set_option maxRecDepth 100000 in
/-- Witness of C17 on P-256: the bytes of the base point are accepted, the x
coordinate p is refused. -/
theorem convBytesToPoint_range_witness :
    (convBytesToPoint (baseKey curve256).1 (baseKey curve256).2 curve256).1 = 1 ∧
    (convBytesToPoint (keyOfNat (primeOf curve256)) zeroKey curve256).1 = -1 :=
  ⟨(convBytesToPoint_range curve192 curve256 256 (baseKey curve256).1 (baseKey curve256).2 rfl
      keyWF_baseKey256.1 keyWF_baseKey256.2).1.mpr ⟨by decide!, by decide!⟩,
    (convBytesToPoint_range curve192 curve256 256 (keyOfNat (primeOf curve256)) zeroKey rfl
      (keyWF_keyOfNat _) keyWF_zeroKey).2.2.1 (Or.inl (by decide!))⟩

/-- C16 (encoding round trip).  On a selected curve, when the little-endian
integers of the first L bytes of pX and of pY are below p, convBytesToPoint
returns 1 and convPointToBytes, applied to the point it read, stores 8 wsize
bytes in each output buffer: the bytes 0 .. L-1 of pX, respectively pY, and
zeros in the bytes L .. 8 wsize - 1; the bytes of the output buffers beyond are
not written. -/
theorem encoding_round_trip (c0 c : ellipticCurve) (index : Int) (pX pY oX oY : keyC)
    (hsel : selectCurve c0 index = (1, c)) (hX : keyWF pX) (hY : keyWF pY)
    (hx : bytesVal pX ((c.bsize + 7) / 8) < primeOf c)
    (hy : bytesVal pY ((c.bsize + 7) / 8) < primeOf c) :
    (convBytesToPoint pX pY c).1 = 1 ∧
    (c.bsize + 7) / 8 ≤ 8 * c.wsize ∧
    ∀ i : Nat,
      byteAt (convPointToBytes oX oY (convBytesToPoint pX pY c).2 c).1 i =
        (if i < (c.bsize + 7) / 8 then byteAt pX i
          else if i < 8 * c.wsize then 0 else byteAt oX i) ∧
      byteAt (convPointToBytes oX oY (convBytesToPoint pX pY c).2 c).2 i =
        (if i < (c.bsize + 7) / 8 then byteAt pY i
          else if i < 8 * c.wsize then 0 else byteAt oY i) := by
  have hc := selectCurve_ok c0 c index hsel
  have hL : (c.bsize + 7) / 8 ≤ 8 * c.wsize := by
    have := hc.wsize_eq; unfold byteLenOf at this; omega
  refine ⟨?_, hL, fun i => ?_⟩
  · rw [convBytesToPoint_fst pX pY c hc hX hY]
    exact if_pos ⟨hx, hy⟩
  · rw [convBytesToPoint_snd]
    unfold convPointToBytes byteLenOf
    simp only []
    rw [byteAt_writeBytes_zero, byteAt_writeBytes_zero, wordToByte_length, wordToByte_length]
    by_cases h1 : i < 8 * c.wsize
    · simp only [if_pos h1, byteAt_wordToByte_byteToWord pX hX _ _ i h1,
        byteAt_wordToByte_byteToWord pY hY _ _ i h1]
      by_cases h2 : i < (c.bsize + 7) / 8
      · simp only [if_pos h2, and_self]
      · simp only [if_neg h2, and_self]
    · have h2 : ¬ i < (c.bsize + 7) / 8 := by omega
      simp only [if_neg h1, if_neg h2, and_self]

set_option maxRecDepth 100000 in
/-- Witness of C16 on P-521 (L = 66, 8 wsize = 72): the bytes of the base point
come back in the bytes 0 .. 65 of zeroed output buffers, and the whole output
buffers equal the input buffers. -/
theorem encoding_round_trip_witness :
    (convBytesToPoint (baseKey curve521).1 (baseKey curve521).2 curve521).1 = 1 ∧
    ∀ i : Nat,
      byteAt (convPointToBytes zeroKey zeroKey
        (convBytesToPoint (baseKey curve521).1 (baseKey curve521).2 curve521).2 curve521).1 i =
        (if i < (curve521.bsize + 7) / 8 then byteAt (baseKey curve521).1 i
          else if i < 8 * curve521.wsize then 0 else byteAt zeroKey i) :=
  ⟨(encoding_round_trip curve192 curve521 521 (baseKey curve521).1 (baseKey curve521).2
      zeroKey zeroKey rfl (keyWF_of_all _ (by decide!)) (keyWF_of_all _ (by decide!))
      (by decide!) (by decide!)).1,
    fun i => ((encoding_round_trip curve192 curve521 521 (baseKey curve521).1
      (baseKey curve521).2 zeroKey zeroKey rfl (keyWF_of_all _ (by decide!))
      (keyWF_of_all _ (by decide!)) (by decide!) (by decide!)).2.2 i).1⟩

/-! ## Hash-to-scalar reduction -/

theorem bytesVal_congr (a b : keyC) (n : Nat) (h : ∀ i, i < n → byteAt a i = byteAt b i) :
    bytesVal a n = bytesVal b n := by
  induction n with
  | zero => rfl
  | succ n ih =>
    simp only [bytesVal]
    rw [ih (fun i hi => h i (Nat.lt_succ_of_lt hi)), h n (Nat.lt_succ_self n)]

theorem bytesVal_succ (b : keyC) (k : Nat) :
    bytesVal b (k + 1) = bytesVal b k + byteAt b k * 2 ^ (8 * k) := rfl

theorem byteAt_of_length_le (b : keyC) (i : Nat) (h : b.length ≤ i) : byteAt b i = 0 := by
  rw [byteAt_eq_limb]; exact limb_of_length_le b i h

/-- The digest buffer of `hashAndMod` after the hash stored its digest: the bytes of
the digest, zero beyond its length. -/
theorem byteAt_hashed (digest : keyC) (i : Nat) :
    byteAt (writeBytes (List.replicate COORD_BYTES 0) 0 digest) i = byteAt digest i := by
  rw [byteAt_writeBytes_zero]
  split
  · rfl
  · rename_i h
    rw [byteAt_of_length_le digest i (by omega)]
    unfold byteAt
    rw [List.getD_eq_getElem?_getD]
    by_cases g : i < COORD_BYTES
    · simp [g]
    · simp [g]

theorem byteAt_set (b : keyC) (j v i : Nat) (hj : j < b.length) :
    byteAt (b.set j v) i = if i = j then v else byteAt b i := by
  unfold byteAt
  rw [List.getD_eq_getElem?_getD, List.getD_eq_getElem?_getD, List.getElem?_set]
  by_cases h : i = j
  · subst h
    simp [hj]
  · rw [if_neg (fun g => h g.symm), if_neg h]

theorem length_hashed (digest : keyC) :
    65 < (writeBytes (List.replicate COORD_BYTES 0) 0 digest).length := by
  unfold writeBytes COORD_BYTES
  simp only [List.take_zero, List.nil_append, Nat.zero_add, List.length_append,
    List.length_drop, List.length_replicate]
  omega

/-- Function `hashAndMod` on a curve of size 224, 256 or 384, in terms of the one
call of the hash. -/
theorem hashAndMod_sha (H : Keccak) (h : coord) (esk sk : keyC) (c : ellipticCurve)
    (hb : c.bsize = 224 ∨ c.bsize = 256 ∨ c.bsize = 384) :
    hashAndMod H h esk sk c =
      if (scalarKeccak H c.bsize (scalarMsg esk sk c)).1 ≠ 0 then (-1, h)
      else if coordCmp (byteToWord (writeBytes (List.replicate COORD_BYTES 0) 0
          (scalarKeccak H c.bsize (scalarMsg esk sk c)).2) (byteLenOf c)) c.p c.wsize = 1 then
        (1, (subLoop (byteToWord (writeBytes (List.replicate COORD_BYTES 0) 0
          (scalarKeccak H c.bsize (scalarMsg esk sk c)).2) (byteLenOf c)) c.p c.wsize).1)
      else (1, byteToWord (writeBytes (List.replicate COORD_BYTES 0) 0
          (scalarKeccak H c.bsize (scalarMsg esk sk c)).2) (byteLenOf c)) := by
  unfold hashAndMod scalarKeccak scalarMsg byteLenOf
  rcases hb with e | e | e <;> simp only [e, if_true, if_false, Nat.reduceEqDiff]

/-- Function `hashAndMod` on a curve of size 521, in terms of the one call of the
sponge. -/
theorem hashAndMod_sponge (H : Keccak) (h : coord) (esk sk : keyC) (c : ellipticCurve)
    (hb : c.bsize = 521) :
    hashAndMod H h esk sk c =
      if (scalarKeccak H c.bsize (scalarMsg esk sk c)).1 ≠ 0 then (-1, h)
      else if coordCmp (byteToWord ((writeBytes (List.replicate COORD_BYTES 0) 0
          (scalarKeccak H c.bsize (scalarMsg esk sk c)).2).set 65
            (byteAt (writeBytes (List.replicate COORD_BYTES 0) 0
              (scalarKeccak H c.bsize (scalarMsg esk sk c)).2) 65 &&& 1))
          (byteLenOf c)) c.p c.wsize = 1 then
        (1, (subLoop (byteToWord ((writeBytes (List.replicate COORD_BYTES 0) 0
          (scalarKeccak H c.bsize (scalarMsg esk sk c)).2).set 65
            (byteAt (writeBytes (List.replicate COORD_BYTES 0) 0
              (scalarKeccak H c.bsize (scalarMsg esk sk c)).2) 65 &&& 1))
          (byteLenOf c)) c.p c.wsize).1)
      else (1, byteToWord ((writeBytes (List.replicate COORD_BYTES 0) 0
          (scalarKeccak H c.bsize (scalarMsg esk sk c)).2).set 65
            (byteAt (writeBytes (List.replicate COORD_BYTES 0) 0
              (scalarKeccak H c.bsize (scalarMsg esk sk c)).2) 65 &&& 1))
          (byteLenOf c)) := by
  unfold hashAndMod scalarKeccak scalarMsg byteLenOf
  simp only [hb, if_true, if_false, Nat.reduceEqDiff, Nat.reduceDiv]

/-- The coordinate read from a buffer whose number is below p: it is returned
unchanged. -/
theorem hashAndMod_tail (hashed : keyC) (c : ellipticCurve) (hc : curveOK c) (v : Nat)
    (hw : keyWF hashed) (hv : bytesVal hashed (byteLenOf c) = v) (hlt : v ≤ primeOf c) :
    (if coordCmp (byteToWord hashed (byteLenOf c)) c.p c.wsize = 1 then
        ((1 : Int), (subLoop (byteToWord hashed (byteLenOf c)) c.p c.wsize).1)
      else (1, byteToWord hashed (byteLenOf c))) = (1, toCoord v c.wsize) := by
  have w := byteToWord_wf hashed (byteLenOf c) hw
  have e := coordVal_byteToWord hashed (byteLenOf c) hw
  rw [← hc.wsize_eq] at w e
  rw [if_neg]
  · rw [coordWF_eq_toCoord _ _ w, e, hv]
  · rw [coordCmp_eq_one _ _ _ w.2 hc.wf_p.2, e, hv]
    unfold primeOf at hlt
    omega

theorem keyWF_hashed (digest : keyC) (hw : keyWF digest) :
    keyWF (writeBytes (List.replicate COORD_BYTES 0) 0 digest) := fun i => by
  rw [byteAt_hashed]; exact hw i

theorem keyWF_leBytes (v L : Nat) : keyWF (leBytes v L) := by
  intro i
  by_cases hi : i < L
  · rw [byteAt_leBytes _ _ _ hi]
    exact Nat.mod_lt _ (by decide)
  · rw [byteAt_of_length_le _ _ (by rw [leBytes_length]; omega)]
    decide

theorem scalarMsg_length (esk sk : keyC) (c : ellipticCurve) :
    (scalarMsg esk sk c).length = 2 * byteLenOf c := by
  unfold scalarMsg
  rw [List.length_append, readBytes_length, readBytes_length]
  omega

theorem byteAt_scalarMsg (esk sk : keyC) (c : ellipticCurve) (i : Nat)
    (hi : i < byteLenOf c) :
    byteAt (scalarMsg esk sk c) i = byteAt esk i ∧
    byteAt (scalarMsg esk sk c) (byteLenOf c + i) = byteAt sk i := by
  unfold scalarMsg
  rw [byteAt_append, byteAt_append, readBytes_length, if_pos hi, if_neg (by omega),
    byteAt_readBytes _ _ _ hi, Nat.add_sub_cancel_left, byteAt_readBytes _ _ _ hi]
  exact ⟨rfl, rfl⟩

/-- The number `hashAndMod` reads from its digest buffer is the one the
specification reads off the digest. -/
theorem hashAndMod_value (H : Keccak) (h : coord) (esk sk : keyC) (c : ellipticCurve)
    (hok : curveOK c)
    (hb : c.bsize = 224 ∨ c.bsize = 256 ∨ c.bsize = 384 ∨ c.bsize = 521)
    (hst : (scalarKeccak H c.bsize (scalarMsg esk sk c)).1 = 0)
    (hwf : keyWF (scalarKeccak H c.bsize (scalarMsg esk sk c)).2)
    (hlt : digestVal (scalarKeccak H c.bsize (scalarMsg esk sk c)).2 c ≤ primeOf c) :
    hashAndMod H h esk sk c =
      (1, toCoord (digestVal (scalarKeccak H c.bsize (scalarMsg esk sk c)).2 c) c.wsize) := by
  by_cases h5 : c.bsize = 521
  · rw [hashAndMod_sponge H h esk sk c h5, if_neg (not_not.mpr hst)]
    have hL : byteLenOf c = 65 + 1 := by unfold byteLenOf; rw [h5]
    apply hashAndMod_tail _ c hok _ _ _ hlt
    · intro i
      rw [byteAt_set _ _ _ _ (length_hashed _)]
      split
      · exact Nat.lt_of_le_of_lt Nat.and_le_right (by decide)
      · exact keyWF_hashed _ hwf i
    · unfold digestVal
      rw [if_pos h5, hL, bytesVal_succ]
      rw [byteAt_set _ _ _ _ (length_hashed _), if_pos rfl, byteAt_hashed]
      congr 1
      apply bytesVal_congr
      intro i hi
      rw [byteAt_set _ _ _ _ (length_hashed _), if_neg (by omega), byteAt_hashed]
  · have hb3 : c.bsize = 224 ∨ c.bsize = 256 ∨ c.bsize = 384 := by
      rcases hb with e | e | e | e
      · exact Or.inl e
      · exact Or.inr (Or.inl e)
      · exact Or.inr (Or.inr e)
      · exact absurd e h5
    rw [hashAndMod_sha H h esk sk c hb3, if_neg (not_not.mpr hst)]
    apply hashAndMod_tail _ c hok _ (keyWF_hashed _ hwf) _ hlt
    unfold digestVal
    rw [if_neg h5]
    exact bytesVal_congr _ _ _ (fun i _ => byteAt_hashed _ i)

/-- What `hashAndMod` returns depends on the hash only through the one call of
the prescribed function on esk[0..L) ‖ sk[0..L). -/
theorem hashAndMod_one_call (H K : Keccak) (h : coord) (esk sk : keyC) (c : ellipticCurve)
    (hb : c.bsize = 224 ∨ c.bsize = 256 ∨ c.bsize = 384 ∨ c.bsize = 521)
    (e : scalarKeccak K c.bsize (scalarMsg esk sk c) =
      scalarKeccak H c.bsize (scalarMsg esk sk c)) :
    hashAndMod K h esk sk c = hashAndMod H h esk sk c := by
  by_cases h5 : c.bsize = 521
  · rw [hashAndMod_sponge H h esk sk c h5, hashAndMod_sponge K h esk sk c h5, e]
  · have hb3 : c.bsize = 224 ∨ c.bsize = 256 ∨ c.bsize = 384 := by
      rcases hb with e | e | e | e
      · exact Or.inl e
      · exact Or.inr (Or.inl e)
      · exact Or.inr (Or.inr e)
      · exact absurd e h5
    rw [hashAndMod_sha H h esk sk c hb3, hashAndMod_sha K h esk sk c hb3, e]

theorem catalog_bsize (c : ellipticCurve)
    (hc : c = curve224 ∨ c = curve256 ∨ c = curve384 ∨ c = curve521) :
    c.bsize = 224 ∨ c.bsize = 256 ∨ c.bsize = 384 ∨ c.bsize = 521 := by
  rcases hc with h | h | h | h <;> subst h
  · exact Or.inl rfl
  · exact Or.inr (Or.inl rfl)
  · exact Or.inr (Or.inr (Or.inl rfl))
  · exact Or.inr (Or.inr (Or.inr rfl))

/-- C14 (hash-to-scalar input and decoding).  On a catalog curve of size 224, 256,
384 or 521, with L = (bsize + 7) / 8: the hash input is the 2 L bytes
esk[0..L) ‖ sk[0..L); hashAndMod depends on the hash library only through the
call of the function of the curve (SHA3-224, SHA3-256, SHA3-384, or the sponge
with rate 576, capacity 1024, suffix 0x06 and 66 output bytes) on this input;
and when this call reports status 0 and delivers L bytes, which fit the
72-byte digest buffer, and the little-endian integer of these bytes (for
P-521 with the byte 65 masked with 1) is below p, hashAndMod returns 1 and
leaves this integer in h, on wsize limbs. -/
theorem hashAndMod_decoding (H : Keccak) (h : coord) (esk sk : keyC) (c : ellipticCurve)
    (hc : c = curve224 ∨ c = curve256 ∨ c = curve384 ∨ c = curve521)
    (hst : (scalarKeccak H c.bsize (scalarMsg esk sk c)).1 = 0)
    (hwf : keyWF (scalarKeccak H c.bsize (scalarMsg esk sk c)).2)
    (hlen : (scalarKeccak H c.bsize (scalarMsg esk sk c)).2.length = byteLenOf c)
    (hlt : digestVal (scalarKeccak H c.bsize (scalarMsg esk sk c)).2 c < primeOf c) :
    ((scalarMsg esk sk c).length = 2 * byteLenOf c ∧
      ∀ i, i < byteLenOf c → byteAt (scalarMsg esk sk c) i = byteAt esk i ∧
        byteAt (scalarMsg esk sk c) (byteLenOf c + i) = byteAt sk i) ∧
    (∀ K : Keccak, scalarKeccak K c.bsize (scalarMsg esk sk c) =
        scalarKeccak H c.bsize (scalarMsg esk sk c) →
      hashAndMod K h esk sk c = hashAndMod H h esk sk c) ∧
    (scalarKeccak H c.bsize (scalarMsg esk sk c)).2.length ≤ COORD_BYTES ∧
    hashAndMod H h esk sk c =
      (1, toCoord (digestVal (scalarKeccak H c.bsize (scalarMsg esk sk c)).2 c) c.wsize) ∧
    coordVal (hashAndMod H h esk sk c).2 c.wsize =
      digestVal (scalarKeccak H c.bsize (scalarMsg esk sk c)).2 c := by
  have hok : curveOK c := catalog_ok c (Or.inr hc)
  have hb := catalog_bsize c hc
  have hv := hashAndMod_value H h esk sk c hok hb hst hwf (Nat.le_of_lt hlt)
  refine ⟨⟨scalarMsg_length esk sk c, byteAt_scalarMsg esk sk c⟩,
    fun K e => hashAndMod_one_call H K h esk sk c hb e, ?_, hv, ?_⟩
  · rw [hlen]
    have := hok.msg_fit
    unfold FIVET_BYTES at this
    unfold COORD_BYTES
    omega
  · rw [hv]
    apply coordVal_toCoord_of_lt
    have := coordVal_lt c.p c.wsize hok.wf_p.2
    unfold primeOf at hlt
    omega

set_option maxRecDepth 100000 in
/-- Witness of C14: on P-224 a digest holding 2 gives h = 2; on P-521 a digest
holding 2^527 + 5, whose byte 65 is 0x80, gives h = 5. -/
theorem hashAndMod_decoding_witness :
    hashAndMod (constKeccak 0 2) (coordInit 4) (keyOfNat 7) (keyOfNat 3) curve224
      = (1, toCoord 2 4) ∧
    hashAndMod (constKeccak 0 (2 ^ 527 + 5)) (coordInit 9) (keyOfNat 7) (keyOfNat 3) curve521
      = (1, toCoord 5 9) :=
  ⟨(hashAndMod_decoding (constKeccak 0 2) (coordInit 4) (keyOfNat 7) (keyOfNat 3) curve224
      (Or.inl rfl) rfl (keyWF_leBytes _ _) (leBytes_length _ _) (by decide!)).2.2.2.1,
    (hashAndMod_decoding (constKeccak 0 (2 ^ 527 + 5)) (coordInit 9) (keyOfNat 7) (keyOfNat 3)
      curve521 (Or.inr (Or.inr (Or.inr rfl))) rfl (keyWF_leBytes _ _) (leBytes_length _ _)
      (by decide!)).2.2.2.1.trans (by decide!)⟩

/-! ## Ephemeral point derivation -/

theorem coordIsZero_le_one (a : coord) (n : Nat) : coordIsZero a n ≤ 1 := by
  induction n with
  | zero => exact Nat.le_refl 1
  | succ n _ =>
    simp only [coordIsZero]
    exact Nat.le_trans Nat.and_le_right (cbool_le_one _)

theorem coordIsZero_spec (a : coord) (n : Nat) :
    coordIsZero a n = 1 ↔ coordVal a n = 0 := by
  induction n with
  | zero => simp [coordIsZero, coordVal]
  | succ n ih =>
    simp only [coordIsZero, coordVal]
    have hpos : 0 < 2 ^ (64 * n) := Nat.two_pow_pos _
    have h1 := coordIsZero_le_one a n
    by_cases hl : limb a n = 0
    · have e : cbool (decide (limb a n = 0)) = 1 := by simp [cbool, hl]
      rw [e, hl, Nat.zero_mul, Nat.add_zero, ← ih]
      rcases le_one_cases _ h1 with g | g <;> rw [g] <;> decide
    · have e : cbool (decide (limb a n = 0)) = 0 := by simp [cbool, hl]
      rw [e, Nat.and_zero]
      have : 0 < limb a n * 2 ^ (64 * n) := Nat.mul_pos (Nat.pos_of_ne_zero hl) hpos
      constructor
      · intro g; exact absurd g (by decide)
      · intro g; omega

theorem randomGen_snd (E : Entropy) (i : Nat) (esk : keyC) (c : ellipticCurve) :
    (randomGen E i esk c.bsize).2 = writeBytes esk 0 (E i (byteLenOf c)).2 := by
  unfold randomGen byteLenOf
  simp only []
  split <;> rfl

theorem writeBytes_zero_twice (e d1 d2 : keyC) (h : d1.length = d2.length) :
    writeBytes (writeBytes e 0 d1) 0 d2 = writeBytes e 0 d2 := by
  unfold writeBytes
  simp only [List.take_zero, List.nil_append, Nat.zero_add]
  rw [← h, List.drop_append_of_le_length (Nat.le_refl _), List.drop_length, List.nil_append]

theorem readBytes_congr (a b : keyC) (L : Nat) (h : ∀ i, i < L → byteAt a i = byteAt b i) :
    readBytes a L = readBytes b L := by
  unfold readBytes
  apply List.map_congr_left
  intro i hi
  exact h i (List.mem_range.mp hi)

/-- Function `hashAndMod` reads the first L bytes of esk only. -/
theorem hashAndMod_esk (H : Keccak) (h : coord) (esk esk1 sk : keyC) (c : ellipticCurve)
    (e : readBytes esk ((c.bsize + 7) / 8) = readBytes esk1 ((c.bsize + 7) / 8)) :
    hashAndMod H h esk sk c = hashAndMod H h esk1 sk c := by
  unfold hashAndMod
  simp only [e]

theorem hashAndMod_draw (H : Keccak) (h : coord) (esk d sk : keyC) (c : ellipticCurve)
    (hd : d.length = byteLenOf c) :
    hashAndMod H h (writeBytes esk 0 d) sk c = hashAndMod H h d sk c := by
  apply hashAndMod_esk
  apply readBytes_congr
  intro i hi
  rw [byteAt_writeBytes_zero, if_pos (by rw [hd]; exact hi)]

theorem hashAndMod_other (H : Keccak) (h : coord) (esk sk : keyC) (c : ellipticCurve)
    (h1 : c.bsize ≠ 224) (h2 : c.bsize ≠ 256) (h3 : c.bsize ≠ 384) (h4 : c.bsize ≠ 521) :
    hashAndMod H h esk sk c = (-1, h) := by
  unfold hashAndMod
  simp only [if_neg h1, if_neg h2, if_neg h3, if_neg h4]

/-- When `hashAndMod` returns 1, what it returns does not depend on the content
of h before the call. -/
theorem hashAndMod_indep (H : Keccak) (h h1 : coord) (esk sk : keyC) (c : ellipticCurve)
    (hr : (hashAndMod H h esk sk c).1 = 1) :
    hashAndMod H h1 esk sk c = hashAndMod H h esk sk c := by
  by_cases b1 : c.bsize = 224 ∨ c.bsize = 256 ∨ c.bsize = 384
  · rw [hashAndMod_sha H h esk sk c b1] at hr ⊢
    rw [hashAndMod_sha H h1 esk sk c b1]
    by_cases s : (scalarKeccak H c.bsize (scalarMsg esk sk c)).1 ≠ 0
    · rw [if_pos s] at hr
      simp at hr
    · rw [if_neg s, if_neg s]
  · by_cases b2 : c.bsize = 521
    · rw [hashAndMod_sponge H h esk sk c b2] at hr ⊢
      rw [hashAndMod_sponge H h1 esk sk c b2]
      by_cases s : (scalarKeccak H c.bsize (scalarMsg esk sk c)).1 ≠ 0
      · rw [if_pos s] at hr
        simp at hr
      · rw [if_neg s, if_neg s]
    · rw [hashAndMod_other H h esk sk c (fun g => b1 (Or.inl g))
        (fun g => b1 (Or.inr (Or.inl g))) (fun g => b1 (Or.inr (Or.inr g))) b2] at hr
      simp at hr

/-- One round of the loop of `calculateXY` on a full draw with a successful hash:
the buffers hold the draw and its h afterwards. -/
theorem calculateXY_round (H : Keccak) (E : Entropy) (i : Nat) (h : coord) (esk sk : keyC)
    (c : ellipticCurve)
    (hlen : (E i (byteLenOf c)).2.length = byteLenOf c)
    (hok : (hashAndMod H [] (E i (byteLenOf c)).2 sk c).1 = 1) :
    hashAndMod H h (randomGen E i esk c.bsize).2 sk c =
      hashAndMod H [] (E i (byteLenOf c)).2 sk c := by
  rw [randomGen_snd, hashAndMod_draw H h esk _ sk c hlen]
  exact hashAndMod_indep H [] h _ sk c hok

theorem calculateXYLoop_spec (H : Keccak) (E : Entropy) (sk : keyC) (c : ellipticCurve)
    (j : Nat) :
    ∀ (fuel i0 : Nat) (h : coord) (esk : keyC),
      (∀ i, i ≤ j → (E (i0 + i) (byteLenOf c)).2.length = byteLenOf c) →
      (∀ i, i ≤ j → (hashAndMod H [] (E (i0 + i) (byteLenOf c)).2 sk c).1 = 1) →
      (∀ i, i < j →
        coordVal (hashAndMod H [] (E (i0 + i) (byteLenOf c)).2 sk c).2 c.wsize = 0) →
      coordVal (hashAndMod H [] (E (i0 + j) (byteLenOf c)).2 sk c).2 c.wsize ≠ 0 →
      calculateXYLoop H E sk c fuel i0 h esk =
        if j < fuel then
          some ((hashAndMod H [] (E (i0 + j) (byteLenOf c)).2 sk c).2,
            writeBytes esk 0 (E (i0 + j) (byteLenOf c)).2)
        else none := by
  induction j with
  | zero =>
    intro fuel i0 h esk hlen hok _ hj
    have l0 := hlen 0 (Nat.le_refl 0)
    have k0 := hok 0 (Nat.le_refl 0)
    rw [Nat.add_zero] at l0 k0 hj ⊢
    cases fuel with
    | zero => rfl
    | succ f =>
      rw [if_pos (Nat.succ_pos f)]
      simp only [calculateXYLoop]
      rw [calculateXY_round H E i0 h esk sk c l0 k0]
      rw [if_neg (fun g => hj ((coordIsZero_spec _ _).mp g.symm)), randomGen_snd]
  | succ j ih =>
    intro fuel i0 h esk hlen hok hz hj
    have l0 := hlen 0 (Nat.zero_le _)
    have k0 := hok 0 (Nat.zero_le _)
    have z0 := hz 0 (Nat.succ_pos j)
    rw [Nat.add_zero] at l0 k0 z0
    cases fuel with
    | zero => rw [if_neg (by omega)]; rfl
    | succ f =>
      simp only [calculateXYLoop]
      rw [calculateXY_round H E i0 h esk sk c l0 k0]
      rw [if_pos ((coordIsZero_spec _ _).mpr z0).symm, randomGen_snd]
      have e : ∀ i, i0 + 1 + i = i0 + (i + 1) := fun i => by omega
      rw [ih f (i0 + 1) _ _
        (fun i hi => by rw [e]; exact hlen (i + 1) (by omega))
        (fun i hi => by rw [e]; exact hok (i + 1) (by omega))
        (fun i hi => by rw [e]; exact hz (i + 1) (by omega))
        (by rw [e]; exact hj)]
      rw [e, writeBytes_zero_twice _ _ _ (l0.trans (hlen (j + 1) (Nat.le_refl _)).symm)]
      by_cases g : j < f
      · rw [if_pos g, if_pos (by omega)]
      · rw [if_neg g, if_neg (by omega)]

set_option maxRecDepth 100000 in
/-- On P-224 the ladder maps the scalar 1 and the base point to the base point. -/
theorem scalarMult_224_one :
    scalarMult (toCoord 1 4) curve224.g curve224.a curve224.p curve224.wsize = curve224.g := by
  rw [scalarMult_224_eval _ (coordWF_toCoord _ _)]
  decide!

/-- C11 (ephemeral point derivation rejects a zero exponent).  The entropy source
is the sequence of its draws: the i-th call delivers the L bytes esk_i.  Let h_i
be the coordinate that hashAndMod, returning 1, leaves for esk_i and sk (it does
not depend on the content of h before the call, so the empty coordinate stands
for it), and let j be the least index with h_j != 0.  Then the loop of
calculateXY is still running after j rounds, and with more than j rounds it
ends: calculateXY stores esk_j in esk and the bytes of scalarMult(h_j, G) in
Xx, Xy.  hashAndMod returns 1 on the catalog curves of size 224 to 521 only. -/
theorem calculateXY_first_nonzero (H : Keccak) (E : Entropy) (j : Nat) (h0 : coord)
    (Xx Xy esk sk : keyC) (c : ellipticCurve)
    (hlen : ∀ i, i ≤ j → (E i (byteLenOf c)).2.length = byteLenOf c)
    (hok : ∀ i, i ≤ j → (hashAndMod H [] (E i (byteLenOf c)).2 sk c).1 = 1)
    (hz : ∀ i, i < j → coordVal (hashAndMod H [] (E i (byteLenOf c)).2 sk c).2 c.wsize = 0)
    (hj : coordVal (hashAndMod H [] (E j (byteLenOf c)).2 sk c).2 c.wsize ≠ 0) :
    (∀ fuel, fuel ≤ j → calculateXY H E fuel h0 Xx Xy esk sk c = none) ∧
    (∀ fuel, j < fuel → calculateXY H E fuel h0 Xx Xy esk sk c =
      some
        (writeBytes Xx 0 (wordToByte
          (scalarMult (hashAndMod H [] (E j (byteLenOf c)).2 sk c).2 c.g c.a c.p c.wsize).aX
          c.wsize),
        writeBytes Xy 0 (wordToByte
          (scalarMult (hashAndMod H [] (E j (byteLenOf c)).2 sk c).2 c.g c.a c.p c.wsize).aY
          c.wsize),
        writeBytes esk 0 (E j (byteLenOf c)).2)) := by
  have main := fun fuel => calculateXYLoop_spec H E sk c j fuel 0 h0 esk
    (fun i hi => by rw [Nat.zero_add]; exact hlen i hi)
    (fun i hi => by rw [Nat.zero_add]; exact hok i hi)
    (fun i hi => by rw [Nat.zero_add]; exact hz i hi)
    (by rw [Nat.zero_add]; exact hj)
  constructor
  · intro fuel hf
    unfold calculateXY
    rw [main fuel, if_neg (by omega)]
    rfl
  · intro fuel hf
    unfold calculateXY
    rw [main fuel, if_pos hf, Nat.zero_add]
    rfl

set_option maxRecDepth 100000 in
/-- Witness of C11 on P-224, with a hash whose digest is the first byte of its
input and an entropy source whose i-th draw is the number i: the draw 0 gives
h = 0 and is discarded, the draw 1 gives h = 1, and calculateXY returns
esk = 1 and the bytes of 1 G = G. -/
theorem calculateXY_first_nonzero_witness :
    calculateXY firstByteKeccak countEntropy 1 (coordInit 4) zeroKey zeroKey zeroKey
      (keyOfNat 3) curve224 = none ∧
    calculateXY firstByteKeccak countEntropy 2 (coordInit 4) zeroKey zeroKey zeroKey
      (keyOfNat 3) curve224 =
      some ((baseKey curve224).1, (baseKey curve224).2, writeBytes zeroKey 0 (leBytes 1 28)) := by
  have h1 : hashAndMod firstByteKeccak [] (countEntropy 1 (byteLenOf curve224)).2 (keyOfNat 3)
      curve224 = (1, toCoord 1 4) := by decide!
  have h0 : hashAndMod firstByteKeccak [] (countEntropy 0 (byteLenOf curve224)).2 (keyOfNat 3)
      curve224 = (1, toCoord 0 4) := by decide!
  have w := calculateXY_first_nonzero firstByteKeccak countEntropy 1 (coordInit 4) zeroKey
    zeroKey zeroKey (keyOfNat 3) curve224
    (fun i _ => leBytes_length _ _)
    (fun i hi => by
      have : i = 0 ∨ i = 1 := by omega
      rcases this with e | e <;> subst e
      · rw [h0]
      · rw [h1])
    (fun i hi => by
      have e : i = 0 := by omega
      subst e
      rw [h0]
      decide!)
    (by rw [h1]; decide!)
  refine ⟨w.1 1 (Nat.le_refl 1), ?_⟩
  rw [w.2 2 (by decide), h1, scalarMult_224_one]
  rfl

set_option maxRecDepth 100000 in
/-- C12 (entropy failure is fatal), evaluated at a failing input.  On P-224, with
an entropy source whose calls all return -1 and store nothing, randomGen returns
-1 and leaves esk as it was; calculateXY, entered with esk holding 1 from an
earlier use, nevertheless ends after its first round for every content of the
local h, hands back this esk as ephemeral scalar and stores the bytes of
G * H(esk, sk) in Xx, Xy (here H(esk, sk) = 1, so the point is G).  Its result
carries no failure code. -/
theorem calculateXY_ignores_entropy_failure (fuel : Nat) (h0 : coord) :
    randomGen failEntropy 0 (keyOfNat 1) curve224.bsize = (-1, keyOfNat 1) ∧
    calculateXY firstByteKeccak failEntropy (fuel + 1) h0 zeroKey zeroKey (keyOfNat 1)
      (keyOfNat 3) curve224 =
      some ((baseKey curve224).1, (baseKey curve224).2, keyOfNat 1) := by
  have hr : randomGen failEntropy 0 (keyOfNat 1) curve224.bsize = (-1, keyOfNat 1) := by
    decide!
  have hh : hashAndMod firstByteKeccak h0 (keyOfNat 1) (keyOfNat 3) curve224
      = (1, toCoord 1 4) := by
    rw [hashAndMod_value firstByteKeccak h0 (keyOfNat 1) (keyOfNat 3) curve224 curve224_ok
      (Or.inl rfl) rfl (keyWF_leBytes _ _) (by decide!)]
    decide!
  refine ⟨hr, ?_⟩
  unfold calculateXY
  simp only [calculateXYLoop]
  rw [hr, hh, if_neg (by decide!)]
  simp only [Option.map_some']
  rw [scalarMult_224_one]
  rfl

/-! ## The value-level formulas in the integers modulo p -/

theorem zrep_mul (p x y : Nat) (X Y : ZMod p) (hx : zrep p x X) (hy : zrep p y Y) :
    zrep p (mulN x y p) (X * Y) := by
  refine ⟨Nat.mod_lt _ (by have := hx.1; omega), ?_⟩
  unfold mulN
  rw [ZMod.natCast_mod, Nat.cast_mul, hx.2, hy.2]

theorem zrep_add (p x y : Nat) (X Y : ZMod p) (hx : zrep p x X) (hy : zrep p y Y) :
    zrep p (addN x y p) (X + Y) := by
  refine ⟨Nat.mod_lt _ (by have := hx.1; omega), ?_⟩
  unfold addN
  rw [ZMod.natCast_mod, Nat.cast_add, hx.2, hy.2]

theorem zrep_dbl (p x : Nat) (X : ZMod p) (hx : zrep p x X) :
    zrep p (dblN x p) (2 * X) := by
  refine ⟨Nat.mod_lt _ (by have := hx.1; omega), ?_⟩
  unfold dblN
  rw [ZMod.natCast_mod, Nat.cast_mul, hx.2, Nat.cast_ofNat]

theorem zrep_sub (p x y : Nat) (X Y : ZMod p) (hx : zrep p x X) (hy : zrep p y Y) :
    zrep p (subN x y p) (X - Y) := by
  refine ⟨Nat.mod_lt _ (by have := hx.1; omega), ?_⟩
  unfold subN
  have h := hy.1
  rw [ZMod.natCast_mod, Nat.cast_sub (by omega), Nat.cast_add, ZMod.natCast_self, hx.2, hy.2,
    add_zero]

set_option maxRecDepth 100000 in
theorem doubleUN_zrep (p x y a : Nat) (X Y A : ZMod p) (hx : zrep p x X) (hy : zrep p y Y)
    (ha : zrep p a A) :
    zrep3 p (doubleUN (x, y) a p).1 (doubleUR X Y A).1 ∧
    zrep3 p (doubleUN (x, y) a p).2 (doubleUR X Y A).2 := by
  unfold doubleUN doubleUR zrep3
  simp only []
  refine ⟨⟨?_, ?_, ?_⟩, ⟨?_, ?_, ?_⟩⟩ <;>
    repeat (first
      | assumption
      | apply zrep_dbl
      | apply zrep_mul
      | apply zrep_add
      | apply zrep_sub)

set_option maxRecDepth 100000 in
theorem zAddCN_zrep (p : Nat) (P Q : Nat × Nat × Nat) (P1 Q1 : ZMod p × ZMod p × ZMod p)
    (hP : zrep3 p P P1) (hQ : zrep3 p Q Q1) :
    zrep3 p (zAddCN P Q p).1 (zAddCR P1 Q1).1 ∧
    zrep3 p (zAddCN P Q p).2 (zAddCR P1 Q1).2 := by
  obtain ⟨p1, p2, p3⟩ := hP
  obtain ⟨q1, q2, _⟩ := hQ
  unfold zAddCN zAddCR zrep3
  simp only []
  refine ⟨⟨?_, ?_, ?_⟩, ⟨?_, ?_, ?_⟩⟩ <;>
    repeat (first
      | assumption
      | apply zrep_dbl
      | apply zrep_mul
      | apply zrep_add
      | apply zrep_sub)

theorem zAddUN_zrep (p : Nat) (P Q : Nat × Nat × Nat) (P1 Q1 : ZMod p × ZMod p × ZMod p)
    (hP : zrep3 p P P1) (hQ : zrep3 p Q Q1) :
    zrep3 p (zAddUN P Q p).1 (zAddUR P1 Q1).1 ∧
    zrep3 p (zAddUN P Q p).2 (zAddUR P1 Q1).2 := by
  obtain ⟨p1, p2, p3⟩ := hP
  obtain ⟨q1, q2, _⟩ := hQ
  unfold zAddUN zAddUR zrep3
  simp only []
  refine ⟨⟨?_, ?_, ?_⟩, ⟨?_, ?_, ?_⟩⟩ <;>
    repeat (first
      | assumption
      | apply zrep_dbl
      | apply zrep_mul
      | apply zrep_add
      | apply zrep_sub)

/-- With a scalar of two bits the loop of the ladder runs one real round, the one
for bit 0. -/
theorem scalarMultLoopN_two (k p : Nat) (m : Nat)
    (s : (Nat × Nat × Nat) × (Nat × Nat × Nat)) :
    scalarMultLoopN k p 2 (m + 1) s = scalarMultStepN (k % 2) p s := by
  induction m with
  | zero =>
    simp only [scalarMultLoopN]
    rw [if_pos (by decide), pow_zero, Nat.div_one]
  | succ m ih =>
    rw [scalarMultLoopN, if_neg (by omega), ih]

/-- The point R0 of the value-level ladder for an even scalar of two bits. -/
theorem scalarMultProjN_two (order k : Nat) (v : Nat × Nat) (a p : Nat) (ho : 2 ≤ order)
    (hk : k % 2 = 0) :
    scalarMultProjN order 2 k v a p =
      (zAddUN (zAddCN (doubleUN v a p).2 (doubleUN v a p).1 p).1
        (zAddCN (doubleUN v a p).2 (doubleUN v a p).1 p).2 p).1 := by
  obtain ⟨m, hm⟩ : ∃ m, order - 1 = m + 1 := ⟨order - 2, by omega⟩
  unfold scalarMultProjN
  simp only []
  rw [hm, scalarMultLoopN_two, hk]
  rfl

theorem ladderTwo_zrep (order p x y a : Nat) (X Y A : ZMod p) (ho : 2 ≤ order)
    (hx : zrep p x X) (hy : zrep p y Y) (ha : zrep p a A) :
    zrep3 p (scalarMultProjN order 2 2 (x, y) a p) (ladderTwoR X Y A) := by
  rw [scalarMultProjN_two order 2 (x, y) a p ho rfl]
  obtain ⟨d1, d2⟩ := doubleUN_zrep p x y a X Y A hx hy ha
  obtain ⟨c1, c2⟩ := zAddCN_zrep p _ _ _ _ d2 d1
  exact (zAddUN_zrep p _ _ _ _ c1 c2).1

/-! ## The ladder for k = 2 doubles the point: algebra -/

theorem ladderTwoR_Z {R : Type} [CommRing R] (x y a : R) :
    (ladderTwoR x y a).2.2 = 2 * y * ladderTwoW x y a := by
  simp only [ladderTwoR, ladderTwoW, zAddUR, zAddCR, doubleUR]
  ring

set_option maxHeartbeats 4000000 in
/-- The X of the ladder for k = 2 is the X of the Jacobian doubling, scaled. -/
theorem ladderTwoR_X {R : Type} [CommRing R] (x y a : R) :
    (ladderTwoR x y a).1 =
      ladderTwoW x y a ^ 2 * ((3 * x ^ 2 - a) ^ 2 - 8 * x * y ^ 2) := by
  simp only [ladderTwoR, ladderTwoW, zAddUR, zAddCR, doubleUR]
  ring

set_option maxHeartbeats 4000000 in
/-- The Y of the ladder for k = 2 is the Y of the Jacobian doubling, scaled. -/
theorem ladderTwoR_Y {R : Type} [CommRing R] (x y a : R) :
    (ladderTwoR x y a).2.1 =
      ladderTwoW x y a ^ 3 *
        ((3 * x ^ 2 - a) * (4 * x * y ^ 2 - ((3 * x ^ 2 - a) ^ 2 - 8 * x * y ^ 2)) - 8 * y ^ 4) := by
  simp only [ladderTwoR, ladderTwoW, zAddUR, zAddCR, doubleUR]
  ring

/-- The affine form of the ladder point for k = 2, given an inverse D of its Z:
with the slope l = (3 x^2 - a) W D, where 2 y l = 3 x^2 - a, the coordinates
D^2 X and D^3 Y are l^2 - 2 x and l (x - x3) - y. -/
theorem ladderTwoR_affine {R : Type} [CommRing R] (x y a D : R)
    (h : D * (ladderTwoR x y a).2.2 = 1) :
    2 * y * (ladderTwoW x y a * D) = 1 ∧
    2 * y * ((3 * x ^ 2 - a) * (ladderTwoW x y a * D)) = 3 * x ^ 2 - a ∧
    D * D * (ladderTwoR x y a).1 = ((3 * x ^ 2 - a) * (ladderTwoW x y a * D)) ^ 2 - 2 * x ∧
    D * D * D * (ladderTwoR x y a).2.1 =
      ((3 * x ^ 2 - a) * (ladderTwoW x y a * D)) * (x - D * D * (ladderTwoR x y a).1) - y := by
  rw [ladderTwoR_X, ladderTwoR_Y]
  rw [ladderTwoR_Z] at h
  generalize ladderTwoW x y a = W at h ⊢
  have hu : 2 * y * (W * D) = 1 := by linear_combination h
  generalize hU : W * D = u at hu ⊢
  have e2 : D * D * (W ^ 2 * ((3 * x ^ 2 - a) ^ 2 - 8 * x * y ^ 2))
      = u ^ 2 * ((3 * x ^ 2 - a) ^ 2 - 8 * x * y ^ 2) := by rw [← hU]; ring
  have e3 : D * D * D * (W ^ 3 * ((3 * x ^ 2 - a) *
      (4 * x * y ^ 2 - ((3 * x ^ 2 - a) ^ 2 - 8 * x * y ^ 2)) - 8 * y ^ 4))
      = u ^ 3 * ((3 * x ^ 2 - a) *
      (4 * x * y ^ 2 - ((3 * x ^ 2 - a) ^ 2 - 8 * x * y ^ 2)) - 8 * y ^ 4) := by
    rw [← hU]; ring
  rw [e2, e3]
  refine ⟨hu, ?_, ?_, ?_⟩
  · linear_combination (3 * x ^ 2 - a) * hu
  · linear_combination (-2 * x * (2 * y * u + 1)) * hu
  · linear_combination ((3 * x ^ 2 - a) * u * x * (2 * y * u + 1)
      - y * (4 * y ^ 2 * u ^ 2 + 2 * y * u + 1)) * hu

/-! ## The inversion ladder computes a power -/

theorem coordInvMLLoopN_pow (k p n : Nat) (A : ZMod p) (hk : k < 2 ^ n) (i : Nat) :
    ∀ (s : Nat × Nat) (m : Nat), zrep p s.1 (A ^ m) → zrep p s.2 (A ^ (m + 1)) →
      (n < i → m = 0) →
      zrep p (coordInvMLLoopN k p n i s).1 (A ^ (m * 2 ^ i + k % 2 ^ i)) := by
  induction i with
  | zero =>
    intro s m h0 _ _
    simp only [coordInvMLLoopN, pow_zero, Nat.mod_one, Nat.mul_one, Nat.add_zero]
    exact h0
  | succ i ih =>
    intro s m h0 h1 hm
    simp only [coordInvMLLoopN]
    by_cases hi : i < n
    · rw [if_pos hi]
      have hb : k % 2 ^ (i + 1) = k / 2 ^ i % 2 * 2 ^ i + k % 2 ^ i := by
        rw [Nat.mod_pow_succ]; ring
      rcases Nat.mod_two_eq_zero_or_one (k / 2 ^ i) with b | b
      · have r := ih (coordInvMLStepN (k / 2 ^ i % 2) p s) (2 * m)
          (by
            rw [b]; simp only [coordInvMLStepN, if_true]
            have := zrep_mul p _ _ _ _ h0 h0
            rw [← pow_add] at this
            rw [two_mul]; exact this)
          (by
            rw [b]; simp only [coordInvMLStepN, if_true]
            have := zrep_mul p _ _ _ _ h0 h1
            rw [← pow_add] at this
            have e : 2 * m + 1 = m + (m + 1) := by ring
            rw [e]; exact this)
          (fun g => by omega)
        have e : m * 2 ^ (i + 1) + k % 2 ^ (i + 1) = 2 * m * 2 ^ i + k % 2 ^ i := by
          rw [hb, b, pow_succ]; ring
        rw [e]; exact r
      · have r := ih (coordInvMLStepN (k / 2 ^ i % 2) p s) (2 * m + 1)
          (by
            rw [b]; simp only [coordInvMLStepN, if_false, Nat.one_ne_zero]
            have := zrep_mul p _ _ _ _ h0 h1
            rw [← pow_add] at this
            have e : 2 * m + 1 = m + (m + 1) := by ring
            rw [e]; exact this)
          (by
            rw [b]; simp only [coordInvMLStepN, if_false, Nat.one_ne_zero]
            have := zrep_mul p _ _ _ _ h1 h1
            rw [← pow_add] at this
            have e : 2 * m + 1 + 1 = m + 1 + (m + 1) := by ring
            rw [e]; exact this)
          (fun g => by omega)
        have e : m * 2 ^ (i + 1) + k % 2 ^ (i + 1) = (2 * m + 1) * 2 ^ i + k % 2 ^ i := by
          rw [hb, b, pow_succ]; ring
        rw [e]; exact r
    · rw [if_neg hi]
      have m0 : m = 0 := hm (by omega)
      subst m0
      have r := ih s 0 h0 h1 (fun _ => rfl)
      have hle : 2 ^ n ≤ 2 ^ i := Nat.pow_le_pow_right (by decide) (by omega)
      have hle2 : 2 ^ i ≤ 2 ^ (i + 1) := Nat.pow_le_pow_right (by decide) (by omega)
      have e1 : k % 2 ^ i = k := Nat.mod_eq_of_lt (Nat.lt_of_lt_of_le hk hle)
      have e2 : k % 2 ^ (i + 1) = k :=
        Nat.mod_eq_of_lt (Nat.lt_of_lt_of_le hk (Nat.le_trans hle hle2))
      rw [e1, Nat.zero_mul] at r
      rw [e2, Nat.zero_mul]
      exact r

/-- Value-level `coordInvML` computes the power a^(p-2) modulo p when p - 2 has at
most `n` and at most `order` bits. -/
theorem coordInvMLN_pow (order n a p : Nat) (A : ZMod p) (h2 : 2 ≤ p) (ha : zrep p a A)
    (hn : p - 2 < 2 ^ n) (ho : p - 2 < 2 ^ order) :
    zrep p (coordInvMLN order n a p) (A ^ (p - 2)) := by
  unfold coordInvMLN
  have r := coordInvMLLoopN_pow (p - 2) p n A hn order (1, a) 0
    ⟨by omega, by simp⟩ (by simpa using ha) (fun _ => rfl)
  rw [Nat.zero_mul, Nat.zero_add, Nat.mod_eq_of_lt ho] at r
  exact r

/-- For a prime p and z not divisible by p, the inversion ladder returns the
inverse of z modulo p. -/
theorem coordInvMLN_inverse (order n z p : Nat) (hp : Nat.Prime p) (hz : z < p) (h0 : z ≠ 0)
    (hn : p - 2 < 2 ^ n) (ho : p - 2 < 2 ^ order) :
    mulN (coordInvMLN order n z p) z p = 1 := by
  have h2 := hp.two_le
  have r := coordInvMLN_pow order n z p (z : ZMod p) h2 ⟨hz, rfl⟩ hn ho
  have hne : (z : ZMod p) ≠ 0 := by
    intro g
    have := Nat.le_of_dvd (Nat.pos_of_ne_zero h0) ((ZMod.natCast_zmod_eq_zero_iff_dvd z p).mp g)
    omega
  haveI : Fact p.Prime := ⟨hp⟩
  have f := ZMod.pow_card_sub_one_eq_one hne
  have m := zrep_mul p _ _ _ _ r ⟨hz, rfl⟩
  have e : (z : ZMod p) ^ (p - 2) * (z : ZMod p) = 1 := by
    rw [← pow_succ]
    have : p - 2 + 1 = p - 1 := by omega
    rw [this]; exact f
  rw [e] at m
  have m2 := m.2
  rw [← Nat.cast_one, ZMod.natCast_eq_natCast_iff'] at m2
  rw [Nat.mod_eq_of_lt m.1, Nat.mod_eq_of_lt (by omega)] at m2
  exact m2

/-! ## The ladder for k = 2 doubles the point: values -/

theorem cast_mulN (p x y : Nat) : ((mulN x y p : Nat) : ZMod p) = (x : ZMod p) * (y : ZMod p) := by
  unfold mulN
  rw [ZMod.natCast_mod, Nat.cast_mul]

theorem scalarMultN_proj (order n ninv k : Nat) (v : Nat × Nat) (a p : Nat) :
    scalarMultN order n ninv k v a p =
      cProjToAffineN order ninv (scalarMultProjN order n k v a p) p := rfl

/-- The value-level ladder for k = 2 returns the affine doubling of its input
when the inversion returns an inverse of the Z of the ladder point. -/
theorem ladderTwo_affineDouble (order ninv p x y a : Nat) (ho : 2 ≤ order)
    (hx : x < p) (hy : y < p) (ha : a < p)
    (hreg : mulN (coordInvMLN order ninv (scalarMultProjN order 2 2 (x, y) a p).2.2 p)
      (scalarMultProjN order 2 2 (x, y) a p).2.2 p = 1) :
    affineDouble (x, y) (scalarMultN order 2 ninv 2 (x, y) a p) a p := by
  have hp : 0 < p := by omega
  haveI : NeZero p := ⟨by omega⟩
  obtain ⟨⟨_, lx⟩, ⟨_, ly⟩, ⟨_, lz⟩⟩ :=
    ladderTwo_zrep order p x y a (x : ZMod p) (y : ZMod p) (a : ZMod p) ho
      ⟨hx, rfl⟩ ⟨hy, rfl⟩ ⟨ha, rfl⟩
  have hD : ((coordInvMLN order ninv (scalarMultProjN order 2 2 (x, y) a p).2.2 p : Nat) : ZMod p)
      * (ladderTwoR (x : ZMod p) (y : ZMod p) (a : ZMod p)).2.2 = 1 := by
    rw [← lz, ← cast_mulN, hreg, Nat.cast_one]
  obtain ⟨hu, e1, e2, e3⟩ := ladderTwoR_affine _ _ _ _ hD
  rw [scalarMultN_proj]
  unfold cProjToAffineN affineDouble
  simp only []
  generalize scalarMultProjN order 2 2 (x, y) a p = T at lx ly lz hD hu e1 e2 e3 ⊢
  generalize coordInvMLN order ninv T.2.2 p = d at hD hu e1 e2 e3 ⊢
  have c1 : ((mulN (mulN d d p) T.1 p : Nat) : ZMod p) = (d : ZMod p) * d *
      (ladderTwoR (x : ZMod p) (y : ZMod p) (a : ZMod p)).1 := by
    rw [cast_mulN, cast_mulN, lx]
  have c2 : ((mulN (mulN (mulN d d p) d p) T.2.1 p : Nat) : ZMod p) = (d : ZMod p) * d * d *
      (ladderTwoR (x : ZMod p) (y : ZMod p) (a : ZMod p)).2.1 := by
    rw [cast_mulN, cast_mulN, cast_mulN, ly]
  have b1 : mulN (mulN d d p) T.1 p < p := Nat.mod_lt _ hp
  have b2 : mulN (mulN (mulN d d p) d p) T.2.1 p < p := Nat.mod_lt _ hp
  generalize mulN (mulN d d p) T.1 p = x3 at c1 b1 ⊢
  generalize mulN (mulN (mulN d d p) d p) T.2.1 p = y3 at c2 b2 ⊢
  rw [← c1] at e2 e3
  rw [← c2] at e3
  generalize ladderTwoW (x : ZMod p) (y : ZMod p) (a : ZMod p) * (d : ZMod p) = u
    at hu e1 e2 e3
  refine ⟨b1, b2, ?_, ⟨((3 * (x : ZMod p) ^ 2 - (a : ZMod p)) * u).val, ZMod.val_lt _,
    ?_, ?_, ?_⟩⟩
  · apply (ZMod.isUnit_iff_coprime (2 * y) p).mp
    apply isUnit_of_mul_eq_one _ u
    push_cast
    exact hu
  · apply (ZMod.intCast_eq_intCast_iff _ _ p).mp
    push_cast
    rw [ZMod.natCast_zmod_val]
    exact e1
  · apply (ZMod.intCast_eq_intCast_iff _ _ p).mp
    push_cast
    rw [ZMod.natCast_zmod_val]
    exact e2
  · apply (ZMod.intCast_eq_intCast_iff _ _ p).mp
    push_cast
    rw [ZMod.natCast_zmod_val]
    exact e3

/-! ## The doubling by the ladder -/

theorem scalarMultProj_rep (k : coord) (P : pointA) (a p : coord) (n : Nat) (v : Nat × Nat)
    (va : Nat) (hp : coordWF p n) (hk : coordWF k n)
    (ha : coordRep p n a va) (hP : pointARep p n P v) :
    pointPRep p n (scalarMultProj k P a p n)
      (scalarMultProjN (coordMaxBit p n) (coordMaxBit k n) (coordVal k n) v va (coordVal p n)) := by
  unfold scalarMultProj scalarMultProjN
  simp only []
  obtain ⟨d1, d2⟩ := doubleU_rep ⟨P.aX, P.aY, coordInit n⟩ a p n v va hp ha hP.1 hP.2
  exact (scalarMultLoop_rep k p n (coordMaxBit k n) hp hk (coordMaxBit p n - 1)
    (_, _) (_, _) d2 d1).1

set_option maxRecDepth 100000 in
/-- The bit lengths that `scalarMult` computes on a catalog curve for the scalar 2,
for p and for p - 2. -/
theorem catalog_bits (c : ellipticCurve)
    (hc : c = curve192 ∨ c = curve224 ∨ c = curve256 ∨ c = curve384 ∨ c = curve521) :
    coordMaxBit (toCoord 2 c.wsize) c.wsize = 2 ∧ coordVal (toCoord 2 c.wsize) c.wsize = 2 ∧
    coordMaxBit c.p c.wsize = c.bsize ∧
    coordMaxBit (toCoord (coordVal c.p c.wsize - 2) c.wsize) c.wsize = c.bsize ∧
    2 ≤ c.bsize ∧ coordVal c.p c.wsize - 2 < 2 ^ c.bsize := by
  rcases hc with h | h | h | h | h <;> subst h <;>
    refine ⟨?_, ?_, ?_, ?_, ?_, ?_⟩ <;> decide!

theorem scalarMult_384_eval (k : coord) (hk : coordWF k 6) :
    scalarMult k curve384.g curve384.a curve384.p curve384.wsize =
      toPointA (scalarMultN (coordMaxBit curve384.p 6) (coordMaxBit k 6)
        (coordMaxBit (toCoord (coordVal curve384.p 6 - 2) 6) 6) (coordVal k 6)
        (pointAVal curve384.g 6) (coordVal curve384.a 6) (coordVal curve384.p 6)) 6 :=
  scalarMult_eval k curve384.g curve384.a curve384.p 6 _ _
    curve384_ok.wf_p curve384_ok.two_le hk curve384_ok.rep_a
    ⟨curve384_ok.rep_gx, curve384_ok.rep_gy⟩

set_option maxRecDepth 100000 in
theorem scalarMult_384_two :
    scalarMult (toCoord 2 6) curve384.g curve384.a curve384.p curve384.wsize =
      toPointA (P384_2Gx, P384_2Gy) 6 := by
  rw [scalarMult_384_eval _ (coordWF_toCoord _ _)]
  decide!

set_option maxRecDepth 100000 in
theorem affineDouble_384 :
    affineDouble (pointAVal curve384.g curve384.wsize) (P384_2Gx, P384_2Gy)
      (coordVal curve384.a curve384.wsize) (primeOf curve384) := by
  have h := ladderTwo_affineDouble 384 384 (primeOf curve384)
    (pointAVal curve384.g curve384.wsize).1 (pointAVal curve384.g curve384.wsize).2
    (coordVal curve384.a curve384.wsize) (by decide) (by decide!) (by decide!) (by decide!)
    (by decide!)
  have e : scalarMultN 384 2 384 2 ((pointAVal curve384.g curve384.wsize).1,
      (pointAVal curve384.g curve384.wsize).2) (coordVal curve384.a curve384.wsize)
      (primeOf curve384) = (P384_2Gx, P384_2Gy) := by decide!
  rw [e] at h
  exact h

/-- The prime of P-521 is the Mersenne prime 2^521 - 1. -/
theorem prime_521 : Nat.Prime (primeOf curve521) := by
  have e : primeOf curve521 = mersenne 521 := by decide!
  rw [e]
  exact lucas_lehmer_sufficiency _ (by norm_num) (by norm_num)

/-! ## The primes of the catalog

The p of every catalog curve is prime.  P-521 is a Mersenne prime (see
`prime_521`).  P-224 has a Lucas certificate from the factors of p - 1; P-192,
P-256 and P-384 have a certificate from factors of p + 1: in the ring of the
integers modulo N extended by a root w of `w * w = P w - 1`, the order of w
modulo a prime divisor r of N divides r - 1 or r + 1. -/

/-- A remainder modulo N has the class of the number in a ring where N is 0. -/
theorem cast_mod_of_zero {S : Type*} [CommRing S] (N : Nat) (hN : ((N : Nat) : S) = 0) (m : Nat) :
    ((m % N : Nat) : S) = (m : S) := by
  conv_rhs => rw [← Nat.mod_add_div m N]
  push_cast
  rw [hN]; ring

/-- The pair of `quadMul` stands for the product. -/
theorem quadMul_val {S : Type*} [CommRing S] (w : S) (N P : Nat) (h0 : 0 < N)
    (hN : ((N : Nat) : S) = 0) (hw : w * w = (P : S) * w - 1) (x y : Nat × Nat) :
    (((quadMul N P x y).1 : Nat) : S) + (((quadMul N P x y).2 : Nat) : S) * w =
      ((x.1 : S) + (x.2 : S) * w) * ((y.1 : S) + (y.2 : S) * w) := by
  unfold quadMul
  simp only []
  rw [cast_mod_of_zero N hN, cast_mod_of_zero N hN]
  have hle : x.2 * y.2 % N ≤ N := (Nat.mod_lt _ h0).le
  rw [Nat.cast_add, Nat.cast_sub hle, cast_mod_of_zero N hN, hN]
  push_cast
  linear_combination (-((x.2 : S) * (y.2 : S))) * hw

/-- The pair of `quadPow` stands for the power `w ^ e`. -/
theorem quadPow_val {S : Type*} [CommRing S] (w : S) (N P : Nat) (h0 : 0 < N)
    (hN : ((N : Nat) : S) = 0) (hw : w * w = (P : S) * w - 1) :
    ∀ (n e : Nat), e < 2 ^ n →
      (((quadPow N P n e).1 : Nat) : S) + (((quadPow N P n e).2 : Nat) : S) * w = w ^ e := by
  intro n
  induction n with
  | zero =>
    intro e he
    have : e = 0 := by simpa using he
    subst this
    simp only [quadPow, pow_zero, Nat.cast_zero, zero_mul, add_zero]
    rw [cast_mod_of_zero N hN]; simp
  | succ n ih =>
    intro e he
    have he2 : e / 2 < 2 ^ n := by
      rw [Nat.div_lt_iff_lt_mul (by norm_num)]; rw [pow_succ] at he; exact he
    have hh := ih (e / 2) he2
    have hsq : (((quadMul N P (quadPow N P n (e / 2)) (quadPow N P n (e / 2))).1 : Nat) : S) +
        (((quadMul N P (quadPow N P n (e / 2)) (quadPow N P n (e / 2))).2 : Nat) : S) * w =
        w ^ (e / 2) * w ^ (e / 2) := by
      rw [quadMul_val w N P h0 hN hw, hh]
    have hsplit : e = 2 * (e / 2) + e % 2 := (Nat.div_add_mod e 2).symm
    simp only [quadPow]
    by_cases hb : e % 2 = 1
    · rw [if_pos hb, quadMul_val w N P h0 hN hw, hsq]
      conv_rhs => rw [hsplit, hb]
      simp only [Nat.cast_zero, Nat.cast_one, zero_add, one_mul]
      ring
    · rw [if_neg hb, hsq]
      have hb0 : e % 2 = 0 := by omega
      conv_rhs => rw [hsplit, hb0]
      ring

/-- In characteristic r, an odd prime that does not divide `P^2 - 4`, the r-th
power of a root w of `w * w = P w - 1` is w or its inverse `P - w`. -/
theorem quad_frobenius (r : Nat) [Fact r.Prime] (hrodd : r % 2 = 1) {S : Type*} [CommRing S]
    [CharP S r] (w : S) (P : Nat) (hw : w * w = (P : S) * w - 1)
    (hD : ((P : ZMod r) * (P : ZMod r) - 4) ≠ 0) : w ^ (r - 1) = 1 ∨ w ^ (r + 1) = 1 := by
  have hr : r.Prime := Fact.out
  let o : ZMod r →+* S := ZMod.castHom (dvd_refl r) S
  have hPr : (P : S) ^ r = (P : S) := by
    have h := congrArg o (ZMod.pow_card (P : ZMod r))
    rwa [map_pow, map_natCast] at h
  have h2r : (2 : S) ^ r = (2 : S) := by
    have h := congrArg o (ZMod.pow_card (2 : ZMod r))
    rwa [map_pow, map_ofNat] at h
  have h2ne : (2 : ZMod r) ≠ 0 := by
    intro h
    have h' : ((2 : Nat) : ZMod r) = 0 := by exact_mod_cast h
    rw [ZMod.natCast_zmod_eq_zero_iff_dvd] at h'
    have := (Nat.prime_dvd_prime_iff_eq hr Nat.prime_two).mp h'
    omega
  have h2u : (2 : S) * o ((2 : ZMod r)⁻¹) = 1 := by
    have h := congrArg o (mul_inv_cancel₀ h2ne)
    rwa [map_mul, map_ofNat, map_one] at h
  have hDS : ((P : S) * (P : S) - 4) ^ (r / 2) = 1 ∨ ((P : S) * (P : S) - 4) ^ (r / 2) = -1 := by
    have e : ((P : S) * (P : S) - 4) = o ((P : ZMod r) * (P : ZMod r) - 4) := by
      rw [map_sub, map_mul, map_natCast, map_ofNat]
    rcases ZMod.pow_div_two_eq_neg_one_or_one r hD with h | h
    · left; rw [e, ← map_pow, h, map_one]
    · right; rw [e, ← map_pow, h, map_neg, map_one]
  have hs : (2 * w - (P : S)) * (2 * w - (P : S)) = (P : S) * (P : S) - 4 := by
    linear_combination 4 * hw
  have hrs : r = 2 * (r / 2) + 1 := by omega
  have hsr : (2 * w - (P : S)) ^ r = ((P : S) * (P : S) - 4) ^ (r / 2) * (2 * w - (P : S)) := by
    conv_lhs => rw [hrs]
    rw [pow_succ, pow_mul, pow_two, hs]
  have hadd : (2 * w) ^ r = (2 * w - (P : S)) ^ r + (P : S) ^ r := by
    rw [← add_pow_char (2 * w - (P : S)) (P : S) r]
    congr 1; ring
  rw [mul_pow, h2r, hsr, hPr] at hadd
  have hunit : w * ((P : S) - w) = 1 := by linear_combination -hw
  have hrpos : 0 < r := hr.pos
  rcases hDS with h | h
  · left
    rw [h, one_mul] at hadd
    have hwr : w ^ r = w := by
      have : (2 : S) * o ((2 : ZMod r)⁻¹) * w ^ r = (2 : S) * o ((2 : ZMod r)⁻¹) * w := by
        linear_combination o ((2 : ZMod r)⁻¹) * hadd
      rwa [h2u, one_mul, one_mul] at this
    have hr1 : r = (r - 1) + 1 := by omega
    calc w ^ (r - 1) = w ^ (r - 1) * (w * ((P : S) - w)) := by rw [hunit, mul_one]
      _ = w ^ ((r - 1) + 1) * ((P : S) - w) := by rw [pow_succ]; ring
      _ = w * ((P : S) - w) := by rw [← hr1, hwr]
      _ = 1 := hunit
  · right
    rw [h] at hadd
    have hwr : w ^ r = (P : S) - w := by
      have : (2 : S) * o ((2 : ZMod r)⁻¹) * w ^ r = (2 : S) * o ((2 : ZMod r)⁻¹) * ((P : S) - w) := by
        linear_combination o ((2 : ZMod r)⁻¹) * hadd
      rwa [h2u, one_mul, one_mul] at this
    rw [pow_succ, hwr]
    linear_combination -hw

/-- For a prime r there is a commutative ring of characteristic r with a root w of
`w * w = P w - 1` in which 1 and w are independent over the integers modulo r. -/
theorem quad_ring (r : Nat) [Fact r.Prime] (P : Nat) :
    ∃ (S : Type) (_ : CommRing S) (_ : CharP S r) (w : S),
      w * w = (P : S) * w - 1 ∧
      ∀ a b : Nat, (a : S) + (b : S) * w = 1 → (a : ZMod r) = 1 ∧ (b : ZMod r) = 0 := by
  let f : Polynomial (ZMod r) :=
    Polynomial.C 1 * Polynomial.X ^ 2 + Polynomial.C (-(P : ZMod r)) * Polynomial.X +
      Polynomial.C 1
  have hdeg : Polynomial.degree f = 2 := Polynomial.degree_quadratic one_ne_zero
  have hdeg0 : Polynomial.degree f ≠ 0 := by rw [hdeg]; decide
  haveI : CharP (AdjoinRoot f) r :=
    charP_of_injective_ringHom (AdjoinRoot.coe_injective hdeg0) r
  refine ⟨AdjoinRoot f, inferInstance, inferInstance, AdjoinRoot.root f, ?_, ?_⟩
  · have h : AdjoinRoot.mk f f = 0 := AdjoinRoot.mk_self
    have e : AdjoinRoot.mk f f =
        AdjoinRoot.mk f (Polynomial.C 1 * Polynomial.X ^ 2 +
          Polynomial.C (-(P : ZMod r)) * Polynomial.X + Polynomial.C 1) := rfl
    rw [e, map_add, map_add, map_mul, map_mul, map_pow, AdjoinRoot.mk_C, AdjoinRoot.mk_C,
      AdjoinRoot.mk_X, map_one, map_neg, map_natCast] at h
    linear_combination h
  · intro a b hab
    have e : AdjoinRoot.mk f
        (Polynomial.C (b : ZMod r) * Polynomial.X + Polynomial.C ((a : ZMod r) - 1)) = 0 := by
      rw [map_add, map_mul, AdjoinRoot.mk_C, AdjoinRoot.mk_X, AdjoinRoot.mk_C, map_sub,
        map_natCast, map_natCast, map_one]
      linear_combination hab
    rw [AdjoinRoot.mk_eq_zero] at e
    have hz := Polynomial.eq_zero_of_dvd_of_degree_lt e
      (lt_of_le_of_lt Polynomial.degree_linear_le (by rw [hdeg]; decide))
    have h0 := congrArg (fun g => Polynomial.coeff g 0) hz
    have h1 := congrArg (fun g => Polynomial.coeff g 1) hz
    simp only [Polynomial.coeff_add, Polynomial.coeff_C_mul, Polynomial.coeff_X_zero,
      Polynomial.coeff_C_zero, mul_zero, zero_add, Polynomial.coeff_zero] at h0
    simp only [Polynomial.coeff_add, Polynomial.coeff_C_mul, Polynomial.coeff_X_one, mul_one,
      Polynomial.coeff_C, one_ne_zero, if_false, add_zero, Polynomial.coeff_zero] at h1
    exact ⟨by linear_combination h0, h1⟩

/-- Certificate from factors of N + 1: if `w ^ (N + 1) = 1` modulo N, if no
`w ^ ((N + 1) / q) - 1`, q a prime factor of the divisor F of N + 1, has both
coefficients in common with N, and if `N < (F - 1)^2`, then N is prime. -/
theorem prime_of_quadCert (N P F n : Nat) (hN : 1 < N) (hodd : N % 2 = 1) (hP : 2 ≤ P)
    (hD : Nat.Coprime (P * P - 4) N) (hF : F ∣ N + 1) (hbig : N < (F - 1) * (F - 1))
    (hn : N + 1 < 2 ^ n) (h1 : quadPow N P n (N + 1) = (1, 0))
    (hq : ∀ q : Nat, q.Prime → q ∣ F →
      Nat.Coprime ((quadPow N P n ((N + 1) / q)).1 + (N - 1)) N ∨
        Nat.Coprime (quadPow N P n ((N + 1) / q)).2 N) : N.Prime := by
  by_contra hnp
  have hr : (Nat.minFac N).Prime := Nat.minFac_prime (by omega)
  have hrN : Nat.minFac N ∣ N := Nat.minFac_dvd N
  have hsq : Nat.minFac N ^ 2 ≤ N := Nat.minFac_sq_le_self (by omega) hnp
  generalize Nat.minFac N = r at hr hrN hsq
  haveI : Fact r.Prime := ⟨hr⟩
  have hrodd : r % 2 = 1 := by
    rcases hr.eq_two_or_odd with h | h
    · subst h; omega
    · exact h
  have hNr : ((N : Nat) : ZMod r) = 0 := (ZMod.natCast_zmod_eq_zero_iff_dvd N r).mpr hrN
  have hDr : ((P : ZMod r) * (P : ZMod r) - 4) ≠ 0 := by
    intro h
    have h4 : 4 ≤ P * P := by nlinarith
    have h' : ((P * P - 4 : Nat) : ZMod r) = 0 := by
      push_cast [Nat.cast_sub h4]; exact h
    rw [ZMod.natCast_zmod_eq_zero_iff_dvd] at h'
    have := Nat.dvd_gcd h' hrN
    rw [hD] at this
    exact hr.one_lt.ne' (Nat.dvd_one.mp this)
  obtain ⟨S, _, _, w, hw, hind⟩ := quad_ring r P
  have hNS : ((N : Nat) : S) = 0 := (CharP.cast_eq_zero_iff S r N).mpr hrN
  have hval := quadPow_val w N P (by omega) hNS hw n
  have hone : w ^ (N + 1) = 1 := by
    rw [← hval (N + 1) hn, h1]; simp
  have hFpos : 0 < F := Nat.pos_of_dvd_of_pos hF (by omega)
  have hord : orderOf (w ^ ((N + 1) / F)) = F := by
    apply orderOf_eq_of_pow_and_pow_div_prime hFpos
    · rw [← pow_mul, Nat.div_mul_cancel hF]; exact hone
    · intro q hqp hqF hcontra
      have hqN : q ∣ N + 1 := dvd_trans hqF hF
      have e : (N + 1) / F * (F / q) = (N + 1) / q := by
        obtain ⟨c, hc⟩ := hqF
        obtain ⟨d, hd⟩ := hF
        have hq0 : 0 < q := hqp.pos
        rw [hd, Nat.mul_div_cancel_left d hFpos]
        conv_lhs => rw [hc, Nat.mul_div_cancel_left c hq0]
        rw [hc, mul_assoc, Nat.mul_div_cancel_left (c * d) hq0]; ring
      rw [← pow_mul, e] at hcontra
      have hle : (N + 1) / q < 2 ^ n := lt_of_le_of_lt (Nat.div_le_self _ _) hn
      rw [← hval ((N + 1) / q) hle] at hcontra
      obtain ⟨ha, hb⟩ := hind _ _ hcontra
      rcases hq q hqp hqF with hc | hc
      · have h' : (((quadPow N P n ((N + 1) / q)).1 + (N - 1) : Nat) : ZMod r) = 0 := by
          push_cast [Nat.cast_sub (by omega : 1 ≤ N)]
          rw [ha, hNr]; ring
        rw [ZMod.natCast_zmod_eq_zero_iff_dvd] at h'
        have := Nat.dvd_gcd h' hrN
        rw [hc] at this
        exact hr.one_lt.ne' (Nat.dvd_one.mp this)
      · rw [ZMod.natCast_zmod_eq_zero_iff_dvd] at hb
        have := Nat.dvd_gcd hb hrN
        rw [hc] at this
        exact hr.one_lt.ne' (Nat.dvd_one.mp this)
  have hFle : F ≤ r + 1 := by
    rcases quad_frobenius r hrodd w P hw hDr with h | h
    · have hd : F ∣ r - 1 := by
        rw [← hord]; apply orderOf_dvd_of_pow_eq_one
        rw [← pow_mul, mul_comm, pow_mul, h, one_pow]
      have := Nat.le_of_dvd (by have := hr.two_le; omega) hd
      omega
    · have hd : F ∣ r + 1 := by
        rw [← hord]; apply orderOf_dvd_of_pow_eq_one
        rw [← pow_mul, mul_comm, pow_mul, h, one_pow]
      exact Nat.le_of_dvd (by omega) hd
  have h3 : (F - 1) * (F - 1) ≤ r * r := Nat.mul_le_mul (by omega) (by omega)
  rw [pow_two] at hsq
  omega

/-- A prime that divides a product of powers of primes is one of them. -/
theorem prime_dvd_powerProd (q : Nat) (hq : q.Prime) :
    ∀ l : List (Nat × Nat), (∀ f ∈ l, f.1.Prime) → q ∣ powerProd l → ∃ f ∈ l, q = f.1 := by
  intro l
  induction l with
  | nil =>
    intro _ h
    simp only [powerProd, List.map_nil, List.prod_nil] at h
    exact absurd (Nat.dvd_one.mp h) hq.one_lt.ne'
  | cons f l ih =>
    intro hl h
    have e : powerProd (f :: l) = f.1 ^ f.2 * powerProd l := by
      simp only [powerProd, List.map_cons, List.prod_cons]
    rw [e] at h
    rcases (Nat.Prime.dvd_mul hq).mp h with h | h
    · have h1 := hq.dvd_of_dvd_pow h
      exact ⟨f, List.mem_cons_self _ _,
        (Nat.prime_dvd_prime_iff_eq hq (hl f (List.mem_cons_self _ _))).mp h1⟩
    · obtain ⟨g, hg, e⟩ := ih (fun g hg => hl g (List.mem_cons_of_mem _ hg)) h
      exact ⟨g, List.mem_cons_of_mem _ hg, e⟩

/-- The certificate from factors of N + 1, for a divisor given by its prime powers. -/
theorem prime_of_quadList (N P n : Nat) (l : List (Nat × Nat)) (hl : ∀ f ∈ l, f.1.Prime)
    (hN : 1 < N) (hodd : N % 2 = 1) (hP : 2 ≤ P)
    (hD : Nat.Coprime (P * P - 4) N) (hF : (N + 1) % powerProd l = 0)
    (hbig : N < (powerProd l - 1) * (powerProd l - 1))
    (hn : N + 1 < 2 ^ n) (h1 : quadPow N P n (N + 1) = (1, 0))
    (hq : ∀ f ∈ l,
      Nat.Coprime ((quadPow N P n ((N + 1) / f.1)).1 + (N - 1)) N ∨
        Nat.Coprime (quadPow N P n ((N + 1) / f.1)).2 N) : N.Prime := by
  apply prime_of_quadCert N P (powerProd l) n hN hodd hP hD (Nat.dvd_of_mod_eq_zero hF) hbig hn h1
  intro q hqp hqd
  obtain ⟨f, hf, e⟩ := prime_dvd_powerProd q hqp l hl hqd
  rw [e]; exact hq f hf

/-- Lucas certificate from the factors of N - 1, the powers of the base being
computed by the inversion ladder of the source. -/
theorem prime_of_powList (N a n : Nat) (l : List (Nat × Nat)) (hl : ∀ f ∈ l, f.1.Prime)
    (hN : 1 < N) (hprod : powerProd l = N - 1) (hn : N - 1 < 2 ^ n)
    (h1 : (coordInvMLLoopN (N - 1) N n n (1, a % N)).1 = 1)
    (hq : ∀ f ∈ l, (coordInvMLLoopN ((N - 1) / f.1) N n n (1, a % N)).1 ≠ 1) : N.Prime := by
  have key : ∀ k, k < 2 ^ n →
      zrep N (coordInvMLLoopN k N n n (1, a % N)).1 ((a : ZMod N) ^ k) := by
    intro k hk
    have h := coordInvMLLoopN_pow k N n (a : ZMod N) hk n (1, a % N) 0
      ⟨hN, by simp⟩ ⟨Nat.mod_lt _ (by omega), by simp [ZMod.natCast_mod]⟩
      (fun h => absurd h (lt_irrefl n))
    rw [zero_mul, zero_add, Nat.mod_eq_of_lt hk] at h
    exact h
  apply lucas_primality N (a : ZMod N)
  · have h := key (N - 1) hn
    rw [h1] at h
    rw [← h.2]; simp
  · intro q hqp hqd hc
    rw [← hprod] at hqd
    obtain ⟨f, hf, e⟩ := prime_dvd_powerProd q hqp l hl hqd
    have h := key ((N - 1) / q) (lt_of_le_of_lt (Nat.div_le_self _ _) hn)
    rw [hc] at h
    apply hq f hf
    rw [← e]
    have h2 : ((coordInvMLLoopN ((N - 1) / q) N n n (1, a % N)).1 : ZMod N) = ((1 : Nat) : ZMod N) := by
      rw [h.2]; simp
    rw [ZMod.natCast_eq_natCast_iff', Nat.mod_eq_of_lt h.1, Nat.mod_eq_of_lt hN] at h2
    exact h2

set_option maxRecDepth 100000 in
/-- The largest prime factor of 2^128 - 1 is prime. -/
theorem prime_67280421310721 : Nat.Prime 67280421310721 := by
  apply prime_of_powList _ 3 46 [(2, 8), (5, 1), (47, 1), (373, 1), (2998279, 1)]
  · intro f hf
    simp only [List.mem_cons, List.mem_singleton, List.mem_nil_iff, or_false] at hf
    rcases hf with h | h | h | h | h <;> (rw [h]; norm_num)
  · decide!
  · decide!
  · decide!
  · decide!
  · decide!

/-- The prime factors of 2^128 - 1. -/
theorem prime_factors_128 : ∀ f ∈ [((3 : Nat), (1 : Nat)), (5, 1), (17, 1), (257, 1), (641, 1),
    (65537, 1), (274177, 1), (6700417, 1), (67280421310721, 1)], f.1.Prime := by
  intro f hf
  simp only [List.mem_cons, List.mem_singleton, List.mem_nil_iff, or_false] at hf
  rcases hf with h | h | h | h | h | h | h | h | h <;> rw [h]
  · norm_num
  · norm_num
  · norm_num
  · norm_num
  · norm_num
  · norm_num
  · norm_num
  · norm_num
  · exact prime_67280421310721

set_option maxRecDepth 100000 in
/-- The prime of P-192, `2^192 - 2^64 - 1`, is prime: p + 1 is `2^64 (2^128 - 1)`. -/
theorem prime_192 : Nat.Prime (primeOf curve192) := by
  have e : primeOf curve192 = 2 ^ 192 - 2 ^ 64 - 1 := by decide!
  rw [e]
  apply prime_of_quadList _ 21 192 ((2, 64) :: [(3, 1), (5, 1), (17, 1), (257, 1), (641, 1),
    (65537, 1), (274177, 1), (6700417, 1), (67280421310721, 1)])
  · intro f hf
    rcases List.mem_cons.mp hf with h | h
    · rw [h]; exact Nat.prime_two
    · exact prime_factors_128 f h
  · decide!
  · decide!
  · decide!
  · decide!
  · decide!
  · decide!
  · decide!
  · decide!
  · decide!

set_option maxRecDepth 100000 in
/-- The prime of P-224, `2^224 - 2^96 + 1`, is prime: p - 1 is `2^96 (2^128 - 1)`. -/
theorem prime_224 : Nat.Prime (primeOf curve224) := by
  have e : primeOf curve224 = 2 ^ 224 - 2 ^ 96 + 1 := by decide!
  rw [e]
  apply prime_of_powList _ 22 224 ((2, 96) :: [(3, 1), (5, 1), (17, 1), (257, 1), (641, 1),
    (65537, 1), (274177, 1), (6700417, 1), (67280421310721, 1)])
  · intro f hf
    rcases List.mem_cons.mp hf with h | h
    · rw [h]; exact Nat.prime_two
    · exact prime_factors_128 f h
  · decide!
  · decide!
  · decide!
  · decide!
  · decide!

set_option maxRecDepth 100000 in
/-- The prime of P-256, `2^256 - 2^224 + 2^192 + 2^96 - 1`, is prime: p + 1 is
divisible by `2^96 * 7 * 274177 * 67280421310721`, which exceeds its square root. -/
theorem prime_256 : Nat.Prime (primeOf curve256) := by
  have e : primeOf curve256 = 2 ^ 256 - 2 ^ 224 + 2 ^ 192 + 2 ^ 96 - 1 := by decide!
  rw [e]
  apply prime_of_quadList _ 4 256 [(2, 96), (7, 1), (274177, 1), (67280421310721, 1)]
  · intro f hf
    simp only [List.mem_cons, List.mem_singleton, List.mem_nil_iff, or_false] at hf
    rcases hf with h | h | h | h <;> rw [h]
    · norm_num
    · norm_num
    · norm_num
    · exact prime_67280421310721
  · decide!
  · decide!
  · decide!
  · decide!
  · decide!
  · decide!
  · decide!
  · decide!
  · decide!

set_option maxRecDepth 100000 in
/-- The prime of P-384, `2^384 - 2^128 - 2^96 + 2^32 - 1`, is prime: the part of
p + 1 that is a product of primes below 2^25 exceeds its square root. -/
theorem prime_384 : Nat.Prime (primeOf curve384) := by
  have e : primeOf curve384 = 2 ^ 384 - 2 ^ 128 - 2 ^ 96 + 2 ^ 32 - 1 := by decide!
  rw [e]
  apply prime_of_quadList _ 41 384
    [(2, 32), (3, 2), (5, 1), (7, 1), (13, 1), (17, 1), (97, 1), (101, 1), (193, 1), (241, 1),
      (257, 1), (641, 1), (673, 1), (1163, 1), (65537, 1), (1075237, 1), (6700417, 1),
      (22253377, 1)]
  · intro f hf
    simp only [List.mem_cons, List.mem_singleton, List.mem_nil_iff, or_false] at hf
    rcases hf with h | h | h | h | h | h | h | h | h | h | h | h | h | h | h | h | h | h <;>
      (rw [h]; norm_num)
  · decide!
  · decide!
  · decide!
  · decide!
  · decide!
  · decide!
  · decide!
  · decide!
  · decide!

/-- The p of every catalog curve is prime. -/
theorem catalog_prime (c : ellipticCurve)
    (hc : c = curve192 ∨ c = curve224 ∨ c = curve256 ∨ c = curve384 ∨ c = curve521) :
    Nat.Prime (primeOf c) := by
  rcases hc with h | h | h | h | h <;> subst h
  · exact prime_192
  · exact prime_224
  · exact prime_256
  · exact prime_384
  · exact prime_521

/-- C15 (doubling test vector).  On P-384, scalarMult with k = 2 and P = G returns
the point 2 G of the NIST test vectors, and this point is the affine doubling of
G: with l = (3 Gx^2 - 3) / (2 Gy), x3 = l^2 - 2 Gx and y3 = l (Gx - x3) - Gy
modulo p.  More generally, on every selected curve (the p of each is prime,
see catalog_prime) and for every P with coordinates below p, if the ladder
meets no exceptional case, that is, if the Z of the projective point it ends
with is not 0 modulo p, then scalarMult(2, P) is the affine doubling of P. -/
theorem scalarMult_two_doubles :
    (scalarMult (toCoord 2 6) curve384.g curve384.a curve384.p curve384.wsize =
        toPointA (P384_2Gx, P384_2Gy) 6 ∧
      pointAVal (toPointA (P384_2Gx, P384_2Gy) 6) 6 = (P384_2Gx, P384_2Gy) ∧
      coordVal curve384.a curve384.wsize = 3 ∧
      affineDouble (pointAVal curve384.g curve384.wsize) (P384_2Gx, P384_2Gy) 3
        (primeOf curve384)) ∧
    ∀ (c0 c : ellipticCurve) (index : Int) (P : pointA) (v : Nat × Nat),
      selectCurve c0 index = (1, c) → pointARep c.p c.wsize P v →
      coordVal (scalarMultProj (toCoord 2 c.wsize) P c.a c.p c.wsize).pZ c.wsize ≠ 0 →
      scalarMult (toCoord 2 c.wsize) P c.a c.p c.wsize =
        cProjToAffine (scalarMultProj (toCoord 2 c.wsize) P c.a c.p c.wsize) c.p c.wsize ∧
      affineDouble v (pointAVal (scalarMult (toCoord 2 c.wsize) P c.a c.p c.wsize) c.wsize)
        (coordVal c.a c.wsize) (primeOf c) := by
  refine ⟨⟨scalarMult_384_two, by decide!, by decide!, affineDouble_384⟩, ?_⟩
  intro c0 c index P v hsel hP hZ
  refine ⟨rfl, ?_⟩
  have hc := selectCurve_cases c0 c index 1 hsel rfl
  have hprime := catalog_prime c hc
  have hok := catalog_ok c hc
  obtain ⟨b1, b2, b3, b4, b5, b6⟩ := catalog_bits c hc
  have hk : coordWF (toCoord 2 c.wsize) c.wsize := coordWF_toCoord _ _
  have rep := scalarMult_rep (toCoord 2 c.wsize) P c.a c.p c.wsize v _ hok.wf_p hok.two_le hk
    hok.rep_a hP
  have prep := scalarMultProj_rep (toCoord 2 c.wsize) P c.a c.p c.wsize v _ hok.wf_p hk
    hok.rep_a hP
  rw [b1, b2, b3] at prep
  rw [b1, b2, b3, b4] at rep
  have e : pointAVal (scalarMult (toCoord 2 c.wsize) P c.a c.p c.wsize) c.wsize =
      scalarMultN c.bsize 2 c.bsize 2 v (coordVal c.a c.wsize) (coordVal c.p c.wsize) :=
    Prod.ext rep.1.2.1 rep.2.2.1
  rw [e]
  obtain ⟨_, _, pz1, pz2, pz3⟩ := prep
  rw [pz2] at hZ
  exact ladderTwo_affineDouble c.bsize c.bsize (coordVal c.p c.wsize) v.1 v.2
    (coordVal c.a c.wsize) b5 hP.1.2.2 hP.2.2.2 hok.rep_a.2.2
    (coordInvMLN_inverse c.bsize c.bsize _ _ hprime pz3 hZ b6 b6)

set_option maxRecDepth 100000 in
/-- Witness of C15 on P-256: the ladder for k = 2 and the base point ends with a
Z that is not 0, and scalarMult returns the affine doubling of the base point. -/
theorem scalarMult_two_doubles_witness :
    affineDouble (pointAVal curve256.g curve256.wsize)
      (pointAVal (scalarMult (toCoord 2 curve256.wsize) curve256.g curve256.a curve256.p
        curve256.wsize) curve256.wsize)
      (coordVal curve256.a curve256.wsize) (primeOf curve256) :=
  (scalarMult_two_doubles.2 curve192 curve256 256 curve256.g
    (pointAVal curve256.g curve256.wsize) rfl
    ⟨curve256_ok.rep_gx, curve256_ok.rep_gy⟩
    (by
      have prep := scalarMultProj_rep (toCoord 2 curve256.wsize) curve256.g curve256.a
        curve256.p curve256.wsize (pointAVal curve256.g curve256.wsize) _ curve256_ok.wf_p
        (coordWF_toCoord _ _) curve256_ok.rep_a ⟨curve256_ok.rep_gx, curve256_ok.rep_gy⟩
      rw [prep.2.2.2.1]
      decide!)).2

/-! ## The bit length -/

theorem coordMaxBitBits_nz (ai i j n : Nat) (hn : n ≠ 0) : coordMaxBitBits ai i j n = n := by
  induction j with
  | zero => rfl
  | succ j ih =>
    have e : cbool (decide (n = 0)) = 0 := by simp [cbool, hn]
    simp only [coordMaxBitBits, e, Nat.and_zero, ne_eq, not_true_eq_false, if_false]
    exact ih

theorem size_eq_of_bounds (v m : Nat) (h1 : 2 ^ m ≤ v) (h2 : v < 2 ^ (m + 1)) :
    Nat.size v = m + 1 :=
  Nat.le_antisymm (Nat.size_le.mpr h2) (Nat.lt_size.mpr h1)

theorem coordMaxBitBits_zero (ai i j : Nat) :
    coordMaxBitBits ai i j 0 =
      if ai % 2 ^ j = 0 then 0 else i * 64 + Nat.size (ai % 2 ^ j) := by
  induction j with
  | zero => simp [coordMaxBitBits, Nat.mod_one]
  | succ j ih =>
    have key : (((ai >>> j) &&& 1) &&& cbool (decide ((0 : Nat) = 0))) = ai / 2 ^ j % 2 := by
      rw [show cbool (decide ((0 : Nat) = 0)) = 1 from rfl, Nat.and_one_is_mod,
        Nat.and_one_is_mod, Nat.mod_mod, Nat.shiftRight_eq_div_pow]
    have hm : ai % 2 ^ (j + 1) = ai % 2 ^ j + 2 ^ j * (ai / 2 ^ j % 2) := Nat.mod_pow_succ
    have hpos : 0 < 2 ^ j := Nat.pow_pos (by decide)
    have hlt : ai % 2 ^ j < 2 ^ j := Nat.mod_lt _ hpos
    rw [coordMaxBitBits, key]
    rcases Nat.mod_two_eq_zero_or_one (ai / 2 ^ j) with h0 | h1
    · rw [hm, h0, Nat.mul_zero, Nat.add_zero]
      simp only [ne_eq, not_true_eq_false, if_false]
      exact ih
    · rw [hm, h1, Nat.mul_one]
      simp only [ne_eq, Nat.one_ne_zero, not_false_eq_true, if_true]
      rw [coordMaxBitBits_nz _ _ _ _ (by omega)]
      have hne : ai % 2 ^ j + 2 ^ j ≠ 0 := by omega
      have h2 : ai % 2 ^ j + 2 ^ j < 2 ^ (j + 1) := by rw [pow_succ]; omega
      rw [if_neg hne, size_eq_of_bounds (ai % 2 ^ j + 2 ^ j) j (by omega) h2]
      omega

theorem coordMaxBitLoop_nz (a : coord) (i n : Nat) (hn : n ≠ 0) : coordMaxBitLoop a i n = n := by
  induction i with
  | zero => rfl
  | succ i ih =>
    simp only [coordMaxBitLoop]
    rw [coordMaxBitBits_nz _ _ _ _ hn]
    exact ih

theorem size_add_mul_pow (r l m : Nat) (hr : r < 2 ^ m) (hl : l ≠ 0) :
    Nat.size (r + l * 2 ^ m) = m + Nat.size l := by
  have hs : 0 < Nat.size l := Nat.size_pos.mpr (Nat.pos_of_ne_zero hl)
  obtain ⟨s, hs1⟩ : ∃ s, Nat.size l = s + 1 := ⟨Nat.size l - 1, by omega⟩
  have h1 : 2 ^ s ≤ l := Nat.lt_size.mp (by omega)
  have h2 : l < 2 ^ (s + 1) := by rw [← hs1]; exact Nat.lt_size_self l
  rw [hs1, ← Nat.add_assoc]
  apply size_eq_of_bounds
  · rw [pow_add, Nat.mul_comm]
    exact Nat.le_trans (Nat.mul_le_mul_right _ h1) (Nat.le_add_left _ _)
  · have h3 : l + 1 ≤ 2 ^ (s + 1) := h2
    have h4 : (l + 1) * 2 ^ m ≤ 2 ^ (s + 1) * 2 ^ m := Nat.mul_le_mul_right _ h3
    have h5 : 2 ^ (m + s + 1) = 2 ^ (s + 1) * 2 ^ m := by
      rw [← pow_add]; congr 1; omega
    rw [h5]
    have h6 : (l + 1) * 2 ^ m = l * 2 ^ m + 2 ^ m := by ring
    omega

theorem coordMaxBitLoop_zero (a : coord) (ha : ∀ i, limb a i < WORD) (i : Nat) :
    coordMaxBitLoop a i 0 = Nat.size (coordVal a i) := by
  induction i with
  | zero => simp [coordMaxBitLoop, coordVal]
  | succ i ih =>
    have hw : limb a i % 2 ^ 64 = limb a i := Nat.mod_eq_of_lt (ha i)
    simp only [coordMaxBitLoop, coordVal, coordMaxBitBits_zero, hw]
    by_cases h0 : limb a i = 0
    · rw [if_pos h0, h0, Nat.zero_mul, Nat.add_zero]
      exact ih
    · rw [if_neg h0, coordMaxBitLoop_nz _ _ _ (by
        have := Nat.size_pos.mpr (Nat.pos_of_ne_zero h0); omega),
        size_add_mul_pow _ _ _ (coordVal_lt a i ha) h0]
      omega

/-- The result of `coordMaxBit` is the bit length of the value of the limbs. -/
theorem coordMaxBit_size (a : coord) (n : Nat) (ha : ∀ i, limb a i < WORD) :
    coordMaxBit a n = Nat.size (coordVal a n) :=
  coordMaxBitLoop_zero a ha n

/-- C30 (bit length).  For every coordinate of 64-bit limbs and every number of
limbs, `coordMaxBit` returns 0 when the value is 0 and otherwise the unique n
with 2^(n-1) <= a < 2^n, however many bits of the top limb are in use. -/
theorem coordMaxBit_bit_length (a : coord) (nwords : Nat) (ha : ∀ i, limb a i < WORD) :
    (coordVal a nwords = 0 → coordMaxBit a nwords = 0) ∧
    (coordVal a nwords ≠ 0 →
      2 ^ (coordMaxBit a nwords - 1) ≤ coordVal a nwords ∧
      coordVal a nwords < 2 ^ coordMaxBit a nwords ∧
      ∀ m, 2 ^ (m - 1) ≤ coordVal a nwords → coordVal a nwords < 2 ^ m →
        m = coordMaxBit a nwords) := by
  rw [coordMaxBit_size a nwords ha]
  refine ⟨fun h => by rw [h, Nat.size_zero], fun h => ?_⟩
  have hs : 0 < Nat.size (coordVal a nwords) := Nat.size_pos.mpr (Nat.pos_of_ne_zero h)
  refine ⟨Nat.lt_size.mp (by omega), Nat.lt_size_self _, fun m h1 h2 => ?_⟩
  have h3 : Nat.size (coordVal a nwords) ≤ m := Nat.size_le.mpr h2
  have h4 : m - 1 < Nat.size (coordVal a nwords) := Nat.lt_size.mpr h1
  omega

set_option maxRecDepth 100000 in
/-- Witness of C30: the prime of P-521, whose top limb holds 9 bits, has bit
length 521; the value 2^64 on two limbs has bit length 65; zero has bit length 0. -/
theorem coordMaxBit_bit_length_witness :
    coordMaxBit curve521.p 9 = 521 ∧ coordMaxBit (toCoord (2 ^ 64) 2) 2 = 65 ∧
      coordMaxBit (coordInit 9) 9 = 0 :=
  ⟨(((coordMaxBit_bit_length curve521.p 9 curve521_ok.wf_p.2).2 (by decide!)).2.2 521
      (by decide!) (by decide!)).symm,
    (((coordMaxBit_bit_length (toCoord (2 ^ 64) 2) 2 (coordWF_toCoord _ _).2).2
      (by decide!)).2.2 65 (by decide!) (by decide!)).symm,
    (coordMaxBit_bit_length (coordInit 9) 9 (coordInit_wf 9).2).1 (by decide!)⟩

/-! ## The field primitives -/

/-- C29 (comparison).  For coordinates of 64-bit limbs, limb 0 least significant,
`coordCmp` returns 1 if a > b, 0 if a = b and -1 if a < b, as unsigned integers
on nwords limbs. -/
theorem coordCmp_sign (a b : coord) (nwords : Nat) (ha : ∀ i, limb a i < WORD)
    (hb : ∀ i, limb b i < WORD) :
    (coordVal b nwords < coordVal a nwords → coordCmp a b nwords = 1) ∧
    (coordVal a nwords = coordVal b nwords → coordCmp a b nwords = 0) ∧
    (coordVal a nwords < coordVal b nwords → coordCmp a b nwords = -1) := by
  have h := coordCmp_spec a b nwords ha hb
  refine ⟨fun h1 => ?_, fun h1 => ?_, fun h1 => ?_⟩
  · rw [h, if_pos h1]
  · rw [h, if_neg (by omega), if_pos h1]
  · rw [h, if_neg (by omega), if_neg (by omega)]

set_option maxRecDepth 100000 in
/-- Witness of C29 on two limbs: 2^64 (limbs 0, 1) against 2^64 - 1 (limbs
2^64 - 1, 0), where the order of the low limbs is the opposite of the order of
the values. -/
theorem coordCmp_sign_witness :
    coordCmp (toCoord (2 ^ 64) 2) (toCoord (2 ^ 64 - 1) 2) 2 = 1 ∧
    coordCmp (toCoord (2 ^ 64) 2) (toCoord (2 ^ 64) 2) 2 = 0 ∧
    coordCmp (toCoord (2 ^ 64 - 1) 2) (toCoord (2 ^ 64) 2) 2 = -1 :=
  ⟨(coordCmp_sign _ _ 2 (coordWF_toCoord _ _).2 (coordWF_toCoord _ _).2).1 (by decide!),
    (coordCmp_sign _ _ 2 (coordWF_toCoord _ _).2 (coordWF_toCoord _ _).2).2.1 rfl,
    (coordCmp_sign _ _ 2 (coordWF_toCoord _ _).2 (coordWF_toCoord _ _).2).2.2 (by decide!)⟩

/-- C26 (modular addition).  For a modulus p on nwords limbs and a, b < p,
`coordAdd` leaves the nwords-limb value (a + b) mod p, also when a + b is
2^(64 nwords) or more; the result is below p. -/
theorem coordAdd_mod (a b p : coord) (nwords : Nat) (ha : coordWF a nwords)
    (hb : coordWF b nwords) (hp : coordWF p nwords)
    (hap : coordVal a nwords < coordVal p nwords) (hbp : coordVal b nwords < coordVal p nwords) :
    coordWF (coordAdd a b p nwords) nwords ∧
    coordVal (coordAdd a b p nwords) nwords =
      (coordVal a nwords + coordVal b nwords) % coordVal p nwords ∧
    coordVal (coordAdd a b p nwords) nwords < coordVal p nwords := by
  have h := coordAdd_spec a b p nwords ha hb hp hap hbp
  refine ⟨h.1, h.2, ?_⟩
  rw [h.2]
  exact Nat.mod_lt _ (by omega)

set_option maxRecDepth 100000 in
/-- Witness of C26 on one limb, p = 2^64 - 1 and a = b = 2^64 - 2: the sum
overflows the limb and the result is 2^64 - 3; and on P-521, (p - 1) + 2 = 1. -/
theorem coordAdd_mod_witness :
    2 ^ 64 ≤ coordVal (toCoord (2 ^ 64 - 2) 1) 1 + coordVal (toCoord (2 ^ 64 - 2) 1) 1 ∧
    coordVal (coordAdd (toCoord (2 ^ 64 - 2) 1) (toCoord (2 ^ 64 - 2) 1)
      (toCoord (2 ^ 64 - 1) 1) 1) 1 = 2 ^ 64 - 3 ∧
    coordVal (coordAdd (toCoord (2 ^ 521 - 2) 9) (toCoord 2 9) curve521.p 9) 9 = 1 :=
  ⟨by decide!,
    (coordAdd_mod (toCoord (2 ^ 64 - 2) 1) (toCoord (2 ^ 64 - 2) 1) (toCoord (2 ^ 64 - 1) 1) 1
      (coordWF_toCoord _ _) (coordWF_toCoord _ _) (coordWF_toCoord _ _)
      (by decide!) (by decide!)).2.1.trans (by decide!),
    (coordAdd_mod (toCoord (2 ^ 521 - 2) 9) (toCoord 2 9) curve521.p 9
      (coordWF_toCoord _ _) (coordWF_toCoord _ _) curve521_ok.wf_p
      (by decide!) (by decide!)).2.1.trans (by decide!)⟩

/-- C27 (modular subtraction).  For a modulus p on nwords limbs and a, b < p,
`coordSub` leaves the nwords-limb value (a - b) mod p, the residue of the
integer a - b in [0, p). -/
theorem coordSub_mod (a b p : coord) (nwords : Nat) (ha : coordWF a nwords)
    (hb : coordWF b nwords) (hp : coordWF p nwords)
    (hap : coordVal a nwords < coordVal p nwords) (hbp : coordVal b nwords < coordVal p nwords) :
    coordWF (coordSub a b p nwords) nwords ∧
    ((coordVal (coordSub a b p nwords) nwords : ℤ) =
      ((coordVal a nwords : ℤ) - (coordVal b nwords : ℤ)) % (coordVal p nwords : ℤ)) ∧
    coordVal (coordSub a b p nwords) nwords < coordVal p nwords := by
  have h := coordSub_spec a b p nwords ha hb hp hap hbp
  refine ⟨h.1, ?_, ?_⟩
  · rw [h.2]
    have hle : coordVal b nwords ≤ coordVal a nwords + coordVal p nwords := by omega
    rw [Int.natCast_mod, Nat.cast_sub hle, Nat.cast_add]
    have e : ((coordVal a nwords : ℤ) + (coordVal p nwords : ℤ) - (coordVal b nwords : ℤ)) =
        ((coordVal a nwords : ℤ) - (coordVal b nwords : ℤ)) + (coordVal p nwords : ℤ) := by ring
    rw [e, Int.add_emod_self]
  · rw [h.2]
    exact Nat.mod_lt _ (by omega)

set_option maxRecDepth 100000 in
/-- Witness of C27 on one limb, p = 2^64 - 1: 1 - 3 borrows and the result is
p - 2; and on P-521, 0 - 1 = p - 1. -/
theorem coordSub_mod_witness :
    coordVal (coordSub (toCoord 1 1) (toCoord 3 1) (toCoord (2 ^ 64 - 1) 1) 1) 1 = 2 ^ 64 - 3 ∧
    coordVal (coordSub (toCoord 0 9) (toCoord 1 9) curve521.p 9) 9 = 2 ^ 521 - 2 :=
  ⟨Int.ofNat_inj.mp ((coordSub_mod (toCoord 1 1) (toCoord 3 1) (toCoord (2 ^ 64 - 1) 1) 1
      (coordWF_toCoord _ _) (coordWF_toCoord _ _) (coordWF_toCoord _ _)
      (by decide!) (by decide!)).2.1.trans (by decide!)),
    Int.ofNat_inj.mp ((coordSub_mod (toCoord 0 9) (toCoord 1 9) curve521.p 9
      (coordWF_toCoord _ _) (coordWF_toCoord _ _) curve521_ok.wf_p
      (by decide!) (by decide!)).2.1.trans (by decide!))⟩

/-- C28 (modular doubling).  For a modulus p on nwords limbs and b < p,
`coordDouble` leaves the nwords-limb value (2 b) mod p, also when the bit
shifted out of the top limb is set and when the top limb of p is only partly
used; the result is below p. -/
theorem coordDouble_mod (b p : coord) (nwords : Nat) (hb : coordWF b nwords)
    (hp : coordWF p nwords) (hbp : coordVal b nwords < coordVal p nwords) :
    coordWF (coordDouble b p nwords) nwords ∧
    coordVal (coordDouble b p nwords) nwords = (2 * coordVal b nwords) % coordVal p nwords ∧
    coordVal (coordDouble b p nwords) nwords < coordVal p nwords := by
  have h := coordDouble_spec b p nwords hb hp hbp
  refine ⟨h.1, h.2, ?_⟩
  rw [h.2]
  exact Nat.mod_lt _ (by omega)

set_option maxRecDepth 100000 in
/-- Witness of C28: on P-256, whose prime fills the top limb, b = 2^255 has the
top bit set, the shift loses it and the result is 2^256 - p; on P-521, whose top
limb holds 9 bits, b = 2^520 gives 2^521 - p = 1. -/
theorem coordDouble_mod_witness :
    limb (toCoord (2 ^ 255) 4) 3 / 2 ^ 63 = 1 ∧
    coordVal (coordDouble (toCoord (2 ^ 255) 4) curve256.p 4) 4 =
      2 ^ 256 - coordVal curve256.p 4 ∧
    coordVal (coordDouble (toCoord (2 ^ 520) 9) curve521.p 9) 9 = 1 :=
  ⟨by decide!,
    (coordDouble_mod (toCoord (2 ^ 255) 4) curve256.p 4 (coordWF_toCoord _ _)
      curve256_ok.wf_p (by decide!)).2.1.trans (by decide!),
    (coordDouble_mod (toCoord (2 ^ 520) 9) curve521.p 9 (coordWF_toCoord _ _)
      curve521_ok.wf_p (by decide!)).2.1.trans (by decide!)⟩

/-! ## Instrumented runs: values and calls -/

theorem repeatCalls_add (m k : Nat) (xs : List callT) :
    repeatCalls (m + k) xs = repeatCalls m xs ++ repeatCalls k xs := by
  induction k with
  | zero => simp [repeatCalls]
  | succ k ih =>
    rw [← Nat.add_assoc]
    simp only [repeatCalls, ih, List.append_assoc]

theorem repeatCalls_comm (m : Nat) (xs : List callT) :
    xs ++ repeatCalls m xs = repeatCalls m xs ++ xs := by
  induction m with
  | zero => simp [repeatCalls]
  | succ m ih =>
    simp only [repeatCalls]
    rw [← List.append_assoc, ih]

theorem count_repeatCalls (c : callT) (m : Nat) (xs : List callT) :
    List.count c (repeatCalls m xs) = m * List.count c xs := by
  induction m with
  | zero => simp [repeatCalls]
  | succ m ih =>
    simp only [repeatCalls, List.count_append, ih]
    ring

theorem coordMulBitsT_fst (bi : Nat) (p : coord) (n j : Nat)
    (s : (coord × coord) × List callT) :
    (coordMulBitsT bi p n j s).1 = coordMulBits bi p n j s.1 := by
  induction j with
  | zero => rfl
  | succ j ih => simp only [coordMulBitsT, coordMulBits, ih]

theorem coordMulBitsT_snd (bi : Nat) (p : coord) (n j : Nat)
    (s : (coord × coord) × List callT) :
    (coordMulBitsT bi p n j s).2 =
      s.2 ++ repeatCalls j [callT.coordAdd, callT.coordDouble] := by
  induction j with
  | zero => simp [coordMulBitsT, repeatCalls]
  | succ j ih =>
    simp only [coordMulBitsT, repeatCalls, ih, ite_self, List.append_assoc,
      List.singleton_append]

theorem coordMulLoopT_fst (a b p : coord) (n i : Nat) :
    (coordMulLoopT a b p n i).1 = coordMulLoop a b p n i := by
  induction i with
  | zero => rfl
  | succ i ih => simp only [coordMulLoopT, coordMulLoop, coordMulBitsT_fst, ih]

theorem coordMulLoopT_snd (a b p : coord) (n i : Nat) :
    (coordMulLoopT a b p n i).2 =
      repeatCalls (64 * i) [callT.coordAdd, callT.coordDouble] := by
  induction i with
  | zero => rfl
  | succ i ih =>
    simp only [coordMulLoopT, coordMulBitsT_snd, ih]
    rw [Nat.mul_succ, repeatCalls_add]

/-- The instrumented `coordMul` computes what `coordMul` computes. -/
theorem coordMulT_fst (a b p : coord) (n : Nat) : (coordMulT a b p n).1 = coordMul a b p n := by
  unfold coordMulT coordMul
  simp only [coordMulLoopT_fst]

/-- The calls of `coordMul` do not depend on the operands. -/
theorem coordMulT_snd (a b p : coord) (n : Nat) : (coordMulT a b p n).2 = coordMulCalls n := by
  unfold coordMulT coordMulCalls
  simp only [coordMulLoopT_snd]

theorem coordInvMLLoopT_fst (k p : coord) (nw n i : Nat)
    (s : (coord × coord) × (coord × coord) × List callT) :
    (coordInvMLLoopT k p nw n i s).1 = coordInvMLLoop k p nw n i s.1 := by
  induction i generalizing s with
  | zero => rfl
  | succ i ih =>
    obtain ⟨r, f, tr⟩ := s
    simp only [coordInvMLLoopT, coordInvMLLoop, coordInvMLStep]
    by_cases h1 : i < n <;> by_cases h2 : coordGetBit k i = 0 <;>
      simp only [h1, h2, if_true, if_false, ih, coordMulT_fst]

theorem coordInvMLLoopT_snd (k p : coord) (nw n i : Nat)
    (s : (coord × coord) × (coord × coord) × List callT) :
    (coordInvMLLoopT k p nw n i s).2.2 =
      s.2.2 ++ repeatCalls i (coordMulCalls nw ++ coordMulCalls nw) := by
  induction i generalizing s with
  | zero => simp [coordInvMLLoopT, repeatCalls]
  | succ i ih =>
    obtain ⟨r, f, tr⟩ := s
    have e : tr ++ coordMulCalls nw ++ coordMulCalls nw ++
        repeatCalls i (coordMulCalls nw ++ coordMulCalls nw) =
        tr ++ repeatCalls (i + 1) (coordMulCalls nw ++ coordMulCalls nw) := by
      rw [repeatCalls, ← repeatCalls_comm]
      simp only [List.append_assoc]
    simp only [coordInvMLLoopT]
    by_cases h1 : i < n <;> by_cases h2 : coordGetBit k i = 0 <;>
      simp only [h1, h2, if_true, if_false, ih, coordMulT_snd] <;> exact e

/-- The instrumented `coordInvML` computes what `coordInvML` computes. -/
theorem coordInvMLT_fst (a p : coord) (n : Nat) (f : coord × coord) :
    (coordInvMLT a p n f).1 = coordInvML a p n := by
  unfold coordInvMLT coordInvML
  simp only [coordInvMLLoopT_fst]

/-- The calls of `coordInvML` depend on nothing but the bit length of p. -/
theorem coordInvMLT_snd (a p : coord) (n : Nat) (f : coord × coord) :
    (coordInvMLT a p n f).2 = coordInvMLCalls (coordMaxBit p n) n := by
  unfold coordInvMLT coordInvMLCalls
  simp only [coordInvMLLoopT_snd]

theorem cProjToAffineT_fst (bP : pointP) (p : coord) (n : Nat) (f : coord × coord) :
    (cProjToAffineT bP p n f).1 = cProjToAffine bP p n := by
  unfold cProjToAffineT cProjToAffine
  simp only [coordInvMLT_fst, coordMulT_fst]

theorem cProjToAffineT_snd (bP : pointP) (p : coord) (n : Nat) (f : coord × coord) :
    (cProjToAffineT bP p n f).2 = cProjToAffineCalls (coordMaxBit p n) n := by
  unfold cProjToAffineT cProjToAffineCalls
  simp only [coordInvMLT_snd, coordMulT_snd]

theorem doubleUT_fst (P : pointP) (a p : coord) (n : Nat) :
    (doubleUT P a p n).1 = doubleU P a p n := by
  unfold doubleUT doubleU
  simp only [coordMulT_fst]

theorem doubleUT_snd (P : pointP) (a p : coord) (n : Nat) :
    (doubleUT P a p n).2 = doubleUCalls n := by
  unfold doubleUT doubleUCalls
  simp only [coordMulT_snd]

theorem zAddCT_fst (P Q : pointP) (p : coord) (n : Nat) :
    (zAddCT P Q p n).1 = zAddC P Q p n := by
  unfold zAddCT zAddC
  simp only [coordMulT_fst]

theorem zAddCT_snd (P Q : pointP) (p : coord) (n : Nat) :
    (zAddCT P Q p n).2 = zAddCCalls n := by
  unfold zAddCT zAddCCalls
  simp only [coordMulT_snd]

theorem zAddUT_fst (P Q : pointP) (p : coord) (n : Nat) :
    (zAddUT P Q p n).1 = zAddU P Q p n := by
  unfold zAddUT zAddU
  simp only [coordMulT_fst]

theorem zAddUT_snd (P Q : pointP) (p : coord) (n : Nat) :
    (zAddUT P Q p n).2 = zAddUCalls n := by
  unfold zAddUT zAddUCalls
  simp only [coordMulT_snd]

theorem scalarMultLoopT_fst (k p : coord) (nw n i : Nat)
    (s : (pointP × pointP) × (pointP × pointP) × List callT) :
    (scalarMultLoopT k p nw n i s).1 = scalarMultLoop k p nw n i s.1 := by
  induction i generalizing s with
  | zero => rfl
  | succ i ih =>
    obtain ⟨R, S, tr⟩ := s
    simp only [scalarMultLoopT, scalarMultLoop, scalarMultStep]
    by_cases h1 : i + 1 < n <;> by_cases h2 : coordGetBit k i = 0 <;>
      simp only [h1, h2, if_true, if_false, ih, zAddCT_fst, zAddUT_fst]

theorem scalarMultLoopT_snd (k p : coord) (nw n i : Nat)
    (s : (pointP × pointP) × (pointP × pointP) × List callT) :
    (scalarMultLoopT k p nw n i s).2.2 =
      s.2.2 ++ repeatCalls i (zAddCCalls nw ++ zAddUCalls nw) := by
  induction i generalizing s with
  | zero => simp [scalarMultLoopT, repeatCalls]
  | succ i ih =>
    obtain ⟨R, S, tr⟩ := s
    have e : tr ++ zAddCCalls nw ++ zAddUCalls nw ++
        repeatCalls i (zAddCCalls nw ++ zAddUCalls nw) =
        tr ++ repeatCalls (i + 1) (zAddCCalls nw ++ zAddUCalls nw) := by
      rw [repeatCalls, ← repeatCalls_comm]
      simp only [List.append_assoc]
    simp only [scalarMultLoopT]
    by_cases h1 : i + 1 < n <;> by_cases h2 : coordGetBit k i = 0 <;>
      simp only [h1, h2, if_true, if_false, ih, zAddCT_snd, zAddUT_snd] <;> exact e

/-- The instrumented `scalarMult` computes what `scalarMult` computes. -/
theorem scalarMultT_fst (k : coord) (P : pointA) (a p : coord) (n : Nat) (S : pointP × pointP)
    (f : coord × coord) : (scalarMultT k P a p n S f).1 = scalarMult k P a p n := by
  unfold scalarMultT scalarMult
  simp only [cProjToAffineT_fst, scalarMultLoopT_fst, doubleUT_fst]

/-- The calls of `scalarMult` depend on nothing but the bit length of p. -/
theorem scalarMultT_snd (k : coord) (P : pointA) (a p : coord) (n : Nat) (S : pointP × pointP)
    (f : coord × coord) :
    (scalarMultT k P a p n S f).2 = scalarMultCalls (coordMaxBit p n) n := by
  unfold scalarMultT scalarMultCalls
  simp only [cProjToAffineT_snd, scalarMultLoopT_snd, doubleUT_snd]

/-! ## Counting the calls -/

theorem count_coordMulCalls (c : callT) (n : Nat) :
    List.count c (coordMulCalls n) =
      (if c = callT.coordMul then 1 else 0) +
        64 * n * ((if c = callT.coordAdd then 1 else 0) +
          (if c = callT.coordDouble then 1 else 0)) := by
  cases c <;> simp [coordMulCalls, count_repeatCalls]

/-- The number of calls of each function in a run of `scalarMult` for a modulus
of `order` bits on n limbs, M being the number of calls of `coordMul`. -/
theorem count_scalarMultCalls (order n : Nat) :
    List.count callT.zAddC (scalarMultCalls order n) = order - 1 ∧
    List.count callT.zAddU (scalarMultCalls order n) = order - 1 ∧
    List.count callT.doubleU (scalarMultCalls order n) = 1 ∧
    List.count callT.cProjToAffine (scalarMultCalls order n) = 1 ∧
    List.count callT.coordMul (scalarMultCalls order n) = 11 + 16 * (order - 1) + 2 * order ∧
    List.count callT.coordAdd (scalarMultCalls order n) =
      2 + 5 * (order - 1) + 64 * n * (11 + 16 * (order - 1) + 2 * order) ∧
    List.count callT.coordDouble (scalarMultCalls order n) =
      9 + (order - 1) + 64 * n * (11 + 16 * (order - 1) + 2 * order) ∧
    List.count callT.coordSub (scalarMultCalls order n) = 7 + 17 * (order - 1) := by
  unfold scalarMultCalls
  generalize order - 1 = r
  refine ⟨?_, ?_, ?_, ?_, ?_, ?_, ?_, ?_⟩ <;>
    simp [ doubleUCalls, zAddCCalls, zAddUCalls, cProjToAffineCalls,
      coordInvMLCalls, count_repeatCalls, count_coordMulCalls, List.count_cons] <;> ring

/-- C24 (modular multiplication).  For a modulus p on nwords limbs and a, b < p
(so p >= 1), `coordMul` leaves the nwords-limb value (a b) mod p, which is below
p, and the run consists of exactly 64 nwords rounds of one `coordAdd` followed
by one `coordDouble`, whatever the operands. -/
theorem coordMul_mod (a b p : coord) (nwords : Nat) (ha : coordWF a nwords)
    (hb : coordWF b nwords) (hp : coordWF p nwords)
    (hap : coordVal a nwords < coordVal p nwords) (hbp : coordVal b nwords < coordVal p nwords) :
    coordWF (coordMul a b p nwords) nwords ∧
    coordVal (coordMul a b p nwords) nwords =
      (coordVal a nwords * coordVal b nwords) % coordVal p nwords ∧
    coordVal (coordMul a b p nwords) nwords < coordVal p nwords ∧
    (coordMulT a b p nwords).1 = coordMul a b p nwords ∧
    (coordMulT a b p nwords).2 =
      callT.coordMul :: repeatCalls (64 * nwords) [callT.coordAdd, callT.coordDouble] := by
  have h := coordMul_spec a b p nwords ha hb hp hap hbp
  refine ⟨h.1, h.2, ?_, coordMulT_fst a b p nwords, coordMulT_snd a b p nwords⟩
  rw [h.2]
  exact Nat.mod_lt _ (by omega)

set_option maxRecDepth 100000 in
/-- Witness of C24: on one limb with p = 2^64 - 1, (p - 1) (p - 1) = 1; on P-521,
2^520 times 2 is 1; on P-256 the product of the coordinates of the base point. -/
theorem coordMul_mod_witness :
    coordVal (coordMul (toCoord (2 ^ 64 - 2) 1) (toCoord (2 ^ 64 - 2) 1)
      (toCoord (2 ^ 64 - 1) 1) 1) 1 = 1 ∧
    coordVal (coordMul (toCoord (2 ^ 520) 9) (toCoord 2 9) curve521.p 9) 9 = 1 ∧
    coordVal (coordMul curve256.g.aX curve256.g.aY curve256.p 4) 4 =
      (coordVal curve256.g.aX 4 * coordVal curve256.g.aY 4) % coordVal curve256.p 4 :=
  ⟨(coordMul_mod (toCoord (2 ^ 64 - 2) 1) (toCoord (2 ^ 64 - 2) 1) (toCoord (2 ^ 64 - 1) 1) 1
      (coordWF_toCoord _ _) (coordWF_toCoord _ _) (coordWF_toCoord _ _)
      (by decide!) (by decide!)).2.1.trans (by decide!),
    (coordMul_mod (toCoord (2 ^ 520) 9) (toCoord 2 9) curve521.p 9
      (coordWF_toCoord _ _) (coordWF_toCoord _ _) curve521_ok.wf_p
      (by decide!) (by decide!)).2.1.trans (by decide!),
    (coordMul_mod curve256.g.aX curve256.g.aY curve256.p 4 curve256_ok.rep_gx.1
      curve256_ok.rep_gy.1 curve256_ok.wf_p curve256_ok.rep_gx.2.2
      curve256_ok.rep_gy.2.2).2.1⟩

/-- C22 (iteration-count invariance of the ladder).  For a modulus p of 64-bit
limbs, the instrumented `scalarMult` returns what `scalarMult` returns and makes
the same calls for any two scalars, base points and contents of the scratch
registers: `doubleU`, then exactly bitlen(p) - 1 rounds of one `zAddC` followed
by one `zAddU`, then `cProjToAffine`; hence every function, the field
primitives `coordAdd`, `coordSub`, `coordDouble`, `coordMul` among them, is
called the same number of times. -/
theorem scalarMult_call_invariance (k1 k2 : coord) (P1 P2 : pointA) (a p : coord)
    (nwords : Nat) (S1 S2 : pointP × pointP) (f1 f2 : coord × coord)
    (hp : ∀ i, limb p i < WORD) :
    (scalarMultT k1 P1 a p nwords S1 f1).1 = scalarMult k1 P1 a p nwords ∧
    (scalarMultT k1 P1 a p nwords S1 f1).2 =
      doubleUCalls nwords ++
        repeatCalls (Nat.size (coordVal p nwords) - 1)
          (zAddCCalls nwords ++ zAddUCalls nwords) ++
        cProjToAffineCalls (Nat.size (coordVal p nwords)) nwords ∧
    (scalarMultT k1 P1 a p nwords S1 f1).2 = (scalarMultT k2 P2 a p nwords S2 f2).2 ∧
    List.count callT.zAddC (scalarMultT k1 P1 a p nwords S1 f1).2 =
      Nat.size (coordVal p nwords) - 1 ∧
    List.count callT.zAddU (scalarMultT k1 P1 a p nwords S1 f1).2 =
      Nat.size (coordVal p nwords) - 1 ∧
    List.count callT.coordMul (scalarMultT k1 P1 a p nwords S1 f1).2 =
      11 + 16 * (Nat.size (coordVal p nwords) - 1) + 2 * Nat.size (coordVal p nwords) ∧
    ∀ c, List.count c (scalarMultT k1 P1 a p nwords S1 f1).2 =
      List.count c (scalarMultT k2 P2 a p nwords S2 f2).2 := by
  have hc := count_scalarMultCalls (Nat.size (coordVal p nwords)) nwords
  rw [scalarMultT_snd, scalarMultT_snd, coordMaxBit_size p nwords hp]
  exact ⟨scalarMultT_fst _ _ _ _ _ _ _, rfl, rfl, hc.1, hc.2.1, hc.2.2.2.2.1, fun _ => rfl⟩

set_option maxRecDepth 100000 in
/-- Witness of C22 on P-256 with the base point: the runs for k = 1 and for
k = p - 1 make the same calls, 255 of them to `zAddC`, 255 to `zAddU` and 4603 to
`coordMul`. -/
theorem scalarMult_call_invariance_witness :
    (scalarMultT (toCoord 1 4) curve256.g curve256.a curve256.p 4
        (⟨coordInit 4, coordInit 4, coordInit 4⟩, ⟨coordInit 4, coordInit 4, coordInit 4⟩)
        (coordInit 4, coordInit 4)).2 =
      (scalarMultT (toCoord (coordVal curve256.p 4 - 1) 4) curve256.g curve256.a curve256.p 4
        (⟨coordInit 4, coordInit 4, coordInit 4⟩, ⟨coordInit 4, coordInit 4, coordInit 4⟩)
        (coordInit 4, coordInit 4)).2 ∧
    List.count callT.zAddC (scalarMultT (toCoord 1 4) curve256.g curve256.a curve256.p 4
        (⟨coordInit 4, coordInit 4, coordInit 4⟩, ⟨coordInit 4, coordInit 4, coordInit 4⟩)
        (coordInit 4, coordInit 4)).2 = 255 ∧
    List.count callT.zAddU (scalarMultT (toCoord 1 4) curve256.g curve256.a curve256.p 4
        (⟨coordInit 4, coordInit 4, coordInit 4⟩, ⟨coordInit 4, coordInit 4, coordInit 4⟩)
        (coordInit 4, coordInit 4)).2 = 255 ∧
    List.count callT.coordMul (scalarMultT (toCoord 1 4) curve256.g curve256.a curve256.p 4
        (⟨coordInit 4, coordInit 4, coordInit 4⟩, ⟨coordInit 4, coordInit 4, coordInit 4⟩)
        (coordInit 4, coordInit 4)).2 = 4603 :=
  have hs : Nat.size (coordVal curve256.p 4) = 256 :=
    size_eq_of_bounds (coordVal curve256.p 4) 255 (by decide!) (by decide!)
  have h := scalarMult_call_invariance (toCoord 1 4) (toCoord (coordVal curve256.p 4 - 1) 4)
    curve256.g curve256.g curve256.a curve256.p 4
    (⟨coordInit 4, coordInit 4, coordInit 4⟩, ⟨coordInit 4, coordInit 4, coordInit 4⟩)
    (⟨coordInit 4, coordInit 4, coordInit 4⟩, ⟨coordInit 4, coordInit 4, coordInit 4⟩)
    (coordInit 4, coordInit 4) (coordInit 4, coordInit 4) curve256_ok.wf_p.2
  ⟨h.2.2.1, h.2.2.2.1.trans (congrArg (fun s => s - 1) hs),
    h.2.2.2.2.1.trans (congrArg (fun s => s - 1) hs),
    h.2.2.2.2.2.1.trans (congrArg (fun s => 11 + 16 * (s - 1) + 2 * s) hs)⟩

/-- C25 (modular inversion).  For a prime p on nwords limbs and 0 < a < p,
`coordInvML` leaves the nwords-limb value a^(p-2) mod p, which is below p and
whose product with a is 1 modulo p. -/
theorem coordInvML_fermat (a p : coord) (nwords : Nat) (ha : coordWF a nwords)
    (hp : coordWF p nwords) (hprime : Nat.Prime (coordVal p nwords))
    (h0 : 0 < coordVal a nwords) (hap : coordVal a nwords < coordVal p nwords) :
    coordWF (coordInvML a p nwords) nwords ∧
    coordVal (coordInvML a p nwords) nwords =
      coordVal a nwords ^ (coordVal p nwords - 2) % coordVal p nwords ∧
    coordVal (coordInvML a p nwords) nwords < coordVal p nwords ∧
    (coordVal a nwords * coordVal (coordInvML a p nwords) nwords) % coordVal p nwords = 1 := by
  have h2 := hprime.two_le
  have hr := coordInvML_rep a p nwords (coordVal a nwords) hp h2 ⟨ha, rfl, hap⟩
  have hB := coordVal_lt p nwords hp.2
  have e1 : coordMaxBit p nwords = Nat.size (coordVal p nwords) := coordMaxBit_size p nwords hp.2
  have e2 : coordMaxBit (toCoord (coordVal p nwords - 2) nwords) nwords =
      Nat.size (coordVal p nwords - 2) := by
    rw [coordMaxBit_size _ _ (coordWF_toCoord _ _).2,
      coordVal_toCoord_of_lt _ _ (by omega)]
  rw [e1, e2] at hr
  have hn : coordVal p nwords - 2 < 2 ^ Nat.size (coordVal p nwords - 2) := Nat.lt_size_self _
  have ho : coordVal p nwords - 2 < 2 ^ Nat.size (coordVal p nwords) :=
    Nat.lt_of_le_of_lt (Nat.sub_le _ _) (Nat.lt_size_self _)
  have pw := coordInvMLN_pow _ _ (coordVal a nwords) (coordVal p nwords)
    ((coordVal a nwords : ℕ) : ZMod (coordVal p nwords)) h2 ⟨hap, rfl⟩ hn ho
  have iv := coordInvMLN_inverse _ _ (coordVal a nwords) (coordVal p nwords) hprime hap
    (by omega) hn ho
  rw [← hr.2.1] at pw iv
  refine ⟨hr.1, ?_, pw.1, ?_⟩
  · have e3 : ((coordVal (coordInvML a p nwords) nwords : ℕ) : ZMod (coordVal p nwords)) =
        ((coordVal a nwords ^ (coordVal p nwords - 2) : ℕ) : ZMod (coordVal p nwords)) := by
      rw [pw.2, Nat.cast_pow]
    have e4 := (ZMod.natCast_eq_natCast_iff' _ _ _).mp e3
    rw [Nat.mod_eq_of_lt pw.1] at e4
    exact e4
  · unfold mulN at iv
    rw [Nat.mul_comm]
    exact iv

set_option maxRecDepth 100000 in
/-- Witness of C25: on one limb with p = 7, the inverse of 3 is 3^5 mod 7 = 5; on
P-521, whose prime is the Mersenne prime 2^521 - 1, the product of 2 and the
result for a = 2 is 1 modulo p. -/
theorem coordInvML_fermat_witness :
    coordVal (coordInvML (toCoord 3 1) (toCoord 7 1) 1) 1 = 5 ∧
    (coordVal (toCoord 2 9) 9 * coordVal (coordInvML (toCoord 2 9) curve521.p 9) 9) %
      coordVal curve521.p 9 = 1 :=
  ⟨(coordInvML_fermat (toCoord 3 1) (toCoord 7 1) 1 (coordWF_toCoord _ _) (coordWF_toCoord _ _)
      ((by decide! : coordVal (toCoord 7 1) 1 = 7) ▸ (by norm_num : Nat.Prime 7))
      (by decide!) (by decide!)).2.1.trans (by decide!),
    (coordInvML_fermat (toCoord 2 9) curve521.p 9 (coordWF_toCoord _ _) curve521_ok.wf_p
      prime_521 (by decide!) (by decide!)).2.2.2⟩

/-! ## The stored generators -/

theorem generatorValid_of (c : ellipticCurve) (hc : curveOK c)
    (ha : coordVal c.a c.wsize = 3)
    (hN : aIsOnCurveN (pointAVal c.g c.wsize) (coordVal c.a c.wsize) (coordVal c.b c.wsize)
      (primeOf c) = 1) : generatorValid c := by
  have hon : onCurve (pointAVal c.g c.wsize) c := (onCurve_iff_N _ _ hc).mpr hN
  refine ⟨hc.rep_gx.2.2, hc.rep_gy.2.2, ?_,
    (isOnTheCurve_eq_one c.g c hc _ ⟨hc.rep_gx, hc.rep_gy⟩).mpr hon⟩
  have h := hon
  unfold onCurve curveEq pointAVal at h
  rw [ha] at h
  exact h

set_option maxRecDepth 100000 in
/-- C21 (the stored generator is a valid curve point).  In the record filled by
selectCurve for each of the five indices, the generator has both coordinates
below p, satisfies Gy^2 = Gx^3 - 3 Gx + b modulo p, and isOnTheCurve returns 1 on
it. -/
theorem generator_valid (curve : ellipticCurve) :
    generatorValid (selectCurve curve 192).2 ∧ generatorValid (selectCurve curve 224).2 ∧
    generatorValid (selectCurve curve 256).2 ∧ generatorValid (selectCurve curve 384).2 ∧
    generatorValid (selectCurve curve 521).2 := by
  have e192 : (selectCurve curve 192).2 = curve192 := rfl
  have e224 : (selectCurve curve 224).2 = curve224 := rfl
  have e256 : (selectCurve curve 256).2 = curve256 := rfl
  have e384 : (selectCurve curve 384).2 = curve384 := rfl
  have e521 : (selectCurve curve 521).2 = curve521 := rfl
  rw [e192, e224, e256, e384, e521]
  exact ⟨generatorValid_of curve192 curve192_ok (by decide!) (by decide!),
    generatorValid_of curve224 curve224_ok (by decide!) (by decide!),
    generatorValid_of curve256 curve256_ok (by decide!) (by decide!),
    generatorValid_of curve384 curve384_ok (by decide!) (by decide!),
    generatorValid_of curve521 curve521_ok (by decide!) (by decide!)⟩

/-! ## The locals of `calculateKa` at the return -/

/-- The return code of `calculateKaLocals` is the return code of `calculateKa`. -/
theorem calculateKaLocals_code (H : Keccak) (l0 : kaLocals)
    (kA Yx Yy eskA skAb pkBx pkBy idA idB : keyC) (c : ellipticCurve) :
    (calculateKaLocals H l0 Yx Yy eskA skAb pkBx pkBy idA idB c).1 =
      (calculateKa H l0.hA kA Yx Yy eskA skAb pkBx pkBy idA idB c).1 := by
  unfold calculateKaLocals calculateKa
  simp only []
  by_cases g1 : (convBytesToPoint pkBx pkBy c).1 ≠ 1
  · simp only [if_pos g1]
  simp only [if_neg g1]
  by_cases g2 : isOnTheCurve (convBytesToPoint pkBx pkBy c).2 c ≠ 1
  · simp only [if_pos g2]
  simp only [if_neg g2]
  by_cases g3 : (convBytesToPoint Yx Yy c).1 ≠ 1
  · simp only [if_pos g3]
  simp only [if_neg g3]
  by_cases g4 : isOnTheCurve (convBytesToPoint Yx Yy c).2 c ≠ 1
  · simp only [if_pos g4]
  simp only [if_neg g4]
  by_cases g5 : isOnTheCurve (scalarMult (byteToWord skAb ((c.bsize + 7) / 8))
      (convBytesToPoint Yx Yy c).2 c.a c.p c.wsize) c ≠ 1
  · simp only [if_pos g5]
  simp only [if_neg g5]
  by_cases g6 : isOnTheCurve (scalarMult (hashAndMod H l0.hA eskA skAb c).2
      (convBytesToPoint pkBx pkBy c).2 c.a c.p c.wsize) c ≠ 1
  · simp only [if_pos g6]
  simp only [if_neg g6]
  by_cases g7 : isOnTheCurve (scalarMult (hashAndMod H l0.hA eskA skAb c).2
      (convBytesToPoint Yx Yy c).2 c.a c.p c.wsize) c ≠ 1
  · simp only [if_pos g7]
  simp only [if_neg g7]
  generalize sessionHash H (sessionMsg (scalarMult (byteToWord skAb ((c.bsize + 7) / 8))
      (convBytesToPoint Yx Yy c).2 c.a c.p c.wsize)
    (scalarMult (hashAndMod H l0.hA eskA skAb c).2 (convBytesToPoint pkBx pkBy c).2 c.a c.p
      c.wsize)
    (scalarMult (hashAndMod H l0.hA eskA skAb c).2 (convBytesToPoint Yx Yy c).2 c.a c.p
      c.wsize) idA idB c) c = o
  rcases o with _ | ⟨res, d⟩
  · rfl
  · by_cases hr : res ≠ 0
    · simp only [if_pos hr]
    · simp only [if_neg hr]

/-- Whenever `calculateKa` returns 1, the three locals hold only zeros. -/
theorem calculateKaLocals_success (H : Keccak) (l0 : kaLocals)
    (Yx Yy eskA skAb pkBx pkBy idA idB : keyC) (c : ellipticCurve)
    (h : (calculateKaLocals H l0 Yx Yy eskA skAb pkBx pkBy idA idB c).1 = 1) :
    localsCleared (calculateKaLocals H l0 Yx Yy eskA skAb pkBx pkBy idA idB c).2 := by
  have z : localsCleared ⟨coordInit (COORD_BYTES / 8), coordInit (COORD_BYTES / 8),
      List.replicate FIVET_BYTES 0⟩ :=
    ⟨fun x hx => (List.mem_replicate.mp hx).2, fun x hx => (List.mem_replicate.mp hx).2,
      fun x hx => (List.mem_replicate.mp hx).2⟩
  have n1 : ∀ l : kaLocals, ((-1 : Int), l).1 ≠ 1 := fun _ => (by decide : (-1 : Int) ≠ 1)
  unfold calculateKaLocals at h ⊢
  simp only [] at h ⊢
  by_cases g1 : (convBytesToPoint pkBx pkBy c).1 ≠ 1
  · simp only [if_pos g1] at h
    exact absurd h (by decide)
  simp only [if_neg g1] at h ⊢
  by_cases g2 : isOnTheCurve (convBytesToPoint pkBx pkBy c).2 c ≠ 1
  · simp only [if_pos g2] at h
    exact absurd h (by decide)
  simp only [if_neg g2] at h ⊢
  by_cases g3 : (convBytesToPoint Yx Yy c).1 ≠ 1
  · simp only [if_pos g3] at h
    exact absurd h (by decide)
  simp only [if_neg g3] at h ⊢
  by_cases g4 : isOnTheCurve (convBytesToPoint Yx Yy c).2 c ≠ 1
  · simp only [if_pos g4] at h
    exact absurd h (by decide)
  simp only [if_neg g4] at h ⊢
  by_cases g5 : isOnTheCurve (scalarMult (byteToWord skAb ((c.bsize + 7) / 8))
      (convBytesToPoint Yx Yy c).2 c.a c.p c.wsize) c ≠ 1
  · simp only [if_pos g5] at h
    exact absurd h (by decide)
  simp only [if_neg g5] at h ⊢
  by_cases g6 : isOnTheCurve (scalarMult (hashAndMod H l0.hA eskA skAb c).2
      (convBytesToPoint pkBx pkBy c).2 c.a c.p c.wsize) c ≠ 1
  · simp only [if_pos g6] at h
    exact absurd h (by decide)
  simp only [if_neg g6] at h ⊢
  by_cases g7 : isOnTheCurve (scalarMult (hashAndMod H l0.hA eskA skAb c).2
      (convBytesToPoint Yx Yy c).2 c.a c.p c.wsize) c ≠ 1
  · simp only [if_pos g7] at h
    exact absurd h (by decide)
  simp only [if_neg g7] at h ⊢
  generalize sessionHash H (sessionMsg (scalarMult (byteToWord skAb ((c.bsize + 7) / 8))
      (convBytesToPoint Yx Yy c).2 c.a c.p c.wsize)
    (scalarMult (hashAndMod H l0.hA eskA skAb c).2 (convBytesToPoint pkBx pkBy c).2 c.a c.p
      c.wsize)
    (scalarMult (hashAndMod H l0.hA eskA skAb c).2 (convBytesToPoint Yx Yy c).2 c.a c.p
      c.wsize) idA idB c) c = o at h ⊢
  rcases o with _ | ⟨res, d⟩
  · exact absurd h (n1 _)
  · by_cases hr : res ≠ 0
    · simp only [if_pos hr] at h
      exact absurd h (by decide)
    · simp only [if_neg hr]
      exact z

/-- With valid peer points, a product off the curve makes `calculateKa` return -5
with skA and hA as `byteToWord` and `hashAndMod` left them. -/
theorem calculateKaLocals_fault (H : Keccak) (l0 : kaLocals)
    (Yx Yy eskA skAb pkBx pkBy idA idB : keyC) (c : ellipticCurve) (hc : curveOK c)
    (hsX : keyWF pkBx) (hsY : keyWF pkBy) (heX : keyWF Yx) (heY : keyWF Yy)
    (hB : validPeer pkBx pkBy c) (hY : validPeer Yx Yy c)
    (hT : ¬ productsOnCurve (productsKa H l0.hA Yx Yy eskA skAb pkBx pkBy c) c) :
    calculateKaLocals H l0 Yx Yy eskA skAb pkBx pkBy idA idB c =
      (-5, ⟨writeWords l0.skA (byteToWord skAb ((c.bsize + 7) / 8)),
        writeWords l0.hA (hashAndMod H l0.hA eskA skAb c).2, l0.msg⟩) := by
  obtain ⟨b1, b2, b3⟩ := validPeer_rep pkBx pkBy c hc hsX hsY hB
  obtain ⟨y1, y2, y3⟩ := validPeer_rep Yx Yy c hc heX heY hY
  have c1 := product_check (byteToWord skAb ((c.bsize + 7) / 8)) _ c hc _ y3
  have c2 := product_check (hashAndMod H l0.hA eskA skAb c).2 _ c hc _ b3
  have c3 := product_check (hashAndMod H l0.hA eskA skAb c).2 _ c hc _ y3
  unfold productsOnCurve productsKa at hT
  simp only [] at hT
  unfold calculateKaLocals
  simp only []
  rw [if_neg (not_not.mpr b1), if_neg (not_not.mpr b2), if_neg (not_not.mpr y1),
    if_neg (not_not.mpr y2)]
  by_cases g1 : isOnTheCurve (scalarMult (byteToWord skAb ((c.bsize + 7) / 8))
      (convBytesToPoint Yx Yy c).2 c.a c.p c.wsize) c = 1
  · rw [if_neg (not_not.mpr g1)]
    by_cases g2 : isOnTheCurve (scalarMult (hashAndMod H l0.hA eskA skAb c).2
        (convBytesToPoint pkBx pkBy c).2 c.a c.p c.wsize) c = 1
    · rw [if_neg (not_not.mpr g2)]
      by_cases g3 : isOnTheCurve (scalarMult (hashAndMod H l0.hA eskA skAb c).2
          (convBytesToPoint Yx Yy c).2 c.a c.p c.wsize) c = 1
      · exact absurd ⟨c1.mp g1, c2.mp g2, c3.mp g3⟩ hT
      · rw [if_pos g3]
    · rw [if_pos g2]
  · rw [if_pos g1]

set_option maxRecDepth 100000 in
/-- C23 (zeroization on return), evaluated at a failing input.  On P-224, with the
base point as peer static key and as peer ephemeral point (both valid), the
static secret skA = n - 1, a hash of status 0 and digest 2, and locals that
hold only zeros at entry, calculateKa returns -5 while the local skA holds
n - 1 and the local hA holds 2: the returns -5 come before the block that
clears the locals.  The locals do hold only zeros whenever the function
returns 1. -/
theorem calculateKa_returns_uncleared :
    validPeer (baseKey curve224).1 (baseKey curve224).2 curve224 ∧
    localsCleared zeroLocals ∧
    calculateKaLocals (constKeccak 0 2) zeroLocals (baseKey curve224).1 (baseKey curve224).2
        zeroKey (keyOfNat (order224 - 1)) (baseKey curve224).1 (baseKey curve224).2
        (keyOfNat 10) (keyOfNat 11) curve224 =
      (-5, ⟨toCoord (order224 - 1) 4 ++ List.replicate 5 0,
        toCoord 2 4 ++ List.replicate 5 0, List.replicate FIVET_BYTES 0⟩) ∧
    (calculateKa (constKeccak 0 2) zeroLocals.hA zeroKey (baseKey curve224).1
        (baseKey curve224).2 zeroKey (keyOfNat (order224 - 1)) (baseKey curve224).1
        (baseKey curve224).2 (keyOfNat 10) (keyOfNat 11) curve224).1 = -5 ∧
    coordVal (toCoord (order224 - 1) 4 ++ List.replicate 5 0) 9 = order224 - 1 ∧
    coordVal (toCoord 2 4 ++ List.replicate 5 0) 9 = 2 ∧
    ¬ localsCleared ⟨toCoord (order224 - 1) 4 ++ List.replicate 5 0,
        toCoord 2 4 ++ List.replicate 5 0, List.replicate FIVET_BYTES 0⟩ ∧
    ∀ (H : Keccak) (l0 : kaLocals) (Yx Yy eskA skAb pkBx pkBy idA idB : keyC)
      (c : ellipticCurve),
      (calculateKaLocals H l0 Yx Yy eskA skAb pkBx pkBy idA idB c).1 = 1 →
      localsCleared (calculateKaLocals H l0 Yx Yy eskA skAb pkBx pkBy idA idB c).2 := by
  have main := calculateKaLocals_fault (constKeccak 0 2) zeroLocals (baseKey curve224).1
    (baseKey curve224).2 zeroKey (keyOfNat (order224 - 1)) (baseKey curve224).1
    (baseKey curve224).2 (keyOfNat 10) (keyOfNat 11) curve224 curve224_ok
    keyWF_baseKey224.1 keyWF_baseKey224.2 keyWF_baseKey224.1 keyWF_baseKey224.2
    validPeer_baseKey224 validPeer_baseKey224 (products_224_order_pred _ _ _).1
  rw [byteToWord_keyOfNat_224.2, hashAndMod_224_two] at main
  have e : (⟨writeWords zeroLocals.skA (toCoord (order224 - 1) 4),
      writeWords zeroLocals.hA (toCoord 2 4), zeroLocals.msg⟩ : kaLocals) =
      ⟨toCoord (order224 - 1) 4 ++ List.replicate 5 0,
        toCoord 2 4 ++ List.replicate 5 0, List.replicate FIVET_BYTES 0⟩ := by decide!
  rw [e] at main
  refine ⟨validPeer_baseKey224, ?_, main, ?_, by decide!, by decide!, ?_, ?_⟩
  · exact ⟨fun x hx => (List.mem_replicate.mp hx).2, fun x hx => (List.mem_replicate.mp hx).2,
      fun x hx => (List.mem_replicate.mp hx).2⟩
  · rw [← calculateKaLocals_code, main]
  · intro h
    exact absurd (h.2.1 2 (by decide!)) (by decide)
  · exact calculateKaLocals_success

/-! ## Refinement of the limb-level functions to the integers modulo p -/

theorem coordZ_of (p : coord) (n : Nat) (x : coord) (v : Nat) (r : ZMod (coordVal p n))
    (h1 : coordRep p n x v) (h2 : zrep (coordVal p n) v r) : coordZ p n x r := by
  obtain ⟨w, e, l⟩ := h1
  subst e
  exact ⟨w, l, h2.2⟩

theorem coordZ_rep (p : coord) (n : Nat) (x : coord) (r : ZMod (coordVal p n))
    (h : coordZ p n x r) :
    coordRep p n x (coordVal x n) ∧ zrep (coordVal p n) (coordVal x n) r :=
  ⟨⟨h.1, rfl, h.2.1⟩, ⟨h.2.1, h.2.2⟩⟩

theorem coordZ_cast (p : coord) (n : Nat) (x : coord) (v : Nat) (h : coordRep p n x v) :
    coordZ p n x ((v : ℕ) : ZMod (coordVal p n)) :=
  coordZ_of p n x v _ h ⟨h.2.2, rfl⟩

theorem zrep_unique (p v w : Nat) (r : ZMod p) (hv : zrep p v r) (hw : zrep p w r) : v = w := by
  have e := (ZMod.natCast_eq_natCast_iff' v w p).mp (hv.2.trans hw.2.symm)
  rw [Nat.mod_eq_of_lt hv.1, Nat.mod_eq_of_lt hw.1] at e
  exact e

theorem coordZ_unique (p : coord) (n : Nat) (x y : coord) (r : ZMod (coordVal p n))
    (hx : coordZ p n x r) (hy : coordZ p n y r) : x = y :=
  coordVal_inj x y n hx.1 hy.1
    (zrep_unique _ _ _ r (coordZ_rep p n x r hx).2 (coordZ_rep p n y r hy).2)

theorem coordZ_mul (p a b : coord) (n : Nat) (x y : ZMod (coordVal p n)) (hp : coordWF p n)
    (ha : coordZ p n a x) (hb : coordZ p n b y) : coordZ p n (coordMul a b p n) (x * y) :=
  coordZ_of p n _ _ _
    (coordRep_mul p a b n _ _ hp (coordZ_rep p n a x ha).1 (coordZ_rep p n b y hb).1)
    (zrep_mul _ _ _ _ _ (coordZ_rep p n a x ha).2 (coordZ_rep p n b y hb).2)

theorem coordZ_double (p b : coord) (n : Nat) (y : ZMod (coordVal p n)) (hp : coordWF p n)
    (hb : coordZ p n b y) : coordZ p n (coordDouble b p n) (2 * y) :=
  coordZ_of p n _ _ _
    (coordRep_double p b n _ hp (coordZ_rep p n b y hb).1)
    (zrep_dbl _ _ _ (coordZ_rep p n b y hb).2)

theorem pointPZ_of (p : coord) (n : Nat) (S : pointP) (v : Nat × Nat × Nat)
    (r : ZMod (coordVal p n) × ZMod (coordVal p n) × ZMod (coordVal p n))
    (h1 : pointPRep p n S v) (h2 : zrep3 (coordVal p n) v r) : pointPZ p n S r :=
  ⟨coordZ_of p n _ _ _ h1.1 h2.1, coordZ_of p n _ _ _ h1.2.1 h2.2.1,
    coordZ_of p n _ _ _ h1.2.2 h2.2.2⟩

theorem pointPZ_rep (p : coord) (n : Nat) (S : pointP)
    (r : ZMod (coordVal p n) × ZMod (coordVal p n) × ZMod (coordVal p n))
    (h : pointPZ p n S r) :
    pointPRep p n S (coordVal S.pX n, coordVal S.pY n, coordVal S.pZ n) ∧
    zrep3 (coordVal p n) (coordVal S.pX n, coordVal S.pY n, coordVal S.pZ n) r :=
  ⟨⟨(coordZ_rep p n _ _ h.1).1, (coordZ_rep p n _ _ h.2.1).1, (coordZ_rep p n _ _ h.2.2).1⟩,
    ⟨(coordZ_rep p n _ _ h.1).2, (coordZ_rep p n _ _ h.2.1).2, (coordZ_rep p n _ _ h.2.2).2⟩⟩

theorem pointPZ_cast (p : coord) (n : Nat) (S : pointP) (v : Nat × Nat × Nat)
    (h : pointPRep p n S v) : pointPZ p n S (castP (coordVal p n) v) :=
  ⟨coordZ_cast p n _ _ h.1, coordZ_cast p n _ _ h.2.1, coordZ_cast p n _ _ h.2.2⟩

/-- Function `doubleU` computes the ring-level formulas modulo p. -/
theorem doubleU_Z (P : pointP) (a p : coord) (n : Nat) (X Y A : ZMod (coordVal p n))
    (hp : coordWF p n) (ha : coordZ p n a A) (hx : coordZ p n P.pX X)
    (hy : coordZ p n P.pY Y) :
    pointPZ p n (doubleU P a p n).1 (doubleUR X Y A).1 ∧
    pointPZ p n (doubleU P a p n).2 (doubleUR X Y A).2 := by
  have r := doubleU_rep P a p n (coordVal P.pX n, coordVal P.pY n) (coordVal a n) hp
    (coordZ_rep p n _ _ ha).1 (coordZ_rep p n _ _ hx).1 (coordZ_rep p n _ _ hy).1
  have z := doubleUN_zrep (coordVal p n) (coordVal P.pX n) (coordVal P.pY n) (coordVal a n)
    X Y A (coordZ_rep p n _ _ hx).2 (coordZ_rep p n _ _ hy).2 (coordZ_rep p n _ _ ha).2
  exact ⟨pointPZ_of p n _ _ _ r.1 z.1, pointPZ_of p n _ _ _ r.2 z.2⟩

/-- Function `zAddC` computes the ring-level formulas modulo p. -/
theorem zAddC_Z (P Q : pointP) (p : coord) (n : Nat)
    (rP rQ : ZMod (coordVal p n) × ZMod (coordVal p n) × ZMod (coordVal p n))
    (hp : coordWF p n) (hP : pointPZ p n P rP) (hQ : pointPZ p n Q rQ) :
    pointPZ p n (zAddC P Q p n).1 (zAddCR rP rQ).1 ∧
    pointPZ p n (zAddC P Q p n).2 (zAddCR rP rQ).2 := by
  have r := zAddC_rep P Q p n _ _ hp (pointPZ_rep p n P rP hP).1 (pointPZ_rep p n Q rQ hQ).1
  have z := zAddCN_zrep (coordVal p n) _ _ rP rQ (pointPZ_rep p n P rP hP).2
    (pointPZ_rep p n Q rQ hQ).2
  exact ⟨pointPZ_of p n _ _ _ r.1 z.1, pointPZ_of p n _ _ _ r.2 z.2⟩

/-- Function `zAddU` computes the ring-level formulas modulo p. -/
theorem zAddU_Z (P Q : pointP) (p : coord) (n : Nat)
    (rP rQ : ZMod (coordVal p n) × ZMod (coordVal p n) × ZMod (coordVal p n))
    (hp : coordWF p n) (hP : pointPZ p n P rP) (hQ : pointPZ p n Q rQ) :
    pointPZ p n (zAddU P Q p n).1 (zAddUR rP rQ).1 ∧
    pointPZ p n (zAddU P Q p n).2 (zAddUR rP rQ).2 := by
  have r := zAddU_rep P Q p n _ _ hp (pointPZ_rep p n P rP hP).1 (pointPZ_rep p n Q rQ hQ).1
  have z := zAddUN_zrep (coordVal p n) _ _ rP rQ (pointPZ_rep p n P rP hP).2
    (pointPZ_rep p n Q rQ hQ).2
  exact ⟨pointPZ_of p n _ _ _ r.1 z.1, pointPZ_of p n _ _ _ r.2 z.2⟩

/-- The two bit lengths of `coordInvML` cover the exponent p - 2. -/
theorem coordInvML_bits (p : coord) (n : Nat) (hp : coordWF p n) :
    coordVal p n - 2 < 2 ^ coordMaxBit (toCoord (coordVal p n - 2) n) n ∧
    coordVal p n - 2 < 2 ^ coordMaxBit p n := by
  have hB := coordVal_lt p n hp.2
  have e1 : coordMaxBit p n = Nat.size (coordVal p n) := coordMaxBit_size p n hp.2
  have e2 : coordMaxBit (toCoord (coordVal p n - 2) n) n = Nat.size (coordVal p n - 2) := by
    rw [coordMaxBit_size _ _ (coordWF_toCoord _ _).2, coordVal_toCoord_of_lt _ _ (by omega)]
  rw [e1, e2]
  exact ⟨Nat.lt_size_self _, Nat.lt_of_le_of_lt (Nat.sub_le _ _) (Nat.lt_size_self _)⟩

/-- Function `coordInvML` raises to the power p - 2 modulo p. -/
theorem coordInvML_Z (a p : coord) (n : Nat) (A : ZMod (coordVal p n)) (hp : coordWF p n)
    (h2 : 2 ≤ coordVal p n) (ha : coordZ p n a A) :
    coordZ p n (coordInvML a p n) (A ^ (coordVal p n - 2)) := by
  have b := coordInvML_bits p n hp
  exact coordZ_of p n _ _ _ (coordInvML_rep a p n _ hp h2 (coordZ_rep p n _ _ ha).1)
    (coordInvMLN_pow _ _ _ _ A h2 (coordZ_rep p n _ _ ha).2 b.1 b.2)

/-- Function `cProjToAffine` computes the ring-level formulas modulo p. -/
theorem cProjToAffine_Z (bP : pointP) (p : coord) (n : Nat)
    (r : ZMod (coordVal p n) × ZMod (coordVal p n) × ZMod (coordVal p n))
    (hp : coordWF p n) (h2 : 2 ≤ coordVal p n) (hP : pointPZ p n bP r) :
    pointAZ p n (cProjToAffine bP p n) (cProjToAffineR (coordVal p n - 2) r) := by
  have d := coordInvML_Z bP.pZ p n r.2.2 hp h2 hP.2.2
  unfold cProjToAffine cProjToAffineR pointAZ
  simp only []
  exact ⟨coordZ_mul p _ _ n _ _ hp (coordZ_mul p _ _ n _ _ hp d d) hP.1,
    coordZ_mul p _ _ n _ _ hp (coordZ_mul p _ _ n _ _ hp (coordZ_mul p _ _ n _ _ hp d d) d)
      hP.2.1⟩

theorem scalarMultStep_Z (b : Nat) (p : coord) (n : Nat) (s : pointP × pointP)
    (r : (ZMod (coordVal p n) × ZMod (coordVal p n) × ZMod (coordVal p n)) ×
      (ZMod (coordVal p n) × ZMod (coordVal p n) × ZMod (coordVal p n)))
    (hp : coordWF p n) (h0 : pointPZ p n s.1 r.1) (h1 : pointPZ p n s.2 r.2) :
    pointPZ p n (scalarMultStep b p n s).1 (scalarMultStepR b r).1 ∧
    pointPZ p n (scalarMultStep b p n s).2 (scalarMultStepR b r).2 := by
  unfold scalarMultStep scalarMultStepR
  by_cases hb : b = 0
  · simp only [hb, if_true]
    have c := zAddC_Z s.1 s.2 p n r.1 r.2 hp h0 h1
    have u := zAddU_Z _ _ p n _ _ hp c.1 c.2
    exact ⟨u.1, u.2⟩
  · simp only [hb, if_false]
    have c := zAddC_Z s.2 s.1 p n r.2 r.1 hp h1 h0
    have u := zAddU_Z _ _ p n _ _ hp c.1 c.2
    exact ⟨u.2, u.1⟩

theorem scalarMultLoop_Z (k p : coord) (n nk : Nat) (hp : coordWF p n) (i : Nat) :
    ∀ (s : pointP × pointP)
      (r : (ZMod (coordVal p n) × ZMod (coordVal p n) × ZMod (coordVal p n)) ×
        (ZMod (coordVal p n) × ZMod (coordVal p n) × ZMod (coordVal p n))),
      pointPZ p n s.1 r.1 → pointPZ p n s.2 r.2 →
      pointPZ p n (scalarMultLoop k p n nk i s).1 (scalarMultLoopR (coordGetBit k) nk i r).1 ∧
      pointPZ p n (scalarMultLoop k p n nk i s).2 (scalarMultLoopR (coordGetBit k) nk i r).2 := by
  induction i with
  | zero => exact fun s r h0 h1 => ⟨h0, h1⟩
  | succ i ih =>
    intro s r h0 h1
    simp only [scalarMultLoop, scalarMultLoopR]
    by_cases hn : i + 1 < nk
    · simp only [hn, if_true]
      have t := scalarMultStep_Z (coordGetBit k i) p n s r hp h0 h1
      exact ih _ _ t.1 t.2
    · simp only [hn, if_false]
      exact ih _ _ h0 h1

/-- Function `scalarMult` computes the ring-level ladder modulo p, for every
scalar. -/
theorem scalarMult_Z (k : coord) (P : pointA) (a p : coord) (n : Nat)
    (X Y A : ZMod (coordVal p n)) (hp : coordWF p n) (h2 : 2 ≤ coordVal p n)
    (ha : coordZ p n a A) (hP : pointAZ p n P (X, Y)) :
    pointAZ p n (scalarMult k P a p n)
      (scalarMultR (coordGetBit k) (coordMaxBit p n) (coordMaxBit k n) (coordVal p n - 2)
        X Y A) := by
  have d := doubleU_Z ⟨P.aX, P.aY, coordInit n⟩ a p n X Y A hp ha hP.1 hP.2
  have l := scalarMultLoop_Z k p n (coordMaxBit k n) hp (coordMaxBit p n - 1)
    ((doubleU ⟨P.aX, P.aY, coordInit n⟩ a p n).2, (doubleU ⟨P.aX, P.aY, coordInit n⟩ a p n).1)
    ((doubleUR X Y A).2, (doubleUR X Y A).1) d.2 d.1
  unfold scalarMult scalarMultR
  simp only []
  exact cProjToAffine_Z _ p n _ hp h2 l.1

/-! ## The co-Z formulas over the field of the integers modulo a prime -/

theorem cast_ne_zero_of_lt (p v : Nat) (hv : v < p) (h0 : v ≠ 0) : ((v : ℕ) : ZMod p) ≠ 0 := by
  intro g
  have := Nat.le_of_dvd (Nat.pos_of_ne_zero h0) ((ZMod.natCast_zmod_eq_zero_iff_dvd v p).mp g)
  omega

theorem cast_ne_of_lt (p v w : Nat) (hv : v < p) (hw : w < p) (h : v ≠ w) :
    ((v : ℕ) : ZMod p) ≠ ((w : ℕ) : ZMod p) := by
  intro g
  have e := (ZMod.natCast_eq_natCast_iff' v w p).mp g
  rw [Nat.mod_eq_of_lt hv, Nat.mod_eq_of_lt hw] at e
  exact h e

theorem two_ne_zero_of_lt (p : Nat) (h : 2 < p) : (2 : ZMod p) ≠ 0 := by
  have := cast_ne_zero_of_lt p 2 h (by decide)
  simpa using this

/-- Fermat: modulo a prime, the power p - 2 of a class other than 0 is its inverse. -/
theorem pow_eq_inv (p : Nat) (hp : Nat.Prime p) (z : ZMod p) (hz : z ≠ 0) :
    z ^ (p - 2) = z⁻¹ := by
  haveI : Fact p.Prime := ⟨hp⟩
  have h2 := hp.two_le
  have f := ZMod.pow_card_sub_one_eq_one hz
  have e : z ^ (p - 2) * z = 1 := by
    rw [← pow_succ]
    have : p - 2 + 1 = p - 1 := by omega
    rw [this]
    exact f
  exact eq_inv_of_mul_eq_one_left e

theorem doubleUR_spec {R : Type} [CommRing R] (X Y A : R) :
    doubleUR X Y A = doubleUSpec X Y A := by
  unfold doubleUR doubleUSpec
  simp only []
  refine Prod.ext (Prod.ext ?_ (Prod.ext ?_ ?_)) (Prod.ext ?_ (Prod.ext ?_ ?_)) <;>
    simp only [] <;> ring

theorem affProj_scale (p : Nat) (hp : Nat.Prime p) (x y Z : ZMod p) (hZ : Z ≠ 0) :
    affProj p (x * Z ^ 2, y * Z ^ 3, Z) = (x, y) := by
  haveI : Fact p.Prime := ⟨hp⟩
  unfold affProj
  refine Prod.ext ?_ ?_ <;> simp only [] <;> field_simp

theorem proj_eq_scale (p : Nat) (hp : Nat.Prime p) (X Y Z : ZMod p) (hZ : Z ≠ 0) :
    (X, Y, Z) = ((affProj p (X, Y, Z)).1 * Z ^ 2, (affProj p (X, Y, Z)).2 * Z ^ 3, Z) := by
  haveI : Fact p.Prime := ⟨hp⟩
  unfold affProj
  refine Prod.ext ?_ (Prod.ext ?_ rfl) <;> simp only [] <;> field_simp

theorem affProj_fst_ne (p : Nat) (hp : Nat.Prime p) (X1 Y1 X2 Y2 Z : ZMod p) (hZ : Z ≠ 0)
    (hX : X1 ≠ X2) : (affProj p (X1, Y1, Z)).1 ≠ (affProj p (X2, Y2, Z)).1 := by
  haveI : Fact p.Prime := ⟨hp⟩
  intro g
  apply hX
  have e1 := congrArg Prod.fst (proj_eq_scale p hp X1 Y1 Z hZ)
  have e2 := congrArg Prod.fst (proj_eq_scale p hp X2 Y2 Z hZ)
  simp only [] at e1 e2
  rw [e1, e2, g]

/-- The affine projection of the R of the initial doubling is the point doubled. -/
theorem affProj_doubleU (p : Nat) (hp : Nat.Prime p) (h2 : 2 < p) (X Y A : ZMod p)
    (hY : Y ≠ 0) : affProj p (doubleUSpec X Y A).2 = (X, Y) := by
  haveI : Fact p.Prime := ⟨hp⟩
  have t := two_ne_zero_of_lt p h2
  have e : (doubleUSpec X Y A).2 = (X * (2 * Y) ^ 2, Y * (2 * Y) ^ 3, 2 * Y) := by
    unfold doubleUSpec
    refine Prod.ext ?_ (Prod.ext ?_ rfl) <;> simp only [] <;> ring
  rw [e]
  exact affProj_scale p hp X Y (2 * Y) (mul_ne_zero t hY)

theorem zAddCR_chord (p : Nat) (hp : Nat.Prime p) (x1 y1 x2 y2 Z Z2 : ZMod p) (hZ : Z ≠ 0)
    (hx : x1 ≠ x2) :
    affProj p (zAddCR (x1 * Z ^ 2, y1 * Z ^ 3, Z) (x2 * Z ^ 2, y2 * Z ^ 3, Z2)).1 =
      chordSum p (x1, y1) (x2, y2) ∧
    affProj p (zAddCR (x1 * Z ^ 2, y1 * Z ^ 3, Z) (x2 * Z ^ 2, y2 * Z ^ 3, Z2)).2 =
      chordSum p (x1, y1) (negA p (x2, y2)) := by
  haveI : Fact p.Prime := ⟨hp⟩
  have hd : x1 - x2 ≠ 0 := sub_ne_zero.mpr hx
  have e : Z * (x1 * Z ^ 2 - x2 * Z ^ 2) = Z ^ 3 * (x1 - x2) := by ring
  unfold affProj chordSum zAddCR negA
  simp only []
  rw [e]
  constructor
  · refine Prod.ext ?_ ?_ <;> simp only [] <;> field_simp <;> ring
  · refine Prod.ext ?_ ?_ <;> simp only [] <;> field_simp <;> ring

theorem zAddUR_chord (p : Nat) (hp : Nat.Prime p) (x1 y1 x2 y2 Z Z2 : ZMod p) (hZ : Z ≠ 0)
    (hx : x1 ≠ x2) :
    affProj p (zAddUR (x1 * Z ^ 2, y1 * Z ^ 3, Z) (x2 * Z ^ 2, y2 * Z ^ 3, Z2)).1 =
      chordSum p (x1, y1) (x2, y2) ∧
    affProj p (zAddUR (x1 * Z ^ 2, y1 * Z ^ 3, Z) (x2 * Z ^ 2, y2 * Z ^ 3, Z2)).2 = (x1, y1) := by
  haveI : Fact p.Prime := ⟨hp⟩
  have hd : x1 - x2 ≠ 0 := sub_ne_zero.mpr hx
  have e : Z * (x1 * Z ^ 2 - x2 * Z ^ 2) = Z ^ 3 * (x1 - x2) := by ring
  unfold affProj chordSum zAddUR
  simp only []
  rw [e]
  constructor
  · refine Prod.ext ?_ ?_ <;> simp only [] <;> field_simp <;> ring
  · refine Prod.ext ?_ ?_ <;> simp only [] <;> field_simp <;> ring

/-- With the inverse in the place of the power p - 2, the ring-level
`cProjToAffine` is the affine projection. -/
theorem cProjToAffineR_affProj (p : Nat) (hp : Nat.Prime p) (r : ZMod p × ZMod p × ZMod p)
    (hZ : r.2.2 ≠ 0) : cProjToAffineR (p - 2) r = affProj p r := by
  unfold cProjToAffineR affProj
  simp only []
  rw [pow_eq_inv p hp _ hZ]
  refine Prod.ext ?_ ?_ <;> simp only [] <;> ring

theorem pointAZ_unique (p : coord) (n : Nat) (S T : pointA)
    (r : ZMod (coordVal p n) × ZMod (coordVal p n)) (hS : pointAZ p n S r)
    (hT : pointAZ p n T r) : S = T := by
  have e1 := coordZ_unique p n _ _ _ hS.1 hT.1
  have e2 := coordZ_unique p n _ _ _ hS.2 hT.2
  cases S
  cases T
  simp only [] at e1 e2
  rw [e1, e2]

theorem mod_of_cast_eq (p v w : Nat) (hw : w < p) (h : ((v : ℕ) : ZMod p) = ((w : ℕ) : ZMod p)) :
    v % p = w := by
  have e := (ZMod.natCast_eq_natCast_iff' v w p).mp h
  rw [Nat.mod_eq_of_lt hw] at e
  exact e

/-! ## The claims on the co-Z formulas and on the conversion to affine coordinates -/

theorem doubleU_sameZ (P : pointP) (a p : coord) (n : Nat) :
    (doubleU P a p n).1.pZ = (doubleU P a p n).2.pZ := by
  unfold doubleU
  simp only []

theorem zAddC_sameZ (P Q : pointP) (p : coord) (n : Nat) :
    (zAddC P Q p n).1.pZ = (zAddC P Q p n).2.pZ := by
  unfold zAddC
  simp only []

theorem zAddU_sameZ (P Q : pointP) (p : coord) (n : Nat) :
    (zAddU P Q p n).1.pZ = (zAddU P Q p n).2.pZ := by
  unfold zAddU
  simp only []

/-- C34 (projective-to-affine conversion).  For a prime p on nwords limbs and a
projective point (X, Y, Z) with X, Y, Z < p and Z not 0, `cProjToAffine` returns
(x, y) with x, y < p, x = X Z^(-2) and y = Y Z^(-3) modulo p, that is,
x Z^2 = X and y Z^3 = Y modulo p. -/
theorem cProjToAffine_affine (bP : pointP) (p : coord) (nwords : Nat) (X Y Z : Nat)
    (hp : coordWF p nwords) (hprime : Nat.Prime (coordVal p nwords))
    (hP : pointPRep p nwords bP (X, Y, Z)) (hZ : Z ≠ 0) :
    pointAZ p nwords (cProjToAffine bP p nwords)
      (affProj (coordVal p nwords) (castP (coordVal p nwords) (X, Y, Z))) ∧
    (coordVal (cProjToAffine bP p nwords).aX nwords * Z ^ 2) % coordVal p nwords = X ∧
    (coordVal (cProjToAffine bP p nwords).aY nwords * Z ^ 3) % coordVal p nwords = Y := by
  haveI : Fact (coordVal p nwords).Prime := ⟨hprime⟩
  have hZc : ((Z : ℕ) : ZMod (coordVal p nwords)) ≠ 0 :=
    cast_ne_zero_of_lt _ _ hP.2.2.2.2 hZ
  have h := cProjToAffine_Z bP p nwords _ hp hprime.two_le (pointPZ_cast p nwords bP _ hP)
  rw [cProjToAffineR_affProj _ hprime _ hZc] at h
  refine ⟨h, ?_, ?_⟩
  · apply mod_of_cast_eq _ _ _ hP.1.2.2
    rw [Nat.cast_mul, Nat.cast_pow, h.1.2.2]
    unfold affProj castP
    simp only []
    field_simp
  · apply mod_of_cast_eq _ _ _ hP.2.1.2.2
    rw [Nat.cast_mul, Nat.cast_pow, h.2.2.2]
    unfold affProj castP
    simp only []
    field_simp

set_option maxRecDepth 100000 in
/-- Witness of C34 on P-521, whose prime is proved prime: the point (Gx, Gy, 2). -/
theorem cProjToAffine_affine_witness :
    (coordVal (cProjToAffine ⟨curve521.g.aX, curve521.g.aY, toCoord 2 9⟩ curve521.p 9).aX 9
        * 2 ^ 2) % coordVal curve521.p 9 = coordVal curve521.g.aX 9 ∧
    (coordVal (cProjToAffine ⟨curve521.g.aX, curve521.g.aY, toCoord 2 9⟩ curve521.p 9).aY 9
        * 2 ^ 3) % coordVal curve521.p 9 = coordVal curve521.g.aY 9 :=
  (cProjToAffine_affine ⟨curve521.g.aX, curve521.g.aY, toCoord 2 9⟩ curve521.p 9
    (coordVal curve521.g.aX 9) (coordVal curve521.g.aY 9) 2 curve521_ok.wf_p prime_521
    ⟨curve521_ok.rep_gx, curve521_ok.rep_gy, coordWF_toCoord _ _, by decide!, by decide!⟩
    (by decide)).2

/-- C31 (co-Z initial doubling).  For a prime p > 3 on nwords limbs, a < p and
P = (X1, Y1) with X1, Y1 < p, `doubleU` returns reduced coordinates which are,
modulo p, Q = (M^2 - 2 S, M (S - X2) - 8 L, 2 Y1) and R = (4 X1 E, 8 L, 2 Y1)
with B = X1^2, M = 3 B - a, E = Y1^2, L = E^2, S = 2 ((X1 + E)^2 - B - L),
X2 = M^2 - 2 S; Q and R have the same Z; and when Y1 is not 0 the affine
projection of R is P, which is also what `cProjToAffine` returns on R. -/
theorem doubleU_coZ (P : pointP) (a p : coord) (nwords : Nat) (x y av : Nat)
    (hp : coordWF p nwords) (hprime : Nat.Prime (coordVal p nwords))
    (h3 : 3 < coordVal p nwords) (ha : coordRep p nwords a av)
    (hx : coordRep p nwords P.pX x) (hy : coordRep p nwords P.pY y) :
    pointPZ p nwords (doubleU P a p nwords).1
      (doubleUSpec (x : ZMod (coordVal p nwords)) (y : ZMod (coordVal p nwords))
        (av : ZMod (coordVal p nwords))).1 ∧
    pointPZ p nwords (doubleU P a p nwords).2
      (doubleUSpec (x : ZMod (coordVal p nwords)) (y : ZMod (coordVal p nwords))
        (av : ZMod (coordVal p nwords))).2 ∧
    (doubleU P a p nwords).1.pZ = (doubleU P a p nwords).2.pZ ∧
    (y ≠ 0 →
      affProj (coordVal p nwords)
        (doubleUSpec (x : ZMod (coordVal p nwords)) (y : ZMod (coordVal p nwords))
          (av : ZMod (coordVal p nwords))).2 =
        ((x : ZMod (coordVal p nwords)), (y : ZMod (coordVal p nwords))) ∧
      cProjToAffine (doubleU P a p nwords).2 p nwords = ⟨P.pX, P.pY⟩) := by
  have d := doubleU_Z P a p nwords _ _ _ hp (coordZ_cast p nwords _ _ ha)
    (coordZ_cast p nwords _ _ hx) (coordZ_cast p nwords _ _ hy)
  rw [doubleUR_spec] at d
  refine ⟨d.1, d.2, doubleU_sameZ P a p nwords, fun h0 => ?_⟩
  have hY : ((y : ℕ) : ZMod (coordVal p nwords)) ≠ 0 := cast_ne_zero_of_lt _ _ hy.2.2 h0
  have e := affProj_doubleU _ hprime (by omega) (x : ZMod (coordVal p nwords))
    (y : ZMod (coordVal p nwords)) (av : ZMod (coordVal p nwords)) hY
  refine ⟨e, ?_⟩
  have hZ : (doubleUSpec (x : ZMod (coordVal p nwords)) (y : ZMod (coordVal p nwords))
      (av : ZMod (coordVal p nwords))).2.2.2 ≠ 0 := by
    haveI : Fact (coordVal p nwords).Prime := ⟨hprime⟩
    exact mul_ne_zero (two_ne_zero_of_lt _ (by omega)) hY
  have c := cProjToAffine_Z _ p nwords _ hp hprime.two_le d.2
  rw [cProjToAffineR_affProj _ hprime _ hZ, e] at c
  exact pointAZ_unique p nwords _ _ _ c
    ⟨coordZ_cast p nwords _ _ hx, coordZ_cast p nwords _ _ hy⟩

set_option maxRecDepth 100000 in
/-- Witness of C31 on P-521 with the base point: Q and R have the same Z and
`cProjToAffine` of R is the base point. -/
theorem doubleU_coZ_witness :
    (doubleU ⟨curve521.g.aX, curve521.g.aY, coordInit 9⟩ curve521.a curve521.p 9).1.pZ =
      (doubleU ⟨curve521.g.aX, curve521.g.aY, coordInit 9⟩ curve521.a curve521.p 9).2.pZ ∧
    cProjToAffine (doubleU ⟨curve521.g.aX, curve521.g.aY, coordInit 9⟩ curve521.a curve521.p
      9).2 curve521.p 9 = curve521.g :=
  have h := doubleU_coZ ⟨curve521.g.aX, curve521.g.aY, coordInit 9⟩ curve521.a curve521.p 9
    (coordVal curve521.g.aX 9) (coordVal curve521.g.aY 9) (coordVal curve521.a 9)
    curve521_ok.wf_p prime_521 (by decide!) curve521_ok.rep_a curve521_ok.rep_gx
    curve521_ok.rep_gy
  ⟨h.2.2.1, (h.2.2.2 (by decide!)).2⟩

/-- C32 (conjugate co-Z addition).  For a prime p on nwords limbs and
P = (X1, Y1, Z), Q = (X2, Y2, Z) with all coordinates below p, Z not 0 and
X1 other than X2, `zAddC` returns R and S with reduced coordinates and one
common Z3 = Z (X1 - X2) modulo p, which is not 0; the affine projection of R is
the chord sum of the affine projections of P and Q, and the affine projection
of S is the chord sum of the projection of P and the negative of that of Q. -/
theorem zAddC_chord (P Q : pointP) (p : coord) (nwords : Nat) (X1 Y1 X2 Y2 Z : Nat)
    (hp : coordWF p nwords) (hprime : Nat.Prime (coordVal p nwords))
    (hP : pointPRep p nwords P (X1, Y1, Z)) (hQ : pointPRep p nwords Q (X2, Y2, Z))
    (hZ : Z ≠ 0) (hX : X1 ≠ X2) :
    (zAddC P Q p nwords).1.pZ = (zAddC P Q p nwords).2.pZ ∧
    coordZ p nwords (zAddC P Q p nwords).1.pZ
      ((Z : ZMod (coordVal p nwords)) *
        ((X1 : ZMod (coordVal p nwords)) - (X2 : ZMod (coordVal p nwords)))) ∧
    (Z : ZMod (coordVal p nwords)) *
        ((X1 : ZMod (coordVal p nwords)) - (X2 : ZMod (coordVal p nwords))) ≠ 0 ∧
    pointPZ p nwords (zAddC P Q p nwords).1
      (zAddCR (castP (coordVal p nwords) (X1, Y1, Z)) (castP (coordVal p nwords) (X2, Y2, Z))).1 ∧
    pointPZ p nwords (zAddC P Q p nwords).2
      (zAddCR (castP (coordVal p nwords) (X1, Y1, Z)) (castP (coordVal p nwords) (X2, Y2, Z))).2 ∧
    affProj (coordVal p nwords)
        (zAddCR (castP (coordVal p nwords) (X1, Y1, Z))
          (castP (coordVal p nwords) (X2, Y2, Z))).1 =
      chordSum (coordVal p nwords) (affProj (coordVal p nwords) (castP _ (X1, Y1, Z)))
        (affProj (coordVal p nwords) (castP _ (X2, Y2, Z))) ∧
    affProj (coordVal p nwords)
        (zAddCR (castP (coordVal p nwords) (X1, Y1, Z))
          (castP (coordVal p nwords) (X2, Y2, Z))).2 =
      chordSum (coordVal p nwords) (affProj (coordVal p nwords) (castP _ (X1, Y1, Z)))
        (negA (coordVal p nwords) (affProj (coordVal p nwords) (castP _ (X2, Y2, Z)))) := by
  haveI : Fact (coordVal p nwords).Prime := ⟨hprime⟩
  have hZc : ((Z : ℕ) : ZMod (coordVal p nwords)) ≠ 0 := cast_ne_zero_of_lt _ _ hP.2.2.2.2 hZ
  have hXc : ((X1 : ℕ) : ZMod (coordVal p nwords)) ≠ ((X2 : ℕ) : ZMod (coordVal p nwords)) :=
    cast_ne_of_lt _ _ _ hP.1.2.2 hQ.1.2.2 hX
  have z := zAddC_Z P Q p nwords _ _ hp (pointPZ_cast p nwords P _ hP)
    (pointPZ_cast p nwords Q _ hQ)
  have hne := affProj_fst_ne _ hprime (X1 : ZMod (coordVal p nwords)) Y1 X2 Y2 Z hZc hXc
  have c := zAddCR_chord _ hprime
    (affProj (coordVal p nwords) ((X1 : ZMod (coordVal p nwords)), (Y1 : ZMod (coordVal p nwords)),
      (Z : ZMod (coordVal p nwords)))).1
    (affProj (coordVal p nwords) ((X1 : ZMod (coordVal p nwords)), (Y1 : ZMod (coordVal p nwords)),
      (Z : ZMod (coordVal p nwords)))).2
    (affProj (coordVal p nwords) ((X2 : ZMod (coordVal p nwords)), (Y2 : ZMod (coordVal p nwords)),
      (Z : ZMod (coordVal p nwords)))).1
    (affProj (coordVal p nwords) ((X2 : ZMod (coordVal p nwords)), (Y2 : ZMod (coordVal p nwords)),
      (Z : ZMod (coordVal p nwords)))).2
    (Z : ZMod (coordVal p nwords)) (Z : ZMod (coordVal p nwords)) hZc hne
  rw [← proj_eq_scale _ hprime _ _ _ hZc, ← proj_eq_scale _ hprime _ _ _ hZc] at c
  exact ⟨zAddC_sameZ P Q p nwords, z.1.2.2, mul_ne_zero hZc (sub_ne_zero.mpr hXc), z.1, z.2,
    c.1, c.2⟩

set_option maxRecDepth 100000 in
/-- Witness of C32 on P-521: P = (Gx, Gy, 2) and Q = (5, 7, 2). -/
theorem zAddC_chord_witness :
    (zAddC ⟨curve521.g.aX, curve521.g.aY, toCoord 2 9⟩ ⟨toCoord 5 9, toCoord 7 9, toCoord 2 9⟩
        curve521.p 9).1.pZ =
      (zAddC ⟨curve521.g.aX, curve521.g.aY, toCoord 2 9⟩ ⟨toCoord 5 9, toCoord 7 9, toCoord 2 9⟩
        curve521.p 9).2.pZ ∧
    coordZ curve521.p 9
      (zAddC ⟨curve521.g.aX, curve521.g.aY, toCoord 2 9⟩ ⟨toCoord 5 9, toCoord 7 9, toCoord 2 9⟩
        curve521.p 9).1.pZ
      (((2 : ℕ) : ZMod (coordVal curve521.p 9)) *
        (((coordVal curve521.g.aX 9 : ℕ) : ZMod (coordVal curve521.p 9)) -
          ((5 : ℕ) : ZMod (coordVal curve521.p 9)))) :=
  have h := zAddC_chord ⟨curve521.g.aX, curve521.g.aY, toCoord 2 9⟩
    ⟨toCoord 5 9, toCoord 7 9, toCoord 2 9⟩ curve521.p 9
    (coordVal curve521.g.aX 9) (coordVal curve521.g.aY 9) 5 7 2 curve521_ok.wf_p prime_521
    ⟨curve521_ok.rep_gx, curve521_ok.rep_gy, coordWF_toCoord _ _, by decide!, by decide!⟩
    ⟨⟨coordWF_toCoord _ _, by decide!, by decide!⟩, ⟨coordWF_toCoord _ _, by decide!, by decide!⟩,
      coordWF_toCoord _ _, by decide!, by decide!⟩
    (by decide) (by decide!)
  ⟨h.1, h.2.1⟩

/-- C33 (co-Z addition with update).  For a prime p on nwords limbs and
P = (X1, Y1, Z), Q = (X2, Y2, Z) with all coordinates below p, Z not 0 and
X1 other than X2, `zAddU` returns R and P2 with reduced coordinates and one
common Z3 = Z (X1 - X2) modulo p, which is not 0; the affine projection of R is
the chord sum of the affine projections of P and Q, and
P2 = (X1 (X1 - X2)^2, Y1 (X1 - X2)^3, Z3) has the affine projection of P. -/
theorem zAddU_chord (P Q : pointP) (p : coord) (nwords : Nat) (X1 Y1 X2 Y2 Z : Nat)
    (hp : coordWF p nwords) (hprime : Nat.Prime (coordVal p nwords))
    (hP : pointPRep p nwords P (X1, Y1, Z)) (hQ : pointPRep p nwords Q (X2, Y2, Z))
    (hZ : Z ≠ 0) (hX : X1 ≠ X2) :
    (zAddU P Q p nwords).1.pZ = (zAddU P Q p nwords).2.pZ ∧
    (Z : ZMod (coordVal p nwords)) *
        ((X1 : ZMod (coordVal p nwords)) - (X2 : ZMod (coordVal p nwords))) ≠ 0 ∧
    pointPZ p nwords (zAddU P Q p nwords).1
      (zAddUR (castP (coordVal p nwords) (X1, Y1, Z)) (castP (coordVal p nwords) (X2, Y2, Z))).1 ∧
    pointPZ p nwords (zAddU P Q p nwords).2
      ((X1 : ZMod (coordVal p nwords)) *
          ((X1 : ZMod (coordVal p nwords)) - (X2 : ZMod (coordVal p nwords))) ^ 2,
        (Y1 : ZMod (coordVal p nwords)) *
          ((X1 : ZMod (coordVal p nwords)) - (X2 : ZMod (coordVal p nwords))) ^ 3,
        (Z : ZMod (coordVal p nwords)) *
          ((X1 : ZMod (coordVal p nwords)) - (X2 : ZMod (coordVal p nwords)))) ∧
    (zAddUR (castP (coordVal p nwords) (X1, Y1, Z))
        (castP (coordVal p nwords) (X2, Y2, Z))).1.2.2 =
      (Z : ZMod (coordVal p nwords)) *
        ((X1 : ZMod (coordVal p nwords)) - (X2 : ZMod (coordVal p nwords))) ∧
    affProj (coordVal p nwords)
        (zAddUR (castP (coordVal p nwords) (X1, Y1, Z))
          (castP (coordVal p nwords) (X2, Y2, Z))).1 =
      chordSum (coordVal p nwords) (affProj (coordVal p nwords) (castP _ (X1, Y1, Z)))
        (affProj (coordVal p nwords) (castP _ (X2, Y2, Z))) ∧
    affProj (coordVal p nwords)
        ((X1 : ZMod (coordVal p nwords)) *
          ((X1 : ZMod (coordVal p nwords)) - (X2 : ZMod (coordVal p nwords))) ^ 2,
        (Y1 : ZMod (coordVal p nwords)) *
          ((X1 : ZMod (coordVal p nwords)) - (X2 : ZMod (coordVal p nwords))) ^ 3,
        (Z : ZMod (coordVal p nwords)) *
          ((X1 : ZMod (coordVal p nwords)) - (X2 : ZMod (coordVal p nwords)))) =
      affProj (coordVal p nwords) (castP _ (X1, Y1, Z)) := by
  haveI : Fact (coordVal p nwords).Prime := ⟨hprime⟩
  have hZc : ((Z : ℕ) : ZMod (coordVal p nwords)) ≠ 0 := cast_ne_zero_of_lt _ _ hP.2.2.2.2 hZ
  have hXc : ((X1 : ℕ) : ZMod (coordVal p nwords)) ≠ ((X2 : ℕ) : ZMod (coordVal p nwords)) :=
    cast_ne_of_lt _ _ _ hP.1.2.2 hQ.1.2.2 hX
  have z := zAddU_Z P Q p nwords _ _ hp (pointPZ_cast p nwords P _ hP)
    (pointPZ_cast p nwords Q _ hQ)
  have hne := affProj_fst_ne _ hprime (X1 : ZMod (coordVal p nwords)) Y1 X2 Y2 Z hZc hXc
  have c := zAddUR_chord _ hprime
    (affProj (coordVal p nwords) ((X1 : ZMod (coordVal p nwords)), (Y1 : ZMod (coordVal p nwords)),
      (Z : ZMod (coordVal p nwords)))).1
    (affProj (coordVal p nwords) ((X1 : ZMod (coordVal p nwords)), (Y1 : ZMod (coordVal p nwords)),
      (Z : ZMod (coordVal p nwords)))).2
    (affProj (coordVal p nwords) ((X2 : ZMod (coordVal p nwords)), (Y2 : ZMod (coordVal p nwords)),
      (Z : ZMod (coordVal p nwords)))).1
    (affProj (coordVal p nwords) ((X2 : ZMod (coordVal p nwords)), (Y2 : ZMod (coordVal p nwords)),
      (Z : ZMod (coordVal p nwords)))).2
    (Z : ZMod (coordVal p nwords)) (Z : ZMod (coordVal p nwords)) hZc hne
  rw [← proj_eq_scale _ hprime _ _ _ hZc, ← proj_eq_scale _ hprime _ _ _ hZc] at c
  have e2 : (zAddUR (castP (coordVal p nwords) (X1, Y1, Z))
      (castP (coordVal p nwords) (X2, Y2, Z))).2 =
      ((X1 : ZMod (coordVal p nwords)) *
          ((X1 : ZMod (coordVal p nwords)) - (X2 : ZMod (coordVal p nwords))) ^ 2,
        (Y1 : ZMod (coordVal p nwords)) *
          ((X1 : ZMod (coordVal p nwords)) - (X2 : ZMod (coordVal p nwords))) ^ 3,
        (Z : ZMod (coordVal p nwords)) *
          ((X1 : ZMod (coordVal p nwords)) - (X2 : ZMod (coordVal p nwords)))) := by
    unfold zAddUR castP
    refine Prod.ext ?_ (Prod.ext ?_ rfl) <;> simp only [] <;> ring
  have z2 := z.2
  have c2 : affProj (coordVal p nwords) (zAddUR (castP (coordVal p nwords) (X1, Y1, Z))
      (castP (coordVal p nwords) (X2, Y2, Z))).2 = _ := c.2
  rw [e2] at z2 c2
  exact ⟨zAddU_sameZ P Q p nwords, mul_ne_zero hZc (sub_ne_zero.mpr hXc), z.1, z2, rfl, c.1,
    c2⟩

set_option maxRecDepth 100000 in
/-- Witness of C33 on P-521: P = (Gx, Gy, 2) and Q = (5, 7, 2). -/
theorem zAddU_chord_witness :
    (zAddU ⟨curve521.g.aX, curve521.g.aY, toCoord 2 9⟩ ⟨toCoord 5 9, toCoord 7 9, toCoord 2 9⟩
        curve521.p 9).1.pZ =
      (zAddU ⟨curve521.g.aX, curve521.g.aY, toCoord 2 9⟩ ⟨toCoord 5 9, toCoord 7 9, toCoord 2 9⟩
        curve521.p 9).2.pZ ∧
    ((2 : ℕ) : ZMod (coordVal curve521.p 9)) *
        (((coordVal curve521.g.aX 9 : ℕ) : ZMod (coordVal curve521.p 9)) -
          ((5 : ℕ) : ZMod (coordVal curve521.p 9))) ≠ 0 :=
  have h := zAddU_chord ⟨curve521.g.aX, curve521.g.aY, toCoord 2 9⟩
    ⟨toCoord 5 9, toCoord 7 9, toCoord 2 9⟩ curve521.p 9
    (coordVal curve521.g.aX 9) (coordVal curve521.g.aY 9) 5 7 2 curve521_ok.wf_p prime_521
    ⟨curve521_ok.rep_gx, curve521_ok.rep_gy, coordWF_toCoord _ _, by decide!, by decide!⟩
    ⟨⟨coordWF_toCoord _ _, by decide!, by decide!⟩, ⟨coordWF_toCoord _ _, by decide!, by decide!⟩,
      coordWF_toCoord _ _, by decide!, by decide!⟩
    (by decide) (by decide!)
  ⟨h.1, h.2.1⟩

/-! ## Words to bytes and back -/

theorem keyWF_wordToByte (a : coord) (n : Nat) : keyWF (wordToByte a n) := by
  intro j
  by_cases hj : j < 8 * n
  · rw [byteAt_wordToByte a n j hj]
    exact Nat.mod_lt _ (by decide)
  · rw [byteAt_of_length_le _ _ (by rw [wordToByte_length]; omega)]
    decide

theorem bytesVal_of_bytes (b : keyC) (v : Nat) (n : Nat)
    (h : ∀ i, i < n → byteAt b i = v / 2 ^ (8 * i) % 256) : bytesVal b n = v % 2 ^ (8 * n) := by
  induction n with
  | zero => simp [bytesVal, Nat.mod_one]
  | succ n ih =>
    have e : (2 : Nat) ^ (8 * (n + 1)) = (2 ^ (8 * n)) * 256 := by
      rw [Nat.mul_succ, pow_add]; rfl
    have m : v % (2 ^ (8 * n) * 256) = v % 2 ^ (8 * n) + 2 ^ (8 * n) * (v / 2 ^ (8 * n) % 256) :=
      Nat.mod_mul
    rw [bytesVal_succ, ih (fun i hi => h i (by omega)), h n (by omega), e, m,
      Nat.mul_comm (2 ^ (8 * n)) (v / 2 ^ (8 * n) % 256)]

theorem bytesVal_wordToByte (a : coord) (n L : Nat) (ha : coordWF a n) (hL : L ≤ 8 * n) :
    bytesVal (wordToByte a n) L = coordVal a n % 2 ^ (8 * L) :=
  bytesVal_of_bytes _ _ L fun i hi => by
    rw [byteAt_wordToByte a n i (by omega), byte_of_limb a n i ha (by omega)]

/-- Reading back the words that `wordToByte` stored gives the words again. -/
theorem byteToWord_wordToByte (w : coord) (L : Nat) (hw : coordWF w ((L + 7) / 8))
    (hlt : coordVal w ((L + 7) / 8) < 2 ^ (8 * L)) :
    byteToWord (wordToByte w ((L + 7) / 8)) L = w := by
  apply coordVal_inj _ _ ((L + 7) / 8) (byteToWord_wf _ L (keyWF_wordToByte _ _)) hw
  rw [coordVal_byteToWord _ L (keyWF_wordToByte _ _),
    bytesVal_wordToByte w _ L hw (by omega), Nat.mod_eq_of_lt hlt]

/-- C40 (word-to-byte round trip).  For a byte length L, wsize = ceil(L / 8) and
a coordinate w of wsize 64-bit limbs with value below 2^(8 L),
byteToWord(wordToByte(w, wsize), L) is w, and wordToByte stores 8 wsize bytes,
the byte j being byte j of the value of w, little-endian, which is 0 for
j >= L. -/
theorem wordToByte_round_trip (w : coord) (L : Nat) (hw : coordWF w ((L + 7) / 8))
    (hlt : coordVal w ((L + 7) / 8) < 2 ^ (8 * L)) :
    byteToWord (wordToByte w ((L + 7) / 8)) L = w ∧
    (wordToByte w ((L + 7) / 8)).length = 8 * ((L + 7) / 8) ∧
    ∀ j, j < 8 * ((L + 7) / 8) →
      byteAt (wordToByte w ((L + 7) / 8)) j = coordVal w ((L + 7) / 8) / 2 ^ (8 * j) % 256 ∧
      (L ≤ j → byteAt (wordToByte w ((L + 7) / 8)) j = 0) := by
  refine ⟨byteToWord_wordToByte w L hw hlt, wordToByte_length _ _, fun j hj => ?_⟩
  have e : byteAt (wordToByte w ((L + 7) / 8)) j =
      coordVal w ((L + 7) / 8) / 2 ^ (8 * j) % 256 := by
    rw [byteAt_wordToByte w _ j hj, byte_of_limb w _ j hw hj]
  refine ⟨e, fun hLj => ?_⟩
  rw [e]
  have h1 : (2 : Nat) ^ (8 * L) ≤ 2 ^ (8 * j) := Nat.pow_le_pow_right (by decide) (by omega)
  rw [Nat.div_eq_of_lt (Nat.lt_of_lt_of_le hlt h1)]

set_option maxRecDepth 100000 in
/-- Witness of C40: L = 66 (P-521, 9 limbs, top limb of 2 bytes) with the x
coordinate of the base point, and L = 28 (P-224, 4 limbs, top limb of 4 bytes)
with 2^224 - 1. -/
theorem wordToByte_round_trip_witness :
    byteToWord (wordToByte curve521.g.aX 9) 66 = curve521.g.aX ∧
    byteToWord (wordToByte (toCoord (2 ^ 224 - 1) 4) 4) 28 = toCoord (2 ^ 224 - 1) 4 ∧
    byteAt (wordToByte (toCoord (2 ^ 224 - 1) 4) 4) 27 = 255 ∧
    byteAt (wordToByte (toCoord (2 ^ 224 - 1) 4) 4) 28 = 0 :=
  ⟨(wordToByte_round_trip curve521.g.aX 66 curve521_ok.rep_gx.1 (by decide!)).1,
    (wordToByte_round_trip (toCoord (2 ^ 224 - 1) 4) 28 (coordWF_toCoord _ _) (by decide!)).1,
    (((wordToByte_round_trip (toCoord (2 ^ 224 - 1) 4) 28 (coordWF_toCoord _ _)
      (by decide!)).2.2 27 (by decide)).1).trans (by decide!),
    ((wordToByte_round_trip (toCoord (2 ^ 224 - 1) 4) 28 (coordWF_toCoord _ _)
      (by decide!)).2.2 28 (by decide)).2 (by decide)⟩

/-! ## Degenerate scalars, the point at infinity, reduced outputs -/

theorem scalarMultLoop_skip (k p : coord) (nw n : Nat) (hn : n ≤ 1) (i : Nat)
    (s : pointP × pointP) : scalarMultLoop k p nw n i s = s := by
  induction i with
  | zero => rfl
  | succ i ih =>
    have h : ¬ i + 1 < n := by omega
    simp only [scalarMultLoop, if_neg h]
    exact ih

theorem doubleU_snd_indep (P : pointP) (a b p : coord) (n : Nat) :
    (doubleU P a p n).2 = (doubleU P b p n).2 := by
  unfold doubleU
  simp only []

theorem coordMaxBit_le_one (k : coord) (n : Nat) (hk : ∀ i, limb k i < WORD)
    (hk1 : coordVal k n ≤ 1) : coordMaxBit k n ≤ 1 := by
  rw [coordMaxBit_size k n hk]
  exact Nat.size_le.mpr (by omega)

/-- For a scalar of value 0 or 1 the ladder makes no real step, and `scalarMult`
returns the base point when its y is not 0 and p is an odd prime; the
parameter a is not constrained. -/
theorem scalarMult_small (k : coord) (P : pointA) (a p : coord) (n : Nat) (x y : Nat)
    (hp : coordWF p n) (hprime : Nat.Prime (coordVal p n)) (hodd : 2 < coordVal p n)
    (hk : ∀ i, limb k i < WORD) (hk1 : coordVal k n ≤ 1)
    (hP : pointARep p n P (x, y)) (hy : y ≠ 0) : scalarMult k P a p n = P := by
  haveI : Fact (coordVal p n).Prime := ⟨hprime⟩
  have hX := coordZ_cast p n _ _ hP.1
  have hY := coordZ_cast p n _ _ hP.2
  have hYc : ((y : ℕ) : ZMod (coordVal p n)) ≠ 0 := cast_ne_zero_of_lt _ _ hP.2.2.2 hy
  unfold scalarMult
  simp only []
  rw [scalarMultLoop_skip k p n _ (coordMaxBit_le_one k n hk hk1),
    doubleU_snd_indep _ a P.aX p n]
  have d := (doubleU_Z ⟨P.aX, P.aY, coordInit n⟩ P.aX p n _ _ _ hp hX hX hY).2
  rw [doubleUR_spec] at d
  have hZ : (doubleUSpec (x : ZMod (coordVal p n)) (y : ZMod (coordVal p n))
      (x : ZMod (coordVal p n))).2.2.2 ≠ 0 :=
    mul_ne_zero (two_ne_zero_of_lt _ hodd) hYc
  have c := cProjToAffine_Z _ p n _ hp hprime.two_le d
  rw [cProjToAffineR_affProj _ hprime _ hZ, affProj_doubleU _ hprime hodd _ _ _ hYc] at c
  exact pointAZ_unique p n _ _ _ c ⟨hX, hY⟩

/-- C35 (degenerate scalars return the base point).  For an odd prime p on
nwords limbs, an affine P = (x, y) with x, y < p and y not 0, any a, and a
scalar of value 0 or 1: the bit length of the scalar is at most 1, the loop of
the ladder leaves R0, R1 as they are, and `scalarMult` returns P itself, for
k = 0 as for k = 1. -/
theorem scalarMult_degenerate (k : coord) (P : pointA) (a p : coord) (nwords : Nat)
    (x y : Nat) (hp : coordWF p nwords) (hprime : Nat.Prime (coordVal p nwords))
    (hodd : 2 < coordVal p nwords) (hk : ∀ i, limb k i < WORD)
    (hk1 : coordVal k nwords = 0 ∨ coordVal k nwords = 1)
    (hP : pointARep p nwords P (x, y)) (hy : y ≠ 0) :
    coordMaxBit k nwords ≤ 1 ∧
    (∀ i s, scalarMultLoop k p nwords (coordMaxBit k nwords) i s = s) ∧
    scalarMult k P a p nwords = P :=
  have h1 : coordVal k nwords ≤ 1 := by omega
  ⟨coordMaxBit_le_one k nwords hk h1,
    fun i s => scalarMultLoop_skip k p nwords _ (coordMaxBit_le_one k nwords hk h1) i s,
    scalarMult_small k P a p nwords x y hp hprime hodd hk h1 hP hy⟩

set_option maxRecDepth 100000 in
/-- Witness of C35 on P-521 with the base point: k = 0 and k = 1 both return the
base point. -/
theorem scalarMult_degenerate_witness :
    scalarMult (toCoord 0 9) curve521.g curve521.a curve521.p 9 = curve521.g ∧
    scalarMult (toCoord 1 9) curve521.g curve521.a curve521.p 9 = curve521.g :=
  ⟨(scalarMult_degenerate (toCoord 0 9) curve521.g curve521.a curve521.p 9
      (coordVal curve521.g.aX 9) (coordVal curve521.g.aY 9) curve521_ok.wf_p prime_521
      (by decide!) (coordWF_toCoord _ _).2 (Or.inl (by decide!))
      ⟨curve521_ok.rep_gx, curve521_ok.rep_gy⟩ (by decide!)).2.2,
    (scalarMult_degenerate (toCoord 1 9) curve521.g curve521.a curve521.p 9
      (coordVal curve521.g.aX 9) (coordVal curve521.g.aY 9) curve521_ok.wf_p prime_521
      (by decide!) (coordWF_toCoord _ _).2 (Or.inr (by decide!))
      ⟨curve521_ok.rep_gx, curve521_ok.rep_gy⟩ (by decide!)).2.2⟩

/-! ### The point at infinity -/

theorem coordZ_init (p : coord) (n : Nat) (h : 0 < coordVal p n) :
    coordZ p n (coordInit n) 0 :=
  ⟨coordInit_wf n, by rw [coordVal_coordInit]; exact h, by rw [coordVal_coordInit]; simp⟩

/-- A projective point with Z = 0 is converted to the pair (0, 0). -/
theorem cProjToAffine_zero (bP : pointP) (p : coord) (n : Nat) (X Y : Nat) (hp : coordWF p n)
    (h3 : 3 ≤ coordVal p n) (hP : pointPRep p n bP (X, Y, 0)) :
    cProjToAffine bP p n = ⟨coordInit n, coordInit n⟩ := by
  have c := cProjToAffine_Z bP p n _ hp (by omega) (pointPZ_cast p n bP _ hP)
  have e : cProjToAffineR (coordVal p n - 2) (castP (coordVal p n) (X, Y, 0)) = (0, 0) := by
    have z : ((0 : ℕ) : ZMod (coordVal p n)) ^ (coordVal p n - 2) = 0 := by
      rw [Nat.cast_zero]
      exact zero_pow (by omega)
    unfold cProjToAffineR castP
    simp only [z, zero_mul]
  rw [e] at c
  exact pointAZ_unique p n _ _ _ c
    ⟨coordZ_init p n (by omega), coordZ_init p n (by omega)⟩

theorem scalarMultProj_closed (k : coord) (P : pointA) (a p : coord) (n : Nat) (v : Nat × Nat)
    (va : Nat) (hp : coordWF p n) (ha : coordRep p n a va) (hP : pointARep p n P v) :
    ∃ w, pointPRep p n (scalarMultProj k P a p n) w := by
  unfold scalarMultProj
  simp only []
  obtain ⟨d1, d2⟩ := doubleU_rep ⟨P.aX, P.aY, coordInit n⟩ a p n v va hp ha hP.1 hP.2
  exact (scalarMultLoop_closed k p n (coordMaxBit k n) hp (coordMaxBit p n - 1)
    (_, _) ⟨_, d2⟩ ⟨_, d1⟩).1

theorem scalarMult_eq_proj (k : coord) (P : pointA) (a p : coord) (n : Nat) :
    scalarMult k P a p n = cProjToAffine (scalarMultProj k P a p n) p n := rfl

set_option maxRecDepth 100000 in
theorem zero_off_catalog (c : ellipticCurve)
    (hc : c = curve192 ∨ c = curve224 ∨ c = curve256 ∨ c = curve384 ∨ c = curve521) :
    3 ≤ coordVal c.p c.wsize ∧ coordVal c.b c.wsize ≠ 0 ∧
    aIsOnCurveN (0, 0) (coordVal c.a c.wsize) (coordVal c.b c.wsize) (primeOf c) = -1 := by
  rcases hc with h | h | h | h | h <;> subst h <;> refine ⟨?_, ?_, ?_⟩ <;> decide!

/-- C36 (the point at infinity surfaces as an off-curve point).  On each of the
five catalog curves, for every projective point (X, Y, Z) with X, Y < p and
Z = 0, `coordInvML` returns 0 on Z and `cProjToAffine` returns the pair (0, 0);
b is not 0 and `isOnTheCurve` returns -1 on that pair; hence `isOnTheCurve`
returns -1 on the result of a `scalarMult`, for any scalar and any point with
coordinates below p, whose final R0 has Z = 0. -/
theorem infinity_off_curve (c : ellipticCurve)
    (hc : c = curve192 ∨ c = curve224 ∨ c = curve256 ∨ c = curve384 ∨ c = curve521)
    (bP : pointP) (X Y : Nat) (hP : pointPRep c.p c.wsize bP (X, Y, 0)) :
    coordInvML bP.pZ c.p c.wsize = coordInit c.wsize ∧
    cProjToAffine bP c.p c.wsize = ⟨coordInit c.wsize, coordInit c.wsize⟩ ∧
    coordVal c.b c.wsize ≠ 0 ∧
    isOnTheCurve (cProjToAffine bP c.p c.wsize) c = -1 ∧
    ∀ (k : coord) (P : pointA) (v : Nat × Nat), pointARep c.p c.wsize P v →
      coordVal (scalarMultProj k P c.a c.p c.wsize).pZ c.wsize = 0 →
      scalarMult k P c.a c.p c.wsize = ⟨coordInit c.wsize, coordInit c.wsize⟩ ∧
      isOnTheCurve (scalarMult k P c.a c.p c.wsize) c = -1 := by
  have ok := catalog_ok c hc
  obtain ⟨h3, hb, hN⟩ := zero_off_catalog c hc
  have hz : isOnTheCurve ⟨coordInit c.wsize, coordInit c.wsize⟩ c = -1 := by
    rw [isOnTheCurve_rep _ c ok (0, 0)
      ⟨coordRep_init _ _ (by omega), coordRep_init _ _ (by omega)⟩]
    exact hN
  have e := cProjToAffine_zero bP c.p c.wsize X Y ok.wf_p h3 hP
  have ei : coordInvML bP.pZ c.p c.wsize = coordInit c.wsize := by
    have d := coordInvML_Z bP.pZ c.p c.wsize _ ok.wf_p (by omega) (coordZ_cast _ _ _ _ hP.2.2)
    rw [Nat.cast_zero, zero_pow (by omega)] at d
    exact coordZ_unique c.p c.wsize _ _ _ d (coordZ_init c.p c.wsize (by omega))
  refine ⟨ei, e, hb, by rw [e]; exact hz, fun k P v hPv h0 => ?_⟩
  obtain ⟨w, hw⟩ := scalarMultProj_closed k P c.a c.p c.wsize v _ ok.wf_p ok.rep_a hPv
  have hw0 : w.2.2 = 0 := by rw [← hw.2.2.2.1]; exact h0
  have hw' : pointPRep c.p c.wsize (scalarMultProj k P c.a c.p c.wsize) (w.1, w.2.1, 0) := by
    rw [← hw0]; exact hw
  have e2 := cProjToAffine_zero _ c.p c.wsize _ _ ok.wf_p h3 hw'
  rw [scalarMult_eq_proj, e2]
  exact ⟨rfl, hz⟩

set_option maxRecDepth 100000 in
/-- Witness of C36: on P-256 the projective point (Gx, Gy, 0) is converted to
(0, 0), which fails the curve check; on P-224 the ladder for k = n - 1 and the
base point ends with Z = 0, and the result fails the curve check. -/
theorem infinity_off_curve_witness :
    cProjToAffine ⟨curve256.g.aX, curve256.g.aY, coordInit curve256.wsize⟩ curve256.p
      curve256.wsize = ⟨coordInit curve256.wsize, coordInit curve256.wsize⟩ ∧
    isOnTheCurve (cProjToAffine ⟨curve256.g.aX, curve256.g.aY, coordInit curve256.wsize⟩
      curve256.p curve256.wsize) curve256 = -1 ∧
    coordVal (scalarMultProj (toCoord (order224 - 1) 4) curve224.g curve224.a curve224.p
      curve224.wsize).pZ curve224.wsize = 0 ∧
    isOnTheCurve (scalarMult (toCoord (order224 - 1) 4) curve224.g curve224.a curve224.p
      curve224.wsize) curve224 = -1 :=
  have h := infinity_off_curve curve256 (Or.inr (Or.inr (Or.inl rfl)))
    ⟨curve256.g.aX, curve256.g.aY, coordInit curve256.wsize⟩ _ _
    ⟨curve256_ok.rep_gx, curve256_ok.rep_gy, coordRep_init _ _ (by decide!)⟩
  have z : coordVal (scalarMultProj (toCoord (order224 - 1) 4) curve224.g curve224.a
      curve224.p curve224.wsize).pZ curve224.wsize = 0 :=
    (scalarMultProj_rep (toCoord (order224 - 1) 4) curve224.g curve224.a curve224.p 4
      (pointAVal curve224.g 4) (coordVal curve224.a 4)
      curve224_ok.wf_p (coordWF_toCoord _ _) curve224_ok.rep_a
      ⟨curve224_ok.rep_gx, curve224_ok.rep_gy⟩).2.2.2.1.trans (by decide!)
  ⟨h.2.1, h.2.2.2.1, z,
    ((infinity_off_curve curve224 (Or.inr (Or.inl rfl))
      ⟨curve224.g.aX, curve224.g.aY, coordInit curve224.wsize⟩ _ _
      ⟨curve224_ok.rep_gx, curve224_ok.rep_gy, coordRep_init _ _ (by decide!)⟩).2.2.2.2
      (toCoord (order224 - 1) 4) curve224.g (pointAVal curve224.g 4)
      ⟨curve224_ok.rep_gx, curve224_ok.rep_gy⟩ z).2⟩

/-! ## Serialised outputs pass the range check -/

set_option maxRecDepth 100000 in
theorem catalog_prime_lt (c : ellipticCurve)
    (hc : c = curve192 ∨ c = curve224 ∨ c = curve256 ∨ c = curve384 ∨ c = curve521) :
    primeOf c < 2 ^ (8 * byteLenOf c) := by
  rcases hc with h | h | h | h | h <;> subst h <;> decide!

theorem keyWF_writeBytes_zero (buf bs : keyC) (hb : keyWF buf) (hs : keyWF bs) :
    keyWF (writeBytes buf 0 bs) := by
  intro i
  rw [byteAt_writeBytes_zero]
  split
  · exact hs i
  · exact hb i

theorem bytesVal_stored (buf : keyC) (a : coord) (c : ellipticCurve)
    (hc : c = curve192 ∨ c = curve224 ∨ c = curve256 ∨ c = curve384 ∨ c = curve521)
    (v : Nat) (ha : coordRep c.p c.wsize a v) :
    bytesVal (writeBytes buf 0 (wordToByte a c.wsize)) (byteLenOf c) = v := by
  have ok := catalog_ok c hc
  have hL : byteLenOf c ≤ 8 * c.wsize := by have := ok.wsize_eq; omega
  have hlt := catalog_prime_lt c hc
  have hv : coordVal a c.wsize < 2 ^ (8 * byteLenOf c) := by
    rw [ha.2.1]
    exact Nat.lt_trans ha.2.2 hlt
  rw [bytesVal_congr _ (wordToByte a c.wsize) _ (fun i hi => by
      rw [byteAt_writeBytes_zero, if_pos (by rw [wordToByte_length]; omega)]),
    bytesVal_wordToByte a c.wsize _ ha.1 hL, Nat.mod_eq_of_lt hv, ha.2.1]

/-- The bytes that `wordToByte` stores for a point with reduced coordinates pass
the range check of `convBytesToPoint`. -/
theorem stored_point_in_range (c : ellipticCurve)
    (hc : c = curve192 ∨ c = curve224 ∨ c = curve256 ∨ c = curve384 ∨ c = curve521)
    (T : pointA) (w : Nat × Nat) (hT : pointARep c.p c.wsize T w) (bx bY : keyC)
    (hbx : keyWF bx) (hby : keyWF bY) :
    (convBytesToPoint (writeBytes bx 0 (wordToByte T.aX c.wsize))
      (writeBytes bY 0 (wordToByte T.aY c.wsize)) c).1 = 1 := by
  have ok := catalog_ok c hc
  rw [convBytesToPoint_fst _ _ c ok (keyWF_writeBytes_zero _ _ hbx (keyWF_wordToByte _ _))
    (keyWF_writeBytes_zero _ _ hby (keyWF_wordToByte _ _))]
  unfold keyPoint
  simp only []
  rw [bytesVal_stored bx T.aX c hc w.1 hT.1, bytesVal_stored bY T.aY c hc w.2 hT.2,
    if_pos ⟨hT.1.2.2, hT.2.2.2⟩]

/-- C38 (scalar multiplication always outputs reduced coordinates).  For a
modulus p >= 2 on nwords limbs, a < p, a point P with both coordinates below p
and every scalar k, both coordinates of the point returned by `scalarMult` are
held on nwords limbs and are below p; so, on the five catalog curves, the
buffers written by `publicKey` and by `calculateXY` pass the range check of
`convBytesToPoint`. -/
theorem scalarMult_output_in_range (k : coord) (P : pointA) (a p : coord) (nwords : Nat)
    (v : Nat × Nat) (va : Nat) (hp : coordWF p nwords) (h2 : 2 ≤ coordVal p nwords)
    (ha : coordRep p nwords a va) (hP : pointARep p nwords P v) :
    (coordWF (scalarMult k P a p nwords).aX nwords ∧
      coordVal (scalarMult k P a p nwords).aX nwords < coordVal p nwords ∧
      coordWF (scalarMult k P a p nwords).aY nwords ∧
      coordVal (scalarMult k P a p nwords).aY nwords < coordVal p nwords) ∧
    ∀ c : ellipticCurve,
      (c = curve192 ∨ c = curve224 ∨ c = curve256 ∨ c = curve384 ∨ c = curve521) →
      (∀ pkx pky sk : keyC, keyWF pkx → keyWF pky →
        (convBytesToPoint (publicKey pkx pky sk c).1 (publicKey pkx pky sk c).2 c).1 = 1) ∧
      (∀ (H : Keccak) (E : Entropy) (fuel : Nat) (h0 : coord) (Xx Xy esk sk : keyC)
        (out : keyC × keyC × keyC), keyWF Xx → keyWF Xy →
        calculateXY H E fuel h0 Xx Xy esk sk c = some out →
        (convBytesToPoint out.1 out.2.1 c).1 = 1) := by
  constructor
  · obtain ⟨w, hw⟩ := scalarMult_reduced k P a p nwords v va hp h2 ha hP
    exact ⟨hw.1.1, by rw [hw.1.2.1]; exact hw.1.2.2, hw.2.1, by rw [hw.2.2.1]; exact hw.2.2.2⟩
  · intro c hc
    have ok := catalog_ok c hc
    have hG : pointARep c.p c.wsize c.g (pointAVal c.g c.wsize) := ⟨ok.rep_gx, ok.rep_gy⟩
    constructor
    · intro pkx pky sk hx hy
      obtain ⟨w, hw⟩ := scalarMult_reduced (byteToWord sk ((c.bsize + 7) / 8)) c.g c.a c.p
        c.wsize _ _ ok.wf_p ok.two_le ok.rep_a hG
      unfold publicKey
      simp only []
      exact stored_point_in_range c hc _ w hw pkx pky hx hy
    · intro H E fuel h0 Xx Xy esk sk out hx hy hout
      unfold calculateXY at hout
      rcases hl : calculateXYLoop H E sk c fuel 0 h0 esk with _ | s
      · rw [hl] at hout
        exact absurd hout (by simp)
      · rw [hl] at hout
        simp only [Option.map_some', Option.some.injEq] at hout
        obtain ⟨w, hw⟩ := scalarMult_reduced s.1 c.g c.a c.p c.wsize _ _ ok.wf_p ok.two_le
          ok.rep_a hG
        rw [← hout]
        exact stored_point_in_range c hc _ w hw Xx Xy hx hy

set_option maxRecDepth 100000 in
/-- Witness of C38 on P-224 with the base point and the scalar p + 5, which is not
below p; and the public key of the secret 0. -/
theorem scalarMult_output_in_range_witness :
    coordVal (scalarMult (toCoord (coordVal curve224.p 4 + 5) 4) curve224.g curve224.a
      curve224.p 4).aX 4 < coordVal curve224.p 4 ∧
    coordVal (scalarMult (toCoord (coordVal curve224.p 4 + 5) 4) curve224.g curve224.a
      curve224.p 4).aY 4 < coordVal curve224.p 4 ∧
    (convBytesToPoint (publicKey zeroKey zeroKey (keyOfNat 0) curve224).1
      (publicKey zeroKey zeroKey (keyOfNat 0) curve224).2 curve224).1 = 1 :=
  have h := scalarMult_output_in_range (toCoord (coordVal curve224.p 4 + 5) 4) curve224.g
    curve224.a curve224.p 4 (pointAVal curve224.g 4) (coordVal curve224.a 4) curve224_ok.wf_p
    curve224_ok.two_le curve224_ok.rep_a ⟨curve224_ok.rep_gx, curve224_ok.rep_gy⟩
  ⟨h.1.2.1, h.1.2.2.2, (h.2 curve224 (Or.inr (Or.inl rfl))).1 zeroKey zeroKey (keyOfNat 0)
    keyWF_zeroKey keyWF_zeroKey⟩

/-! ## Negation symmetry of the ladder -/

theorem doubleUR_neg {R : Type} [CommRing R] (X Y A : R) :
    doubleUR X (-Y) A = (negZ (doubleUR X Y A).1, negZ (doubleUR X Y A).2) := by
  unfold doubleUR negZ
  simp only []
  refine Prod.ext (Prod.ext ?_ (Prod.ext ?_ ?_)) (Prod.ext ?_ (Prod.ext ?_ ?_)) <;>
    simp only [] <;> ring

theorem zAddCR_neg {R : Type} [CommRing R] (P Q : R × R × R) :
    zAddCR (negZ P) (negZ Q) = (negZ (zAddCR P Q).1, negZ (zAddCR P Q).2) := by
  unfold zAddCR negZ
  simp only []
  refine Prod.ext (Prod.ext ?_ (Prod.ext ?_ ?_)) (Prod.ext ?_ (Prod.ext ?_ ?_)) <;>
    simp only [] <;> ring

theorem zAddUR_neg {R : Type} [CommRing R] (P Q : R × R × R) :
    zAddUR (negZ P) (negZ Q) = (negZ (zAddUR P Q).1, negZ (zAddUR P Q).2) := by
  unfold zAddUR negZ
  simp only []
  refine Prod.ext (Prod.ext ?_ (Prod.ext ?_ ?_)) (Prod.ext ?_ (Prod.ext ?_ ?_)) <;>
    simp only [] <;> ring

theorem scalarMultStepR_neg {R : Type} [CommRing R] (b : Nat) (s : (R × R × R) × (R × R × R)) :
    scalarMultStepR b (negZ s.1, negZ s.2) =
      (negZ (scalarMultStepR b s).1, negZ (scalarMultStepR b s).2) := by
  unfold scalarMultStepR
  by_cases hb : b = 0
  · simp only [hb, if_true, zAddCR_neg, zAddUR_neg]
  · simp only [hb, if_false, zAddCR_neg, zAddUR_neg]

theorem scalarMultLoopR_neg {R : Type} [CommRing R] (bit : Nat → Nat) (n i : Nat) :
    ∀ s : (R × R × R) × (R × R × R),
      scalarMultLoopR bit n i (negZ s.1, negZ s.2) =
        (negZ (scalarMultLoopR bit n i s).1, negZ (scalarMultLoopR bit n i s).2) := by
  induction i with
  | zero => exact fun s => rfl
  | succ i ih =>
    intro s
    simp only [scalarMultLoopR]
    by_cases hn : i + 1 < n
    · simp only [hn, if_true, scalarMultStepR_neg]
      exact ih _
    · simp only [hn, if_false]
      exact ih _

theorem cProjToAffineR_neg {R : Type} [CommRing R] (e : Nat) (he : Odd e) (P : R × R × R) :
    cProjToAffineR e (negZ P) = ((cProjToAffineR e P).1, -(cProjToAffineR e P).2) := by
  unfold cProjToAffineR negZ
  simp only [Odd.neg_pow he]
  refine Prod.ext ?_ ?_ <;> simp only [] <;> ring

/-- The ring-level ladder maps (x, -y) to the negative of what it maps (x, y) to,
when the exponent of the inversion is odd. -/
theorem scalarMultR_neg {R : Type} [CommRing R] (bit : Nat → Nat) (order n e : Nat)
    (he : Odd e) (X Y A : R) :
    scalarMultR bit order n e X (-Y) A =
      ((scalarMultR bit order n e X Y A).1, -(scalarMultR bit order n e X Y A).2) := by
  unfold scalarMultR
  simp only []
  rw [doubleUR_neg, scalarMultLoopR_neg bit n (order - 1) ((doubleUR X Y A).2, (doubleUR X Y A).1),
    cProjToAffineR_neg e he]

theorem cast_neg_mod (p y : Nat) (hy : y ≤ p) :
    (((p - y) % p : ℕ) : ZMod p) = -((y : ℕ) : ZMod p) := by
  rw [ZMod.natCast_mod, Nat.cast_sub hy, ZMod.natCast_self, zero_sub]

theorem coordZ_neg (p : coord) (n : Nat) (x : coord) (y : Nat)
    (h : coordRep p n x ((coordVal p n - y) % coordVal p n)) (hy : y ≤ coordVal p n) :
    coordZ p n x (-((y : ℕ) : ZMod (coordVal p n))) := by
  have c := coordZ_cast p n x _ h
  rw [cast_neg_mod _ _ hy] at c
  exact c

theorem coordZ_val_neg (p : coord) (n : Nat) (x : coord) (r : ZMod (coordVal p n)) (w : Nat)
    (hw : zrep (coordVal p n) w r) (h : coordZ p n x (-r)) :
    coordRep p n x ((coordVal p n - w) % coordVal p n) := by
  have hp : 0 < coordVal p n := Nat.lt_of_le_of_lt (Nat.zero_le _) hw.1
  refine ⟨h.1, ?_, Nat.mod_lt _ hp⟩
  apply zrep_unique (coordVal p n) _ _ (-r) ⟨h.2.1, h.2.2⟩
  refine ⟨Nat.mod_lt _ hp, ?_⟩
  rw [cast_neg_mod _ _ (Nat.le_of_lt hw.1), hw.2]

/-- Function `scalarMult` maps (x, (p - y) mod p) to (x', (p - y') mod p) when it
maps (x, y) to (x', y'), for every scalar and every odd modulus. -/
theorem scalarMult_neg (k : coord) (P Q : pointA) (a p : coord) (n : Nat) (x y av : Nat)
    (hp : coordWF p n) (h2 : 2 ≤ coordVal p n) (hodd : coordVal p n % 2 = 1)
    (ha : coordRep p n a av) (hP : pointARep p n P (x, y))
    (hQ : pointARep p n Q (x, (coordVal p n - y) % coordVal p n)) :
    pointARep p n (scalarMult k Q a p n)
      (coordVal (scalarMult k P a p n).aX n,
        (coordVal p n - coordVal (scalarMult k P a p n).aY n) % coordVal p n) := by
  have he : Odd (coordVal p n - 2) := by
    rw [Nat.odd_iff]; omega
  have zP := scalarMult_Z k P a p n _ _ _ hp h2 (coordZ_cast p n _ _ ha)
    ⟨coordZ_cast p n _ _ hP.1, coordZ_cast p n _ _ hP.2⟩
  have zQ := scalarMult_Z k Q a p n _ _ _ hp h2 (coordZ_cast p n _ _ ha)
    ⟨coordZ_cast p n _ _ hQ.1, coordZ_neg p n _ y hQ.2 (Nat.le_of_lt hP.2.2.2)⟩
  rw [scalarMultR_neg _ _ _ _ he] at zQ
  refine ⟨?_, coordZ_val_neg p n _ _ _ ⟨zP.2.2.1, zP.2.2.2⟩ zQ.2⟩
  have e := coordZ_unique p n _ _ _ zQ.1 zP.1
  rw [e]
  exact ⟨zP.1.1, rfl, zP.1.2.1⟩

theorem curveEq_neg (x y a b p : Nat) (hy : y ≤ p) :
    curveEq x ((p - y) % p) a b p ↔ curveEq x y a b p := by
  have e1 : (((p - y) % p : ℕ) : ℤ) ≡ -(y : ℤ) [ZMOD (p : ℤ)] := by
    rw [Int.natCast_mod, Nat.cast_sub hy]
    refine (Int.mod_modEq _ _).trans ?_
    apply Int.modEq_iff_dvd.mpr
    exact ⟨-1, by ring⟩
  have e : (((p - y) % p : ℕ) : ℤ) ^ 2 ≡ (y : ℤ) ^ 2 [ZMOD (p : ℤ)] := by
    have := e1.pow 2
    rwa [neg_sq] at this
  unfold curveEq
  exact ⟨fun h => e.symm.trans h, fun h => e.trans h⟩

set_option maxRecDepth 100000 in
theorem catalog_odd (c : ellipticCurve)
    (hc : c = curve192 ∨ c = curve224 ∨ c = curve256 ∨ c = curve384 ∨ c = curve521) :
    coordVal c.p c.wsize % 2 = 1 := by
  rcases hc with h | h | h | h | h <;> subst h <;> decide!

/-- The product of a scalar with the negative of a point has the x of the product
with the point, and is on the curve when that product is. -/
theorem product_neg (k : coord) (c : ellipticCurve)
    (hc : c = curve192 ∨ c = curve224 ∨ c = curve256 ∨ c = curve384 ∨ c = curve521)
    (P Q : pointA) (x y : Nat) (hP : pointARep c.p c.wsize P (x, y))
    (hQ : pointARep c.p c.wsize Q (x, (primeOf c - y) % primeOf c)) :
    coordVal (scalarMult k Q c.a c.p c.wsize).aX c.wsize =
      coordVal (scalarMult k P c.a c.p c.wsize).aX c.wsize ∧
    (onCurve (pointAVal (scalarMult k Q c.a c.p c.wsize) c.wsize) c ↔
      onCurve (pointAVal (scalarMult k P c.a c.p c.wsize) c.wsize) c) := by
  have ok := catalog_ok c hc
  have n := scalarMult_neg k P Q c.a c.p c.wsize x y _ ok.wf_p ok.two_le (catalog_odd c hc)
    ok.rep_a hP hQ
  obtain ⟨w, hw⟩ := scalarMult_reduced k P c.a c.p c.wsize _ _ ok.wf_p ok.two_le ok.rep_a hP
  have hy : coordVal (scalarMult k P c.a c.p c.wsize).aY c.wsize ≤ primeOf c := by
    rw [hw.2.2.1]; exact Nat.le_of_lt hw.2.2.2
  refine ⟨n.1.2.1, ?_⟩
  unfold onCurve pointAVal
  simp only []
  rw [n.1.2.1, n.2.2.1]
  exact curveEq_neg _ _ _ _ _ hy

theorem validPeer_neg (Yx Yy Zx Zy : keyC) (c : ellipticCurve) (hY : validPeer Yx Yy c)
    (hZ : keyPoint Zx Zy c =
      ((keyPoint Yx Yy c).1, (primeOf c - (keyPoint Yx Yy c).2) % primeOf c)) :
    validPeer Zx Zy c := by
  unfold validPeer
  rw [hZ]
  refine ⟨hY.1, Nat.mod_lt _ (Nat.lt_of_le_of_lt (Nat.zero_le _) hY.1), ?_⟩
  unfold onCurve
  exact (curveEq_neg _ _ _ _ _ (Nat.le_of_lt hY.2.1)).mpr hY.2.2

/-- The initiator's derivation is unchanged when the peer's ephemeral point is
replaced by its negative. -/
theorem calculateKa_neg (H : Keccak) (hA0 : coord)
    (kA Yx Yy Zx Zy eskA skAb pkBx pkBy idA idB : keyC) (c : ellipticCurve)
    (hc : c = curve192 ∨ c = curve224 ∨ c = curve256 ∨ c = curve384 ∨ c = curve521)
    (hsX : keyWF pkBx) (hsY : keyWF pkBy) (heX : keyWF Yx) (heY : keyWF Yy)
    (hzX : keyWF Zx) (hzY : keyWF Zy)
    (hB : validPeer pkBx pkBy c) (hY : validPeer Yx Yy c)
    (hZ : keyPoint Zx Zy c =
      ((keyPoint Yx Yy c).1, (primeOf c - (keyPoint Yx Yy c).2) % primeOf c)) :
    calculateKa H hA0 kA Zx Zy eskA skAb pkBx pkBy idA idB c =
      calculateKa H hA0 kA Yx Yy eskA skAb pkBx pkBy idA idB c := by
  have ok := catalog_ok c hc
  have vZ := validPeer_neg Yx Yy Zx Zy c hY hZ
  have y3 := (validPeer_rep Yx Yy c ok heX heY hY).2.2
  have z3 := (validPeer_rep Zx Zy c ok hzX hzY vZ).2.2
  rw [hZ] at z3
  have p1 := product_neg (byteToWord skAb ((c.bsize + 7) / 8)) c hc _ _ _ _ y3 z3
  have p3 := product_neg (hashAndMod H hA0 eskA skAb c).2 c hc _ _ _ _ y3 z3
  have hk : keyMsg (productsKa H hA0 Zx Zy eskA skAb pkBx pkBy c) idA idB c =
      keyMsg (productsKa H hA0 Yx Yy eskA skAb pkBx pkBy c) idA idB c := by
    unfold keyMsg productsKa
    simp only []
    rw [p1.1, p3.1]
  have hoc : productsOnCurve (productsKa H hA0 Zx Zy eskA skAb pkBx pkBy c) c ↔
      productsOnCurve (productsKa H hA0 Yx Yy eskA skAb pkBx pkBy c) c := by
    unfold productsOnCurve productsKa
    simp only []
    rw [p1.2, p3.2]
  have A := calculateKa_valid H hA0 kA Yx Yy eskA skAb pkBx pkBy idA idB c ok hsX hsY heX heY
    hB hY
  have B := calculateKa_valid H hA0 kA Zx Zy eskA skAb pkBx pkBy idA idB c ok hsX hsY hzX hzY
    hB vZ
  by_cases hT : productsOnCurve (productsKa H hA0 Yx Yy eskA skAb pkBx pkBy c) c
  · rcases hs : sessionHash H (keyMsg (productsKa H hA0 Yx Yy eskA skAb pkBx pkBy c) idA idB c)
        c with _ | ⟨res, digest⟩
    · rw [A.2.2 hT hs, B.2.2 (hoc.mpr hT) (by rw [hk]; exact hs)]
    · rw [A.2.1 hT res digest hs, B.2.1 (hoc.mpr hT) res digest (by rw [hk]; exact hs)]
  · rw [A.1 hT, B.1 (fun h => hT (hoc.mp h))]

/-- The responder's derivation is unchanged when the peer's ephemeral point is
replaced by its negative. -/
theorem calculateKb_neg (H : Keccak) (hB0 : coord)
    (kB pkAx pkAy eskB skBb Xx Xy Zx Zy idA idB : keyC) (c : ellipticCurve)
    (hc : c = curve192 ∨ c = curve224 ∨ c = curve256 ∨ c = curve384 ∨ c = curve521)
    (hsX : keyWF pkAx) (hsY : keyWF pkAy) (heX : keyWF Xx) (heY : keyWF Xy)
    (hzX : keyWF Zx) (hzY : keyWF Zy)
    (hA : validPeer pkAx pkAy c) (hX : validPeer Xx Xy c)
    (hZ : keyPoint Zx Zy c =
      ((keyPoint Xx Xy c).1, (primeOf c - (keyPoint Xx Xy c).2) % primeOf c)) :
    calculateKb H hB0 kB pkAx pkAy eskB skBb Zx Zy idA idB c =
      calculateKb H hB0 kB pkAx pkAy eskB skBb Xx Xy idA idB c := by
  have ok := catalog_ok c hc
  have vZ := validPeer_neg Xx Xy Zx Zy c hX hZ
  have y3 := (validPeer_rep Xx Xy c ok heX heY hX).2.2
  have z3 := (validPeer_rep Zx Zy c ok hzX hzY vZ).2.2
  rw [hZ] at z3
  have p2 := product_neg (byteToWord skBb ((c.bsize + 7) / 8)) c hc _ _ _ _ y3 z3
  have p3 := product_neg (hashAndMod H hB0 eskB skBb c).2 c hc _ _ _ _ y3 z3
  have hk : keyMsg (productsKb H hB0 pkAx pkAy eskB skBb Zx Zy c) idA idB c =
      keyMsg (productsKb H hB0 pkAx pkAy eskB skBb Xx Xy c) idA idB c := by
    unfold keyMsg productsKb
    simp only []
    rw [p2.1, p3.1]
  have hoc : productsOnCurve (productsKb H hB0 pkAx pkAy eskB skBb Zx Zy c) c ↔
      productsOnCurve (productsKb H hB0 pkAx pkAy eskB skBb Xx Xy c) c := by
    unfold productsOnCurve productsKb
    simp only []
    rw [p2.2, p3.2]
  have A := calculateKb_valid H hB0 kB pkAx pkAy eskB skBb Xx Xy idA idB c ok hsX hsY heX heY
    hA hX
  have B := calculateKb_valid H hB0 kB pkAx pkAy eskB skBb Zx Zy idA idB c ok hsX hsY hzX hzY
    hA vZ
  by_cases hT : productsOnCurve (productsKb H hB0 pkAx pkAy eskB skBb Xx Xy c) c
  · rcases hs : sessionHash H (keyMsg (productsKb H hB0 pkAx pkAy eskB skBb Xx Xy c) idA idB c)
        c with _ | ⟨res, digest⟩
    · rw [A.2.2 hT hs, B.2.2 (hoc.mpr hT) (by rw [hk]; exact hs)]
    · rw [A.2.1 hT res digest hs, B.2.1 (hoc.mpr hT) res digest (by rw [hk]; exact hs)]
  · rw [A.1 hT, B.1 (fun h => hT (hoc.mp h))]

/-! ## The claims on the negation symmetry and on a zero hash exponent -/

/-- C39 (negation symmetry of the ladder).  For an odd modulus p >= 3 on nwords
limbs (every odd prime is one), a < p, every scalar k and every P = (x, y) with
x, y < p: if scalarMult(k, (x, y)) = (x', y') then
scalarMult(k, (x, (p - y) mod p)) = (x', (p - y') mod p).  So, on the five
catalog curves and for valid peer points, calculateKa and calculateKb return
the same code and the same key when the peer's ephemeral point is replaced by
its negative. -/
theorem scalarMult_negation (k : coord) (P Q : pointA) (a p : coord) (nwords : Nat)
    (x y av : Nat) (hp : coordWF p nwords) (h2 : 2 ≤ coordVal p nwords)
    (hodd : coordVal p nwords % 2 = 1) (ha : coordRep p nwords a av)
    (hP : pointARep p nwords P (x, y))
    (hQ : pointARep p nwords Q (x, (coordVal p nwords - y) % coordVal p nwords)) :
    (scalarMult k Q a p nwords).aX = (scalarMult k P a p nwords).aX ∧
    coordWF (scalarMult k Q a p nwords).aY nwords ∧
    coordVal (scalarMult k Q a p nwords).aY nwords =
      (coordVal p nwords - coordVal (scalarMult k P a p nwords).aY nwords) %
        coordVal p nwords ∧
    (∀ (c : ellipticCurve) (H : Keccak) (hA0 : coord)
      (kA Yx Yy Zx Zy eskA skAb pkBx pkBy idA idB : keyC),
      (c = curve192 ∨ c = curve224 ∨ c = curve256 ∨ c = curve384 ∨ c = curve521) →
      keyWF pkBx → keyWF pkBy → keyWF Yx → keyWF Yy → keyWF Zx → keyWF Zy →
      validPeer pkBx pkBy c → validPeer Yx Yy c →
      keyPoint Zx Zy c =
        ((keyPoint Yx Yy c).1, (primeOf c - (keyPoint Yx Yy c).2) % primeOf c) →
      calculateKa H hA0 kA Zx Zy eskA skAb pkBx pkBy idA idB c =
        calculateKa H hA0 kA Yx Yy eskA skAb pkBx pkBy idA idB c) ∧
    (∀ (c : ellipticCurve) (H : Keccak) (hB0 : coord)
      (kB pkAx pkAy eskB skBb Xx Xy Zx Zy idA idB : keyC),
      (c = curve192 ∨ c = curve224 ∨ c = curve256 ∨ c = curve384 ∨ c = curve521) →
      keyWF pkAx → keyWF pkAy → keyWF Xx → keyWF Xy → keyWF Zx → keyWF Zy →
      validPeer pkAx pkAy c → validPeer Xx Xy c →
      keyPoint Zx Zy c =
        ((keyPoint Xx Xy c).1, (primeOf c - (keyPoint Xx Xy c).2) % primeOf c) →
      calculateKb H hB0 kB pkAx pkAy eskB skBb Zx Zy idA idB c =
        calculateKb H hB0 kB pkAx pkAy eskB skBb Xx Xy idA idB c) := by
  have n := scalarMult_neg k P Q a p nwords x y av hp h2 hodd ha hP hQ
  obtain ⟨w, hw⟩ := scalarMult_reduced k P a p nwords _ _ hp h2 ha hP
  refine ⟨coordVal_inj _ _ nwords n.1.1 hw.1.1 n.1.2.1, n.2.1, n.2.2.1, ?_, ?_⟩
  · intro c H hA0 kA Yx Yy Zx Zy eskA skAb pkBx pkBy idA idB hc h1 h2 h3 h4 h5 h6 hB hY hZ
    exact calculateKa_neg H hA0 kA Yx Yy Zx Zy eskA skAb pkBx pkBy idA idB c hc h1 h2 h3 h4
      h5 h6 hB hY hZ
  · intro c H hB0 kB pkAx pkAy eskB skBb Xx Xy Zx Zy idA idB hc h1 h2 h3 h4 h5 h6 hA hX hZ
    exact calculateKb_neg H hB0 kB pkAx pkAy eskB skBb Xx Xy Zx Zy idA idB c hc h1 h2 h3 h4
      h5 h6 hA hX hZ

set_option maxRecDepth 100000 in
/-- Witness of C39 on P-256 with the base point, its negative and k = 5. -/
theorem scalarMult_negation_witness :
    (scalarMult (toCoord 5 4)
        (toPointA (coordVal curve256.g.aX 4,
          (coordVal curve256.p 4 - coordVal curve256.g.aY 4) % coordVal curve256.p 4) 4)
        curve256.a curve256.p 4).aX =
      (scalarMult (toCoord 5 4) curve256.g curve256.a curve256.p 4).aX ∧
    coordVal (scalarMult (toCoord 5 4)
        (toPointA (coordVal curve256.g.aX 4,
          (coordVal curve256.p 4 - coordVal curve256.g.aY 4) % coordVal curve256.p 4) 4)
        curve256.a curve256.p 4).aY 4 =
      (coordVal curve256.p 4 -
        coordVal (scalarMult (toCoord 5 4) curve256.g curve256.a curve256.p 4).aY 4) %
        coordVal curve256.p 4 :=
  have h := scalarMult_negation (toCoord 5 4) curve256.g
    (toPointA (coordVal curve256.g.aX 4,
      (coordVal curve256.p 4 - coordVal curve256.g.aY 4) % coordVal curve256.p 4) 4)
    curve256.a curve256.p 4 (coordVal curve256.g.aX 4) (coordVal curve256.g.aY 4)
    (coordVal curve256.a 4) curve256_ok.wf_p curve256_ok.two_le (by decide!)
    curve256_ok.rep_a ⟨curve256_ok.rep_gx, curve256_ok.rep_gy⟩
    ⟨⟨coordWF_toCoord _ _, by decide!, by decide!⟩, ⟨coordWF_toCoord _ _, by decide!, by decide!⟩⟩
  ⟨h.1, h.2.2.1⟩

/-! ### A zero hash exponent -/

theorem pointAVal_of_rep (p : coord) (n : Nat) (P : pointA) (v : Nat × Nat)
    (h : pointARep p n P v) : pointAVal P n = v := by
  unfold pointAVal
  exact Prod.ext h.1.2.1 h.2.2.1

/-- With a hash exponent of value 0 the products T2 and T3 of `calculateKa` are
the peer points themselves. -/
theorem productsKa_zero (H : Keccak) (hA0 : coord) (Yx Yy eskA skAb pkBx pkBy : keyC)
    (c : ellipticCurve)
    (hc : c = curve192 ∨ c = curve224 ∨ c = curve256 ∨ c = curve384 ∨ c = curve521)
    (hsX : keyWF pkBx) (hsY : keyWF pkBy) (heX : keyWF Yx) (heY : keyWF Yy)
    (hB : validPeer pkBx pkBy c) (hY : validPeer Yx Yy c)
    (hBy : (keyPoint pkBx pkBy c).2 ≠ 0) (hYy : (keyPoint Yx Yy c).2 ≠ 0)
    (hh : ∀ i, limb (hashAndMod H hA0 eskA skAb c).2 i < WORD)
    (hz : coordVal (hashAndMod H hA0 eskA skAb c).2 c.wsize = 0) :
    productsKa H hA0 Yx Yy eskA skAb pkBx pkBy c =
      (scalarMult (byteToWord skAb ((c.bsize + 7) / 8)) (convBytesToPoint Yx Yy c).2 c.a c.p
        c.wsize, (convBytesToPoint pkBx pkBy c).2, (convBytesToPoint Yx Yy c).2) := by
  have ok := catalog_ok c hc
  have hprime := catalog_prime c hc
  have h3 := (zero_off_catalog c hc).1
  have b3 := (validPeer_rep pkBx pkBy c ok hsX hsY hB).2.2
  have y3 := (validPeer_rep Yx Yy c ok heX heY hY).2.2
  have e2 := scalarMult_small (hashAndMod H hA0 eskA skAb c).2 (convBytesToPoint pkBx pkBy c).2
    c.a c.p c.wsize _ _ ok.wf_p hprime (by omega) hh (by omega) b3 hBy
  have e3 := scalarMult_small (hashAndMod H hA0 eskA skAb c).2 (convBytesToPoint Yx Yy c).2
    c.a c.p c.wsize _ _ ok.wf_p hprime (by omega) hh (by omega) y3 hYy
  unfold productsKa
  simp only []
  rw [e2, e3]

/-- C37 (a zero hash exponent is not rejected by key derivation).  On a catalog
curve of size 224, 256, 384 or 521 (the p of each is prime, see catalog_prime),
with validated peer points pkB and Y of nonzero y, if hashAndMod leaves h = 0
then the products of calculateKa are T1 = skA * Y, T2 = pkB and T3 = Y; when T1
is on the curve the three products pass the checks, and when moreover the hash
reports status 0, calculateKa returns 1 with
kA = H(x(T1) ‖ x(pkB) ‖ x(Y) ‖ idA ‖ idB). -/
theorem calculateKa_zero_exponent (H : Keccak) (hA0 : coord)
    (kA Yx Yy eskA skAb pkBx pkBy idA idB : keyC) (c : ellipticCurve)
    (hc : c = curve224 ∨ c = curve256 ∨ c = curve384 ∨ c = curve521)
    (hsX : keyWF pkBx) (hsY : keyWF pkBy) (heX : keyWF Yx) (heY : keyWF Yy)
    (hB : validPeer pkBx pkBy c) (hY : validPeer Yx Yy c)
    (hBy : (keyPoint pkBx pkBy c).2 ≠ 0) (hYy : (keyPoint Yx Yy c).2 ≠ 0)
    (hh : ∀ i, limb (hashAndMod H hA0 eskA skAb c).2 i < WORD)
    (hz : coordVal (hashAndMod H hA0 eskA skAb c).2 c.wsize = 0) :
    productsKa H hA0 Yx Yy eskA skAb pkBx pkBy c =
      (scalarMult (byteToWord skAb ((c.bsize + 7) / 8)) (convBytesToPoint Yx Yy c).2 c.a c.p
        c.wsize, (convBytesToPoint pkBx pkBy c).2, (convBytesToPoint Yx Yy c).2) ∧
    keyMsg (productsKa H hA0 Yx Yy eskA skAb pkBx pkBy c) idA idB c =
      leBytes (coordVal (scalarMult (byteToWord skAb ((c.bsize + 7) / 8))
        (convBytesToPoint Yx Yy c).2 c.a c.p c.wsize).aX c.wsize) (byteLenOf c) ++
      leBytes (keyPoint pkBx pkBy c).1 (byteLenOf c) ++
      leBytes (keyPoint Yx Yy c).1 (byteLenOf c) ++
      readBytes idA (byteLenOf c) ++ readBytes idB (byteLenOf c) ∧
    (onCurve (pointAVal (scalarMult (byteToWord skAb ((c.bsize + 7) / 8))
        (convBytesToPoint Yx Yy c).2 c.a c.p c.wsize) c.wsize) c →
      productsOnCurve (productsKa H hA0 Yx Yy eskA skAb pkBx pkBy c) c ∧
      (calculateKa H hA0 kA Yx Yy eskA skAb pkBx pkBy idA idB c).1 ≠ -5 ∧
      ((sessionKeccak H c.bsize
          (keyMsg (productsKa H hA0 Yx Yy eskA skAb pkBx pkBy c) idA idB c)).1 = 0 →
        calculateKa H hA0 kA Yx Yy eskA skAb pkBx pkBy idA idB c =
          (1, writeBytes kA 0 (sessionKeccak H c.bsize
            (keyMsg (productsKa H hA0 Yx Yy eskA skAb pkBx pkBy c) idA idB c)).2))) := by
  have ok := catalog_ok c (Or.inr hc)
  have hb := catalog_bsize c hc
  have b3 := (validPeer_rep pkBx pkBy c ok hsX hsY hB).2.2
  have y3 := (validPeer_rep Yx Yy c ok heX heY hY).2.2
  have e := productsKa_zero H hA0 Yx Yy eskA skAb pkBx pkBy c (Or.inr hc) hsX hsY heX heY
    hB hY hBy hYy hh hz
  refine ⟨e, ?_, fun h1 => ?_⟩
  · rw [e]
    unfold keyMsg
    simp only []
    rw [b3.1.2.1, y3.1.2.1]
  · have hT : productsOnCurve (productsKa H hA0 Yx Yy eskA skAb pkBx pkBy c) c := by
      rw [e]
      unfold productsOnCurve
      simp only []
      rw [pointAVal_of_rep _ _ _ _ b3, pointAVal_of_rep _ _ _ _ y3]
      exact ⟨h1, hB.2.2, hY.2.2⟩
    have main := (calculateKa_valid H hA0 kA Yx Yy eskA skAb pkBx pkBy idA idB c ok
      hsX hsY heX heY hB hY).2.1 hT
      (sessionKeccak H c.bsize
        (keyMsg (productsKa H hA0 Yx Yy eskA skAb pkBx pkBy c) idA idB c)).1
      (sessionKeccak H c.bsize
        (keyMsg (productsKa H hA0 Yx Yy eskA skAb pkBx pkBy c) idA idB c)).2
      (sessionHash_eq H _ c hb)
    refine ⟨hT, ?_, fun hs => ?_⟩
    · rw [main]
      split
      · exact (by decide : (-1 : Int) ≠ -5)
      · exact (by decide : (1 : Int) ≠ -5)
    · rw [main, if_neg (not_not.mpr hs)]

set_option maxRecDepth 100000 in
theorem convBytesToPoint_baseKey256 :
    (convBytesToPoint (baseKey curve256).1 (baseKey curve256).2 curve256).2 = curve256.g := by
  decide!

set_option maxRecDepth 100000 in
theorem hashAndMod_256_zero (h : coord) (esk sk : keyC) :
    hashAndMod (constKeccak 0 0) h esk sk curve256 = (1, toCoord 0 4) := by
  unfold hashAndMod
  have e : curve256.bsize = 256 := rfl
  simp only [e, constKeccak, ne_eq, not_true_eq_false, if_false, if_true, Nat.reduceEqDiff]
  decide!

set_option maxRecDepth 100000 in
theorem byteToWord_keyOfNat_256 :
    byteToWord (keyOfNat 1) ((curve256.bsize + 7) / 8) = toCoord 1 4 := by
  decide!

set_option maxRecDepth 100000 in
/-- On P-256 the product of the scalar 1 and the base point read from its bytes is
on the curve. -/
theorem onCurve_one_256 :
    onCurve (pointAVal (scalarMult (byteToWord (keyOfNat 1) ((curve256.bsize + 7) / 8))
      (convBytesToPoint (baseKey curve256).1 (baseKey curve256).2 curve256).2 curve256.a
      curve256.p curve256.wsize) curve256.wsize) curve256 := by
  rw [convBytesToPoint_baseKey256, byteToWord_keyOfNat_256,
    scalarMult_small (toCoord 1 4) curve256.g curve256.a curve256.p curve256.wsize
      (coordVal curve256.g.aX 4) (coordVal curve256.g.aY 4) curve256_ok.wf_p prime_256
      (by decide!) (coordWF_toCoord _ _).2 (by decide!)
      ⟨curve256_ok.rep_gx, curve256_ok.rep_gy⟩ (by decide!)]
  exact (onCurve_iff_N _ _ curve256_ok).mpr (by decide!)

set_option maxRecDepth 100000 in
/-- Witness of C37 on P-256: the base point as both peer points, skA = 1 and a
hash with status 0 and digest 0, so that h = 0 and T1 = T2 = T3 = G;
calculateKa returns 1. -/
theorem calculateKa_zero_exponent_witness :
    coordVal (hashAndMod (constKeccak 0 0) (coordInit 4) zeroKey (keyOfNat 1) curve256).2
      curve256.wsize = 0 ∧
    calculateKa (constKeccak 0 0) (coordInit 4) zeroKey (baseKey curve256).1
      (baseKey curve256).2 zeroKey (keyOfNat 1) (baseKey curve256).1 (baseKey curve256).2
      (keyOfNat 10) (keyOfNat 11) curve256 = (1, writeBytes zeroKey 0 (leBytes 0 32)) :=
  have hz : coordVal (hashAndMod (constKeccak 0 0) (coordInit 4) zeroKey (keyOfNat 1)
      curve256).2 curve256.wsize = 0 := by
    rw [hashAndMod_256_zero]; decide!
  ⟨hz, ((calculateKa_zero_exponent (constKeccak 0 0) (coordInit 4) zeroKey (baseKey curve256).1
    (baseKey curve256).2 zeroKey (keyOfNat 1) (baseKey curve256).1 (baseKey curve256).2
    (keyOfNat 10) (keyOfNat 11) curve256 (Or.inr (Or.inl rfl))
    keyWF_baseKey256.1 keyWF_baseKey256.2 keyWF_baseKey256.1 keyWF_baseKey256.2
    validPeer_baseKey256 validPeer_baseKey256 (by decide!) (by decide!)
    (by rw [hashAndMod_256_zero]; exact (coordWF_toCoord _ _).2) hz).2.2
    onCurve_one_256).2.2 rfl⟩

end Naxos
